import Mathlib

/-!
# LLVMAdditions: ADCE and LICM over a shallow embedding of the IR

The IR vocabulary (values, instructions, basic blocks, functions) is the one the
passes in `TransformationPassADCE/ADCE.cpp` and `TransformationPassLICM/LICM.cpp`
consume.  Instruction pointers are modelled by the instruction's `id`, basic-block
pointers by the block's index in the function's block list.
-/

namespace LLVMAdditions

/-- Modelled from the spec: the host IR's `Value` ("anything usable as an operand"):
a constant, a function argument, or the result of the instruction with the given
id. -/
inductive Value where
  | const (c : Int)
  | arg (n : Nat)
  | inst (id : Nat)
deriving DecidableEq, Repr

/-- Modelled from the spec: the kind tag of an instruction of the host IR. -/
inductive Kind where
  | binaryOp | shift | select | cast | getElementPtr | load | store | cmp | call
  | alloca | terminator | other
deriving DecidableEq, Repr

/-- Modelled from the spec: the host IR's `Instruction`: its identity (the pointer
the passes keep in their sets), kind tag, ordered operands, the static flags the
passes query, and for a terminator the successor blocks it names. -/
structure Instruction where
  id : Nat
  kind : Kind
  operands : List Value
  sideEffects : Bool
  writesMemory : Bool
  volatile : Bool
  succs : List Nat
deriving DecidableEq, Repr

/-- Modelled from the spec: the host IR's `BasicBlock`, which owns its ordered
instruction sequence. -/
structure BasicBlock where
  insts : List Instruction
deriving DecidableEq, Repr

/-- Modelled from the spec: the host IR's `Function`, its list of blocks; the first
one is the entry block. -/
abbrev Function := List BasicBlock

namespace Instruction

/-- The query `I->mayHaveSideEffects()`. -/
def mayHaveSideEffects (I : Instruction) : Bool := I.sideEffects

/-- The query `I->isTerminator()`. -/
def isTerminator (I : Instruction) : Bool := I.kind = Kind.terminator

/-- The query `I->mayWriteToMemory()`. -/
def mayWriteToMemory (I : Instruction) : Bool := I.writesMemory

end Instruction

/-- The instructions of block `b` of `F` (none when `b` is not a block of `F`). -/
def blockInsts (F : Function) (b : Nat) : List Instruction :=
  match F[b]? with
  | some B => B.insts
  | none => []

/-- Modelled from the spec: the host IR's `BB->getTerminator()`, the last
instruction of the block when it is a terminator. -/
def getTerminator (insts : List Instruction) : Option Instruction :=
  match insts.getLast? with
  | some t => if t.isTerminator then some t else none
  | none => none

/-- Modelled from the spec: the CFG successors of block `b` as the host IR gives
them, the blocks named by its terminator. -/
def successors (F : Function) (b : Nat) : List Nat :=
  match getTerminator (blockInsts F b) with
  | some t => t.succs
  | none => []

/-- Modelled from the spec: the depth-first traversal `df_ext_iterator` of the
host IR library ("compute the set of CFG-reachable blocks from the entry block
via forward traversal").  `st` is the stack of blocks still to look at, `vis`
the blocks visited so far, most recent first.  An index that names no block of
the function is skipped. -/
def dfs (F : Function) : Nat → List Nat → List Nat → List Nat
  | 0, _, vis => vis
  | _ + 1, [], vis => vis
  | fuel + 1, n :: st, vis =>
    if n ∈ vis ∨ F.length ≤ n then dfs F fuel st vis
    else dfs F fuel (successors F n ++ st) (n :: vis)

/-- Number of steps that the traversal of `F` can take at most. -/
def dfsFuel (F : Function) : Nat :=
  1 + ((List.range F.length).map (fun n => 1 + (successors F n).length)).sum

/-- The blocks reached by the depth-first traversal from the entry block, in
visiting order; as a set this is `ReachableBBs`. -/
def dfOrder (F : Function) : List Nat :=
  (dfs F (dfsFuel F) [0] []).reverse

/-- The predicate `ADCE::isTriviallyLive`. -/
def isTriviallyLive (I : Instruction) : Bool :=
  if I.mayHaveSideEffects then true
  else if I.isTerminator then true
  else if I.mayWriteToMemory then true
  else if I.kind = Kind.load ∧ I.volatile then true
  else if I.kind = Kind.store ∨ I.kind = Kind.call then true
  else false

/-- Modelled from the spec: the host IR's `I->use_empty()` (the use list of a value
is the set of instructions currently using it): no instruction of the function has
the value of instruction `id` among its operands. -/
def use_empty (F : Function) (id : Nat) : Bool :=
  F.all (fun B => B.insts.all (fun J => !(J.operands.contains (Value.inst id))))

/-- The pass state `LiveSet` and `WorkList`; the head of `WorkList` is the back
of the vector. -/
structure State where
  LiveSet : List Nat
  WorkList : List Nat
deriving DecidableEq, Repr

/-- The helper `ADCE::markLive`. -/
def markLive (I : Nat) (s : State) : State :=
  if I ∈ s.LiveSet then s
  else { LiveSet := I :: s.LiveSet, WorkList := I :: s.WorkList }

/-- Inner loop of the first scan over one block `b`: trivially live instructions are
marked live, the other instructions without uses are queued (with their parent). -/
def scanBlock (F : Function) (b : Nat) :
    List Instruction → State × List (Nat × Nat) → State × List (Nat × Nat)
  | [], acc => acc
  | I :: rest, (s, dead) =>
    if isTriviallyLive I then scanBlock F b rest (markLive I.id s, dead)
    else if use_empty F I.id then scanBlock F b rest (s, dead ++ [(b, I.id)])
    else scanBlock F b rest (s, dead)

/-- The first scan: all reachable blocks in depth-first order. -/
def scan (F : Function) : List Nat → State × List (Nat × Nat) → State × List (Nat × Nat)
  | [], acc => acc
  | b :: bs, acc => scan F bs (scanBlock F b (blockInsts F b) acc)

/-- Modelled from the spec: the host IR's `deadI->eraseFromParent()` for the
instruction `d.2` of block `d.1`: the instruction leaves its parent block; operands
of other instructions that name it are left as they are. -/
def eraseFromParent (F : Function) (d : Nat × Nat) : Function :=
  F.modify (fun B => { insts := B.insts.filter (fun J => J.id ≠ d.2) }) d.1

/-- Erasing every queued instruction, in queue order. -/
def eraseAll (F : Function) (dead : List (Nat × Nat)) : Function :=
  dead.foldl eraseFromParent F

/-- The instruction a pointer `I` refers to, with its parent block, found by id. -/
def findInst (F : Function) (id : Nat) : Option (Nat × Instruction) :=
  (List.range F.length).findSome? (fun b =>
    ((blockInsts F b).find? (fun J => J.id = id)).map (fun J => (b, J)))

/-- Marking every operand of `I` that is an instruction. -/
def markOperands : List Value → State → State
  | [], s => s
  | Value.inst x :: ops, s => markOperands ops (markLive x s)
  | _ :: ops, s => markOperands ops s

/-- Body of the work-list loop for the popped instruction `I`: when its parent
block is reachable, mark its instruction operands live. -/
def propagateStep (F : Function) (R : List Nat) (I : Nat) (s : State) : State :=
  match findInst F I with
  | some (b, J) => if b ∈ R then markOperands J.operands s else s
  | none => s

/-- The work-list loop of `doADCE`: pop the back of the work list and run the
loop body, until the work list is empty. -/
def propagate (F : Function) (R : List Nat) : Nat → State → State
  | 0, s => s
  | fuel + 1, s =>
    match s.WorkList with
    | [] => s
    | I :: W => propagate F R fuel (propagateStep F R I { s with WorkList := W })

/-- The instruction ids that occur as operands in `F`. -/
def operandIds (F : Function) : List Nat :=
  F.flatMap (fun B => B.insts.flatMap (fun J => J.operands.filterMap (fun v =>
    match v with
    | Value.inst x => some x
    | _ => none)))

/-- Number of iterations the work-list loop can take at most: the entries already
on the work list, and one push per operand slot. -/
def propagateFuel (F : Function) (s : State) : Nat :=
  s.WorkList.length + (operandIds F).length

/-- Inner loop of the final sweep over one block. -/
def sweepBlock (LiveSet : List Nat) (b : Nat) : List Instruction → List (Nat × Nat)
  | [] => []
  | I :: rest =>
    if I.id ∈ LiveSet then sweepBlock LiveSet b rest
    else (b, I.id) :: sweepBlock LiveSet b rest

/-- The final sweep: for every block of the function, in function order, that is
reachable, queue every instruction absent from the live set. -/
def sweep (F : Function) (R : List Nat) (LiveSet : List Nat) : List Nat → List (Nat × Nat)
  | [] => []
  | b :: bs =>
    if b ∈ R then sweepBlock LiveSet b (blockInsts F b) ++ sweep F R LiveSet bs
    else sweep F R LiveSet bs

/-- The final live set computed by `doADCE` on `F`. -/
def liveSet (F : Function) : List Nat :=
  let ReachableBBs := dfOrder F
  let scanned := scan F ReachableBBs ({ LiveSet := [], WorkList := [] }, [])
  let F1 := eraseAll F scanned.2
  (propagate F1 ReachableBBs (propagateFuel F1 scanned.1) scanned.1).LiveSet

/-- The pass body `ADCE::doADCE`: the function after the run and the returned
`changed` flag.  The steps are the depth-first scan of the reachable blocks, the
deletion of the queued zero-use instructions, the work-list loop, the final sweep
over the reachable blocks and the deletion of what it queued. -/
def doADCE (F : Function) : Function × Bool :=
  let ReachableBBs := dfOrder F
  let scanned := scan F ReachableBBs ({ LiveSet := [], WorkList := [] }, [])
  let deadInstructions := scanned.2
  let F1 := eraseAll F deadInstructions
  let changed := !deadInstructions.isEmpty
  let s := propagate F1 ReachableBBs (propagateFuel F1 scanned.1) scanned.1
  let deadSwept := sweep F1 ReachableBBs s.LiveSet (List.range F1.length)
  let F2 := eraseAll F1 deadSwept
  (F2, changed || !deadSwept.isEmpty)

/-- Scenario A: `t = add a, b`, `u = mul c, d`, `store t -> L`, `ret`. -/
def scenarioA : Function :=
  [{ insts := [
      { id := 1, kind := Kind.binaryOp, operands := [Value.arg 0, Value.arg 1],
        sideEffects := false, writesMemory := false, volatile := false, succs := [] },
      { id := 2, kind := Kind.binaryOp, operands := [Value.arg 2, Value.arg 3],
        sideEffects := false, writesMemory := false, volatile := false, succs := [] },
      { id := 3, kind := Kind.store, operands := [Value.inst 1, Value.arg 4],
        sideEffects := true, writesMemory := true, volatile := false, succs := [] },
      { id := 4, kind := Kind.terminator, operands := [],
        sideEffects := false, writesMemory := false, volatile := false, succs := [] }] }]

/-- Block `b` is reachable from the entry block along CFG edges. -/
inductive Reachable (F : Function) : Nat → Prop
  | entry : 0 < F.length → Reachable F 0
  | step {a b : Nat} : Reachable F a → b ∈ successors F a → b < F.length → Reachable F b

/-- Weight of the blocks not visited yet: one step to visit each, one per successor. -/
def dfsWeight (F : Function) (vis : List Nat) : Nat :=
  (((List.range F.length).filter (fun m => decide (m ∉ vis))).map
    (fun n => 1 + (successors F n).length)).sum

/-- The ids of all instructions of the function, block by block. -/
def instIds (F : Function) : List Nat :=
  F.flatMap (fun B => B.insts.map (fun J => J.id))

/-- Instruction identity: no two instructions of the function share an id. -/
def UniqueIds (F : Function) : Prop := (instIds F).Nodup

instance (F : Function) : Decidable (UniqueIds F) :=
  inferInstanceAs (Decidable (instIds F).Nodup)

/-- An instruction id determines its instruction and its parent block. -/
def Uniq (F : Function) : Prop :=
  ∀ b c I J, I ∈ blockInsts F b → J ∈ blockInsts F c → I.id = J.id → b = c ∧ I = J

/-- Liveness as the spec defines it: an instruction of a reachable block that is
trivially live is live, and so is every instruction operand of a live instruction
of a reachable block (backward reachability over the def-use graph, restricted to
reachable code). -/
inductive Live (F : Function) : Nat → Prop
  | trivial {b : Nat} {I : Instruction} :
      Reachable F b → I ∈ blockInsts F b → isTriviallyLive I = true → Live F I.id
  | operand {b : Nat} {J : Instruction} {x : Nat} :
      Live F J.id → Reachable F b → J ∈ blockInsts F b → Value.inst x ∈ J.operands →
      Live F x

/-- Measure of the work-list loop: entries on the work list plus operand ids not
yet in the live set. -/
def propagateWeight (F : Function) (s : State) : Nat :=
  s.WorkList.length
    + (((operandIds F).dedup.filter (fun m => decide (m ∉ s.LiveSet))).map (fun _ => 1)).sum

/-- The instructions queued by the first scan of `doADCE` (not trivially live, no
uses), each with its parent block. -/
def zeroUse (F : Function) : List (Nat × Nat) :=
  (scan F (dfOrder F) ({ LiveSet := [], WorkList := [] }, [])).2

/-- The function after the zero-use deletion step of `doADCE`. -/
def afterZeroUse (F : Function) : Function := eraseAll F (zeroUse F)

/-- The instructions queued by the final sweep of `doADCE`. -/
def sweepDead (F : Function) : List (Nat × Nat) :=
  sweep (afterZeroUse F) (dfOrder F) (liveSet F) (List.range (afterZeroUse F).length)

/-- Block invariant of the IR model: every instruction of a block except possibly
the last one is a non-terminator. -/
def WellTerminated (F : Function) : Prop :=
  ∀ B ∈ F, ∀ I ∈ B.insts.dropLast, I.isTerminator = false

instance (F : Function) : Decidable (WellTerminated F) :=
  inferInstanceAs (Decidable (∀ B ∈ F, ∀ I ∈ B.insts.dropLast, I.isTerminator = false))

/-- An entry block that returns at once and a block no edge leads to, holding an
unused `x = add a, b` and a `ret`. -/
def scenarioUnreachable : Function :=
  [{ insts := [
      { id := 1, kind := Kind.terminator, operands := [],
        sideEffects := false, writesMemory := false, volatile := false, succs := [] }] },
   { insts := [
      { id := 2, kind := Kind.binaryOp, operands := [Value.arg 0, Value.arg 1],
        sideEffects := false, writesMemory := false, volatile := false, succs := [] },
      { id := 3, kind := Kind.terminator, operands := [],
        sideEffects := false, writesMemory := false, volatile := false, succs := [] }] }]

/-- Backward reachability over operand edges without the restriction to reachable
code: trivially live instructions of reachable blocks, closed under "is an
instruction operand of" through any instruction of the function. -/
inductive Needed (F : Function) : Nat → Prop
  | trivial {b : Nat} {I : Instruction} :
      Reachable F b → I ∈ blockInsts F b → isTriviallyLive I = true → Needed F I.id
  | operand {b : Nat} {J : Instruction} {x : Nat} :
      Needed F J.id → J ∈ blockInsts F b → Value.inst x ∈ J.operands → Needed F x

/-- Operands of reachable code are defined in reachable code, as holds when every
definition dominates its uses. -/
def OperandsReachable (F : Function) : Prop :=
  ∀ b J x c K, Reachable F b → J ∈ blockInsts F b → Value.inst x ∈ J.operands →
    K ∈ blockInsts F c → K.id = x → Reachable F c

/-! ## LICM: the model -/

/-- Modelled from the spec: the host's `Loop` as `LoopInfo` hands it to the pass:
its identity, header, preheader, member blocks and exit blocks. -/
structure Loop where
  id : Nat
  header : Nat
  preheader : Nat
  blocks : List Nat
  exitBlocks : List Nat
deriving DecidableEq, Repr

/-- Modelled from the spec: a node of the host's dominator tree, its block and its
children. -/
inductive DomTreeNode where
  | node (block : Nat) (children : List DomTreeNode)

/-- Modelled from the spec: the two analyses the pass asks the host for and the
host query `isSafeToSpeculativelyExecute`: for a block the id of the innermost
loop that contains it, the dominator-tree node of a block, and block dominance. -/
structure Analyses where
  getLoopFor : Nat → Option Nat
  getNode : Nat → Option DomTreeNode
  dominates : Nat → Nat → Bool
  isSafeToSpeculativelyExecute : Instruction → Bool

namespace Instruction

/-- The query `I->isBinaryOp()`. -/
def isBinaryOp (I : Instruction) : Bool := I.kind = Kind.binaryOp

/-- The query `I->isShift()`. -/
def isShift (I : Instruction) : Bool := I.kind = Kind.shift

/-- The query `I->isCast()`. -/
def isCast (I : Instruction) : Bool := I.kind = Kind.cast

end Instruction

/-- The query `curLoop->contains(operandI)`: the parent block of the instruction is
a member block of the loop. -/
def Loop.containsInst (L : Loop) (F : Function) (x : Nat) : Bool :=
  match findInst F x with
  | some (b, _) => decide (b ∈ L.blocks)
  | none => false

/-- The operand loop of `LICM::isLoopInvariance`. -/
def operandsInvariant (L : Loop) (F : Function) : List Value → Bool
  | [] => true
  | Value.const _ :: ops => operandsInvariant L F ops
  | Value.inst x :: ops => if L.containsInst F x then false else operandsInvariant L F ops
  | Value.arg _ :: ops => operandsInvariant L F ops

/-- The predicate `LICM::isLoopInvariance`. -/
def isLoopInvariance (L : Loop) (F : Function) (I : Instruction) : Bool :=
  if !I.isBinaryOp && !I.isShift && !(I.kind = Kind.select) && !I.isCast
      && !(I.kind = Kind.getElementPtr) then false
  else operandsInvariant L F I.operands

/-- The exit-block loop of `LICM::safeToHoist`. -/
def dominatesAllExits (A : Analyses) (parent : Nat) : List Nat → Bool
  | [] => true
  | e :: es => if !A.dominates parent e then false else dominatesAllExits A parent es

/-- The predicate `LICM::safeToHoist` for an instruction whose parent block is
`parent`. -/
def safeToHoist (L : Loop) (A : Analyses) (parent : Nat) (I : Instruction) : Bool :=
  if A.isSafeToSpeculativelyExecute I then true
  else if L.exitBlocks.isEmpty then false
  else dominatesAllExits A parent L.exitBlocks

/-- Inserting an instruction right before the last instruction of a block. -/
def insertBeforeLast (insts : List Instruction) (I : Instruction) : List Instruction :=
  insts.dropLast ++ I :: insts.getLast?.toList

/-- Modelled from the spec: the host IR's `hoistI->moveBefore(...)` as the pass
calls it, with `Preheader->getTerminator()`, for the instruction `I` of block
`src`: the instruction leaves its block and is inserted right before the
preheader's terminator; there is no result when the preheader has no terminator. -/
def moveBefore (F : Function) (src : Nat) (I : Instruction) (P : Nat) : Option Function :=
  match getTerminator (blockInsts F P) with
  | none => none
  | some _ =>
    some ((eraseFromParent F (src, I.id)).modify
      (fun B => { insts := insertBeforeLast B.insts I }) P)

/-- The hoisting loop: move the collected instructions, in order. -/
def hoistAll (src P : Nat) : List Instruction → Function → Option Function
  | [], F => some F
  | I :: rest, F =>
    match moveBefore F src I P with
    | none => none
    | some G => hoistAll src P rest G

/-- The instructions `doLICMRecursive` collects in block `BB`. -/
def instructionToHoist (L : Loop) (A : Analyses) (F : Function) (BB : Nat) :
    List Instruction :=
  (blockInsts F BB).filter (fun I => isLoopInvariance L F I && safeToHoist L A BB I)

/-- The test `LI->getLoopFor(BB) == curLoop && curLoop->contains(BB)`: the block is
immediately within the loop. -/
def directMember (L : Loop) (A : Analyses) (BB : Nat) : Bool :=
  decide (A.getLoopFor BB = some L.id) && decide (BB ∈ L.blocks)

/-- The work of `doLICMRecursive` at one dominator-tree node: when the block is a
direct member of the loop, collect, then hoist. -/
def visitBlock (L : Loop) (A : Analyses) (BB : Nat) (F : Function) : Option Function :=
  if directMember L A BB then
    hoistAll BB L.preheader (instructionToHoist L A F BB) F
  else some F

mutual

/-- The pre-order walk `LICM::doLICMRecursive`. -/
def doLICMRecursive (L : Loop) (A : Analyses) : DomTreeNode → Function → Option Function
  | DomTreeNode.node BB children, F =>
    match visitBlock L A BB F with
    | none => none
    | some G => doLICMChildren L A children G

/-- The loop over the children of a dominator-tree node. -/
def doLICMChildren (L : Loop) (A : Analyses) : List DomTreeNode → Function → Option Function
  | [], F => some F
  | c :: cs, F =>
    match doLICMRecursive L A c F with
    | none => none
    | some G => doLICMChildren L A cs G

end

/-- The pass body `LICM::doLICM`: the function after the run and the returned flag. -/
def doLICM (L : Loop) (A : Analyses) (F : Function) : Option (Function × Bool) :=
  match A.getNode L.header with
  | none => none
  | some HN =>
    match doLICMRecursive L A HN F with
    | none => none
    | some G => some (G, true)

/-- The definition `i` of Scenario B, in the preheader. -/
def defI : Instruction :=
  { id := 1, kind := Kind.load, operands := [Value.arg 0],
    sideEffects := false, writesMemory := false, volatile := false, succs := [] }

/-- The terminator of the preheader in Scenario B. -/
def preheaderTermB : Instruction :=
  { id := 2, kind := Kind.terminator, operands := [],
    sideEffects := false, writesMemory := false, volatile := false, succs := [1] }

/-- The instruction `x = add i, 5` of Scenario B. -/
def addX : Instruction :=
  { id := 3, kind := Kind.binaryOp, operands := [Value.inst 1, Value.const 5],
    sideEffects := false, writesMemory := false, volatile := false, succs := [] }

/-- The user `y = add x, 1` of `x`, later in the same block. -/
def addY : Instruction :=
  { id := 4, kind := Kind.binaryOp, operands := [Value.inst 3, Value.const 1],
    sideEffects := false, writesMemory := false, volatile := false, succs := [] }

/-- The loop branch of Scenario B. -/
def branchB : Instruction :=
  { id := 5, kind := Kind.terminator, operands := [Value.arg 1],
    sideEffects := false, writesMemory := false, volatile := false, succs := [1, 2] }

/-- The return of the exit block of Scenario B. -/
def retB : Instruction :=
  { id := 6, kind := Kind.terminator, operands := [],
    sideEffects := false, writesMemory := false, volatile := false, succs := [] }

/-- Scenario B: preheader `P` (block 0) defines `i` and branches to the loop header
(block 1), which holds `x = add i, 5`, `y = add x, 1` and the loop branch; block 2
is the exit. -/
def scenarioB : Function :=
  [{ insts := [defI, preheaderTermB] }, { insts := [addX, addY, branchB] },
   { insts := [retB] }]

/-- The loop of Scenario B: header block 1, preheader block 0, exit block 2. -/
def loopB : Loop :=
  { id := 0, header := 1, preheader := 0, blocks := [1], exitBlocks := [2] }

/-- The dominator subtree of the header in Scenario B. -/
def headerNodeB : DomTreeNode := DomTreeNode.node 1 [DomTreeNode.node 2 []]

/-- The analyses of Scenario B: block 1 is in loop 0; the dominator tree is the chain
0, 1, 2; every instruction may be executed speculatively. -/
def analysesB : Analyses :=
  { getLoopFor := fun b => if b = 1 then some 0 else none
    getNode := fun b => if b = 1 then some headerNodeB else none
    dominates := fun a b => decide (a ≤ b)
    isSafeToSpeculativelyExecute := fun _ => true }

mutual

/-- The blocks of a dominator subtree in pre-order. -/
def preorder : DomTreeNode → List Nat
  | DomTreeNode.node BB children => BB :: preorderList children

/-- The blocks of a list of dominator subtrees in pre-order. -/
def preorderList : List DomTreeNode → List Nat
  | [] => []
  | c :: cs => preorder c ++ preorderList cs

end

/-- Visiting a sequence of blocks one after the other. -/
def visitAll (L : Loop) (A : Analyses) : List Nat → Function → Option Function
  | [], F => some F
  | b :: bs, F =>
    match visitBlock L A b F with
    | none => none
    | some G => visitAll L A bs G

/-- The instructions hoisted when block `b` is visited in state `F`. -/
def hoistedAt (L : Loop) (A : Analyses) (b : Nat) (F : Function) : List Instruction :=
  if directMember L A b then instructionToHoist L A F b else []

/-- The instructions hoisted while visiting a sequence of blocks, in hoisting order,
each with the block it came from. -/
def hoistLog (L : Loop) (A : Analyses) : List Nat → Function → List (Nat × Instruction)
  | [], _ => []
  | b :: bs, F =>
    (hoistedAt L A b F).map (fun I => (b, I)) ++
      match visitBlock L A b F with
      | none => []
      | some G => hoistLog L A bs G

/-- Instruction dominance in a function state: in the same block the definition
comes first, across blocks the definition's block dominates the user's block. -/
def InstDominates (A : Analyses) (G : Function) (X U : Instruction) : Prop :=
  ∃ bx bu, X ∈ blockInsts G bx ∧ U ∈ blockInsts G bu ∧
    ((bx = bu ∧ ∃ l1 l2 l3, blockInsts G bx = l1 ++ X :: l2 ++ U :: l3)
      ∨ (bx ≠ bu ∧ A.dominates bx bu = true))

/-- A loop with nothing to hoist: the header (block 1) loads `v` and computes
`w = add v, 1` from it. -/
def scenarioIdle : Function :=
  [{ insts := [
      { id := 1, kind := Kind.terminator, operands := [],
        sideEffects := false, writesMemory := false, volatile := false, succs := [1] }] },
   { insts := [
      { id := 2, kind := Kind.load, operands := [Value.arg 0],
        sideEffects := false, writesMemory := false, volatile := false, succs := [] },
      { id := 3, kind := Kind.binaryOp, operands := [Value.inst 2, Value.const 1],
        sideEffects := false, writesMemory := false, volatile := false, succs := [] },
      { id := 4, kind := Kind.terminator, operands := [Value.arg 1],
        sideEffects := false, writesMemory := false, volatile := false, succs := [1, 2] }] },
   { insts := [
      { id := 5, kind := Kind.terminator, operands := [],
        sideEffects := false, writesMemory := false, volatile := false, succs := [] }] }]

/-- Scenario B without the user `y`: the header holds `x = add i, 5` and the loop
branch only. -/
def scenarioC : Function :=
  [{ insts := [defI, preheaderTermB] }, { insts := [addX, branchB] }, { insts := [retB] }]

/-- The function `scenarioC` after one LICM run: `x` sits before the preheader's
terminator. -/
def scenarioCHoisted : Function :=
  [{ insts := [defI, addX, preheaderTermB] }, { insts := [branchB] }, { insts := [retB] }]

/-- The terminator of the preheader in `scenarioIdle`. -/
def preheaderTermIdle : Instruction :=
  { id := 1, kind := Kind.terminator, operands := [],
    sideEffects := false, writesMemory := false, volatile := false, succs := [1] }


/-! ## LICM: a loop of two blocks -/

/-- The jump from the header to the loop body in the two-block loop. -/
def jumpBody : Instruction :=
  { id := 7, kind := Kind.terminator, operands := [],
    sideEffects := false, writesMemory := false, volatile := false, succs := [2] }

/-- The back edge and exit branch of the loop body in the two-block loop. -/
def branchBack : Instruction :=
  { id := 8, kind := Kind.terminator, operands := [Value.arg 1],
    sideEffects := false, writesMemory := false, volatile := false, succs := [1, 3] }

/-- A loop of two blocks: the preheader (block 0) defines `i`; the header (block 1)
holds `x = add i, 5` and jumps to the body (block 2), which holds the user
`y = add x, 1` and branches back to the header or to the exit (block 3). -/
def scenarioTwoBlocks : Function :=
  [{ insts := [defI, preheaderTermB] }, { insts := [addX, jumpBody] },
   { insts := [addY, branchBack] }, { insts := [retB] }]

/-- The function `scenarioTwoBlocks` after one LICM run: `x` and its user `y` both
sit before the preheader's terminator. -/
def scenarioTwoBlocksHoisted : Function :=
  [{ insts := [defI, addX, addY, preheaderTermB] }, { insts := [jumpBody] },
   { insts := [branchBack] }, { insts := [retB] }]

/-- The loop of `scenarioTwoBlocks`: header block 1, body block 2, preheader block 0,
exit block 3. -/
def loopTwoBlocks : Loop :=
  { id := 0, header := 1, preheader := 0, blocks := [1, 2], exitBlocks := [3] }

/-- The dominator subtree of the header in `scenarioTwoBlocks`: the chain 1, 2, 3. -/
def headerNodeTwoBlocks : DomTreeNode :=
  DomTreeNode.node 1 [DomTreeNode.node 2 [DomTreeNode.node 3 []]]

/-- The analyses of `scenarioTwoBlocks`: blocks 1 and 2 are in loop 0; the dominator
tree is the chain 0, 1, 2, 3; every instruction may be executed speculatively. -/
def analysesTwoBlocks : Analyses :=
  { getLoopFor := fun b => if b = 1 ∨ b = 2 then some 0 else none
    getNode := fun b => if b = 1 then some headerNodeTwoBlocks else none
    dominates := fun a b => decide (a ≤ b)
    isSafeToSpeculativelyExecute := fun _ => true }

/-! ## ADCE: the run of the work-list loop -/

/-- The instructions the work-list loop of `doADCE` pops, in order, within the given
number of iterations. -/
def popped (F : Function) (R : List Nat) : Nat → State → List Nat
  | 0, _ => []
  | fuel + 1, s =>
    match s.WorkList with
    | [] => []
    | I :: W => I :: popped F R fuel (propagateStep F R I { s with WorkList := W })

/-- The pass state after the first scan of `doADCE`. -/
def scanned (F : Function) : State :=
  (scan F (dfOrder F) ({ LiveSet := [], WorkList := [] }, [])).1

/-- The pass state when `doADCE` returns. -/
def finalState (F : Function) : State :=
  propagate (afterZeroUse F) (dfOrder F) (propagateFuel (afterZeroUse F) (scanned F))
    (scanned F)

/-- The pass entry `ADCE::runOnFunction`: it runs `doADCE` and then asserts that the
work list is empty; there is no result when the assertion fails. -/
def ADCE.runOnFunction (F : Function) : Option (Function × Bool) :=
  if (finalState F).WorkList.isEmpty then some (doADCE F) else none

/-- Data-model invariant: an operand that is an instruction is an instruction of the
function. -/
def OperandsDefined (F : Function) : Prop := ∀ x ∈ operandIds F, x ∈ instIds F

instance (F : Function) : Decidable (OperandsDefined F) :=
  inferInstanceAs (Decidable (∀ x ∈ operandIds F, x ∈ instIds F))

/-- The invariant of the pass state: no instruction is twice in the live set or
twice on the work list, and the work list is part of the live set. -/
def StateOk (s : State) : Prop :=
  s.LiveSet.Nodup ∧ s.WorkList.Nodup ∧ ∀ x ∈ s.WorkList, x ∈ s.LiveSet

/-- A reachable entry block that holds `x = add a, b` and a `ret`, and a block no
edge leads to that stores `x`: the only user of `x` is in unreachable code. -/
def scenarioDeadUse : Function :=
  [{ insts := [
      { id := 1, kind := Kind.binaryOp, operands := [Value.arg 0, Value.arg 1],
        sideEffects := false, writesMemory := false, volatile := false, succs := [] },
      { id := 2, kind := Kind.terminator, operands := [],
        sideEffects := false, writesMemory := false, volatile := false, succs := [] }] },
   { insts := [
      { id := 3, kind := Kind.store, operands := [Value.inst 1, Value.arg 2],
        sideEffects := true, writesMemory := true, volatile := false, succs := [] },
      { id := 4, kind := Kind.terminator, operands := [],
        sideEffects := false, writesMemory := false, volatile := false, succs := [] }] }]

/-- The function `scenarioDeadUse` after `doADCE`: `x` is gone, the store that uses
it is still there. -/
def scenarioDeadUseAfter : Function :=
  [{ insts := [
      { id := 2, kind := Kind.terminator, operands := [],
        sideEffects := false, writesMemory := false, volatile := false, succs := [] }] },
   { insts := [
      { id := 3, kind := Kind.store, operands := [Value.inst 1, Value.arg 2],
        sideEffects := true, writesMemory := true, volatile := false, succs := [] },
      { id := 4, kind := Kind.terminator, operands := [],
        sideEffects := false, writesMemory := false, volatile := false, succs := [] }] }]

/-- The instruction `x = add a, b` of `scenarioNeeded`. -/
def neededX : Instruction :=
  { id := 1, kind := Kind.binaryOp, operands := [Value.arg 0, Value.arg 1],
    sideEffects := false, writesMemory := false, volatile := false, succs := [] }

/-- The jump of the entry block of `scenarioNeeded` to block 2. -/
def neededJump : Instruction :=
  { id := 2, kind := Kind.terminator, operands := [],
    sideEffects := false, writesMemory := false, volatile := false, succs := [2] }

/-- The instruction `y = add x, 1` of the block of `scenarioNeeded` that no edge
leads to. -/
def neededY : Instruction :=
  { id := 3, kind := Kind.binaryOp, operands := [Value.inst 1, Value.const 1],
    sideEffects := false, writesMemory := false, volatile := false, succs := [] }

/-- The jump to block 2 of the block of `scenarioNeeded` that no edge leads to. -/
def neededDeadJump : Instruction :=
  { id := 4, kind := Kind.terminator, operands := [],
    sideEffects := false, writesMemory := false, volatile := false, succs := [2] }

/-- The phi `p = phi [0, block 0], [y, block 1]` of `scenarioNeeded`. -/
def neededPhi : Instruction :=
  { id := 5, kind := Kind.other, operands := [Value.const 0, Value.inst 3],
    sideEffects := false, writesMemory := false, volatile := false, succs := [] }

/-- The return of `p` in `scenarioNeeded`. -/
def neededRet : Instruction :=
  { id := 6, kind := Kind.terminator, operands := [Value.inst 5],
    sideEffects := false, writesMemory := false, volatile := false, succs := [] }

/-- A value that live code needs only through a block no edge leads to: the entry
block (block 0) holds `x = add a, b` and jumps to block 2; block 1, which no edge
leads to, holds `y = add x, 1` and jumps to block 2; block 2 holds the phi
`p = phi [0, block 0], [y, block 1]` and returns `p`. -/
def scenarioNeeded : Function :=
  [{ insts := [neededX, neededJump] }, { insts := [neededY, neededDeadJump] },
   { insts := [neededPhi, neededRet] }]

/-- The function `scenarioNeeded` after `doADCE`: `x` is gone from the entry block,
the other blocks are as before. -/
def scenarioNeededAfter : Function :=
  [{ insts := [neededJump] }, { insts := [neededY, neededDeadJump] },
   { insts := [neededPhi, neededRet] }]

/-- The first test of `LICM::isLoopInvariance`: the instruction is a binary
operation, a shift, a select, a cast or a getelementptr. A phi is none of these. -/
def Instruction.hasInvariantKind (I : Instruction) : Bool :=
  I.isBinaryOp || I.isShift || decide (I.kind = Kind.select) || I.isCast
    || decide (I.kind = Kind.getElementPtr)

/-- The loop-carried phi `p = phi [0, preheader], [q, header]` of `scenarioPhi`. -/
def phiP : Instruction :=
  { id := 7, kind := Kind.other, operands := [Value.const 0, Value.inst 8],
    sideEffects := false, writesMemory := false, volatile := false, succs := [] }

/-- The instruction `q = add p, 1` of `scenarioPhi`, which the phi `p` uses along the
back edge. -/
def incP : Instruction :=
  { id := 8, kind := Kind.binaryOp, operands := [Value.inst 7, Value.const 1],
    sideEffects := false, writesMemory := false, volatile := false, succs := [] }

/-- The phi `r = phi [x, header]` of the exit block of `scenarioPhi`. -/
def phiX : Instruction :=
  { id := 9, kind := Kind.other, operands := [Value.inst 3],
    sideEffects := false, writesMemory := false, volatile := false, succs := [] }

/-- The store of `x` in the exit block of `scenarioPhi`. -/
def storeX : Instruction :=
  { id := 10, kind := Kind.store, operands := [Value.inst 3, Value.arg 2],
    sideEffects := true, writesMemory := true, volatile := false, succs := [] }

/-- A loop with a loop-carried phi: the preheader (block 0) defines `i`; the header
(block 1) holds the phi `p`, `q = add p, 1`, `x = add i, 5` and the loop branch;
the exit (block 2) holds a phi of `x`, a store of `x` and the return. The phi `p`
uses `q`, which is defined after it in the same block. -/
def scenarioPhi : Function :=
  [{ insts := [defI, preheaderTermB] }, { insts := [phiP, incP, addX, branchB] },
   { insts := [phiX, storeX, retB] }]

/-- The function `scenarioPhi` after one LICM run: `x` sits before the preheader's
terminator. -/
def scenarioPhiHoisted : Function :=
  [{ insts := [defI, addX, preheaderTermB] }, { insts := [phiP, incP, branchB] },
   { insts := [phiX, storeX, retB] }]

/-! ## SROA: the model -/

namespace SROA

/-- Modelled from the spec: the types of the host IR as far as the pass asks about
them: integer, floating-point and pointer types, vectors, arrays, and structures
with their ordered field types. -/
inductive Ty where
  | int
  | fp
  | ptr
  | vector (elem : Ty)
  | array (n : Nat) (elem : Ty)
  | struct (fields : List Ty)

mutual

/-- Equality of types is decidable. -/
def Ty.decEq : (a b : Ty) → Decidable (a = b)
  | Ty.int, Ty.int => isTrue rfl
  | Ty.int, Ty.fp => isFalse (fun h => Ty.noConfusion h)
  | Ty.int, Ty.ptr => isFalse (fun h => Ty.noConfusion h)
  | Ty.int, Ty.vector e2 => isFalse (fun h => Ty.noConfusion h)
  | Ty.int, Ty.array n2 e2 => isFalse (fun h => Ty.noConfusion h)
  | Ty.int, Ty.struct fs2 => isFalse (fun h => Ty.noConfusion h)
  | Ty.fp, Ty.int => isFalse (fun h => Ty.noConfusion h)
  | Ty.fp, Ty.fp => isTrue rfl
  | Ty.fp, Ty.ptr => isFalse (fun h => Ty.noConfusion h)
  | Ty.fp, Ty.vector e2 => isFalse (fun h => Ty.noConfusion h)
  | Ty.fp, Ty.array n2 e2 => isFalse (fun h => Ty.noConfusion h)
  | Ty.fp, Ty.struct fs2 => isFalse (fun h => Ty.noConfusion h)
  | Ty.ptr, Ty.int => isFalse (fun h => Ty.noConfusion h)
  | Ty.ptr, Ty.fp => isFalse (fun h => Ty.noConfusion h)
  | Ty.ptr, Ty.ptr => isTrue rfl
  | Ty.ptr, Ty.vector e2 => isFalse (fun h => Ty.noConfusion h)
  | Ty.ptr, Ty.array n2 e2 => isFalse (fun h => Ty.noConfusion h)
  | Ty.ptr, Ty.struct fs2 => isFalse (fun h => Ty.noConfusion h)
  | Ty.vector e1, Ty.int => isFalse (fun h => Ty.noConfusion h)
  | Ty.vector e1, Ty.fp => isFalse (fun h => Ty.noConfusion h)
  | Ty.vector e1, Ty.ptr => isFalse (fun h => Ty.noConfusion h)
  | Ty.vector e1, Ty.vector e2 =>
    match Ty.decEq e1 e2 with
    | isTrue h => isTrue (congrArg Ty.vector h)
    | isFalse h => isFalse (fun e => h (Ty.vector.inj e))
  | Ty.vector e1, Ty.array n2 e2 => isFalse (fun h => Ty.noConfusion h)
  | Ty.vector e1, Ty.struct fs2 => isFalse (fun h => Ty.noConfusion h)
  | Ty.array n1 e1, Ty.int => isFalse (fun h => Ty.noConfusion h)
  | Ty.array n1 e1, Ty.fp => isFalse (fun h => Ty.noConfusion h)
  | Ty.array n1 e1, Ty.ptr => isFalse (fun h => Ty.noConfusion h)
  | Ty.array n1 e1, Ty.vector e2 => isFalse (fun h => Ty.noConfusion h)
  | Ty.array n1 e1, Ty.array n2 e2 =>
    if hn : n1 = n2 then
      match Ty.decEq e1 e2 with
      | isTrue h => isTrue (by rw [hn, h])
      | isFalse h => isFalse (fun e => h (Ty.array.inj e).2)
    else isFalse (fun e => hn (Ty.array.inj e).1)
  | Ty.array n1 e1, Ty.struct fs2 => isFalse (fun h => Ty.noConfusion h)
  | Ty.struct fs1, Ty.int => isFalse (fun h => Ty.noConfusion h)
  | Ty.struct fs1, Ty.fp => isFalse (fun h => Ty.noConfusion h)
  | Ty.struct fs1, Ty.ptr => isFalse (fun h => Ty.noConfusion h)
  | Ty.struct fs1, Ty.vector e2 => isFalse (fun h => Ty.noConfusion h)
  | Ty.struct fs1, Ty.array n2 e2 => isFalse (fun h => Ty.noConfusion h)
  | Ty.struct fs1, Ty.struct fs2 =>
    match Ty.decEqList fs1 fs2 with
    | isTrue h => isTrue (congrArg Ty.struct h)
    | isFalse h => isFalse (fun e => h (Ty.struct.inj e))

/-- Equality of lists of types is decidable. -/
def Ty.decEqList : (as bs : List Ty) → Decidable (as = bs)
  | [], [] => isTrue rfl
  | [], _ :: _ => isFalse (fun h => List.noConfusion h)
  | _ :: _, [] => isFalse (fun h => List.noConfusion h)
  | a :: as, b :: bs =>
    match Ty.decEq a b with
    | isFalse h => isFalse (fun e => h (List.cons.inj e).1)
    | isTrue h =>
      match Ty.decEqList as bs with
      | isTrue h2 => isTrue (by rw [h, h2])
      | isFalse h2 => isFalse (fun e => h2 (List.cons.inj e).2)

end

instance : DecidableEq Ty := Ty.decEq
namespace Ty

/-- The host query `getScalarType`: the element type of a vector, the type itself
otherwise. -/
def getScalarType : Ty → Ty
  | vector e => e
  | t => t

/-- The host query `isFPOrFPVectorTy`. -/
def isFPOrFPVectorTy (t : Ty) : Bool :=
  match t.getScalarType with
  | fp => true
  | _ => false

/-- The host query `isIntOrIntVectorTy`. -/
def isIntOrIntVectorTy (t : Ty) : Bool :=
  match t.getScalarType with
  | int => true
  | _ => false

/-- The host query `isPtrOrPtrVectorTy`. -/
def isPtrOrPtrVectorTy (t : Ty) : Bool :=
  match t.getScalarType with
  | ptr => true
  | _ => false

/-- The host query `isStructTy`. -/
def isStructTy : Ty → Bool
  | struct _ => true
  | _ => false

/-- The host query `isAggregateType`: structures and arrays. -/
def isAggregateType : Ty → Bool
  | struct _ => true
  | array _ _ => true
  | _ => false

mutual

/-- The number of nodes of a type tree. -/
def weight : Ty → Nat
  | struct fs => 1 + weightList fs
  | array _ e => 1 + weight e
  | vector e => 1 + weight e
  | int => 1
  | fp => 1
  | ptr => 1

/-- The number of nodes of a list of type trees. -/
def weightList : List Ty → Nat
  | [] => 0
  | t :: ts => weight t + weightList ts

end

mutual

/-- The aggregate nesting depth of a type: 0 for a scalar or vector, one more than
the deepest field or element for a structure or array. -/
def nestingDepth : Ty → Nat
  | struct fs => 1 + nestingDepthList fs
  | array _ e => 1 + nestingDepth e
  | vector _ => 0
  | int => 0
  | fp => 0
  | ptr => 0

/-- The largest nesting depth in a list of types. -/
def nestingDepthList : List Ty → Nat
  | [] => 0
  | t :: ts => max (nestingDepth t) (nestingDepthList ts)

end

end Ty

/-- Modelled from the spec: the operands of the host IR: integer constants, the
null-pointer constant, constants of any other sort (an undefined value, a constant
vector), function arguments and instruction results. -/
inductive Value where
  | constantInt (v : Int)
  | constantPointerNull
  | undef
  | argument (n : Nat)
  | inst (id : Nat)
deriving DecidableEq

/-- The comparison predicates the pass distinguishes. -/
inductive Predicate where
  | ICMP_EQ
  | ICMP_NE
  | other
deriving DecidableEq

/-- The instruction classes the pass distinguishes with `dyn_cast`; an allocation
carries its allocated type and a comparison its predicate. -/
inductive Opcode where
  | alloca (allocatedType : Ty)
  | getElementPtr
  | cmp (predicate : Predicate)
  | load
  | store
  | phi
  | other
deriving DecidableEq

/-- Modelled from the spec: an instruction of the host IR: its identity (the pointer
of the source), its class, its ordered operands and its volatile flag. -/
structure Instruction where
  id : Nat
  opcode : Opcode
  operands : List Value
  isVolatile : Bool
deriving DecidableEq

/-- A basic block: its instructions in order. -/
abbrev BasicBlock := List Instruction

/-- A function: its blocks in layout order, the entry block first. -/
abbrev Function := List BasicBlock

/-- The defensive branches of the source and the other ways in which a run of the
model ends without a result. -/
inductive Failure where
  /-- The assertion "the type of the alloca instruction isn't StructType". -/
  | notStructType
  /-- The assertion "One user of the replaced alloca isn't U1 or U2". -/
  | userNotU1OrU2
  /-- The assertion "the numOperands for getelementptr can't be < 3". -/
  | fewOperands
  /-- The assertion "the third argument of U1 Type must be a ConstantInt". -/
  | fieldNotConstantInt
  /-- The assertion "CIPredicate isn't ICMP_EQ or ICMP_NE". -/
  | predicateNotEqNe
  /-- The assertion "SROA::isAllocaPromotable wrong result." -/
  | wrongPromotableResult
  /-- The unchecked access `NewAllocs[FieldConstVal]` outside the vector. -/
  | fieldOutOfRange
  /-- A pointer to an instruction that is not in the function. -/
  | dangling
  /-- The iteration bound of the model is used up. -/
  | fuel
deriving DecidableEq

/-- Equality of results is decidable. -/
instance decEqExcept {ε α : Type} [DecidableEq ε] [DecidableEq α] :
    DecidableEq (Except ε α)
  | Except.ok a, Except.ok b =>
    if h : a = b then isTrue (congrArg Except.ok h)
    else isFalse (fun e => h (Except.ok.inj e))
  | Except.error a, Except.error b =>
    if h : a = b then isTrue (congrArg Except.error h)
    else isFalse (fun e => h (Except.error.inj e))
  | Except.ok _, Except.error _ => isFalse (fun e => Except.noConfusion e)
  | Except.error _, Except.ok _ => isFalse (fun e => Except.noConfusion e)

namespace Value

/-- The test `isa<Constant>`. -/
def isConstant : Value → Bool
  | constantInt _ => true
  | constantPointerNull => true
  | undef => true
  | _ => false

/-- The test `isa<ConstantPointerNull>`. -/
def isConstantPointerNull : Value → Bool
  | constantPointerNull => true
  | _ => false

/-- The id of the instruction an operand refers to. -/
def instId? : Value → Option Nat
  | inst x => some x
  | _ => none

end Value

namespace Instruction

/-- The operand access `getOperand(i)`. -/
def getOperand (I : Instruction) (i : Nat) : Option Value := I.operands[i]?

/-- The test `isa<AllocaInst>`. -/
def isAlloca (I : Instruction) : Bool :=
  match I.opcode with
  | Opcode.alloca _ => true
  | _ => false

/-- The weight of the allocated type of an allocation, 0 for other instructions. -/
def allocaWeight (I : Instruction) : Nat :=
  match I.opcode with
  | Opcode.alloca ty => ty.weight
  | _ => 0

/-- The rewiring of the operands of one instruction in `replaceAllUsesWith`. -/
def replaceUsesOfWith (I : Instruction) (id : Nat) (V : Value) : Instruction :=
  { I with operands := I.operands.map (fun o => if o = Value.inst id then V else o) }

end Instruction

/-- The instructions of a function, block after block. -/
def allInsts (F : Function) : List Instruction := F.flatten

/-- The users of a value: the instructions that have it among their operands, in
function order; a user with several uses of the value is listed once. -/
def users (F : Function) (V : Value) : List Instruction :=
  (allInsts F).filter (fun U => decide (V ∈ U.operands))

/-- The instruction a pointer refers to. -/
def getInst (F : Function) (id : Nat) : Option Instruction :=
  (allInsts F).find? (fun I => decide (I.id = id))

/-- The ids in use in a function: those of its instructions and those its operands
refer to. -/
def usedIds (F : Function) : List Nat :=
  (allInsts F).flatMap (fun I => I.id :: I.operands.filterMap Value.instId?)

/-- The identity of an instruction created with `new`: one that is not in use. -/
def freshId (F : Function) : Nat := (usedIds F).foldr max 0 + 1

/-- Modelled from the spec: the host IR's `replaceAllUsesWith`: every operand that
refers to the instruction becomes the given value. -/
def replaceAllUsesWith (F : Function) (id : Nat) (V : Value) : Function :=
  F.map (fun B => B.map (fun I => I.replaceUsesOfWith id V))

/-- Modelled from the spec: the host IR's `eraseFromParent`: the instruction leaves
its block; operands that referred to it stay as they are. -/
def eraseFromParent (F : Function) (id : Nat) : Function :=
  F.map (fun B => B.filter (fun I => decide (I.id ≠ id)))

/-- Inserting an instruction into a block right before the instruction `pos`. -/
def insertBeforeIn (New : Instruction) (pos : Nat) : List Instruction → List Instruction
  | [] => []
  | I :: rest =>
    if I.id = pos then New :: I :: rest else I :: insertBeforeIn New pos rest

/-- Modelled from the spec: creating an instruction with `InsertBefore`. -/
def insertBefore (New : Instruction) (pos : Nat) (F : Function) : Function :=
  F.map (insertBeforeIn New pos)

/-- The entry block `F.getEntryBlock()`. -/
def getEntryBlock (F : Function) : BasicBlock := F.headD []

/-- Modelled from the spec: the host query `getFirstNonPHI`. -/
def getFirstNonPHI (B : BasicBlock) : Option Instruction :=
  B.find? (fun I => decide (I.opcode ≠ Opcode.phi))

/-- The predicate `SROA::isU2TypeEqOrNe`. -/
def isU2TypeEqOrNe (CI : Instruction) (Val : Value) : Bool :=
  match CI.opcode with
  | Opcode.cmp CIPredicate =>
    if !(CIPredicate = Predicate.ICMP_EQ || CIPredicate = Predicate.ICMP_NE) then false
    else if CI.operands.length ≠ 2 then false
    else
      match CI.getOperand 0, CI.getOperand 1 with
      | some CIOperand0, some CIOperand1 =>
        if CIOperand0 = Val then CIOperand1.isConstantPointerNull
        else if CIOperand1 = Val then CIOperand0.isConstantPointerNull
        else false
      | _, _ => false
  | _ => false

/-- The predicate `SROA::isU1TypeGetElementPtr`, with a bound on the depth of the
recursion through chains of users; the recursion gives false where the bound is
used up. -/
def isU1Fuel (F : Function) : Nat → Instruction → Value → Bool
  | 0, _, _ => false
  | fuel + 1, GEPI, Val =>
    if GEPI.operands.length < 3 then false
    else if GEPI.getOperand 0 ≠ some Val then false
    else if GEPI.getOperand 1 ≠ some (Value.constantInt 0) then false
    else if !(GEPI.operands.drop 2).all Value.isConstant then false
    else
      (users F (Value.inst GEPI.id)).all (fun U =>
        match U.opcode with
        | Opcode.getElementPtr => isU1Fuel F fuel U (Value.inst GEPI.id)
        | Opcode.cmp _ => isU2TypeEqOrNe U (Value.inst GEPI.id)
        | Opcode.load => decide (U.getOperand 0 = some (Value.inst GEPI.id))
        | Opcode.store => decide (U.getOperand 1 = some (Value.inst GEPI.id))
        | _ => false)

/-- The predicate `SROA::isU1TypeGetElementPtr`: the recursion may go as deep as
the function has instructions. -/
def isU1TypeGetElementPtr (F : Function) (GEPI : Instruction) (Val : Value) : Bool :=
  isU1Fuel F (allInsts F).length GEPI Val

/-- The predicate `SROA::canBeEliminatedStructAlloca`. -/
def canBeEliminatedStructAlloca (F : Function) (AI : Instruction) : Bool :=
  match AI.opcode with
  | Opcode.alloca ty =>
    if !ty.isStructTy then false
    else
      (users F (Value.inst AI.id)).all (fun U =>
        match U.opcode with
        | Opcode.getElementPtr => isU1TypeGetElementPtr F U (Value.inst AI.id)
        | Opcode.cmp _ => isU2TypeEqOrNe U (Value.inst AI.id)
        | _ => false)
  | _ => false

/-- The predicate `SROA::isAllocaPromotable`. -/
def isAllocaPromotable (F : Function) (AI : Instruction) : Bool :=
  match AI.opcode with
  | Opcode.alloca AllocType =>
    if !(AllocType.isFPOrFPVectorTy || AllocType.isIntOrIntVectorTy
        || AllocType.isPtrOrPtrVectorTy) then false
    else
      (users F (Value.inst AI.id)).all (fun U =>
        match U.opcode with
        | Opcode.load =>
          !(U.isVolatile || decide (U.getOperand 0 ≠ some (Value.inst AI.id)))
        | Opcode.store =>
          !(U.isVolatile || decide (U.getOperand 1 ≠ some (Value.inst AI.id)))
        | _ => false)
  | _ => false

/-- The procedure `SROA::replaceU2TypeEqOrNe`: the uses of the comparison become the
constant false for an equality and the constant true for an inequality. -/
def replaceU2TypeEqOrNe (F : Function) (CI : Instruction) : Except Failure Function :=
  match CI.opcode with
  | Opcode.cmp Predicate.ICMP_EQ =>
    Except.ok (replaceAllUsesWith F CI.id (Value.constantInt 0))
  | Opcode.cmp Predicate.ICMP_NE =>
    Except.ok (replaceAllUsesWith F CI.id (Value.constantInt 1))
  | _ => Except.error Failure.predicateNotEqNe

/-- The procedure `SROA::replaceU1TypeGetElementPtr`; `NewAllocs` holds the new
allocations in field order. -/
def replaceU1TypeGetElementPtr (F : Function) (GEPI : Instruction) (NewAllocs : List Nat) :
    Except Failure Function :=
  if GEPI.operands.length < 3 then Except.error Failure.fewOperands
  else
    match GEPI.getOperand 2 with
    | some (Value.constantInt FieldConstVal) =>
      if FieldConstVal < 0 then Except.error Failure.fieldOutOfRange
      else
        match NewAllocs[FieldConstVal.toNat]? with
        | none => Except.error Failure.fieldOutOfRange
        | some StructFieldValue =>
          if GEPI.operands.length = 3 then
            Except.ok (replaceAllUsesWith F GEPI.id (Value.inst StructFieldValue))
          else
            Except.ok (replaceAllUsesWith
              (insertBefore
                { id := freshId F, opcode := Opcode.getElementPtr,
                  operands := Value.inst StructFieldValue
                    :: ((GEPI.operands.take 2).drop 1 ++ GEPI.operands.drop 3),
                  isVolatile := false }
                GEPI.id F)
              GEPI.id (Value.inst (freshId F)))
    | _ => Except.error Failure.fieldNotConstantInt

/-- Creating one new allocation in the entry block: before `FirstInstInFunc` when
there is one, at the end of the block otherwise. -/
def insertAlloca (FirstInstInFunc : Option Nat) (New : Instruction) : Function → Function
  | [] => []
  | B :: rest =>
    match FirstInstInFunc with
    | some pos => insertBeforeIn New pos B :: rest
    | none => (B ++ [New]) :: rest

/-- The first loop of `SROA::eliminateStructAlloca`: one new allocation per field,
in field order; the result is the function and `NewAllocsForAI`. -/
def createFieldAllocas (FirstInstInFunc : Option Nat) :
    List Ty → Function → Function × List Instruction
  | [], F => (F, [])
  | IthAllocaTy :: tys, F =>
    let IthAllocaInst : Instruction :=
      { id := freshId F, opcode := Opcode.alloca IthAllocaTy, operands := [],
        isVolatile := false }
    let r := createFieldAllocas FirstInstInFunc tys (insertAlloca FirstInstInFunc IthAllocaInst F)
    (r.1, IthAllocaInst :: r.2)

/-- The second loop of `SROA::eliminateStructAlloca`, over the users of the
allocation: each is rewritten as U1 or U2 and queued for erasure; the result is
the function and `UserInstToBeErased`. -/
def rewriteUsers (NewAllocs : List Nat) : List Nat → Function →
    Except Failure (Function × List Nat)
  | [], F => Except.ok (F, [])
  | u :: us, F =>
    match getInst F u with
    | none => Except.error Failure.dangling
    | some U =>
      match U.opcode with
      | Opcode.getElementPtr =>
        match replaceU1TypeGetElementPtr F U NewAllocs with
        | Except.error e => Except.error e
        | Except.ok G =>
          match rewriteUsers NewAllocs us G with
          | Except.error e => Except.error e
          | Except.ok r => Except.ok (r.1, u :: r.2)
      | Opcode.cmp _ =>
        match replaceU2TypeEqOrNe F U with
        | Except.error e => Except.error e
        | Except.ok G =>
          match rewriteUsers NewAllocs us G with
          | Except.error e => Except.error e
          | Except.ok r => Except.ok (r.1, u :: r.2)
      | _ => Except.error Failure.userNotU1OrU2

/-- The third loop of `SROA::eliminateStructAlloca`: erasing the queued users. -/
def eraseUsers : List Nat → Function → Function
  | [], F => F
  | u :: us, F => eraseUsers us (eraseFromParent F u)

/-- The procedure `SROA::eliminateStructAlloca` for the allocation `AI`: the
function afterwards and `SubAggrAllocas`. -/
def eliminateStructAlloca (F : Function) (AI : Nat) : Except Failure (Function × List Nat) :=
  match getInst F AI with
  | none => Except.error Failure.dangling
  | some A =>
    match A.opcode with
    | Opcode.alloca (Ty.struct fields) =>
      let r := createFieldAllocas ((getFirstNonPHI (getEntryBlock F)).map (fun I => I.id))
        fields F
      match rewriteUsers (r.2.map (fun N => N.id))
          ((users r.1 (Value.inst AI)).map (fun U => U.id)) r.1 with
      | Except.error e => Except.error e
      | Except.ok s =>
        Except.ok (eraseFromParent (eraseUsers s.2 s.1) AI,
          (r.2.filter (fun N => match N.opcode with
            | Opcode.alloca ty => ty.isAggregateType
            | _ => false)).map (fun N => N.id))
    | _ => Except.error Failure.notStructType

/-- The sum of the type weights of the allocations of a function. -/
def allocaWeight (F : Function) : Nat :=
  ((allInsts F).map Instruction.allocaWeight).sum

/-- The scan of `SROA::replaceStructAllocsWithIndividualFields`: the allocations
that satisfy `canBeEliminatedStructAlloca`, in function order. -/
def eliminatableAllocas (F : Function) : List Nat :=
  ((allInsts F).filter (fun I => I.isAlloca && canBeEliminatedStructAlloca F I)).map
    (fun I => I.id)

/-- Appending the eligible sub-aggregate allocations to the work list, whose back is
the head of the list. -/
def pushEligible (F : Function) : List Nat → List Nat → List Nat
  | [], WorkList => WorkList
  | s :: subs, WorkList =>
    match getInst F s with
    | some S =>
      if canBeEliminatedStructAlloca F S then pushEligible F subs (s :: WorkList)
      else pushEligible F subs WorkList
    | none => pushEligible F subs WorkList

/-- The work-list loop of `SROA::replaceStructAllocsWithIndividualFields`, with a
bound on the number of rounds; the back of the work list is the head of the
list. -/
def eliminateWorkList : Nat → List Nat → Function → Nat → Except Failure (Function × Nat)
  | _, [], F, ReplacementCount => Except.ok (F, ReplacementCount)
  | 0, _ :: _, _, _ => Except.error Failure.fuel
  | bound + 1, AIToBeEliminated :: WorkList, F, ReplacementCount =>
    match eliminateStructAlloca F AIToBeEliminated with
    | Except.error e => Except.error e
    | Except.ok r =>
      eliminateWorkList bound (pushEligible r.1 r.2 WorkList) r.1 (ReplacementCount + 1)

/-- The phase `SROA::replaceStructAllocsWithIndividualFields`: the function
afterwards and the number of decompositions. The bound on the rounds is one more
than the weight of the allocations, which no run uses up. -/
def replaceStructAllocsWithIndividualFields (F : Function) : Except Failure (Function × Nat) :=
  eliminateWorkList (allocaWeight F + 1) (eliminatableAllocas F).reverse F 0

/-- Modelled from the spec: the external promotion primitive `PromoteMemToReg`,
which is handed the allocations to promote, and its own eligibility test
`llvm::isAllocaPromotable`. -/
structure Host where
  PromoteMemToReg : List Nat → Function → Function
  isAllocaPromotable : Function → Instruction → Bool

/-- The scan of `SROA::promoteScalarAllocasToVirtualReg`: the allocations that
satisfy `isAllocaPromotable`, in function order, each checked against the
primitive's own test. -/
def promotableAllocas (H : Host) (F : Function) : List Instruction → Except Failure (List Nat)
  | [] => Except.ok []
  | I :: rest =>
    if I.isAlloca && isAllocaPromotable F I then
      if H.isAllocaPromotable F I then
        match promotableAllocas H F rest with
        | Except.error e => Except.error e
        | Except.ok V => Except.ok (I.id :: V)
      else Except.error Failure.wrongPromotableResult
    else promotableAllocas H F rest

/-- The phase `SROA::promoteScalarAllocasToVirtualReg`: the function afterwards and
the number of allocations handed to the primitive. -/
def promoteScalarAllocasToVirtualReg (H : Host) (F : Function) :
    Except Failure (Function × Nat) :=
  match promotableAllocas H F (allInsts F) with
  | Except.error e => Except.error e
  | Except.ok VecPromAllocaOfFunc =>
    if VecPromAllocaOfFunc.length > 0 then
      Except.ok (H.PromoteMemToReg VecPromAllocaOfFunc F, VecPromAllocaOfFunc.length)
    else Except.ok (F, VecPromAllocaOfFunc.length)

/-- The loop of `SROA::runOnFunction`, with the flag `Changed` and a bound on the
number of iterations. -/
def runLoop (H : Host) : Nat → Bool → Function → Except Failure (Function × Bool)
  | 0, _, _ => Except.error Failure.fuel
  | bound + 1, Changed, F =>
    match replaceStructAllocsWithIndividualFields F with
    | Except.error e => Except.error e
    | Except.ok r =>
      match promoteScalarAllocasToVirtualReg H r.1 with
      | Except.error e => Except.error e
      | Except.ok p =>
        let ChangedOneIteration := decide (r.2 > 0) || decide (p.2 > 0)
        if ChangedOneIteration then runLoop H bound (Changed || ChangedOneIteration) p.1
        else Except.ok (p.1, Changed || ChangedOneIteration)

/-- The pass entry `SROA::runOnFunction`, allowed `bound` iterations. -/
def runOnFunction (H : Host) (bound : Nat) (F : Function) : Except Failure (Function × Bool) :=
  runLoop H bound false F

/-- Modelled from the spec: the primitive's own eligibility test: every use is a
non-volatile memory-read or memory-write whose address operand is the allocation
and, for a write, whose value operand is not. -/
def llvmIsAllocaPromotable (F : Function) (AI : Instruction) : Bool :=
  (users F (Value.inst AI.id)).all (fun U =>
    match U.opcode with
    | Opcode.load => !U.isVolatile && decide (U.getOperand 0 = some (Value.inst AI.id))
    | Opcode.store =>
      !U.isVolatile && decide (U.getOperand 1 = some (Value.inst AI.id))
        && decide (U.getOperand 0 ≠ some (Value.inst AI.id))
    | _ => false)

/-- Replacing the operands that refer to promoted reads by the values read. -/
def substOperands (env : List (Nat × Value)) (I : Instruction) : Instruction :=
  { I with operands := I.operands.map (fun o =>
      match o with
      | Value.inst x =>
        match env.lookup x with
        | some V => V
        | none => o
      | _ => o) }

/-- Promoting one allocation along a sequence of instructions that execute in
order: a read of the allocation is replaced by the value last written, and the
allocation, its reads and its writes are deleted. -/
def promoteIn (AI : Nat) : List (Nat × Value) → Value → List Instruction → List Instruction
  | _, _, [] => []
  | env, cur, I :: rest =>
    match (substOperands env I).opcode with
    | Opcode.load =>
      if (substOperands env I).getOperand 0 = some (Value.inst AI) then
        promoteIn AI ((I.id, cur) :: env) cur rest
      else substOperands env I :: promoteIn AI env cur rest
    | Opcode.store =>
      if (substOperands env I).getOperand 1 = some (Value.inst AI) then
        promoteIn AI env (((substOperands env I).getOperand 0).getD Value.undef) rest
      else substOperands env I :: promoteIn AI env cur rest
    | Opcode.alloca _ =>
      if I.id = AI then promoteIn AI env cur rest
      else substOperands env I :: promoteIn AI env cur rest
    | _ => substOperands env I :: promoteIn AI env cur rest

/-- Modelled from the spec: the external promotion primitive on functions of one
block, in which every read is dominated by the writes before it: each handed
allocation is promoted in turn. -/
def promoteStraightLine : List Nat → Function → Function
  | [], F => F
  | AI :: rest, F =>
    promoteStraightLine rest (F.map (promoteIn AI [] Value.undef))

/-- The host used in the scenarios: the straight-line promotion primitive and the
primitive's eligibility test. -/
def straightLineHost : Host :=
  { PromoteMemToReg := promoteStraightLine, isAllocaPromotable := llvmIsAllocaPromotable }

/-- One iteration of the loop of `runOnFunction` as the contract words it:
decomposition, then promotion; the result is the function and the two counts. -/
def iteration (H : Host) (F : Function) : Except Failure (Function × Nat × Nat) :=
  match replaceStructAllocsWithIndividualFields F with
  | Except.error e => Except.error e
  | Except.ok r =>
    match promoteScalarAllocasToVirtualReg H r.1 with
    | Except.error e => Except.error e
    | Except.ok p => Except.ok (p.1, r.2, p.2)

/-- A run of iterations as the contract words it: every iteration but the last
decomposes or promotes at least one allocation, the last one has both counts zero;
the list holds the counts of the iterations in order. -/
inductive Iterates (H : Host) : Function → List (Nat × Nat) → Function → Prop where
  | last (F G : Function) (h : iteration H F = Except.ok (G, 0, 0)) :
      Iterates H F [(0, 0)] G
  | step (F F2 G : Function) (r p : Nat) (cs : List (Nat × Nat))
      (h : iteration H F = Except.ok (F2, r, p)) (hc : 0 < r ∨ 0 < p)
      (hrest : Iterates H F2 cs G) : Iterates H F ((r, p) :: cs) G

/-- The ids of the instructions of a function are pairwise distinct. -/
def UniqueIds (F : Function) : Prop := ((allInsts F).map (fun I => I.id)).Nodup

instance (F : Function) : Decidable (UniqueIds F) :=
  inferInstanceAs (Decidable (List.Nodup ((allInsts F).map (fun I : Instruction => I.id))))

/-- The allocations of a function with their types, in function order. -/
def allocaTypes (F : Function) : List (Nat × Ty) :=
  (allInsts F).filterMap (fun I =>
    match I.opcode with
    | Opcode.alloca ty => some (I.id, ty)
    | _ => none)

/-- The largest aggregate nesting depth among the types of the allocations of a
function. -/
def maxNestingDepth (F : Function) : Nat :=
  Ty.nestingDepthList ((allocaTypes F).map (fun e => e.2))

end SROA

namespace SROA

/-! ## SROA: scenarios -/

/-- A structure of two integer fields. -/
def pairTy : Ty := Ty.struct [Ty.int, Ty.int]

/-- A non-volatile instruction without operands other than the given ones. -/
def mkInst (id : Nat) (opcode : Opcode) (operands : List Value) : Instruction :=
  { id := id, opcode := opcode, operands := operands, isVolatile := false }

/-- The field address `getelementptr base, 0, k`. -/
def fieldAddr (id base : Nat) (k : Int) : Instruction :=
  mkInst id Opcode.getElementPtr [Value.inst base, Value.constantInt 0, Value.constantInt k]

/-- Scenario C, a one-level structure: `s` (id 1) of two integer fields is written
through `getelementptr s, 0, 0` and `getelementptr s, 0, 1` and read back through
`getelementptr s, 0, 0`; the value read is used by the last instruction. -/
def oneLevel : Function :=
  [[mkInst 1 (Opcode.alloca pairTy) [],
    fieldAddr 2 1 0,
    mkInst 3 Opcode.store [Value.constantInt 1, Value.inst 2],
    fieldAddr 4 1 1,
    mkInst 5 Opcode.store [Value.constantInt 2, Value.inst 4],
    fieldAddr 6 1 0,
    mkInst 7 Opcode.load [Value.inst 6],
    mkInst 8 Opcode.other [Value.inst 7]]]

/-- The outer structure of Scenario D: two integers and a pointer. -/
def outerTy : Ty := Ty.struct [Ty.int, Ty.int, Ty.ptr]

/-- Scenario D, a two-level structure referenced by pointer: the inner structure
`s1` (id 1) is written through its field addresses; the address of `s1` is stored
into the pointer field of the outer structure `s2` (id 2); the pointer is read back
and a field of the inner structure is read through it. -/
def twoLevel : Function :=
  [[mkInst 1 (Opcode.alloca pairTy) [],
    mkInst 2 (Opcode.alloca outerTy) [],
    fieldAddr 3 1 0,
    mkInst 4 Opcode.store [Value.constantInt 97, Value.inst 3],
    fieldAddr 5 1 1,
    mkInst 6 Opcode.store [Value.constantInt 98, Value.inst 5],
    fieldAddr 7 2 0,
    mkInst 8 Opcode.store [Value.constantInt 1, Value.inst 7],
    fieldAddr 9 2 2,
    mkInst 10 Opcode.store [Value.inst 1, Value.inst 9],
    fieldAddr 11 2 2,
    mkInst 12 Opcode.load [Value.inst 11],
    fieldAddr 13 12 0,
    mkInst 14 Opcode.load [Value.inst 13],
    mkInst 15 Opcode.other [Value.inst 14]]]

/-- A structure allocation with one user, a field address whose field index is a
constant that is not an integer constant: `a = alloca pairTy`,
`getelementptr a, 0, undef`. -/
def undefIndex : Function :=
  [[mkInst 1 (Opcode.alloca pairTy) [],
    mkInst 2 Opcode.getElementPtr
      [Value.inst 1, Value.constantInt 0, Value.undef]]]

end SROA

namespace SROA

/-- Scenario C after the pass: the read of field 0 is replaced by the value
written. -/
def oneLevelPromoted : Function := [[mkInst 8 Opcode.other [Value.constantInt 1]]]

/-- Scenario D after the pass: the read through the pointer is replaced by the
value written to the inner structure. -/
def twoLevelPromoted : Function := [[mkInst 15 Opcode.other [Value.constantInt 97]]]

/-- Scenario D after its first iteration: the outer structure is gone, the inner
structure is addressed directly. -/
def twoLevelFirst : Function :=
  [[mkInst 1 (Opcode.alloca pairTy) [],
    fieldAddr 3 1 0,
    mkInst 4 Opcode.store [Value.constantInt 97, Value.inst 3],
    fieldAddr 5 1 1,
    mkInst 6 Opcode.store [Value.constantInt 98, Value.inst 5],
    fieldAddr 13 1 0,
    mkInst 14 Opcode.load [Value.inst 13],
    mkInst 15 Opcode.other [Value.inst 14]]]

end SROA

namespace SROA

/-- Scenario D after the decomposition phase of its first iteration: the outer
structure is replaced by three allocations at the start of the entry block; the
address of the inner structure is still stored, now into the third of them. -/
def twoLevelDecomposed : Function :=
  [[mkInst 16 (Opcode.alloca Ty.int) [],
    mkInst 17 (Opcode.alloca Ty.int) [],
    mkInst 18 (Opcode.alloca Ty.ptr) [],
    mkInst 1 (Opcode.alloca pairTy) [],
    fieldAddr 3 1 0,
    mkInst 4 Opcode.store [Value.constantInt 97, Value.inst 3],
    fieldAddr 5 1 1,
    mkInst 6 Opcode.store [Value.constantInt 98, Value.inst 5],
    mkInst 8 Opcode.store [Value.constantInt 1, Value.inst 16],
    mkInst 10 Opcode.store [Value.inst 1, Value.inst 18],
    mkInst 12 Opcode.load [Value.inst 18],
    fieldAddr 13 12 0,
    mkInst 14 Opcode.load [Value.inst 13],
    mkInst 15 Opcode.other [Value.inst 14]]]

end SROA

namespace SROA

/-- Scenario C after the decomposition of `s`: one integer allocation per field at
the start of the entry block, used where the field addresses were. -/
def oneLevelDecomposed : Function :=
  [[mkInst 9 (Opcode.alloca Ty.int) [],
    mkInst 10 (Opcode.alloca Ty.int) [],
    mkInst 3 Opcode.store [Value.constantInt 1, Value.inst 9],
    mkInst 5 Opcode.store [Value.constantInt 2, Value.inst 10],
    mkInst 7 Opcode.load [Value.inst 9],
    mkInst 8 Opcode.other [Value.inst 7]]]

end SROA

namespace SROA

/-! ## SROA: the rewrite of the users -/

/-- The instruction `NewGEPI` that `replaceU1TypeGetElementPtr` creates for a field
address with trailing indices: its base is the new allocation of the field, its
indices are the first index of the old instruction and the indices after the field
index. -/
def NewGEPI (F : Function) (GEPI : Instruction) (StructFieldValue : Nat) : Instruction :=
  { id := freshId F, opcode := Opcode.getElementPtr,
    operands := Value.inst StructFieldValue
      :: ((GEPI.operands.take 2).drop 1 ++ GEPI.operands.drop 3),
    isVolatile := false }

/-- The instruction `IthAllocaInst` that `eliminateStructAlloca` creates for a field
of type `IthAllocaTy`. -/
def IthAllocaInst (F : Function) (IthAllocaTy : Ty) : Instruction :=
  { id := freshId F, opcode := Opcode.alloca IthAllocaTy, operands := [],
    isVolatile := false }

/-- One round of the loop over the users in `eliminateStructAlloca`: the user `U` is
rewritten by `replaceU1TypeGetElementPtr` when it is a `getelementptr` and by
`replaceU2TypeEqOrNe` when it is a comparison, and `G` is the function afterwards. -/
def RewriteStep (NewAllocs : List Nat) (F : Function) (U : Instruction) (G : Function) :
    Prop :=
  (U.opcode = Opcode.getElementPtr
      ∧ replaceU1TypeGetElementPtr F U NewAllocs = Except.ok G)
    ∨ ((∃ p, U.opcode = Opcode.cmp p) ∧ replaceU2TypeEqOrNe F U = Except.ok G)

/-- The chain of field addresses rooted at the allocation `a`: the `getelementptr`
users of the allocation and, recursively, the `getelementptr` users of the members
of the chain. -/
inductive InChain (F : Function) (a : Nat) : Instruction → Prop where
  | root (G : Instruction) (hG : G ∈ users F (Value.inst a))
      (ho : G.opcode = Opcode.getElementPtr) : InChain F a G
  | next (G U : Instruction) (hG : InChain F a G) (hU : U ∈ users F (Value.inst G.id))
      (ho : U.opcode = Opcode.getElementPtr) : InChain F a U

/-- The number of allocations of a function. -/
def countAllocas (F : Function) : Nat := (allInsts F).countP Instruction.isAlloca

/-- A structure of an integer and a structure of two integers. -/
def nestedTy : Ty := Ty.struct [Ty.int, pairTy]

/-- A structure with a nested structure: `a` (id 1) is written through the field
address `getelementptr a, 0, 0` and through `getelementptr a, 0, 1, 1`, read through
`getelementptr a, 0, 1, 0`, and compared with the null pointer for equality and for
inequality. -/
def nested : Function :=
  [[mkInst 1 (Opcode.alloca nestedTy) [],
    fieldAddr 2 1 0,
    mkInst 3 Opcode.store [Value.constantInt 7, Value.inst 2],
    mkInst 4 Opcode.getElementPtr
      [Value.inst 1, Value.constantInt 0, Value.constantInt 1, Value.constantInt 1],
    mkInst 5 Opcode.store [Value.constantInt 9, Value.inst 4],
    mkInst 6 Opcode.getElementPtr
      [Value.inst 1, Value.constantInt 0, Value.constantInt 1, Value.constantInt 0],
    mkInst 7 Opcode.load [Value.inst 6],
    mkInst 8 (Opcode.cmp Predicate.ICMP_EQ) [Value.inst 1, Value.constantPointerNull],
    mkInst 9 Opcode.other [Value.inst 8],
    mkInst 10 (Opcode.cmp Predicate.ICMP_NE) [Value.constantPointerNull, Value.inst 1],
    mkInst 11 Opcode.other [Value.inst 10, Value.inst 7]]]

/-- The function `nested` after the decomposition of `a`: the allocations 12 and 13
for the two fields, and the field addresses 14 and 15 into the nested structure. -/
def nestedDecomposed : Function :=
  [[mkInst 12 (Opcode.alloca Ty.int) [],
    mkInst 13 (Opcode.alloca pairTy) [],
    mkInst 3 Opcode.store [Value.constantInt 7, Value.inst 12],
    mkInst 14 Opcode.getElementPtr
      [Value.inst 13, Value.constantInt 0, Value.constantInt 1],
    mkInst 5 Opcode.store [Value.constantInt 9, Value.inst 14],
    mkInst 15 Opcode.getElementPtr
      [Value.inst 13, Value.constantInt 0, Value.constantInt 0],
    mkInst 7 Opcode.load [Value.inst 15],
    mkInst 9 Opcode.other [Value.constantInt 0],
    mkInst 11 Opcode.other [Value.constantInt 1, Value.inst 7]]]

end SROA

namespace SROA

/-! ## SROA: the work list of the decomposition phase -/

namespace Ty

mutual

/-- The number of structure-typed nodes of a type tree. -/
def structNodes : Ty → Nat
  | struct fs => 1 + structNodesList fs
  | array _ e => structNodes e
  | vector e => structNodes e
  | int => 0
  | fp => 0
  | ptr => 0

/-- The number of structure-typed nodes of a list of type trees. -/
def structNodesList : List Ty → Nat
  | [] => 0
  | t :: ts => structNodes t + structNodesList ts

end

/-- Modelled from the spec: the type that a list of constant indices selects inside a
type, as the host IR types an indexed field address: a structure is indexed by an
integer constant that names one of its fields, an array or a vector by a constant,
and a scalar is not indexed. -/
def walk : Ty → List Value → Option Ty
  | ty, [] => some ty
  | struct fs, Value.constantInt k :: rest =>
    if k < 0 then none
    else
      match fs[k.toNat]? with
      | some f => walk f rest
      | none => none
  | array _ e, idx :: rest => if idx.isConstant then walk e rest else none
  | vector e, idx :: rest => if idx.isConstant then walk e rest else none
  | _, _ :: _ => none

end Ty

/-- Modelled from the spec: the field addresses that are based, directly or through
other field addresses, on a value whose pointee has the given type select existing
fields; the depth of the chains is bounded. -/
def wellTypedChain (F : Function) : Nat → Nat → Ty → Bool
  | 0, _, _ => false
  | fuel + 1, v, ty =>
    (allInsts F).all (fun g =>
      if g.opcode = Opcode.getElementPtr ∧ g.getOperand 0 = some (Value.inst v) then
        match ty.walk (g.operands.drop 2) with
        | some ty2 => wellTypedChain F fuel g.id ty2
        | none => false
      else true)

/-- The instruction `NewGEPI` that `replaceU1TypeGetElementPtr` creates, with the
identity it is given: the base is the new allocation of the field, the indices are
operand 1 of the old instruction and its operands from position 3 on. -/
def NewGEPIWithId (n : Nat) (GEPI : Instruction) (StructFieldValue : Nat) : Instruction :=
  { id := n, opcode := Opcode.getElementPtr,
    operands := Value.inst StructFieldValue
      :: ((GEPI.operands.take 2).drop 1 ++ GEPI.operands.drop 3),
    isVolatile := false }

/-- What the rewrite loop of `eliminateStructAlloca` puts in place of one user of the
allocation: the constant 0 for an equality comparison, the constant 1 for an
inequality comparison, the new allocation of the field for a field address with the
indices (0, k), and a new instruction for a field address with further indices. -/
def RewriteEntry (F0 : Function) (NewAllocs : List Nat) (e : Nat × Value) : Prop :=
  ∃ U, getInst F0 e.1 = some U
    ∧ ((U.opcode = Opcode.cmp Predicate.ICMP_EQ ∧ e.2 = Value.constantInt 0)
      ∨ (U.opcode = Opcode.cmp Predicate.ICMP_NE ∧ e.2 = Value.constantInt 1)
      ∨ (U.opcode = Opcode.getElementPtr
        ∧ ∃ k t, U.getOperand 2 = some (Value.constantInt (Int.ofNat k))
          ∧ NewAllocs[k]? = some t
          ∧ ((U.operands.length = 3 ∧ e.2 = Value.inst t)
            ∨ (3 < U.operands.length ∧ ∃ n, freshId F0 ≤ n ∧ e.2 = Value.inst n))))

/-- The instruction the rewrite loop creates for one user: the new field address of
a field address with further indices. -/
def RewriteNew (F0 : Function) (NewAllocs : List Nat) (e : Nat × Value)
    (I : Instruction) : Prop :=
  ∃ U k t n, getInst F0 e.1 = some U ∧ U.opcode = Opcode.getElementPtr
    ∧ 3 < U.operands.length
    ∧ U.getOperand 2 = some (Value.constantInt (Int.ofNat k)) ∧ NewAllocs[k]? = some t
    ∧ e.2 = Value.inst n ∧ freshId F0 ≤ n ∧ I = NewGEPIWithId n U t

/-- The state of the rewrite loop of `eliminateStructAlloca` after the users in `env`
have had their round, relative to the function `F0` the loop started on: the
instructions are those of `F0` with the rewritten users replaced in the operands,
and the new field addresses; the identities of the new field addresses are new and
pairwise distinct. -/
def RewriteInv (F0 : Function) (NewAllocs : List Nat) (env : List (Nat × Value))
    (Fc : Function) : Prop :=
  (∀ I, I ∈ allInsts Fc ↔
      (∃ W ∈ allInsts F0, I = substOperands env W)
        ∨ (∃ e ∈ env, RewriteNew F0 NewAllocs e I))
    ∧ (∀ e ∈ env, RewriteEntry F0 NewAllocs e)
    ∧ (∀ e ∈ env, ∀ n, e.2 = Value.inst n → freshId F0 ≤ n → n < freshId Fc)
    ∧ (∀ e1 ∈ env, ∀ e2 ∈ env, ∀ n, freshId F0 ≤ n → e1.2 = Value.inst n →
        e2.2 = Value.inst n → e1.1 = e2.1)
    ∧ freshId F0 ≤ freshId Fc

/-- The function after `eliminateStructAlloca` on the allocation `AI`, described from
the function before: the new allocations, what each user of the allocation was
replaced with, and the instructions of the function afterwards, which are the new
allocations, the instructions that were there before, without the allocation and
its users and with the users replaced in the operands, and the new field
addresses. -/
def Decomposed (F : Function) (AI : Instruction) (fs : List Ty) (G : Function)
    (subs : List Nat) (News : List Instruction) (env : List (Nat × Value)) : Prop :=
  News.map (fun A => A.opcode) = fs.map Opcode.alloca
    ∧ (∀ A ∈ News, A.operands = [] ∧ A.isVolatile = false ∧ freshId F ≤ A.id)
    ∧ (News.map (fun A => A.id)).Nodup
    ∧ env.map (fun e => e.1) = (users F (Value.inst AI.id)).map (fun U => U.id)
    ∧ (∀ e ∈ env, RewriteEntry F (News.map (fun A => A.id)) e)
    ∧ (∀ e ∈ env, ∀ x, e.2 = Value.inst x → freshId F ≤ x)
    ∧ (∀ e1 ∈ env, ∀ e2 ∈ env, ∀ J, RewriteNew F (News.map (fun A => A.id)) e1 J →
        e2.2 = e1.2 → e2.1 = e1.1)
    ∧ (∀ e ∈ env, ∀ J, RewriteNew F (News.map (fun A => A.id)) e J →
        J.id ∉ News.map (fun A => A.id))
    ∧ (∀ I, I ∈ allInsts G ↔
        I ∈ News
          ∨ (∃ W ∈ allInsts F, W.id ∉ (users F (Value.inst AI.id)).map (fun U => U.id)
              ∧ W.id ≠ AI.id ∧ I = substOperands env W)
          ∨ (∃ e ∈ env, RewriteNew F (News.map (fun A => A.id)) e I))
    ∧ UniqueIds G
    ∧ subs = (News.filter (fun N => match N.opcode with
        | Opcode.alloca ty => ty.isAggregateType
        | _ => false)).map (fun N => N.id)

/-- The test that `isU1TypeGetElementPtr` makes on one user of the instruction `g`,
with the depth bound that is left for a user that is a field address itself. -/
def U1User (F : Function) (n : Nat) (g : Nat) (U : Instruction) : Prop :=
  (U.opcode = Opcode.getElementPtr ∧ isU1Fuel F n U (Value.inst g) = true)
    ∨ (∃ p, U.opcode = Opcode.cmp p ∧ isU2TypeEqOrNe U (Value.inst g) = true)
    ∨ (U.opcode = Opcode.load ∧ U.getOperand 0 = some (Value.inst g))
    ∨ (U.opcode = Opcode.store ∧ U.getOperand 1 = some (Value.inst g))

/-- The invariant of the work-list loop: the instructions of the function have
distinct identities, no allocation is on the work list twice, and every allocation on
the work list is in the function and satisfies `canBeEliminatedStructAlloca`. -/
def WorkListOk (F : Function) (WorkList : List Nat) : Prop :=
  UniqueIds F ∧ WorkList.Nodup
    ∧ ∀ b ∈ WorkList, ∃ B ∈ allInsts F, B.id = b ∧ canBeEliminatedStructAlloca F B = true

instance (F : Function) (WorkList : List Nat) : Decidable (WorkListOk F WorkList) :=
  inferInstanceAs (Decidable (UniqueIds F ∧ WorkList.Nodup
    ∧ ∀ b ∈ WorkList, ∃ B ∈ allInsts F, B.id = b ∧ canBeEliminatedStructAlloca F B = true))

/-- Modelled from the spec: the field addresses based on the allocations of a work
list are well typed. -/
def WorkListTyped (F : Function) (WorkList : List Nat) : Prop :=
  ∀ b ∈ WorkList, ∀ B ∈ allInsts F, B.id = b → ∀ ty, B.opcode = Opcode.alloca ty →
    ∃ n, wellTypedChain F n b ty = true

/-- The number of structure-typed nodes in the type of the allocation with the given
identity; 0 when there is no such allocation. -/
def structNodesAt (F : Function) (a : Nat) : Nat :=
  match (allocaTypes F).lookup a with
  | some ty => ty.structNodes
  | none => 0

/-- The structure-typed nodes in the types of the allocations on a work list. -/
def workListNodes (F : Function) (WorkList : List Nat) : Nat :=
  (WorkList.map (structNodesAt F)).sum

/-- The rounds of the work-list loop of
`SROA::replaceStructAllocsWithIndividualFields`: for each round the allocation that
is popped, the rest of the work list and the function at that moment. The rounds
end when the work list is empty or a decomposition stops at a defensive branch. -/
def workListTrace : Nat → List Nat → Function → List (Nat × List Nat × Function)
  | _, [], _ => []
  | 0, _ :: _, _ => []
  | bound + 1, AIToBeEliminated :: WorkList, F =>
    (AIToBeEliminated, WorkList, F) ::
      match eliminateStructAlloca F AIToBeEliminated with
      | Except.error _ => []
      | Except.ok r => workListTrace bound (pushEligible r.1 r.2 WorkList) r.1

/-- The rounds of one call of `SROA::replaceStructAllocsWithIndividualFields`. -/
def replaceTrace (F : Function) : List (Nat × List Nat × Function) :=
  workListTrace (allocaWeight F + 1) (eliminatableAllocas F).reverse F

/-- Modelled from the spec: the typing rule of the host IR for a store. The address
operand is a pointer to the type of the value operand, so no store has one and the
same value as its value operand and as its address operand. -/
def TypedStores (F : Function) : Prop :=
  ∀ S ∈ allInsts F, S.opcode = Opcode.store → S.getOperand 0 ≠ S.getOperand 1

instance (F : Function) : Decidable (TypedStores F) :=
  inferInstanceAs (Decidable
    (∀ S ∈ allInsts F, S.opcode = Opcode.store → S.getOperand 0 ≠ S.getOperand 1))

/-- An integer allocation whose address is written to memory: `a = alloca int`,
`q = alloca ptr`, `store a, q`. -/
def storedAddress : Function :=
  [[mkInst 1 (Opcode.alloca Ty.int) [],
    mkInst 2 (Opcode.alloca Ty.ptr) [],
    mkInst 3 Opcode.store [Value.inst 1, Value.inst 2]]]

/-- A structure allocation with a field address whose field index is a constant that
is not an integer constant, and a field address of field 0 that a store writes
through: `a = alloca pairTy`, `getelementptr a, 0, undef`, `g = getelementptr a, 0, 0`,
`store 7, g`. -/
def undefSibling : Function :=
  [[mkInst 1 (Opcode.alloca pairTy) [],
    mkInst 2 Opcode.getElementPtr [Value.inst 1, Value.constantInt 0, Value.undef],
    fieldAddr 3 1 0,
    mkInst 4 Opcode.store [Value.constantInt 7, Value.inst 3]]]

/-- A structure allocation with a field address whose field index is a constant that
is not an integer constant, and a comparison with the null pointer that another
instruction uses: `a = alloca pairTy`, `getelementptr a, 0, undef`,
`c = icmp eq a, null`, an instruction that uses `c`. -/
def undefCompared : Function :=
  [[mkInst 1 (Opcode.alloca pairTy) [],
    mkInst 2 Opcode.getElementPtr [Value.inst 1, Value.constantInt 0, Value.undef],
    mkInst 3 (Opcode.cmp Predicate.ICMP_EQ) [Value.inst 1, Value.constantPointerNull],
    mkInst 4 Opcode.other [Value.inst 3]]]

/-- A structure allocation with a field address whose field index is a constant that
is not an integer constant, and a field address of field 1 that a load reads
through: `a = alloca pairTy`, `getelementptr a, 0, undef`, `g = getelementptr a, 0, 1`,
`load g`. -/
def undefLoaded : Function :=
  [[mkInst 1 (Opcode.alloca pairTy) [],
    mkInst 2 Opcode.getElementPtr [Value.inst 1, Value.constantInt 0, Value.undef],
    fieldAddr 3 1 1,
    mkInst 4 Opcode.load [Value.inst 3]]]

/-- A structure with a nested structure whose only user is a field address into the
nested structure with a trailing index that is a constant but not an integer
constant: `a = alloca nestedTy`, `getelementptr a, 0, 1, undef`. -/
def nestedUndef : Function :=
  [[mkInst 1 (Opcode.alloca nestedTy) [],
    mkInst 2 Opcode.getElementPtr
      [Value.inst 1, Value.constantInt 0, Value.constantInt 1, Value.undef]]]

/-- The function `nestedUndef` after the decomposition of `a`: the allocations of the
two fields and the new field address into the allocation of the nested structure. -/
def nestedUndefFirst : Function :=
  [[mkInst 3 (Opcode.alloca Ty.int) [],
    mkInst 4 (Opcode.alloca pairTy) [],
    mkInst 5 Opcode.getElementPtr [Value.inst 4, Value.constantInt 0, Value.undef]]]

/-- Scenario C next to a second structure allocation with a field address whose
field index is a constant that is not an integer constant: the instructions of
`oneLevel`, and after the allocation `s` the allocation `b = alloca pairTy` (id 9)
with the field address `getelementptr b, 0, undef` (id 10). -/
def oneLevelUndef : Function :=
  [[mkInst 1 (Opcode.alloca pairTy) [],
    mkInst 9 (Opcode.alloca pairTy) [],
    mkInst 10 Opcode.getElementPtr [Value.inst 9, Value.constantInt 0, Value.undef],
    fieldAddr 2 1 0,
    mkInst 3 Opcode.store [Value.constantInt 1, Value.inst 2],
    fieldAddr 4 1 1,
    mkInst 5 Opcode.store [Value.constantInt 2, Value.inst 4],
    fieldAddr 6 1 0,
    mkInst 7 Opcode.load [Value.inst 6],
    mkInst 8 Opcode.other [Value.inst 7]]]

/-- Scenario C with a second structure allocation that has the same form: the
allocation `s` (id 1) of `oneLevel` and the allocation `b` (id 9), both of two
integers; field 1 of `b` is written and read back through `getelementptr b, 0, 1`
(id 10), and the last instruction uses both values read. -/
def twoStructs : Function :=
  [[mkInst 1 (Opcode.alloca pairTy) [],
    mkInst 9 (Opcode.alloca pairTy) [],
    fieldAddr 2 1 0,
    mkInst 3 Opcode.store [Value.constantInt 1, Value.inst 2],
    fieldAddr 4 1 1,
    mkInst 5 Opcode.store [Value.constantInt 2, Value.inst 4],
    fieldAddr 10 9 1,
    mkInst 11 Opcode.store [Value.constantInt 3, Value.inst 10],
    fieldAddr 6 1 0,
    mkInst 7 Opcode.load [Value.inst 6],
    mkInst 12 Opcode.load [Value.inst 10],
    mkInst 8 Opcode.other [Value.inst 7, Value.inst 12]]]

/-- The function `twoStructs` after the first round of the work-list loop: `b` is
replaced by the allocations 13 and 14 of its fields. -/
def twoStructsFirst : Function :=
  [[mkInst 13 (Opcode.alloca Ty.int) [],
    mkInst 14 (Opcode.alloca Ty.int) [],
    mkInst 1 (Opcode.alloca pairTy) [],
    fieldAddr 2 1 0,
    mkInst 3 Opcode.store [Value.constantInt 1, Value.inst 2],
    fieldAddr 4 1 1,
    mkInst 5 Opcode.store [Value.constantInt 2, Value.inst 4],
    mkInst 11 Opcode.store [Value.constantInt 3, Value.inst 14],
    fieldAddr 6 1 0,
    mkInst 7 Opcode.load [Value.inst 6],
    mkInst 12 Opcode.load [Value.inst 14],
    mkInst 8 Opcode.other [Value.inst 7, Value.inst 12]]]

/-- The function `twoStructs` after the decomposition phase: `s` is replaced by the
allocations 15 and 16 of its fields. -/
def twoStructsDecomposed : Function :=
  [[mkInst 15 (Opcode.alloca Ty.int) [],
    mkInst 16 (Opcode.alloca Ty.int) [],
    mkInst 13 (Opcode.alloca Ty.int) [],
    mkInst 14 (Opcode.alloca Ty.int) [],
    mkInst 3 Opcode.store [Value.constantInt 1, Value.inst 15],
    mkInst 5 Opcode.store [Value.constantInt 2, Value.inst 16],
    mkInst 11 Opcode.store [Value.constantInt 3, Value.inst 14],
    mkInst 7 Opcode.load [Value.inst 15],
    mkInst 12 Opcode.load [Value.inst 14],
    mkInst 8 Opcode.other [Value.inst 7, Value.inst 12]]]

/-- The function `twoStructs` after the promotion phase of the same iteration. -/
def twoStructsPromoted : Function :=
  [[mkInst 8 Opcode.other [Value.constantInt 1, Value.constantInt 3]]]

/-- The form of the allocation of Scenario C: every user of the allocation `a` is a
field address `(a, 0, k)` with `k` a field number, and every user of such a field
address is a non-volatile load from it or a non-volatile store to it that does not
store it. -/
def ScalarFieldForm (F : Function) (a : Nat) (fs : List Ty) : Prop :=
  (∀ U ∈ users F (Value.inst a), U.opcode = Opcode.getElementPtr
      ∧ ∃ k, k < fs.length ∧ U.operands
          = [Value.inst a, Value.constantInt 0, Value.constantInt (Int.ofNat k)])
    ∧ (∀ U ∈ users F (Value.inst a), ∀ W ∈ users F (Value.inst U.id),
      (W.opcode = Opcode.load ∧ W.isVolatile = false
        ∧ W.getOperand 0 = some (Value.inst U.id))
      ∨ (W.opcode = Opcode.store ∧ W.isVolatile = false
        ∧ W.getOperand 1 = some (Value.inst U.id)
        ∧ W.getOperand 0 ≠ some (Value.inst U.id)))

end SROA
/-! ## Blocks and erasure -/

theorem blockInsts_of_length_le (F : Function) (b : Nat) (h : F.length ≤ b) :
    blockInsts F b = [] := by
  simp [blockInsts, List.getElem?_eq_none h]

theorem length_eraseFromParent (F : Function) (d : Nat × Nat) :
    (eraseFromParent F d).length = F.length := by
  simp [eraseFromParent]

theorem blockInsts_eraseFromParent (F : Function) (d : Nat × Nat) (b : Nat) :
    blockInsts (eraseFromParent F d) b
      = (blockInsts F b).filter (fun J => decide (¬ (b, J.id) = d)) := by
  unfold blockInsts eraseFromParent
  rw [List.getElem?_modify]
  cases hb : F[b]? with
  | none => simp
  | some B =>
    by_cases hd : d.1 = b
    · subst hd
      simp only [Option.map_eq_map, Option.map_some', if_true]
      apply List.filter_congr
      intro J _
      cases d
      simp
    · simp only [Option.map_eq_map, Option.map_some', if_neg hd]
      symm
      rw [List.filter_eq_self]
      intro J _
      cases d
      simp only [decide_eq_true_eq, Prod.mk.injEq, not_and]
      intro h1
      exact absurd h1.symm hd

theorem length_eraseAll (dead : List (Nat × Nat)) (F : Function) :
    (eraseAll F dead).length = F.length := by
  induction dead generalizing F with
  | nil => rfl
  | cons d ds ih =>
    simp only [eraseAll, List.foldl_cons] at ih ⊢
    rw [ih, length_eraseFromParent]

theorem blockInsts_eraseAll (dead : List (Nat × Nat)) (F : Function) (b : Nat) :
    blockInsts (eraseAll F dead) b
      = (blockInsts F b).filter (fun J => decide ((b, J.id) ∉ dead)) := by
  induction dead generalizing F with
  | nil => simp [eraseAll]
  | cons d ds ih =>
    simp only [eraseAll, List.foldl_cons] at ih ⊢
    rw [ih, blockInsts_eraseFromParent, List.filter_filter]
    apply List.filter_congr
    intro J _
    simp only [List.mem_cons, not_or, Bool.decide_and]
    rw [Bool.and_comm]

/-! ## The first scan -/

theorem mem_markLive (I x : Nat) (s : State) :
    x ∈ (markLive I s).LiveSet ↔ x = I ∨ x ∈ s.LiveSet := by
  unfold markLive
  by_cases h : I ∈ s.LiveSet
  · simp only [if_pos h]
    constructor
    · intro hx; exact Or.inr hx
    · rintro (rfl | hx)
      · exact h
      · exact hx
  · simp [if_neg h]

theorem markLive_work_eq (I : Nat) (s : State) (h : s.WorkList = s.LiveSet) :
    (markLive I s).WorkList = (markLive I s).LiveSet := by
  unfold markLive
  by_cases hI : I ∈ s.LiveSet
  · simp [if_pos hI, h]
  · simp [if_neg hI, h]

theorem scanBlock_live (F : Function) (b : Nat) (insts : List Instruction)
    (s : State) (dead : List (Nat × Nat)) (x : Nat) :
    x ∈ (scanBlock F b insts (s, dead)).1.LiveSet
      ↔ x ∈ s.LiveSet ∨ ∃ I ∈ insts, isTriviallyLive I = true ∧ I.id = x := by
  induction insts generalizing s dead with
  | nil => simp [scanBlock]
  | cons I rest ih =>
    unfold scanBlock
    by_cases h1 : isTriviallyLive I = true
    · simp only [if_pos h1]
      rw [ih, mem_markLive]
      constructor
      · rintro ((rfl | h) | ⟨J, hJ, hJ2⟩)
        · exact Or.inr ⟨I, List.mem_cons_self _ _, h1, rfl⟩
        · exact Or.inl h
        · exact Or.inr ⟨J, List.mem_cons_of_mem _ hJ, hJ2⟩
      · rintro (h | ⟨J, hJ, hJ2, hJ3⟩)
        · exact Or.inl (Or.inr h)
        · rcases List.mem_cons.1 hJ with rfl | hJ
          · exact Or.inl (Or.inl hJ3.symm)
          · exact Or.inr ⟨J, hJ, hJ2, hJ3⟩
    · simp only [if_neg h1]
      have key : (x ∈ s.LiveSet ∨ ∃ J ∈ I :: rest, isTriviallyLive J = true ∧ J.id = x)
          ↔ (x ∈ s.LiveSet ∨ ∃ J ∈ rest, isTriviallyLive J = true ∧ J.id = x) := by
        constructor
        · rintro (h | ⟨J, hJ, hJ2, hJ3⟩)
          · exact Or.inl h
          · rcases List.mem_cons.1 hJ with rfl | hJ
            · exact absurd hJ2 h1
            · exact Or.inr ⟨J, hJ, hJ2, hJ3⟩
        · rintro (h | ⟨J, hJ, hJ2⟩)
          · exact Or.inl h
          · exact Or.inr ⟨J, List.mem_cons_of_mem _ hJ, hJ2⟩
      rw [key]
      by_cases h2 : use_empty F I.id = true
      · simp only [if_pos h2]; exact ih s _
      · simp only [if_neg h2]; exact ih s _

theorem scanBlock_work_eq (F : Function) (b : Nat) (insts : List Instruction)
    (s : State) (dead : List (Nat × Nat)) (h : s.WorkList = s.LiveSet) :
    (scanBlock F b insts (s, dead)).1.WorkList = (scanBlock F b insts (s, dead)).1.LiveSet := by
  induction insts generalizing s dead with
  | nil => simpa [scanBlock] using h
  | cons I rest ih =>
    unfold scanBlock
    by_cases h1 : isTriviallyLive I = true
    · simp only [if_pos h1]
      exact ih _ _ (markLive_work_eq _ _ h)
    · simp only [if_neg h1]
      by_cases h2 : use_empty F I.id = true
      · simp only [if_pos h2]; exact ih s _ h
      · simp only [if_neg h2]; exact ih s _ h

theorem scanBlock_dead (F : Function) (b : Nat) (insts : List Instruction)
    (s : State) (dead : List (Nat × Nat)) (d : Nat × Nat) :
    d ∈ (scanBlock F b insts (s, dead)).2
      ↔ d ∈ dead ∨ ∃ I ∈ insts, isTriviallyLive I = false ∧ use_empty F I.id = true
          ∧ d = (b, I.id) := by
  induction insts generalizing s dead with
  | nil => simp [scanBlock]
  | cons I rest ih =>
    unfold scanBlock
    by_cases h1 : isTriviallyLive I = true
    · simp only [if_pos h1]
      rw [ih]
      constructor
      · rintro (h | ⟨J, hJ, hJ2⟩)
        · exact Or.inl h
        · exact Or.inr ⟨J, List.mem_cons_of_mem _ hJ, hJ2⟩
      · rintro (h | ⟨J, hJ, hJ2, hJ3⟩)
        · exact Or.inl h
        · rcases List.mem_cons.1 hJ with rfl | hJ
          · rw [h1] at hJ2; exact absurd hJ2 (by decide)
          · exact Or.inr ⟨J, hJ, hJ2, hJ3⟩
    · simp only [if_neg h1]
      by_cases h2 : use_empty F I.id = true
      · simp only [if_pos h2]
        rw [ih]
        constructor
        · rintro (h | ⟨J, hJ, hJ2⟩)
          · rcases List.mem_append.1 h with h | h
            · exact Or.inl h
            · refine Or.inr ⟨I, List.mem_cons_self _ _, by simpa using h1, h2, ?_⟩
              simpa using h
          · exact Or.inr ⟨J, List.mem_cons_of_mem _ hJ, hJ2⟩
        · rintro (h | ⟨J, hJ, hJ2, hJ3, hJ4⟩)
          · exact Or.inl (List.mem_append.2 (Or.inl h))
          · rcases List.mem_cons.1 hJ with rfl | hJ
            · exact Or.inl (List.mem_append.2 (Or.inr (by simp [hJ4])))
            · exact Or.inr ⟨J, hJ, hJ2, hJ3, hJ4⟩
      · simp only [if_neg h2]
        rw [ih]
        constructor
        · rintro (h | ⟨J, hJ, hJ2⟩)
          · exact Or.inl h
          · exact Or.inr ⟨J, List.mem_cons_of_mem _ hJ, hJ2⟩
        · rintro (h | ⟨J, hJ, hJ2, hJ3, hJ4⟩)
          · exact Or.inl h
          · rcases List.mem_cons.1 hJ with rfl | hJ
            · exact absurd hJ3 h2
            · exact Or.inr ⟨J, hJ, hJ2, hJ3, hJ4⟩

theorem scan_live (F : Function) (R : List Nat) (acc : State × List (Nat × Nat)) (x : Nat) :
    x ∈ (scan F R acc).1.LiveSet
      ↔ x ∈ acc.1.LiveSet
        ∨ ∃ b ∈ R, ∃ I ∈ blockInsts F b, isTriviallyLive I = true ∧ I.id = x := by
  induction R generalizing acc with
  | nil => simp [scan]
  | cons b bs ih =>
    unfold scan
    rw [ih]
    obtain ⟨s, dead⟩ := acc
    rw [scanBlock_live]
    constructor
    · rintro ((h | h) | ⟨c, hc, h⟩)
      · exact Or.inl h
      · exact Or.inr ⟨b, List.mem_cons_self _ _, h⟩
      · exact Or.inr ⟨c, List.mem_cons_of_mem _ hc, h⟩
    · rintro (h | ⟨c, hc, h⟩)
      · exact Or.inl (Or.inl h)
      · rcases List.mem_cons.1 hc with rfl | hc
        · exact Or.inl (Or.inr h)
        · exact Or.inr ⟨c, hc, h⟩

theorem scan_work_eq (F : Function) (R : List Nat) (acc : State × List (Nat × Nat))
    (h : acc.1.WorkList = acc.1.LiveSet) :
    (scan F R acc).1.WorkList = (scan F R acc).1.LiveSet := by
  induction R generalizing acc with
  | nil => simpa [scan] using h
  | cons b bs ih =>
    unfold scan
    apply ih
    obtain ⟨s, dead⟩ := acc
    exact scanBlock_work_eq F b _ s dead h

theorem scan_dead (F : Function) (R : List Nat) (acc : State × List (Nat × Nat))
    (d : Nat × Nat) :
    d ∈ (scan F R acc).2
      ↔ d ∈ acc.2 ∨ ∃ b ∈ R, ∃ I ∈ blockInsts F b, isTriviallyLive I = false
          ∧ use_empty F I.id = true ∧ d = (b, I.id) := by
  induction R generalizing acc with
  | nil => simp [scan]
  | cons b bs ih =>
    unfold scan
    rw [ih]
    obtain ⟨s, dead⟩ := acc
    rw [scanBlock_dead]
    constructor
    · rintro ((h | h) | ⟨c, hc, h⟩)
      · exact Or.inl h
      · exact Or.inr ⟨b, List.mem_cons_self _ _, h⟩
      · exact Or.inr ⟨c, List.mem_cons_of_mem _ hc, h⟩
    · rintro (h | ⟨c, hc, h⟩)
      · exact Or.inl (Or.inl h)
      · rcases List.mem_cons.1 hc with rfl | hc
        · exact Or.inl (Or.inr h)
        · exact Or.inr ⟨c, hc, h⟩

/-! ## The final sweep -/

theorem sweepBlock_mem (L : List Nat) (b : Nat) (insts : List Instruction) (d : Nat × Nat) :
    d ∈ sweepBlock L b insts ↔ ∃ I ∈ insts, I.id ∉ L ∧ d = (b, I.id) := by
  induction insts with
  | nil => simp [sweepBlock]
  | cons I rest ih =>
    unfold sweepBlock
    by_cases h : I.id ∈ L
    · simp only [if_pos h]
      rw [ih]
      constructor
      · rintro ⟨J, hJ, hJ2⟩
        exact ⟨J, List.mem_cons_of_mem _ hJ, hJ2⟩
      · rintro ⟨J, hJ, hJ2, hJ3⟩
        rcases List.mem_cons.1 hJ with rfl | hJ
        · exact absurd h hJ2
        · exact ⟨J, hJ, hJ2, hJ3⟩
    · rw [if_neg h, List.mem_cons, ih]
      constructor
      · rintro (h1 | ⟨J, hJ, hJ2⟩)
        · exact ⟨I, List.mem_cons_self _ _, h, h1⟩
        · exact ⟨J, List.mem_cons_of_mem _ hJ, hJ2⟩
      · rintro ⟨J, hJ, hJ2, hJ3⟩
        rcases List.mem_cons.1 hJ with rfl | hJ
        · exact Or.inl hJ3
        · exact Or.inr ⟨J, hJ, hJ2, hJ3⟩

theorem sweep_mem (F : Function) (R L bs : List Nat) (d : Nat × Nat) :
    d ∈ sweep F R L bs
      ↔ ∃ b ∈ bs, b ∈ R ∧ ∃ I ∈ blockInsts F b, I.id ∉ L ∧ d = (b, I.id) := by
  induction bs with
  | nil => simp [sweep]
  | cons b bs ih =>
    unfold sweep
    by_cases h : b ∈ R
    · simp only [if_pos h, List.mem_append]
      rw [ih, sweepBlock_mem]
      constructor
      · rintro (h1 | ⟨c, hc, h1⟩)
        · exact ⟨b, List.mem_cons_self _ _, h, h1⟩
        · exact ⟨c, List.mem_cons_of_mem _ hc, h1⟩
      · rintro ⟨c, hc, hcR, h1⟩
        rcases List.mem_cons.1 hc with rfl | hc
        · exact Or.inl h1
        · exact Or.inr ⟨c, hc, hcR, h1⟩
    · simp only [if_neg h]
      rw [ih]
      constructor
      · rintro ⟨c, hc, h1⟩
        exact ⟨c, List.mem_cons_of_mem _ hc, h1⟩
      · rintro ⟨c, hc, hcR, h1⟩
        rcases List.mem_cons.1 hc with rfl | hc
        · exact absurd hcR h
        · exact ⟨c, hc, hcR, h1⟩

/-! ## Reachability and the depth-first traversal -/

theorem Reachable.lt_length {F : Function} {b : Nat} (h : Reachable F b) : b < F.length := by
  cases h with
  | entry h0 => exact h0
  | step _ _ hb => exact hb

/-- Counting argument shared by the two graph searches: marking a fresh element of a
duplicate-free candidate list lowers the weight of the unmarked candidates by its
own weight. -/
theorem sum_filter_mark (w : Nat → Nat) (l vis : List Nat) (n : Nat) (hl : l.Nodup)
    (hn : n ∈ l) (hv : n ∉ vis) :
    ((l.filter (fun m => decide (m ∉ n :: vis))).map w).sum + w n
      = ((l.filter (fun m => decide (m ∉ vis))).map w).sum := by
  induction l with
  | nil => simp at hn
  | cons a l ih =>
    rw [List.nodup_cons] at hl
    by_cases ha : a = n
    · subst ha
      have h1 : (a :: l).filter (fun m => decide (m ∉ a :: vis))
          = l.filter (fun m => decide (m ∉ vis)) := by
        rw [List.filter_cons_of_neg (by simp)]
        apply List.filter_congr
        intro m hm
        have : m ≠ a := fun h => hl.1 (h ▸ hm)
        simp [this]
      have h2 : (a :: l).filter (fun m => decide (m ∉ vis))
          = a :: l.filter (fun m => decide (m ∉ vis)) := by
        rw [List.filter_cons_of_pos (by simpa using hv)]
      rw [h1, h2, List.map_cons, List.sum_cons]
      omega
    · have hn2 : n ∈ l := by
        rcases List.mem_cons.1 hn with h | h
        · exact absurd h.symm ha
        · exact h
      have ih2 := ih hl.2 hn2
      by_cases hav : a ∈ vis
      · rw [List.filter_cons_of_neg (by simp [hav]), List.filter_cons_of_neg (by simp [hav])]
        exact ih2
      · rw [List.filter_cons_of_pos (by simp [hav, ha]),
          List.filter_cons_of_pos (by simp [hav])]
        simp only [List.map_cons, List.sum_cons]
        omega

theorem dfsWeight_cons (F : Function) (vis : List Nat) (n : Nat) (hn : n < F.length)
    (hv : n ∉ vis) :
    dfsWeight F (n :: vis) + (1 + (successors F n).length) = dfsWeight F vis :=
  sum_filter_mark _ _ vis n (List.nodup_range _) (List.mem_range.2 hn) hv

theorem dfs_mono (F : Function) (fuel : Nat) (st vis : List Nat) (n : Nat) (h : n ∈ vis) :
    n ∈ dfs F fuel st vis := by
  induction fuel generalizing st vis with
  | zero => simpa [dfs] using h
  | succ fuel ih =>
    cases st with
    | nil => simpa [dfs] using h
    | cons m st =>
      unfold dfs
      split
      · exact ih _ _ h
      · exact ih _ _ (List.mem_cons_of_mem _ h)

theorem dfs_sound (F : Function) (fuel : Nat) (st vis : List Nat)
    (hvis : ∀ n ∈ vis, Reachable F n) (hst : ∀ n ∈ st, n < F.length → Reachable F n) :
    ∀ n ∈ dfs F fuel st vis, Reachable F n := by
  induction fuel generalizing st vis with
  | zero => simpa [dfs] using hvis
  | succ fuel ih =>
    cases st with
    | nil => simpa [dfs] using hvis
    | cons m st =>
      unfold dfs
      split
      · exact ih _ _ hvis (fun n hn => hst n (List.mem_cons_of_mem _ hn))
      · rename_i hc
        have hm : m < F.length := by
          by_contra h
          exact hc (Or.inr (Nat.le_of_not_lt h))
        have hmr : Reachable F m := hst m (List.mem_cons_self _ _) hm
        apply ih
        · intro n hn
          rcases List.mem_cons.1 hn with rfl | hn
          · exact hmr
          · exact hvis n hn
        · intro n hn hlt
          rcases List.mem_append.1 hn with hn | hn
          · exact Reachable.step hmr hn hlt
          · exact hst n (List.mem_cons_of_mem _ hn) hlt

theorem dfs_closed (F : Function) (fuel : Nat) (st vis : List Nat)
    (hfuel : st.length + dfsWeight F vis ≤ fuel)
    (hinv : ∀ n ∈ vis, ∀ s ∈ successors F n, s < F.length → s ∈ vis ∨ s ∈ st) :
    (∀ n ∈ st, n < F.length → n ∈ dfs F fuel st vis)
      ∧ (∀ n ∈ dfs F fuel st vis, ∀ s ∈ successors F n, s < F.length →
          s ∈ dfs F fuel st vis) := by
  induction fuel generalizing st vis with
  | zero =>
    have hst : st = [] := by
      cases st with
      | nil => rfl
      | cons a st => simp at hfuel
    subst hst
    simp only [dfs]
    refine ⟨by simp, ?_⟩
    intro n hn s hs hlt
    rcases hinv n hn s hs hlt with h | h
    · exact h
    · simp at h
  | succ fuel ih =>
    cases st with
    | nil =>
      simp only [dfs]
      refine ⟨by simp, ?_⟩
      intro n hn s hs hlt
      rcases hinv n hn s hs hlt with h | h
      · exact h
      · simp at h
    | cons m st =>
      unfold dfs
      split
      · rename_i hc
        have hfuel2 : st.length + dfsWeight F vis ≤ fuel := by
          simp only [List.length_cons] at hfuel
          omega
        have hinv2 : ∀ n ∈ vis, ∀ s ∈ successors F n, s < F.length → s ∈ vis ∨ s ∈ st := by
          intro n hn s hs hlt
          rcases hinv n hn s hs hlt with h | h
          · exact Or.inl h
          · rcases List.mem_cons.1 h with rfl | h
            · rcases hc with hc | hc
              · exact Or.inl hc
              · omega
            · exact Or.inr h
        obtain ⟨h1, h2⟩ := ih st vis hfuel2 hinv2
        refine ⟨?_, h2⟩
        intro n hn hlt
        rcases List.mem_cons.1 hn with rfl | hn
        · rcases hc with hc | hc
          · exact dfs_mono F fuel st vis n hc
          · omega
        · exact h1 n hn hlt
      · rename_i hc
        have hm : m < F.length := by
          by_contra h
          exact hc (Or.inr (Nat.le_of_not_lt h))
        have hmv : m ∉ vis := fun h => hc (Or.inl h)
        have hw := dfsWeight_cons F vis m hm hmv
        have hfuel2 : (successors F m ++ st).length + dfsWeight F (m :: vis) ≤ fuel := by
          simp only [List.length_cons, List.length_append] at hfuel ⊢
          omega
        have hinv2 : ∀ n ∈ m :: vis, ∀ s ∈ successors F n, s < F.length →
            s ∈ m :: vis ∨ s ∈ successors F m ++ st := by
          intro n hn s hs hlt
          rcases List.mem_cons.1 hn with rfl | hn
          · exact Or.inr (List.mem_append.2 (Or.inl hs))
          · rcases hinv n hn s hs hlt with h | h
            · exact Or.inl (List.mem_cons_of_mem _ h)
            · rcases List.mem_cons.1 h with rfl | h
              · exact Or.inl (List.mem_cons_self _ _)
              · exact Or.inr (List.mem_append.2 (Or.inr h))
        obtain ⟨h1, h2⟩ := ih _ _ hfuel2 hinv2
        refine ⟨?_, h2⟩
        intro n hn hlt
        rcases List.mem_cons.1 hn with rfl | hn
        · exact dfs_mono F fuel _ _ n (List.mem_cons_self _ _)
        · exact h1 n (List.mem_append.2 (Or.inr hn)) hlt

/-- The traversal visits exactly the blocks reachable from the entry. -/
theorem mem_dfOrder_iff (F : Function) (b : Nat) : b ∈ dfOrder F ↔ Reachable F b := by
  unfold dfOrder
  rw [List.mem_reverse]
  constructor
  · intro h
    refine dfs_sound F _ [0] [] (by simp) ?_ b h
    intro n hn hlt
    simp only [List.mem_singleton] at hn
    subst hn
    exact Reachable.entry hlt
  · intro h
    have hfuel : [0].length + dfsWeight F [] ≤ dfsFuel F := by
      simp [dfsWeight, dfsFuel]
    obtain ⟨h1, h2⟩ := dfs_closed F (dfsFuel F) [0] [] hfuel (by simp)
    induction h with
    | entry h0 => exact h1 0 (by simp) h0
    | step _ hs hlt ih => exact h2 _ ih _ hs hlt


/-! ## Instruction identity -/

theorem blockInsts_cons_zero (B : BasicBlock) (F : Function) :
    blockInsts (B :: F) 0 = B.insts := by
  simp [blockInsts]

theorem blockInsts_cons_succ (B : BasicBlock) (F : Function) (b : Nat) :
    blockInsts (B :: F) (b + 1) = blockInsts F b := by
  simp [blockInsts]

theorem mem_instIds_of_mem (F : Function) (b : Nat) (J : Instruction)
    (h : J ∈ blockInsts F b) : J.id ∈ instIds F := by
  unfold blockInsts at h
  cases hb : F[b]? with
  | none => simp [hb] at h
  | some B =>
    simp only [hb] at h
    unfold instIds
    rw [List.mem_flatMap]
    exact ⟨B, List.getElem?_mem hb, List.mem_map.2 ⟨J, h, rfl⟩⟩

theorem uniq_of_uniqueIds (F : Function) (h : UniqueIds F) : Uniq F := by
  induction F with
  | nil =>
    intro b c I J hI
    simp [blockInsts] at hI
  | cons B F ih =>
    have hn : (B.insts.map (fun J => J.id) ++ instIds F).Nodup := by
      simpa [UniqueIds, instIds] using h
    rw [List.nodup_append] at hn
    obtain ⟨h1, h2, h3⟩ := hn
    intro b c I J hI hJ hid
    cases b with
    | zero =>
      rw [blockInsts_cons_zero] at hI
      cases c with
      | zero =>
        rw [blockInsts_cons_zero] at hJ
        exact ⟨rfl, List.inj_on_of_nodup_map h1 hI hJ hid⟩
      | succ c =>
        rw [blockInsts_cons_succ] at hJ
        have hJ2 := mem_instIds_of_mem F c J hJ
        have hI2 : I.id ∈ B.insts.map (fun J => J.id) := List.mem_map.2 ⟨I, hI, rfl⟩
        rw [hid] at hI2
        exact absurd hJ2 (fun hx => h3 hI2 hx)
    | succ b =>
      rw [blockInsts_cons_succ] at hI
      cases c with
      | zero =>
        rw [blockInsts_cons_zero] at hJ
        have hI2 := mem_instIds_of_mem F b I hI
        have hJ2 : J.id ∈ B.insts.map (fun J => J.id) := List.mem_map.2 ⟨J, hJ, rfl⟩
        rw [← hid] at hJ2
        exact absurd hI2 (fun hx => h3 hJ2 hx)
      | succ c =>
        rw [blockInsts_cons_succ] at hJ
        obtain ⟨hbc, hIJ⟩ := ih h2 b c I J hI hJ hid
        exact ⟨by rw [hbc], hIJ⟩

theorem uniq_eraseAll (F : Function) (dead : List (Nat × Nat)) (h : Uniq F) :
    Uniq (eraseAll F dead) := by
  intro b c I J hI hJ hid
  rw [blockInsts_eraseAll] at hI hJ
  exact h b c I J (List.mem_filter.1 hI).1 (List.mem_filter.1 hJ).1 hid

theorem findInst_some (F : Function) (x b : Nat) (J : Instruction)
    (h : findInst F x = some (b, J)) : J ∈ blockInsts F b ∧ J.id = x := by
  unfold findInst at h
  rw [List.findSome?_eq_some_iff] at h
  obtain ⟨l1, a, l2, _, h2, _⟩ := h
  rw [Option.map_eq_some'] at h2
  obtain ⟨K, hK, hK2⟩ := h2
  simp only [Prod.mk.injEq] at hK2
  obtain ⟨rfl, rfl⟩ := hK2
  have hm := List.mem_of_find?_eq_some hK
  have hp := List.find?_some hK
  exact ⟨hm, by simpa using hp⟩

theorem findInst_of_mem (F : Function) (b : Nat) (J : Instruction) (hU : Uniq F)
    (h : J ∈ blockInsts F b) : findInst F J.id = some (b, J) := by
  have hb : b < F.length := by
    by_contra hlt
    rw [blockInsts_of_length_le F b (Nat.le_of_not_lt hlt)] at h
    simp at h
  cases hf : findInst F J.id with
  | none =>
    unfold findInst at hf
    rw [List.findSome?_eq_none_iff] at hf
    have := hf b (List.mem_range.2 hb)
    rw [Option.map_eq_none', List.find?_eq_none] at this
    have := this J h
    simp at this
  | some r =>
    obtain ⟨c, K⟩ := r
    obtain ⟨hK, hK2⟩ := findInst_some F J.id c K hf
    obtain ⟨hcb, hKJ⟩ := hU c b K J hK h hK2
    rw [hcb, hKJ]



/-! ## The work-list loop -/

theorem markLive_work_sub (I : Nat) (s : State) (x : Nat) (h : x ∈ s.WorkList) :
    x ∈ (markLive I s).WorkList := by
  unfold markLive
  by_cases hI : I ∈ s.LiveSet
  · simpa [if_pos hI] using h
  · simp [if_neg hI, h]

theorem markLive_new (I : Nat) (s : State) (x : Nat) (h : x ∈ (markLive I s).LiveSet) :
    x ∈ s.LiveSet ∨ x ∈ (markLive I s).WorkList := by
  unfold markLive at h ⊢
  by_cases hI : I ∈ s.LiveSet
  · simp only [if_pos hI] at h ⊢
    exact Or.inl h
  · simp only [if_neg hI, List.mem_cons] at h ⊢
    rcases h with h | h
    · exact Or.inr (Or.inl h)
    · exact Or.inl h

theorem markLive_work_mem (I : Nat) (s : State) (x : Nat) (h : x ∈ (markLive I s).WorkList) :
    x ∈ s.WorkList ∨ x ∈ (markLive I s).LiveSet := by
  unfold markLive at h ⊢
  by_cases hI : I ∈ s.LiveSet
  · simp only [if_pos hI] at h ⊢
    exact Or.inl h
  · simp only [if_neg hI, List.mem_cons] at h ⊢
    rcases h with h | h
    · exact Or.inr (Or.inl h)
    · exact Or.inl h

theorem markLive_weight (F : Function) (I : Nat) (s : State) (hI : I ∈ operandIds F) :
    propagateWeight F (markLive I s) = propagateWeight F s := by
  unfold markLive
  by_cases h : I ∈ s.LiveSet
  · simp [if_pos h]
  · simp only [if_neg h, propagateWeight, List.length_cons]
    have := sum_filter_mark (fun _ => 1) (operandIds F).dedup s.LiveSet I
      (List.nodup_dedup _) (List.mem_dedup.2 hI) h
    simp only at this
    omega

theorem markOperands_live (ops : List Value) (s : State) (x : Nat) :
    x ∈ (markOperands ops s).LiveSet ↔ x ∈ s.LiveSet ∨ Value.inst x ∈ ops := by
  induction ops generalizing s with
  | nil => simp [markOperands]
  | cons v ops ih =>
    cases v with
    | inst y =>
      simp only [markOperands, List.mem_cons, Value.inst.injEq]
      rw [ih, mem_markLive]
      tauto
    | const c =>
      simp only [markOperands, List.mem_cons]
      rw [ih]
      simp
    | arg n =>
      simp only [markOperands, List.mem_cons]
      rw [ih]
      simp

theorem markOperands_work_sub (ops : List Value) (s : State) (x : Nat)
    (h : x ∈ s.WorkList) : x ∈ (markOperands ops s).WorkList := by
  induction ops generalizing s with
  | nil => simpa [markOperands] using h
  | cons v ops ih =>
    cases v with
    | inst y => exact ih _ (markLive_work_sub y s x h)
    | const c => exact ih _ h
    | arg n => exact ih _ h

theorem markOperands_new (ops : List Value) (s : State) (x : Nat)
    (h : x ∈ (markOperands ops s).LiveSet) :
    x ∈ s.LiveSet ∨ x ∈ (markOperands ops s).WorkList := by
  induction ops generalizing s with
  | nil => exact Or.inl (by simpa [markOperands] using h)
  | cons v ops ih =>
    cases v with
    | inst y =>
      simp only [markOperands] at h ⊢
      rcases ih _ h with h1 | h1
      · rcases markLive_new y s x h1 with h2 | h2
        · exact Or.inl h2
        · exact Or.inr (markOperands_work_sub ops _ x h2)
      · exact Or.inr h1
    | const c => exact ih _ h
    | arg n => exact ih _ h

theorem markOperands_work_mem (ops : List Value) (s : State) (x : Nat)
    (h : x ∈ (markOperands ops s).WorkList) :
    x ∈ s.WorkList ∨ x ∈ (markOperands ops s).LiveSet := by
  induction ops generalizing s with
  | nil => exact Or.inl (by simpa [markOperands] using h)
  | cons v ops ih =>
    cases v with
    | inst y =>
      simp only [markOperands] at h ⊢
      rcases ih _ h with h1 | h1
      · rcases markLive_work_mem y s x h1 with h2 | h2
        · exact Or.inl h2
        · exact Or.inr ((markOperands_live ops _ x).2 (Or.inl h2))
      · exact Or.inr h1
    | const c => exact ih _ h
    | arg n => exact ih _ h

theorem markOperands_weight (F : Function) (ops : List Value) (s : State)
    (h : ∀ x, Value.inst x ∈ ops → x ∈ operandIds F) :
    propagateWeight F (markOperands ops s) = propagateWeight F s := by
  induction ops generalizing s with
  | nil => simp [markOperands]
  | cons v ops ih =>
    have h2 : ∀ x, Value.inst x ∈ ops → x ∈ operandIds F :=
      fun x hx => h x (List.mem_cons_of_mem _ hx)
    cases v with
    | inst y =>
      simp only [markOperands]
      rw [ih _ h2, markLive_weight F y s (h y (List.mem_cons_self _ _))]
    | const c => exact ih _ h2
    | arg n => exact ih _ h2

theorem mem_operandIds (F : Function) (b : Nat) (J : Instruction) (x : Nat)
    (hJ : J ∈ blockInsts F b) (hx : Value.inst x ∈ J.operands) : x ∈ operandIds F := by
  unfold blockInsts at hJ
  cases hb : F[b]? with
  | none => simp [hb] at hJ
  | some B =>
    simp only [hb] at hJ
    unfold operandIds
    rw [List.mem_flatMap]
    refine ⟨B, List.getElem?_mem hb, ?_⟩
    rw [List.mem_flatMap]
    refine ⟨J, hJ, ?_⟩
    rw [List.mem_filterMap]
    exact ⟨Value.inst x, hx, rfl⟩

theorem propagateStep_weight (F : Function) (R : List Nat) (I : Nat) (s : State) :
    propagateWeight F (propagateStep F R I s) = propagateWeight F s := by
  unfold propagateStep
  cases hf : findInst F I with
  | none => rfl
  | some r =>
    obtain ⟨b, J⟩ := r
    simp only
    by_cases hb : b ∈ R
    · rw [if_pos hb]
      apply markOperands_weight
      intro x hx
      exact mem_operandIds F b J x (findInst_some F I b J hf).1 hx
    · rw [if_neg hb]

theorem propagateStep_live_mono (F : Function) (R : List Nat) (I : Nat) (s : State) (x : Nat)
    (h : x ∈ s.LiveSet) : x ∈ (propagateStep F R I s).LiveSet := by
  unfold propagateStep
  cases hf : findInst F I with
  | none => exact h
  | some r =>
    obtain ⟨b, J⟩ := r
    simp only
    by_cases hb : b ∈ R
    · rw [if_pos hb]
      exact (markOperands_live _ _ _).2 (Or.inl h)
    · rw [if_neg hb]
      exact h

theorem propagateStep_work_sub (F : Function) (R : List Nat) (I : Nat) (s : State) (x : Nat)
    (h : x ∈ s.WorkList) : x ∈ (propagateStep F R I s).WorkList := by
  unfold propagateStep
  cases hf : findInst F I with
  | none => exact h
  | some r =>
    obtain ⟨b, J⟩ := r
    simp only
    by_cases hb : b ∈ R
    · rw [if_pos hb]
      exact markOperands_work_sub _ _ _ h
    · rw [if_neg hb]
      exact h

theorem propagateStep_new (F : Function) (R : List Nat) (I : Nat) (s : State) (x : Nat)
    (h : x ∈ (propagateStep F R I s).LiveSet) :
    x ∈ s.LiveSet ∨ x ∈ (propagateStep F R I s).WorkList := by
  unfold propagateStep at h ⊢
  cases hf : findInst F I with
  | none =>
    rw [hf] at h
    exact Or.inl h
  | some r =>
    obtain ⟨b, J⟩ := r
    rw [hf] at h
    simp only at h ⊢
    by_cases hb : b ∈ R
    · rw [if_pos hb] at h ⊢
      exact markOperands_new _ _ _ h
    · rw [if_neg hb] at h ⊢
      exact Or.inl h

theorem propagateStep_work_mem (F : Function) (R : List Nat) (I : Nat) (s : State) (x : Nat)
    (h : x ∈ (propagateStep F R I s).WorkList) :
    x ∈ s.WorkList ∨ x ∈ (propagateStep F R I s).LiveSet := by
  unfold propagateStep at h ⊢
  cases hf : findInst F I with
  | none =>
    rw [hf] at h
    exact Or.inl h
  | some r =>
    obtain ⟨b, J⟩ := r
    rw [hf] at h
    simp only at h ⊢
    by_cases hb : b ∈ R
    · rw [if_pos hb] at h ⊢
      exact markOperands_work_mem _ _ _ h
    · rw [if_neg hb] at h ⊢
      exact Or.inl h

/-- Invariant rule for the work-list loop: a property kept by every iteration holds
when the loop ends. -/
theorem propagate_inv (F : Function) (R : List Nat) (P : State → Prop)
    (hstep : ∀ (s : State) (I : Nat) (W : List Nat), P s → s.WorkList = I :: W →
      P (propagateStep F R I { s with WorkList := W }))
    (fuel : Nat) (s : State) (h : P s) : P (propagate F R fuel s) := by
  induction fuel generalizing s with
  | zero => simpa [propagate] using h
  | succ fuel ih =>
    unfold propagate
    cases hW : s.WorkList with
    | nil => simpa using h
    | cons I W =>
      simp only
      exact ih _ (hstep s I W h hW)

/-- With enough fuel the loop runs until the work list is empty. -/
theorem propagate_done (F : Function) (R : List Nat) (fuel : Nat) (s : State)
    (h : propagateWeight F s ≤ fuel) : (propagate F R fuel s).WorkList = [] := by
  induction fuel generalizing s with
  | zero =>
    simp only [propagate]
    unfold propagateWeight at h
    have : s.WorkList.length = 0 := by omega
    exact List.length_eq_zero.1 this
  | succ fuel ih =>
    unfold propagate
    cases hW : s.WorkList with
    | nil => simpa using hW
    | cons I W =>
      simp only
      apply ih
      rw [propagateStep_weight]
      unfold propagateWeight at h ⊢
      rw [hW] at h
      simp only [List.length_cons] at h ⊢
      omega

theorem propagateWeight_le_fuel (F : Function) (s : State) :
    propagateWeight F s ≤ propagateFuel F s := by
  unfold propagateWeight propagateFuel
  have h1 : (((operandIds F).dedup.filter (fun m => decide (m ∉ s.LiveSet))).map
      (fun _ => 1)).sum ≤ (operandIds F).length := by
    have hlen : ∀ l : List Nat, (l.map (fun _ => 1)).sum = l.length := by
      intro l
      induction l with
      | nil => rfl
      | cons a l ih => simp only [List.map_cons, List.sum_cons, List.length_cons, ih]; omega
    rw [hlen]
    exact Nat.le_trans (List.length_filter_le _ _) (List.dedup_sublist _).length_le
  omega

theorem propagateStep_closed (F : Function) (R : List Nat) (I : Nat) (s : State)
    (b : Nat) (J : Instruction) (x : Nat) (hf : findInst F I = some (b, J)) (hb : b ∈ R)
    (hx : Value.inst x ∈ J.operands) : x ∈ (propagateStep F R I s).LiveSet := by
  unfold propagateStep
  rw [hf]
  simp only
  rw [if_pos hb]
  exact (markOperands_live _ _ _).2 (Or.inr hx)

theorem propagateStep_live (F : Function) (R : List Nat) (I : Nat) (s : State) (x : Nat)
    (h : x ∈ (propagateStep F R I s).LiveSet) :
    x ∈ s.LiveSet
      ∨ ∃ b J, findInst F I = some (b, J) ∧ b ∈ R ∧ Value.inst x ∈ J.operands := by
  unfold propagateStep at h
  cases hf : findInst F I with
  | none =>
    rw [hf] at h
    exact Or.inl h
  | some r =>
    obtain ⟨b, J⟩ := r
    rw [hf] at h
    simp only at h
    by_cases hb : b ∈ R
    · rw [if_pos hb] at h
      rcases (markOperands_live _ _ _).1 h with h1 | h1
      · exact Or.inl h1
      · exact Or.inr ⟨b, J, rfl, hb, h1⟩
    · rw [if_neg hb] at h
      exact Or.inl h

/-! ## What `doADCE` computes -/

theorem doADCE_fst (F : Function) :
    (doADCE F).1 = eraseAll (afterZeroUse F) (sweepDead F) := rfl

theorem doADCE_snd (F : Function) :
    (doADCE F).2 = (!(zeroUse F).isEmpty || !(sweepDead F).isEmpty) := rfl

theorem liveSet_eq (F : Function) :
    liveSet F = (propagate (afterZeroUse F) (dfOrder F)
      (propagateFuel (afterZeroUse F)
        (scan F (dfOrder F) ({ LiveSet := [], WorkList := [] }, [])).1)
      (scan F (dfOrder F) ({ LiveSet := [], WorkList := [] }, [])).1).LiveSet := rfl

theorem length_doADCE (F : Function) : (doADCE F).1.length = F.length := by
  rw [doADCE_fst, length_eraseAll]
  unfold afterZeroUse
  rw [length_eraseAll]

theorem mem_zeroUse (F : Function) (d : Nat × Nat) :
    d ∈ zeroUse F ↔ ∃ b, Reachable F b ∧ ∃ I ∈ blockInsts F b, isTriviallyLive I = false
      ∧ use_empty F I.id = true ∧ d = (b, I.id) := by
  unfold zeroUse
  rw [scan_dead]
  simp only [List.not_mem_nil, false_or]
  constructor
  · rintro ⟨b, hb, h⟩
    exact ⟨b, (mem_dfOrder_iff F b).1 hb, h⟩
  · rintro ⟨b, hb, h⟩
    exact ⟨b, (mem_dfOrder_iff F b).2 hb, h⟩

theorem mem_scan_live (F : Function) (x : Nat) :
    x ∈ (scan F (dfOrder F) ({ LiveSet := [], WorkList := [] }, [])).1.LiveSet
      ↔ ∃ b, Reachable F b ∧ ∃ I ∈ blockInsts F b, isTriviallyLive I = true ∧ I.id = x := by
  rw [scan_live]
  simp only [List.not_mem_nil, false_or]
  constructor
  · rintro ⟨b, hb, h⟩
    exact ⟨b, (mem_dfOrder_iff F b).1 hb, h⟩
  · rintro ⟨b, hb, h⟩
    exact ⟨b, (mem_dfOrder_iff F b).2 hb, h⟩

theorem use_empty_false (F : Function) (b : Nat) (J : Instruction) (x : Nat)
    (hJ : J ∈ blockInsts F b) (hx : Value.inst x ∈ J.operands) : use_empty F x = false := by
  unfold blockInsts at hJ
  cases hb : F[b]? with
  | none => simp [hb] at hJ
  | some B =>
    simp only [hb] at hJ
    rw [← Bool.not_eq_true]
    intro h
    unfold use_empty at h
    rw [List.all_eq_true] at h
    have h2 := h B (List.getElem?_mem hb)
    rw [List.all_eq_true] at h2
    have h3 := h2 J hJ
    simp only [Bool.not_eq_true', List.contains_eq_any_beq, List.any_eq_false, beq_iff_eq] at h3
    exact h3 _ hx rfl

theorem blockInsts_afterZeroUse_sub (F : Function) (b : Nat) (J : Instruction)
    (h : J ∈ blockInsts (afterZeroUse F) b) : J ∈ blockInsts F b := by
  unfold afterZeroUse at h
  rw [blockInsts_eraseAll] at h
  exact (List.mem_filter.1 h).1

/-- Every id the pass puts in the live set is live in the sense of the spec. -/
theorem liveSet_sound (F : Function) (x : Nat) (h : x ∈ liveSet F) : Live F x := by
  rw [liveSet_eq] at h
  have key := propagate_inv (afterZeroUse F) (dfOrder F)
    (fun s => (∀ x ∈ s.LiveSet, Live F x) ∧ (∀ x ∈ s.WorkList, x ∈ s.LiveSet))
    (by
      intro s I W ⟨h1, h2⟩ hW
      have hI : Live F I := h1 I (h2 I (by rw [hW]; exact List.mem_cons_self _ _))
      constructor
      · intro y hy
        rcases propagateStep_live _ _ _ _ _ hy with hy | ⟨b, J, hf, hb, hx⟩
        · exact h1 y hy
        · obtain ⟨hJ, hJid⟩ := findInst_some _ _ _ _ hf
          rw [← hJid] at hI
          exact Live.operand hI ((mem_dfOrder_iff F b).1 hb)
            (blockInsts_afterZeroUse_sub F b J hJ) hx
      · intro y hy
        rcases propagateStep_work_mem _ _ _ _ _ hy with hy | hy
        · apply propagateStep_live_mono
          exact h2 y (by rw [hW]; exact List.mem_cons_of_mem _ hy)
        · exact hy)
    (propagateFuel (afterZeroUse F)
      (scan F (dfOrder F) ({ LiveSet := [], WorkList := [] }, [])).1)
    (scan F (dfOrder F) ({ LiveSet := [], WorkList := [] }, [])).1
    (by
      constructor
      · intro y hy
        obtain ⟨b, hb, I, hI, ht, hid⟩ := (mem_scan_live F y).1 hy
        rw [← hid]
        exact Live.trivial hb hI ht
      · intro y hy
        rw [scan_work_eq F _ _ rfl] at hy
        exact hy)
  exact key.1 x h

theorem live_not_zeroUse (F : Function) (hU : Uniq F) (b : Nat) (I : Instruction)
    (hI : I ∈ blockInsts F b) (hl : Live F I.id) : (b, I.id) ∉ zeroUse F := by
  intro hd
  obtain ⟨c, _, K, hK, hKt, hKu, hKe⟩ := (mem_zeroUse F _).1 hd
  simp only [Prod.mk.injEq] at hKe
  obtain ⟨rfl, hid⟩ := hKe
  obtain ⟨_, rfl⟩ := hU b b I K hI hK hid
  generalize hx : I.id = x at hl
  cases hl with
  | trivial hb2 hI2 ht2 =>
    rename_i b2 I2
    obtain ⟨_, rfl⟩ := hU b b2 I I2 hI hI2 hx
    rw [hKt] at ht2
    exact absurd ht2 (by decide)
  | operand hl2 hb2 hJ2 hx2 =>
    rw [hx, use_empty_false F _ _ x hJ2 hx2] at hKu
    exact absurd hKu (by decide)

theorem mem_afterZeroUse_of_live (F : Function) (hU : Uniq F) (b : Nat) (I : Instruction)
    (hI : I ∈ blockInsts F b) (hl : Live F I.id) : I ∈ blockInsts (afterZeroUse F) b := by
  unfold afterZeroUse
  rw [blockInsts_eraseAll, List.mem_filter]
  exact ⟨hI, by simpa using live_not_zeroUse F hU b I hI hl⟩

/-- Every instruction that is live in the sense of the spec is put in the live set. -/
theorem liveSet_complete (F : Function) (hU : Uniq F) (x : Nat) (h : Live F x) :
    x ∈ liveSet F := by
  have hU1 : Uniq (afterZeroUse F) := uniq_eraseAll F _ hU
  have key := propagate_inv (afterZeroUse F) (dfOrder F)
    (fun s => (∀ x ∈ (scan F (dfOrder F) ({ LiveSet := [], WorkList := [] }, [])).1.LiveSet,
        x ∈ s.LiveSet)
      ∧ (∀ y ∈ s.LiveSet, y ∈ s.WorkList ∨ ∀ b J, findInst (afterZeroUse F) y = some (b, J) →
          b ∈ dfOrder F → ∀ x, Value.inst x ∈ J.operands → x ∈ s.LiveSet))
    (by
      intro s I W ⟨h1, h2⟩ hW
      constructor
      · intro y hy
        exact propagateStep_live_mono _ _ _ _ _ (h1 y hy)
      · intro y hy
        rcases propagateStep_new _ _ _ _ _ hy with hy2 | hy2
        · rcases h2 y hy2 with h3 | h3
          · rw [hW] at h3
            rcases List.mem_cons.1 h3 with rfl | h3
            · right
              intro b J hf hb z hz
              exact propagateStep_closed _ _ _ _ b J z hf hb hz
            · left
              exact propagateStep_work_sub _ _ _ _ _ h3
          · right
            intro b J hf hb z hz
            exact propagateStep_live_mono _ _ _ _ _ (h3 b J hf hb z hz)
        · exact Or.inl hy2)
    (propagateFuel (afterZeroUse F)
      (scan F (dfOrder F) ({ LiveSet := [], WorkList := [] }, [])).1)
    (scan F (dfOrder F) ({ LiveSet := [], WorkList := [] }, [])).1
    (by
      constructor
      · intro y hy
        exact hy
      · intro y hy
        left
        rw [scan_work_eq F _ _ rfl]
        exact hy)
  have hdone := propagate_done (afterZeroUse F) (dfOrder F) _ _
    (propagateWeight_le_fuel (afterZeroUse F)
      (scan F (dfOrder F) ({ LiveSet := [], WorkList := [] }, [])).1)
  obtain ⟨k1, k2⟩ := key
  rw [liveSet_eq]
  induction h with
  | trivial hb hI ht =>
    exact k1 _ ((mem_scan_live F _).2 ⟨_, hb, _, hI, ht, rfl⟩)
  | operand hl hb hJ hx ih =>
    rename_i b J x
    rcases k2 J.id ih with h3 | h3
    · rw [hdone] at h3
      simp at h3
    · have hJ1 := mem_afterZeroUse_of_live F hU b J hJ hl
      exact h3 b J (findInst_of_mem _ b J hU1 hJ1) ((mem_dfOrder_iff F b).2 hb) x hx

theorem mem_liveSet_iff (F : Function) (hU : Uniq F) (x : Nat) :
    x ∈ liveSet F ↔ Live F x :=
  ⟨liveSet_sound F x, liveSet_complete F hU x⟩

theorem mem_sweepDead (F : Function) (d : Nat × Nat) :
    d ∈ sweepDead F ↔ ∃ b, Reachable F b ∧ ∃ I ∈ blockInsts (afterZeroUse F) b,
      I.id ∉ liveSet F ∧ d = (b, I.id) := by
  unfold sweepDead
  rw [sweep_mem]
  constructor
  · rintro ⟨b, _, hb, h⟩
    exact ⟨b, (mem_dfOrder_iff F b).1 hb, h⟩
  · rintro ⟨b, hb, h⟩
    refine ⟨b, ?_, (mem_dfOrder_iff F b).2 hb, h⟩
    rw [List.mem_range]
    unfold afterZeroUse
    rw [length_eraseAll]
    exact hb.lt_length

theorem blockInsts_doADCE (F : Function) (b : Nat) :
    blockInsts (doADCE F).1 b
      = ((blockInsts F b).filter (fun J => decide ((b, J.id) ∉ zeroUse F))).filter
          (fun J => decide ((b, J.id) ∉ sweepDead F)) := by
  rw [doADCE_fst, blockInsts_eraseAll]
  unfold afterZeroUse
  rw [blockInsts_eraseAll]

theorem blockInsts_doADCE_unreachable (F : Function) (b : Nat) (hb : ¬ Reachable F b) :
    blockInsts (doADCE F).1 b = blockInsts F b := by
  rw [blockInsts_doADCE, List.filter_filter, List.filter_eq_self]
  intro J _
  have h1 : (b, J.id) ∉ zeroUse F := by
    intro h
    obtain ⟨c, hc, _, _, _, _, he⟩ := (mem_zeroUse F _).1 h
    simp only [Prod.mk.injEq] at he
    exact hb (he.1 ▸ hc)
  have h2 : (b, J.id) ∉ sweepDead F := by
    intro h
    obtain ⟨c, hc, _, _, _, he⟩ := (mem_sweepDead F _).1 h
    simp only [Prod.mk.injEq] at he
    exact hb (he.1 ▸ hc)
  simp [h1, h2]

theorem blockInsts_doADCE_reachable (F : Function) (hU : Uniq F) (b : Nat)
    (hb : Reachable F b) :
    blockInsts (doADCE F).1 b
      = (blockInsts F b).filter (fun J => decide (J.id ∈ liveSet F)) := by
  rw [blockInsts_doADCE, List.filter_filter]
  apply List.filter_congr
  intro J hJ
  by_cases hl : J.id ∈ liveSet F
  · have h1 : (b, J.id) ∉ zeroUse F := live_not_zeroUse F hU b J hJ (liveSet_sound F _ hl)
    have h2 : (b, J.id) ∉ sweepDead F := by
      intro h
      obtain ⟨c, _, K, _, hK2, he⟩ := (mem_sweepDead F _).1 h
      simp only [Prod.mk.injEq] at he
      exact hK2 (he.2 ▸ hl)
    simp [h1, h2, hl]
  · by_cases h1 : (b, J.id) ∈ zeroUse F
    · simp [h1, hl]
    · have hJ1 : J ∈ blockInsts (afterZeroUse F) b := by
        unfold afterZeroUse
        rw [blockInsts_eraseAll, List.mem_filter]
        exact ⟨hJ, by simpa using h1⟩
      have h2 : (b, J.id) ∈ sweepDead F := (mem_sweepDead F _).2 ⟨b, hb, J, hJ1, hl, rfl⟩
      simp [h2, hl]

theorem mem_doADCE_reachable (F : Function) (hU : Uniq F) (b : Nat) (hb : Reachable F b)
    (I : Instruction) :
    I ∈ blockInsts (doADCE F).1 b ↔ I ∈ blockInsts F b ∧ Live F I.id := by
  rw [blockInsts_doADCE_reachable F hU b hb, List.mem_filter, decide_eq_true_eq,
    mem_liveSet_iff F hU]

theorem triviallyLive_mem_doADCE (F : Function) (hU : Uniq F) (b : Nat) (hb : Reachable F b)
    (I : Instruction) (hI : I ∈ blockInsts F b) (ht : isTriviallyLive I = true) :
    I ∈ blockInsts (doADCE F).1 b :=
  (mem_doADCE_reachable F hU b hb I).2 ⟨hI, Live.trivial hb hI ht⟩

theorem isTriviallyLive_of_terminator (I : Instruction) (h : I.isTerminator = true) :
    isTriviallyLive I = true := by
  unfold isTriviallyLive
  simp [h]

theorem getLast?_filter_of_pos (p : Instruction → Bool) (l : List Instruction)
    (t : Instruction) (hl : l.getLast? = some t) (hp : p t = true) :
    (l.filter p).getLast? = some t := by
  rw [List.getLast?_eq_some_iff] at hl ⊢
  obtain ⟨ys, rfl⟩ := hl
  exact ⟨ys.filter p, by simp [List.filter_append, hp]⟩

theorem getTerminator_some (insts : List Instruction) (t : Instruction)
    (h : getTerminator insts = some t) :
    insts.getLast? = some t ∧ t.isTerminator = true := by
  unfold getTerminator at h
  cases hl : insts.getLast? with
  | none => simp [hl] at h
  | some u =>
    simp only [hl] at h
    by_cases hu : u.isTerminator = true
    · simp only [hu, if_true, Option.some.injEq] at h
      subst h
      exact ⟨rfl, hu⟩
    · simp [hu] at h

theorem getTerminator_doADCE (F : Function) (hU : Uniq F) (b : Nat) (hb : Reachable F b)
    (t : Instruction) (h : getTerminator (blockInsts F b) = some t) :
    getTerminator (blockInsts (doADCE F).1 b) = some t := by
  obtain ⟨h1, h2⟩ := getTerminator_some _ _ h
  have hmem : t ∈ blockInsts F b := List.mem_of_getLast?_eq_some h1
  rw [blockInsts_doADCE_reachable F hU b hb]
  have hl : t.id ∈ liveSet F :=
    liveSet_complete F hU _ (Live.trivial hb hmem (isTriviallyLive_of_terminator t h2))
  unfold getTerminator
  rw [getLast?_filter_of_pos _ _ t h1 (by simpa using hl)]
  simp [h2]

/-! ## The returned flag -/

theorem doADCE_changed_iff (F : Function) :
    (doADCE F).2 = true ↔ ∃ b I, I ∈ blockInsts F b ∧ I ∉ blockInsts (doADCE F).1 b := by
  rw [doADCE_snd]
  constructor
  · intro h
    simp only [Bool.or_eq_true, Bool.not_eq_true', List.isEmpty_eq_false] at h
    rcases h with h | h
    · obtain ⟨d, hd⟩ := List.exists_mem_of_ne_nil _ h
      obtain ⟨b, _, I, hI, _, _, he⟩ := (mem_zeroUse F d).1 hd
      refine ⟨b, I, hI, ?_⟩
      rw [blockInsts_doADCE]
      intro hm
      have := (List.mem_filter.1 (List.mem_filter.1 hm).1).2
      rw [← he] at this
      simp [hd] at this
    · obtain ⟨d, hd⟩ := List.exists_mem_of_ne_nil _ h
      obtain ⟨b, _, I, hI, _, he⟩ := (mem_sweepDead F d).1 hd
      refine ⟨b, I, blockInsts_afterZeroUse_sub F b I hI, ?_⟩
      rw [blockInsts_doADCE]
      intro hm
      have := (List.mem_filter.1 hm).2
      rw [← he] at this
      simp [hd] at this
  · rintro ⟨b, I, hI, hn⟩
    rw [blockInsts_doADCE] at hn
    simp only [Bool.or_eq_true, Bool.not_eq_true', List.isEmpty_eq_false]
    by_cases h1 : (b, I.id) ∈ zeroUse F
    · exact Or.inl (List.ne_nil_of_mem h1)
    · by_cases h2 : (b, I.id) ∈ sweepDead F
      · exact Or.inr (List.ne_nil_of_mem h2)
      · exfalso
        apply hn
        rw [List.mem_filter, List.mem_filter]
        exact ⟨⟨hI, by simpa using h1⟩, by simpa using h2⟩

theorem doADCE_unchanged_iff (F : Function) :
    (doADCE F).2 = false ↔ (doADCE F).1 = F := by
  constructor
  · intro h
    rw [doADCE_snd] at h
    simp only [Bool.or_eq_false_iff, Bool.not_eq_false', List.isEmpty_iff] at h
    rw [doADCE_fst, h.2]
    unfold afterZeroUse
    rw [h.1]
    rfl
  · intro h
    rw [← Bool.not_eq_true]
    intro hc
    obtain ⟨b, I, hI, hn⟩ := (doADCE_changed_iff F).1 hc
    rw [h] at hn
    exact hn hI

/-! ## Running the pass on its own output -/

theorem blockInsts_doADCE_sub (F : Function) (b : Nat) (I : Instruction)
    (h : I ∈ blockInsts (doADCE F).1 b) : I ∈ blockInsts F b := by
  rw [blockInsts_doADCE] at h
  exact (List.mem_filter.1 (List.mem_filter.1 h).1).1

theorem uniq_doADCE (F : Function) (hU : Uniq F) : Uniq (doADCE F).1 := by
  intro b c I J hI hJ hid
  exact hU b c I J (blockInsts_doADCE_sub F b I hI) (blockInsts_doADCE_sub F c J hJ) hid

theorem wellTerminated_block (F : Function) (hWT : WellTerminated F) (b : Nat)
    (I : Instruction) (hI : I ∈ (blockInsts F b).dropLast) : I.isTerminator = false := by
  unfold blockInsts at hI
  cases hb : F[b]? with
  | none => simp [hb] at hI
  | some B =>
    simp only [hb] at hI
    exact hWT B (List.getElem?_mem hb) I hI

theorem no_terminator_of_getTerminator_none (insts : List Instruction)
    (h1 : ∀ I ∈ insts.dropLast, I.isTerminator = false) (h2 : getTerminator insts = none)
    (I : Instruction) (hI : I ∈ insts) : I.isTerminator = false := by
  by_cases hne : insts = []
  · subst hne
    simp at hI
  · rw [← List.dropLast_append_getLast hne, List.mem_append] at hI
    rcases hI with hI | hI
    · exact h1 I hI
    · simp only [List.mem_singleton] at hI
      subst hI
      unfold getTerminator at h2
      rw [List.getLast?_eq_getLast _ hne] at h2
      simp only at h2
      by_contra hc
      simp only [Bool.not_eq_false] at hc
      simp [hc] at h2

theorem getTerminator_none_of_forall (insts : List Instruction)
    (h : ∀ I ∈ insts, I.isTerminator = false) : getTerminator insts = none := by
  unfold getTerminator
  cases hl : insts.getLast? with
  | none => rfl
  | some t =>
    simp only
    rw [h t (List.mem_of_getLast?_eq_some hl)]
    simp

theorem successors_doADCE (F : Function) (hU : Uniq F) (hWT : WellTerminated F) (b : Nat) :
    successors (doADCE F).1 b = successors F b := by
  by_cases hb : Reachable F b
  · unfold successors
    cases ht : getTerminator (blockInsts F b) with
    | some t => rw [getTerminator_doADCE F hU b hb t ht]
    | none =>
      have hall := no_terminator_of_getTerminator_none _
        (wellTerminated_block F hWT b) ht
      rw [getTerminator_none_of_forall]
      intro I hI
      exact hall I (blockInsts_doADCE_sub F b I hI)
  · unfold successors
    rw [blockInsts_doADCE_unreachable F b hb]

theorem dfs_congr (F G : Function) (hlen : F.length = G.length)
    (hs : ∀ b, successors F b = successors G b) (fuel : Nat) (st vis : List Nat) :
    dfs F fuel st vis = dfs G fuel st vis := by
  induction fuel generalizing st vis with
  | zero => rfl
  | succ fuel ih =>
    cases st with
    | nil => rfl
    | cons n st =>
      unfold dfs
      rw [hlen, hs n, ih, ih]

theorem dfOrder_congr (F G : Function) (hlen : F.length = G.length)
    (hs : ∀ b, successors F b = successors G b) : dfOrder F = dfOrder G := by
  unfold dfOrder dfsFuel
  rw [dfs_congr F G hlen hs, hlen]
  simp only [hs]

theorem reachable_doADCE_iff (F : Function) (hU : Uniq F) (hWT : WellTerminated F) (b : Nat) :
    Reachable (doADCE F).1 b ↔ Reachable F b := by
  rw [← mem_dfOrder_iff, ← mem_dfOrder_iff,
    dfOrder_congr (doADCE F).1 F (length_doADCE F) (successors_doADCE F hU hWT)]

theorem live_doADCE (F : Function) (hU : Uniq F) (hWT : WellTerminated F) (x : Nat)
    (h : Live F x) : Live (doADCE F).1 x := by
  induction h with
  | trivial hb hI ht =>
    exact Live.trivial ((reachable_doADCE_iff F hU hWT _).2 hb)
      (triviallyLive_mem_doADCE F hU _ hb _ hI ht) ht
  | operand hl hb hJ hx ih =>
    exact Live.operand ih ((reachable_doADCE_iff F hU hWT _).2 hb)
      ((mem_doADCE_reachable F hU _ hb _).2 ⟨hJ, hl⟩) hx

theorem live_of_mem_doADCE (F : Function) (hU : Uniq F) (hWT : WellTerminated F) (b : Nat)
    (hb : Reachable (doADCE F).1 b) (I : Instruction)
    (hI : I ∈ blockInsts (doADCE F).1 b) : Live (doADCE F).1 I.id :=
  live_doADCE F hU hWT _
    ((mem_doADCE_reachable F hU b ((reachable_doADCE_iff F hU hWT b).1 hb) I).1 hI).2

theorem doADCE_idem (F : Function) (hU : Uniq F) (hWT : WellTerminated F) :
    doADCE (doADCE F).1 = ((doADCE F).1, false) := by
  have hUG := uniq_doADCE F hU
  have hz : zeroUse (doADCE F).1 = [] := by
    rw [List.eq_nil_iff_forall_not_mem]
    intro d hd
    obtain ⟨b, hb, I, hI, _, _, he⟩ := (mem_zeroUse _ d).1 hd
    rw [he] at hd
    exact live_not_zeroUse _ hUG b I hI (live_of_mem_doADCE F hU hWT b hb I hI) hd
  have hs : sweepDead (doADCE F).1 = [] := by
    rw [List.eq_nil_iff_forall_not_mem]
    intro d hd
    obtain ⟨b, hb, I, hI, hn, _⟩ := (mem_sweepDead _ d).1 hd
    exact hn (liveSet_complete _ hUG _
      (live_of_mem_doADCE F hU hWT b hb I (blockInsts_afterZeroUse_sub _ b I hI)))
  have h2 : (doADCE (doADCE F).1).2 = false := by
    rw [doADCE_snd, hz, hs]
    rfl
  have h1 := (doADCE_unchanged_iff _).1 h2
  exact Prod.ext h1 h2

/-! ## Liveness with and without the restriction to reachable code -/

theorem needed_of_live (F : Function) (x : Nat) (h : Live F x) : Needed F x := by
  induction h with
  | trivial hb hI ht => exact Needed.trivial hb hI ht
  | operand _ _ hJ hx ih => exact Needed.operand ih hJ hx

theorem live_of_needed (F : Function) (hU : Uniq F) (hO : OperandsReachable F) (x : Nat)
    (h : Needed F x) :
    Live F x ∧ ∀ c K, K ∈ blockInsts F c → K.id = x → Reachable F c := by
  induction h with
  | trivial hb hI ht =>
    refine ⟨Live.trivial hb hI ht, ?_⟩
    intro c K hK hid
    obtain ⟨hcb, _⟩ := hU c _ K _ hK hI hid
    rw [hcb]
    exact hb
  | @operand b J y _ hJ hx ih =>
    have hb : Reachable F b := ih.2 b J hJ rfl
    refine ⟨Live.operand ih.1 hb hJ hx, ?_⟩
    intro c K hK hid
    exact hO b J y c K hb hJ hx hK hid

theorem live_iff_needed (F : Function) (hU : Uniq F) (hO : OperandsReachable F) (x : Nat) :
    Live F x ↔ Needed F x :=
  ⟨needed_of_live F x, fun h => (live_of_needed F hU hO x h).1⟩

/-! ## LICM: moving instructions -/

theorem blockInsts_mk_modify (F : Function) (g : List Instruction → List Instruction)
    (n c : Nat) :
    blockInsts (F.modify (fun B => { insts := g B.insts }) n) c
      = if n = c ∧ c < F.length then g (blockInsts F c) else blockInsts F c := by
  unfold blockInsts
  rw [List.getElem?_modify]
  by_cases hc : c < F.length
  · rw [List.getElem?_eq_getElem hc]
    by_cases hn : n = c
    · simp [hn, hc]
    · simp [hn]
  · rw [List.getElem?_eq_none (Nat.le_of_not_lt hc)]
    simp [hc]

theorem lt_length_of_mem_blockInsts (F : Function) (b : Nat) (I : Instruction)
    (h : I ∈ blockInsts F b) : b < F.length := by
  by_contra hlt
  rw [blockInsts_of_length_le F b (Nat.le_of_not_lt hlt)] at h
  simp at h

theorem getTerminator_eq_append (insts : List Instruction) (t : Instruction)
    (h : getTerminator insts = some t) : insts = insts.dropLast ++ [t] := by
  obtain ⟨h1, _⟩ := getTerminator_some insts t h
  rw [List.getLast?_eq_some_iff] at h1
  obtain ⟨ys, rfl⟩ := h1
  simp

theorem getTerminator_append (l : List Instruction) (t : Instruction)
    (h : t.isTerminator = true) : getTerminator (l ++ [t]) = some t := by
  unfold getTerminator
  simp [h]

theorem getTerminator_isTerminator (insts : List Instruction) (t : Instruction)
    (h : getTerminator insts = some t) : t.isTerminator = true :=
  (getTerminator_some insts t h).2

theorem insertBeforeLast_of_getTerminator (insts : List Instruction) (t I : Instruction)
    (h : getTerminator insts = some t) :
    insertBeforeLast insts I = insts.dropLast ++ [I, t] := by
  unfold insertBeforeLast
  rw [(getTerminator_some insts t h).1]
  rfl

theorem moveBefore_spec (F : Function) (src P : Nat) (I t : Instruction) (hsrc : src ≠ P)
    (ht : getTerminator (blockInsts F P) = some t) :
    ∃ G, moveBefore F src I P = some G ∧ G.length = F.length
      ∧ blockInsts G P = (blockInsts F P).dropLast ++ [I, t]
      ∧ blockInsts G src = (blockInsts F src).filter (fun J => decide (J.id ≠ I.id))
      ∧ ∀ c, c ≠ P → c ≠ src → blockInsts G c = blockInsts F c := by
  have hmem : t ∈ blockInsts F P := List.mem_of_getLast?_eq_some (getTerminator_some _ _ ht).1
  have hP : P < F.length := lt_length_of_mem_blockInsts F P t hmem
  have hPe : blockInsts (eraseFromParent F (src, I.id)) P = blockInsts F P := by
    rw [blockInsts_eraseFromParent, List.filter_eq_self]
    intro J _
    simp only [decide_eq_true_eq, Prod.mk.injEq, not_and]
    intro h
    exact absurd h.symm hsrc
  refine ⟨(eraseFromParent F (src, I.id)).modify
    (fun B => { insts := insertBeforeLast B.insts I }) P, ?_, ?_, ?_, ?_, ?_⟩
  · unfold moveBefore
    rw [ht]
  · rw [List.length_modify, length_eraseFromParent]
  · have hm := blockInsts_mk_modify (eraseFromParent F (src, I.id))
      (fun l => insertBeforeLast l I) P P
    simp only at hm
    rw [hm, if_pos (by simpa [length_eraseFromParent] using hP), hPe,
      insertBeforeLast_of_getTerminator _ t I ht]
  · have hm := blockInsts_mk_modify (eraseFromParent F (src, I.id))
      (fun l => insertBeforeLast l I) P src
    simp only at hm
    rw [hm, if_neg (fun h => hsrc h.1.symm), blockInsts_eraseFromParent]
    apply List.filter_congr
    intro J _
    simp
  · intro c hcP hcs
    have hm := blockInsts_mk_modify (eraseFromParent F (src, I.id))
      (fun l => insertBeforeLast l I) P c
    simp only at hm
    rw [hm, if_neg (fun h => hcP h.1.symm), blockInsts_eraseFromParent,
      List.filter_eq_self]
    intro J _
    simp only [decide_eq_true_eq, Prod.mk.injEq, not_and]
    intro h
    exact absurd h hcs

theorem hoistAll_spec (src P : Nat) (hsrc : src ≠ P) (H : List Instruction) (F : Function)
    (t : Instruction) (ht : getTerminator (blockInsts F P) = some t) :
    ∃ G, hoistAll src P H F = some G ∧ G.length = F.length
      ∧ blockInsts G P = (blockInsts F P).dropLast ++ H ++ [t]
      ∧ blockInsts G src
          = (blockInsts F src).filter (fun J => decide (J.id ∉ H.map (fun K => K.id)))
      ∧ ∀ c, c ≠ P → c ≠ src → blockInsts G c = blockInsts F c := by
  induction H generalizing F with
  | nil =>
    refine ⟨F, rfl, rfl, ?_, ?_, fun _ _ _ => rfl⟩
    · simpa using getTerminator_eq_append _ t ht
    · simp
  | cons I rest ih =>
    obtain ⟨F1, h1, h2, h3, h4, h5⟩ := moveBefore_spec F src P I t hsrc ht
    have htt := getTerminator_isTerminator _ _ ht
    have ht1 : getTerminator (blockInsts F1 P) = some t := by
      rw [h3]
      have : (blockInsts F P).dropLast ++ [I, t] = ((blockInsts F P).dropLast ++ [I]) ++ [t] := by
        simp
      rw [this]
      exact getTerminator_append _ t htt
    obtain ⟨G, g1, g2, g3, g4, g5⟩ := ih F1 ht1
    refine ⟨G, ?_, ?_, ?_, ?_, ?_⟩
    · simp only [hoistAll, h1]
      exact g1
    · rw [g2, h2]
    · rw [g3, h3]
      have : ((blockInsts F P).dropLast ++ [I, t]).dropLast = (blockInsts F P).dropLast ++ [I] := by
        have : (blockInsts F P).dropLast ++ [I, t]
            = ((blockInsts F P).dropLast ++ [I]) ++ [t] := by simp
        rw [this, List.dropLast_concat]
      rw [this]
      simp
    · rw [g4, h4, List.filter_filter]
      apply List.filter_congr
      intro J _
      simp only [List.map_cons, List.mem_cons, not_or, Bool.decide_and]
      rw [Bool.and_comm]
    · intro c hcP hcs
      rw [g5 c hcP hcs, h5 c hcP hcs]

theorem directMember_mem (L : Loop) (A : Analyses) (b : Nat) (h : directMember L A b = true) :
    b ∈ L.blocks := by
  unfold directMember at h
  simp only [Bool.and_eq_true, decide_eq_true_eq] at h
  exact h.2

theorem visitBlock_spec (L : Loop) (A : Analyses) (b : Nat) (F : Function) (t : Instruction)
    (hP : L.preheader ∉ L.blocks)
    (ht : getTerminator (blockInsts F L.preheader) = some t) :
    ∃ G, visitBlock L A b F = some G ∧ G.length = F.length
      ∧ blockInsts G L.preheader
          = (blockInsts F L.preheader).dropLast ++ hoistedAt L A b F ++ [t]
      ∧ ∀ c, c ≠ L.preheader → blockInsts G c = (blockInsts F c).filter
          (fun J => decide ((c, J.id) ∉ (hoistedAt L A b F).map (fun I => (b, I.id)))) := by
  by_cases hd : directMember L A b = true
  · have hb : b ≠ L.preheader := fun h => hP (h ▸ directMember_mem L A b hd)
    obtain ⟨G, g1, g2, g3, g4, g5⟩ :=
      hoistAll_spec b L.preheader hb (instructionToHoist L A F b) F t ht
    refine ⟨G, ?_, g2, ?_, ?_⟩
    · unfold visitBlock
      rw [if_pos hd]
      exact g1
    · unfold hoistedAt
      rw [if_pos hd]
      exact g3
    · intro c hc
      unfold hoistedAt
      rw [if_pos hd]
      by_cases hcb : c = b
      · subst hcb
        rw [g4]
        apply List.filter_congr
        intro J _
        simp
      · rw [g5 c hc hcb]
        symm
        rw [List.filter_eq_self]
        intro J _
        simp only [List.mem_map, Prod.mk.injEq, not_exists, not_and, decide_eq_true_eq]
        intro K _ h
        exact absurd h.symm hcb
  · refine ⟨F, ?_, rfl, ?_, ?_⟩
    · unfold visitBlock
      rw [if_neg hd]
    · unfold hoistedAt
      rw [if_neg hd]
      simpa using getTerminator_eq_append _ t ht
    · intro c _
      unfold hoistedAt
      rw [if_neg hd]
      simp

theorem visitAll_spec (L : Loop) (A : Analyses) (bs : List Nat) (F : Function)
    (t : Instruction) (hP : L.preheader ∉ L.blocks)
    (ht : getTerminator (blockInsts F L.preheader) = some t) :
    ∃ G, visitAll L A bs F = some G ∧ G.length = F.length
      ∧ blockInsts G L.preheader
          = (blockInsts F L.preheader).dropLast ++ (hoistLog L A bs F).map (fun e => e.2) ++ [t]
      ∧ ∀ c, c ≠ L.preheader → blockInsts G c = (blockInsts F c).filter
          (fun J => decide ((c, J.id) ∉ (hoistLog L A bs F).map (fun e => (e.1, e.2.id)))) := by
  induction bs generalizing F with
  | nil =>
    refine ⟨F, rfl, rfl, ?_, ?_⟩
    · simpa [hoistLog] using getTerminator_eq_append _ t ht
    · intro c _
      simp [hoistLog]
  | cons b bs ih =>
    obtain ⟨F1, h1, h2, h3, h4⟩ := visitBlock_spec L A b F t hP ht
    have htt := getTerminator_isTerminator _ _ ht
    have ht1 : getTerminator (blockInsts F1 L.preheader) = some t := by
      rw [h3]
      exact getTerminator_append _ t htt
    obtain ⟨G, g1, g2, g3, g4⟩ := ih F1 ht1
    refine ⟨G, ?_, ?_, ?_, ?_⟩
    · simp only [visitAll, h1]
      exact g1
    · rw [g2, h2]
    · rw [g3, h3, List.dropLast_concat]
      simp only [hoistLog, h1, List.map_append, List.map_map, List.append_assoc]
      congr 2
      simp [Function.comp_def]
    · intro c hc
      rw [g4 c hc, h4 c hc, List.filter_filter]
      apply List.filter_congr
      intro J _
      simp only [hoistLog, h1, List.map_append, List.map_map, List.mem_append, not_or,
        Bool.decide_and]
      rw [Bool.and_comm]
      simp [Function.comp_def]

theorem visitAll_append (L : Loop) (A : Analyses) (as bs : List Nat) (F : Function) :
    visitAll L A (as ++ bs) F
      = match visitAll L A as F with
        | none => none
        | some G => visitAll L A bs G := by
  induction as generalizing F with
  | nil => rfl
  | cons a as ih =>
    simp only [List.cons_append, visitAll]
    cases visitBlock L A a F with
    | none => rfl
    | some G => exact ih G

mutual

/-- The recursive walk visits the blocks of the subtree in pre-order. -/
theorem doLICMRecursive_eq_visitAll (L : Loop) (A : Analyses) :
    ∀ (N : DomTreeNode) (F : Function),
      doLICMRecursive L A N F = visitAll L A (preorder N) F
  | DomTreeNode.node BB cs, F => by
    simp only [doLICMRecursive, preorder, visitAll]
    cases visitBlock L A BB F with
    | none => rfl
    | some G => exact doLICMChildren_eq_visitAll L A cs G

/-- The walk over a list of subtrees visits their blocks in pre-order. -/
theorem doLICMChildren_eq_visitAll (L : Loop) (A : Analyses) :
    ∀ (cs : List DomTreeNode) (F : Function),
      doLICMChildren L A cs F = visitAll L A (preorderList cs) F
  | [], F => rfl
  | c :: cs, F => by
    simp only [doLICMChildren, preorderList]
    rw [visitAll_append, doLICMRecursive_eq_visitAll L A c F]
    cases visitAll L A (preorder c) F with
    | none => rfl
    | some G => exact doLICMChildren_eq_visitAll L A cs G

end

/-! ## LICM: the log of hoisted instructions -/

theorem mem_hoistedAt (L : Loop) (A : Analyses) (b : Nat) (F : Function) (I : Instruction) :
    I ∈ hoistedAt L A b F ↔ directMember L A b = true ∧ I ∈ blockInsts F b
      ∧ isLoopInvariance L F I = true ∧ safeToHoist L A b I = true := by
  unfold hoistedAt
  by_cases hd : directMember L A b = true
  · rw [if_pos hd]
    unfold instructionToHoist
    rw [List.mem_filter, Bool.and_eq_true]
    tauto
  · rw [if_neg hd]
    simp [hd]

theorem hoistLog_append (L : Loop) (A : Analyses) (as bs : List Nat) (F : Function) :
    hoistLog L A (as ++ bs) F
      = hoistLog L A as F ++
        match visitAll L A as F with
        | none => []
        | some S => hoistLog L A bs S := by
  induction as generalizing F with
  | nil => simp [hoistLog, visitAll]
  | cons a as ih =>
    simp only [List.cons_append, hoistLog, visitAll]
    cases visitBlock L A a F with
    | none => simp
    | some G =>
      simp only [List.append_eq]
      rw [ih G, List.append_assoc]

theorem mem_hoistLog (L : Loop) (A : Analyses) (bs : List Nat) (F : Function)
    (t : Instruction) (hP : L.preheader ∉ L.blocks)
    (ht : getTerminator (blockInsts F L.preheader) = some t) (e : Nat × Instruction) :
    e ∈ hoistLog L A bs F ↔ ∃ pre post S, bs = pre ++ e.1 :: post
      ∧ visitAll L A pre F = some S ∧ e.2 ∈ hoistedAt L A e.1 S := by
  induction bs generalizing F with
  | nil => simp [hoistLog]
  | cons b bs ih =>
    obtain ⟨F1, h1, _, h3, _⟩ := visitBlock_spec L A b F t hP ht
    have ht1 : getTerminator (blockInsts F1 L.preheader) = some t := by
      rw [h3]
      exact getTerminator_append _ t (getTerminator_isTerminator _ _ ht)
    simp only [hoistLog, h1, List.mem_append, List.mem_map]
    rw [ih F1 ht1]
    constructor
    · rintro (⟨I, hI, rfl⟩ | ⟨pre, post, S, hbs, hS, hm⟩)
      · exact ⟨[], bs, F, rfl, rfl, hI⟩
      · refine ⟨b :: pre, post, S, by rw [hbs]; rfl, ?_, hm⟩
        simp only [visitAll, h1]
        exact hS
    · rintro ⟨pre, post, S, hbs, hS, hm⟩
      cases pre with
      | nil =>
        simp only [List.nil_append, List.cons.injEq] at hbs
        simp only [visitAll, Option.some.injEq] at hS
        subst hS
        left
        refine ⟨e.2, ?_, ?_⟩
        · rw [hbs.1]
          exact hm
        · rw [hbs.1]
      | cons a pre =>
        simp only [List.cons_append, List.cons.injEq] at hbs
        obtain ⟨rfl, hbs⟩ := hbs
        simp only [visitAll, h1] at hS
        right
        exact ⟨pre, post, S, hbs, hS, hm⟩

theorem visitAll_sub (L : Loop) (A : Analyses) (bs : List Nat) (F S : Function)
    (t : Instruction) (hP : L.preheader ∉ L.blocks)
    (ht : getTerminator (blockInsts F L.preheader) = some t)
    (hS : visitAll L A bs F = some S) (c : Nat) (hc : c ≠ L.preheader) (I : Instruction)
    (hI : I ∈ blockInsts S c) : I ∈ blockInsts F c := by
  obtain ⟨G, g1, _, _, g4⟩ := visitAll_spec L A bs F t hP ht
  rw [hS] at g1
  simp only [Option.some.injEq] at g1
  subst g1
  rw [g4 c hc] at hI
  exact (List.mem_filter.1 hI).1

theorem hoistLog_orig (L : Loop) (A : Analyses) (bs : List Nat) (F : Function)
    (t : Instruction) (hP : L.preheader ∉ L.blocks)
    (ht : getTerminator (blockInsts F L.preheader) = some t) (e : Nat × Instruction)
    (he : e ∈ hoistLog L A bs F) :
    e.2 ∈ blockInsts F e.1 ∧ directMember L A e.1 = true ∧ e.1 ∈ bs
      ∧ e.1 ≠ L.preheader := by
  obtain ⟨pre, post, S, hbs, hS, hm⟩ := (mem_hoistLog L A bs F t hP ht e).1 he
  obtain ⟨hd, hI, _, _⟩ := (mem_hoistedAt L A e.1 S e.2).1 hm
  have hne : e.1 ≠ L.preheader := fun h => hP (h ▸ directMember_mem L A e.1 hd)
  refine ⟨visitAll_sub L A pre F S t hP ht hS e.1 hne e.2 hI, hd, ?_, hne⟩
  rw [hbs]
  simp

theorem mem_logIds_iff (L : Loop) (A : Analyses) (bs : List Nat) (F : Function)
    (t : Instruction) (hP : L.preheader ∉ L.blocks)
    (ht : getTerminator (blockInsts F L.preheader) = some t) (hU : Uniq F)
    (b : Nat) (I : Instruction) (hI : I ∈ blockInsts F b) :
    (b, I.id) ∈ (hoistLog L A bs F).map (fun e => (e.1, e.2.id))
      ↔ (b, I) ∈ hoistLog L A bs F := by
  rw [List.mem_map]
  constructor
  · rintro ⟨e, he, heq⟩
    simp only [Prod.mk.injEq] at heq
    obtain ⟨h1, _, _, _⟩ := hoistLog_orig L A bs F t hP ht e he
    rw [heq.1] at h1
    obtain ⟨_, h2⟩ := hU b b e.2 I h1 hI heq.2
    have : e = (b, I) := Prod.ext heq.1 h2
    rw [← this]
    exact he
  · intro h
    exact ⟨(b, I), h, rfl⟩

theorem uniq_visitAll (L : Loop) (A : Analyses) (bs : List Nat) (F G : Function)
    (t : Instruction) (hP : L.preheader ∉ L.blocks)
    (ht : getTerminator (blockInsts F L.preheader) = some t) (hU : Uniq F)
    (hG : visitAll L A bs F = some G) : Uniq G := by
  obtain ⟨G2, g1, _, g3, g4⟩ := visitAll_spec L A bs F t hP ht
  rw [hG] at g1
  simp only [Option.some.injEq] at g1
  subst g1
  have horig : ∀ c J, J ∈ blockInsts G c → ∃ c0, J ∈ blockInsts F c0
      ∧ (c ≠ L.preheader → c0 = c
          ∧ (c, J.id) ∉ (hoistLog L A bs F).map (fun e => (e.1, e.2.id)))
      ∧ (c = L.preheader → c0 = L.preheader ∨ (c0, J) ∈ hoistLog L A bs F) := by
    intro c J hJ
    by_cases hc : c = L.preheader
    · subst hc
      rw [g3] at hJ
      rcases List.mem_append.1 hJ with hJ | hJ
      · rcases List.mem_append.1 hJ with hJ | hJ
        · exact ⟨L.preheader, List.mem_of_mem_dropLast hJ, fun h => absurd rfl h,
            fun _ => Or.inl rfl⟩
        · obtain ⟨e, he, rfl⟩ := List.mem_map.1 hJ
          exact ⟨e.1, (hoistLog_orig L A bs F t hP ht e he).1, fun h => absurd rfl h,
            fun _ => Or.inr he⟩
      · simp only [List.mem_singleton] at hJ
        subst hJ
        exact ⟨L.preheader, List.mem_of_getLast?_eq_some (getTerminator_some _ _ ht).1,
          fun h => absurd rfl h, fun _ => Or.inl rfl⟩
    · rw [g4 c hc, List.mem_filter] at hJ
      exact ⟨c, hJ.1, fun _ => ⟨rfl, by simpa using hJ.2⟩, fun h => absurd h hc⟩
  intro c d I J hI hJ hid
  obtain ⟨c0, hI0, hI1, hI2⟩ := horig c I hI
  obtain ⟨d0, hJ0, hJ1, hJ2⟩ := horig d J hJ
  obtain ⟨h0, hIJ⟩ := hU c0 d0 I J hI0 hJ0 hid
  subst hIJ
  subst h0
  refine ⟨?_, rfl⟩
  by_cases hc : c = L.preheader
  · by_cases hd : d = L.preheader
    · rw [hc, hd]
    · exfalso
      obtain ⟨hd1, hd2⟩ := hJ1 hd
      subst hd1
      rcases hI2 hc with h | h
      · exact hd h
      · exact hd2 (List.mem_map.2 ⟨(c0, I), h, rfl⟩)
  · obtain ⟨hc1, hc2⟩ := hI1 hc
    subst hc1
    by_cases hd : d = L.preheader
    · exfalso
      rcases hJ2 hd with h | h
      · exact hc h
      · exact hc2 (List.mem_map.2 ⟨(c0, I), h, rfl⟩)
    · exact (hJ1 hd).1

/-! ## LICM: loop invariance across states -/

theorem operandsInvariant_false_iff (L : Loop) (F : Function) (ops : List Value) :
    operandsInvariant L F ops = false
      ↔ ∃ x, Value.inst x ∈ ops ∧ L.containsInst F x = true := by
  induction ops with
  | nil => simp [operandsInvariant]
  | cons v ops ih =>
    cases v with
    | const c =>
      simp only [operandsInvariant, List.mem_cons]
      rw [ih]
      simp
    | arg n =>
      simp only [operandsInvariant, List.mem_cons]
      rw [ih]
      simp
    | inst y =>
      simp only [operandsInvariant, List.mem_cons, Value.inst.injEq]
      by_cases hy : L.containsInst F y = true
      · simp only [hy, if_true, true_iff]
        exact ⟨y, Or.inl rfl, hy⟩
      · simp only [hy, Bool.false_eq_true, if_false]
        rw [ih]
        constructor
        · rintro ⟨x, hx, hc⟩
          exact ⟨x, Or.inr hx, hc⟩
        · rintro ⟨x, hx | hx, hc⟩
          · subst hx
            exact absurd hc hy
          · exact ⟨x, hx, hc⟩

theorem containsInst_of_mem (L : Loop) (F : Function) (hU : Uniq F) (b : Nat)
    (J : Instruction) (hJ : J ∈ blockInsts F b) (hb : b ∈ L.blocks) :
    L.containsInst F J.id = true := by
  unfold Loop.containsInst
  rw [findInst_of_mem F b J hU hJ]
  simpa using hb

theorem containsInst_true (L : Loop) (F : Function) (x : Nat)
    (h : L.containsInst F x = true) :
    ∃ b J, J ∈ blockInsts F b ∧ J.id = x ∧ b ∈ L.blocks := by
  unfold Loop.containsInst at h
  cases hf : findInst F x with
  | none => simp [hf] at h
  | some r =>
    obtain ⟨b, J⟩ := r
    rw [hf] at h
    obtain ⟨h1, h2⟩ := findInst_some F x b J hf
    exact ⟨b, J, h1, h2, by simpa using h⟩

theorem isLoopInvariance_false_of_operand (L : Loop) (F : Function) (I : Instruction)
    (x : Nat) (hx : Value.inst x ∈ I.operands) (hc : L.containsInst F x = true) :
    isLoopInvariance L F I = false := by
  unfold isLoopInvariance
  split
  · rfl
  · exact (operandsInvariant_false_iff L F I.operands).2 ⟨x, hx, hc⟩

/-- An instruction that is no binary operation, shift, select, cast or getelementptr
is not loop invariant for the pass, and a loop-invariant one is of such a kind. -/
theorem isLoopInvariance_false_of_kind (L : Loop) (F : Function) (I : Instruction)
    (h : I.hasInvariantKind = false) : isLoopInvariance L F I = false := by
  unfold Instruction.hasInvariantKind at h
  simp only [Bool.or_eq_false_iff, decide_eq_false_iff_not] at h
  obtain ⟨⟨⟨⟨h1, h2⟩, h3⟩, h4⟩, h5⟩ := h
  unfold isLoopInvariance
  simp [h1, h2, h3, h4, h5]

theorem hasInvariantKind_of_invariant (L : Loop) (F : Function) (I : Instruction)
    (h : isLoopInvariance L F I = true) : I.hasInvariantKind = true := by
  by_contra hk
  rw [isLoopInvariance_false_of_kind L F I (by simpa using hk)] at h
  exact absurd h (by decide)

theorem isLoopInvariance_false_cases (L : Loop) (F : Function) (I : Instruction)
    (h : isLoopInvariance L F I = false) :
    (∀ G, isLoopInvariance L G I = false)
      ∨ ∃ x, Value.inst x ∈ I.operands ∧ L.containsInst F x = true := by
  unfold isLoopInvariance at h
  split at h
  · rename_i hk
    left
    intro G
    unfold isLoopInvariance
    rw [if_pos hk]
  · right
    exact (operandsInvariant_false_iff L F I.operands).1 h

/-- Visiting blocks in a state in which no visited direct member block holds an
instruction to hoist changes nothing. -/
theorem visitAll_fixed (L : Loop) (A : Analyses) (bs : List Nat) (G : Function)
    (h : ∀ b ∈ bs, directMember L A b = true → ∀ I ∈ blockInsts G b,
      (isLoopInvariance L G I && safeToHoist L A b I) = false) :
    visitAll L A bs G = some G := by
  induction bs with
  | nil => rfl
  | cons b bs ih =>
    have hb : visitBlock L A b G = some G := by
      unfold visitBlock
      by_cases hd : directMember L A b = true
      · rw [if_pos hd]
        have : instructionToHoist L A G b = [] := by
          unfold instructionToHoist
          rw [List.filter_eq_nil_iff]
          intro I hI
          rw [h b (List.mem_cons_self _ _) hd I hI]
          simp
        rw [this]
        rfl
      · rw [if_neg hd]
    simp only [visitAll, hb]
    exact ih (fun c hc => h c (List.mem_cons_of_mem _ hc))

/-- An instruction that stays in a visited direct member block was rejected when
its block was scanned. -/
theorem rejected_of_stays (L : Loop) (A : Analyses) (bs : List Nat) (F G : Function)
    (t : Instruction) (hP : L.preheader ∉ L.blocks)
    (ht : getTerminator (blockInsts F L.preheader) = some t)
    (hG : visitAll L A bs F = some G) (b : Nat) (hb : b ∈ bs)
    (hd : directMember L A b = true) (I : Instruction) (hI : I ∈ blockInsts G b) :
    ∃ pre post S, bs = pre ++ b :: post ∧ visitAll L A pre F = some S
      ∧ I ∈ blockInsts S b
      ∧ (isLoopInvariance L S I && safeToHoist L A b I) = false := by
  obtain ⟨pre, post, hbs⟩ := List.append_of_mem hb
  have hbP : b ≠ L.preheader := fun h => hP (h ▸ directMember_mem L A b hd)
  obtain ⟨S, s1, _, s3, _⟩ := visitAll_spec L A pre F t hP ht
  have htS : getTerminator (blockInsts S L.preheader) = some t := by
    rw [s3]
    exact getTerminator_append _ t (getTerminator_isTerminator _ _ ht)
  have hrest : visitAll L A (b :: post) S = some G := by
    have := visitAll_append L A pre (b :: post) F
    rw [← hbs, hG, s1] at this
    exact this.symm
  have hIS : I ∈ blockInsts S b := visitAll_sub L A (b :: post) S G t hP htS hrest b hbP I hI
  refine ⟨pre, post, S, hbs, s1, hIS, ?_⟩
  by_contra hpred
  simp only [Bool.not_eq_false] at hpred
  rw [Bool.and_eq_true] at hpred
  have hlog : (b, I) ∈ hoistLog L A (b :: post) S := by
    rw [mem_hoistLog L A (b :: post) S t hP htS]
    exact ⟨[], post, S, rfl, rfl, (mem_hoistedAt L A b S I).2 ⟨hd, hIS, hpred.1, hpred.2⟩⟩
  obtain ⟨G2, g1, _, _, g4⟩ := visitAll_spec L A (b :: post) S t hP htS
  rw [hrest] at g1
  simp only [Option.some.injEq] at g1
  subst g1
  rw [g4 b hbP, List.mem_filter] at hI
  have := hI.2
  simp only [decide_eq_true_eq] at this
  exact this (List.mem_map.2 ⟨(b, I), hlog, rfl⟩)

theorem preheader_mem_of_orig (L : Loop) (A : Analyses) (bs : List Nat) (F G : Function)
    (t : Instruction) (hP : L.preheader ∉ L.blocks)
    (ht : getTerminator (blockInsts F L.preheader) = some t)
    (hG : visitAll L A bs F = some G) (I : Instruction)
    (hI : I ∈ blockInsts F L.preheader) : I ∈ blockInsts G L.preheader := by
  obtain ⟨G2, g1, _, g3, _⟩ := visitAll_spec L A bs F t hP ht
  rw [hG] at g1
  simp only [Option.some.injEq] at g1
  subst g1
  rw [g3]
  rw [getTerminator_eq_append _ t ht] at hI
  rcases List.mem_append.1 hI with h | h
  · exact List.mem_append.2 (Or.inl (List.mem_append.2 (Or.inl h)))
  · exact List.mem_append.2 (Or.inr h)

theorem moved_iff_log (L : Loop) (A : Analyses) (bs : List Nat) (F G : Function)
    (t : Instruction) (hP : L.preheader ∉ L.blocks)
    (ht : getTerminator (blockInsts F L.preheader) = some t) (hU : Uniq F)
    (hG : visitAll L A bs F = some G) (b : Nat) (I : Instruction)
    (hI : I ∈ blockInsts F b) :
    I ∉ blockInsts G b ↔ (b, I) ∈ hoistLog L A bs F := by
  by_cases hb : b = L.preheader
  · subst hb
    constructor
    · intro h
      exact absurd (preheader_mem_of_orig L A bs F G t hP ht hG I hI) h
    · intro h
      exact absurd rfl (hoistLog_orig L A bs F t hP ht _ h).2.2.2
  · obtain ⟨G2, g1, _, _, g4⟩ := visitAll_spec L A bs F t hP ht
    rw [hG] at g1
    simp only [Option.some.injEq] at g1
    subst g1
    rw [g4 b hb, List.mem_filter, ← mem_logIds_iff L A bs F t hP ht hU b I hI]
    simp [hI]

/-- A second run from the output of a first run moves nothing when every operand
that kept an instruction in the loop at the scan of its block is still in its
block after the run. -/
theorem visitAll_idem_of_keep (L : Loop) (A : Analyses) (bs : List Nat) (F G : Function)
    (t : Instruction) (hP : L.preheader ∉ L.blocks)
    (ht : getTerminator (blockInsts F L.preheader) = some t) (hU : Uniq F)
    (hG : visitAll L A bs F = some G)
    (hkeep : ∀ pre post S b I x c J, bs = pre ++ b :: post → visitAll L A pre F = some S →
      directMember L A b = true → I ∈ blockInsts G b → I.hasInvariantKind = true →
      Value.inst x ∈ I.operands →
      J ∈ blockInsts S c → c ∈ L.blocks → J.id = x → J ∈ blockInsts G c) :
    visitAll L A bs G = some G := by
  have hUG : Uniq G := uniq_visitAll L A bs F G t hP ht hU hG
  apply visitAll_fixed
  intro b hb hd I hI
  obtain ⟨pre, post, S, hbs, hS, hIS, hrej⟩ :=
    rejected_of_stays L A bs F G t hP ht hG b hb hd I hI
  rw [Bool.and_eq_false_iff] at hrej ⊢
  rcases hrej with hinv | hsafe
  · left
    by_cases hkind : I.hasInvariantKind = true
    · rcases isLoopInvariance_false_cases L S I hinv with hk | ⟨x, hx, hc⟩
      · exact hk G
      · obtain ⟨c, J, hJ, hJid, hc2⟩ := containsInst_true L S x hc
        have hJG : J ∈ blockInsts G c :=
          hkeep pre post S b I x c J hbs hS hd hI hkind hx hJ hc2 hJid
        apply isLoopInvariance_false_of_operand L G I x hx
        rw [← hJid]
        exact containsInst_of_mem L G hUG c J hJG hc2
    · exact isLoopInvariance_false_of_kind L G I (by simpa using hkind)
  · exact Or.inr hsafe

/-- A second run from the output of a first run moves nothing when no instruction
left in a direct member block uses an instruction the first run hoisted. -/
theorem visitAll_idem (L : Loop) (A : Analyses) (bs : List Nat) (F G : Function)
    (t : Instruction) (hP : L.preheader ∉ L.blocks)
    (ht : getTerminator (blockInsts F L.preheader) = some t) (hU : Uniq F)
    (hG : visitAll L A bs F = some G)
    (hstale : ∀ b I, directMember L A b = true → I ∈ blockInsts G b →
      ∀ x, Value.inst x ∈ I.operands → ∀ c J, J ∈ blockInsts F c → J.id = x →
        J ∈ blockInsts G c) :
    visitAll L A bs G = some G := by
  apply visitAll_idem_of_keep L A bs F G t hP ht hU hG
  intro pre post S b I x c J _ hS hd hI _ hx hJ hc hid
  have hcP : c ≠ L.preheader := fun h => hP (h ▸ hc)
  exact hstale b I hd hI x hx c J (visitAll_sub L A pre F S t hP ht hS c hcP J hJ) hid

/-- An instruction hoisted from a block visited before a split point is gone from
its block in the state at the split point. -/
theorem not_mem_at_scan_of_hoisted (L : Loop) (A : Analyses) (pre post : List Nat)
    (b : Nat) (F S : Function) (t : Instruction) (hP : L.preheader ∉ L.blocks)
    (ht : getTerminator (blockInsts F L.preheader) = some t)
    (hnd : (pre ++ b :: post).Nodup) (hS : visitAll L A pre F = some S)
    (c : Nat) (J : Instruction) (hc : c ∈ pre)
    (hlog : (c, J) ∈ hoistLog L A (pre ++ b :: post) F) : J ∉ blockInsts S c := by
  have hcP : c ≠ L.preheader := (hoistLog_orig L A _ F t hP ht (c, J) hlog).2.2.2
  obtain ⟨S2, s1, _, s3, s4⟩ := visitAll_spec L A pre F t hP ht
  rw [hS] at s1
  simp only [Option.some.injEq] at s1
  subst s1
  have htS : getTerminator (blockInsts S L.preheader) = some t := by
    rw [s3]
    exact getTerminator_append _ t (getTerminator_isTerminator _ _ ht)
  rw [hoistLog_append, hS, List.mem_append] at hlog
  rcases hlog with h | h
  · rw [s4 c hcP, List.mem_filter]
    intro hm
    have := hm.2
    simp only [decide_eq_true_eq] at this
    exact this (List.mem_map.2 ⟨(c, J), h, rfl⟩)
  · exfalso
    have hin := (hoistLog_orig L A (b :: post) S t hP htS (c, J) h).2.2.1
    exact (List.nodup_append.1 hnd).2.2 hc hin

/-- A second run from the output of a first run moves nothing when definitions
dominate their uses by the instructions of a kind the pass moves, dominators come
first in the pre-order, and no instruction left in a direct member block uses an
instruction hoisted from that same block. -/
theorem visitAll_idem_same_block (L : Loop) (A : Analyses) (bs : List Nat) (F G : Function)
    (t : Instruction) (hP : L.preheader ∉ L.blocks)
    (ht : getTerminator (blockInsts F L.preheader) = some t) (hU : Uniq F)
    (hnd : bs.Nodup) (hG : visitAll L A bs F = some G)
    (hssa : ∀ b c X U, b ∈ L.blocks → c ∈ L.blocks → X ∈ blockInsts F b →
      U ∈ blockInsts F c → U.hasInvariantKind = true → Value.inst X.id ∈ U.operands →
      InstDominates A F X U)
    (horder : ∀ pre post b c, bs = pre ++ b :: post → c ∈ bs → c ≠ b →
      A.dominates c b = true → c ∈ pre)
    (hsame : ∀ b I, directMember L A b = true → I ∈ blockInsts G b →
      ∀ x, Value.inst x ∈ I.operands → ∀ J, J ∈ blockInsts F b → J.id = x →
        J ∈ blockInsts G b) :
    visitAll L A bs G = some G := by
  apply visitAll_idem_of_keep L A bs F G t hP ht hU hG
  intro pre post S b I x c J hbs hS hd hI hkind hx hJ hc hid
  have hcP : c ≠ L.preheader := fun h => hP (h ▸ hc)
  have hbP : b ≠ L.preheader := fun h => hP (h ▸ directMember_mem L A b hd)
  have hJF : J ∈ blockInsts F c := visitAll_sub L A pre F S t hP ht hS c hcP J hJ
  have hIF : I ∈ blockInsts F b := visitAll_sub L A bs F G t hP ht hG b hbP I hI
  by_cases hcb : c = b
  · subst hcb
    exact hsame c I hd hI x hx J hJF hid
  · by_contra hn
    have hlog := (moved_iff_log L A bs F G t hP ht hU hG c J hJF).1 hn
    have hcbs : c ∈ bs := (hoistLog_orig L A bs F t hP ht (c, J) hlog).2.2.1
    obtain ⟨bx, bu, h1, h2, h3⟩ :=
      hssa c b J I hc (directMember_mem L A b hd) hJF hIF hkind (by rw [hid]; exact hx)
    obtain ⟨hbx, _⟩ := hU bx c J J h1 hJF rfl
    obtain ⟨hbu, _⟩ := hU bu b I I h2 hIF rfl
    subst hbx
    subst hbu
    rcases h3 with ⟨heq, _⟩ | ⟨_, hdom⟩
    · exact hcb heq
    · have hcpre : bx ∈ pre := horder pre post bu bx hbs hcbs hcb hdom
      rw [hbs] at hnd hlog
      exact not_mem_at_scan_of_hoisted L A pre post bu F S t hP ht hnd hS bx J hcpre hlog hJ

/-! ## LICM: which instructions move, and where to -/

theorem doLICM_eq (L : Loop) (A : Analyses) (F : Function) (HN : DomTreeNode)
    (hN : A.getNode L.header = some HN) :
    doLICM L A F = (visitAll L A (preorder HN) F).map (fun G => (G, true)) := by
  unfold doLICM
  rw [hN]
  simp only
  rw [doLICMRecursive_eq_visitAll]
  cases visitAll L A (preorder HN) F with
  | none => rfl
  | some G => rfl

theorem doLICM_some (L : Loop) (A : Analyses) (F G : Function) (HN : DomTreeNode)
    (hN : A.getNode L.header = some HN) (hG : visitAll L A (preorder HN) F = some G) :
    doLICM L A F = some (G, true) := by
  rw [doLICM_eq L A F HN hN, hG]
  rfl

theorem hoisted_mem_preheader (L : Loop) (A : Analyses) (bs : List Nat) (F G : Function)
    (t : Instruction) (hP : L.preheader ∉ L.blocks)
    (ht : getTerminator (blockInsts F L.preheader) = some t)
    (hG : visitAll L A bs F = some G) (e : Nat × Instruction)
    (he : e ∈ hoistLog L A bs F) :
    ∃ l1 l2, blockInsts G L.preheader = l1 ++ e.2 :: l2 ++ [t] := by
  obtain ⟨G2, g1, _, g3, _⟩ := visitAll_spec L A bs F t hP ht
  rw [hG] at g1
  simp only [Option.some.injEq] at g1
  subst g1
  have hm : e.2 ∈ (hoistLog L A bs F).map (fun e => e.2) := List.mem_map.2 ⟨e, he, rfl⟩
  obtain ⟨s, r, hsr⟩ := List.append_of_mem hm
  refine ⟨(blockInsts F L.preheader).dropLast ++ s, r, ?_⟩
  rw [g3, hsr]
  simp

theorem blockInsts_at_scan (L : Loop) (A : Analyses) (pre : List Nat) (F S : Function)
    (t : Instruction) (hP : L.preheader ∉ L.blocks)
    (ht : getTerminator (blockInsts F L.preheader) = some t)
    (hS : visitAll L A pre F = some S) (b : Nat) (hb : b ∉ pre) (hbP : b ≠ L.preheader) :
    blockInsts S b = blockInsts F b := by
  obtain ⟨G2, g1, _, _, g4⟩ := visitAll_spec L A pre F t hP ht
  rw [hS] at g1
  simp only [Option.some.injEq] at g1
  subst g1
  rw [g4 b hbP, List.filter_eq_self]
  intro J _
  simp only [decide_eq_true_eq, List.mem_map, not_exists, not_and]
  intro e he heq
  simp only [Prod.mk.injEq] at heq
  have := (hoistLog_orig L A pre F t hP ht e he).2.2.1
  rw [heq.1] at this
  exact hb this

theorem mem_log_iff_scan (L : Loop) (A : Analyses) (bs : List Nat) (F : Function)
    (t : Instruction) (hP : L.preheader ∉ L.blocks)
    (ht : getTerminator (blockInsts F L.preheader) = some t) (hnd : bs.Nodup)
    (b : Nat) (I : Instruction) (hI : I ∈ blockInsts F b) :
    (b, I) ∈ hoistLog L A bs F ↔ directMember L A b = true
      ∧ ∃ pre post S, bs = pre ++ b :: post ∧ visitAll L A pre F = some S
        ∧ isLoopInvariance L S I = true ∧ safeToHoist L A b I = true := by
  rw [mem_hoistLog L A bs F t hP ht]
  constructor
  · rintro ⟨pre, post, S, hbs, hS, hm⟩
    obtain ⟨hd, _, h1, h2⟩ := (mem_hoistedAt L A b S I).1 hm
    exact ⟨hd, pre, post, S, hbs, hS, h1, h2⟩
  · rintro ⟨hd, pre, post, S, hbs, hS, h1, h2⟩
    refine ⟨pre, post, S, hbs, hS, (mem_hoistedAt L A b S I).2 ⟨hd, ?_, h1, h2⟩⟩
    have hbP : b ≠ L.preheader := fun h => hP (h ▸ directMember_mem L A b hd)
    have hbpre : b ∉ pre := by
      intro hmem
      rw [hbs] at hnd
      have := (List.nodup_append.1 hnd).2.2
      exact this hmem (List.mem_cons_self _ _)
    show I ∈ blockInsts S b
    rw [blockInsts_at_scan L A pre F S t hP ht hS b hbpre hbP]
    exact hI

theorem hoistedAt_sublist (L : Loop) (A : Analyses) (b : Nat) (S : Function) :
    List.Sublist (hoistedAt L A b S) (blockInsts S b) := by
  unfold hoistedAt
  split
  · exact List.filter_sublist _
  · exact List.nil_sublist _

theorem filter_log_eq_nil (L : Loop) (A : Analyses) (bs : List Nat) (F : Function)
    (t : Instruction) (hP : L.preheader ∉ L.blocks)
    (ht : getTerminator (blockInsts F L.preheader) = some t) (b : Nat) (hb : b ∉ bs) :
    (hoistLog L A bs F).filter (fun e => decide (e.1 = b)) = [] := by
  rw [List.filter_eq_nil_iff]
  intro e he
  simp only [decide_eq_true_eq]
  intro h
  have := (hoistLog_orig L A bs F t hP ht e he).2.2.1
  rw [h] at this
  exact hb this

theorem log_filter_sublist (L : Loop) (A : Analyses) (bs : List Nat) (F : Function)
    (t : Instruction) (hP : L.preheader ∉ L.blocks)
    (ht : getTerminator (blockInsts F L.preheader) = some t) (hnd : bs.Nodup) (b : Nat) :
    List.Sublist (((hoistLog L A bs F).filter (fun e => decide (e.1 = b))).map (fun e => e.2))
      (blockInsts F b) := by
  by_cases hb : b ∈ bs
  · obtain ⟨pre, post, hbs⟩ := List.append_of_mem hb
    rw [hbs] at hnd
    have hbpre : b ∉ pre := fun hmem =>
      (List.nodup_append.1 hnd).2.2 hmem (List.mem_cons_self _ _)
    have hbpost : b ∉ post := (List.nodup_cons.1 (List.nodup_append.1 hnd).2.1).1
    obtain ⟨S, s1, _, s3, s4⟩ := visitAll_spec L A pre F t hP ht
    have htS : getTerminator (blockInsts S L.preheader) = some t := by
      rw [s3]
      exact getTerminator_append _ t (getTerminator_isTerminator _ _ ht)
    obtain ⟨S2, v1, _, v3, _⟩ := visitBlock_spec L A b S t hP htS
    have htS2 : getTerminator (blockInsts S2 L.preheader) = some t := by
      rw [v3]
      exact getTerminator_append _ t (getTerminator_isTerminator _ _ ht)
    rw [hbs, hoistLog_append, s1]
    simp only [hoistLog, v1, List.filter_append]
    rw [filter_log_eq_nil L A pre F t hP ht b hbpre,
      filter_log_eq_nil L A post S2 t hP htS2 b hbpost]
    have hmid : (List.map (fun I => (b, I)) (hoistedAt L A b S)).filter
        (fun e => decide (e.1 = b)) = List.map (fun I => (b, I)) (hoistedAt L A b S) := by
      rw [List.filter_eq_self]
      intro e he
      obtain ⟨I, _, rfl⟩ := List.mem_map.1 he
      simp
    rw [hmid]
    simp only [List.nil_append, List.append_nil, List.map_map]
    have hid : List.map ((fun e : Nat × Instruction => e.2) ∘ fun I => (b, I))
        (hoistedAt L A b S) = hoistedAt L A b S := by
      simp [Function.comp_def]
    rw [hid]
    by_cases hd : directMember L A b = true
    · have hbP : b ≠ L.preheader := fun h => hP (h ▸ directMember_mem L A b hd)
      refine List.Sublist.trans (hoistedAt_sublist L A b S) ?_
      rw [s4 b hbP]
      exact List.filter_sublist _
    · unfold hoistedAt
      rw [if_neg hd]
      exact List.nil_sublist _
  · rw [filter_log_eq_nil L A bs F t hP ht b hb]
    exact List.nil_sublist _

/-! ## LICM: hoisted definitions and their users -/

/-- When a hoisted instruction uses another hoisted instruction, the operand was
hoisted first. -/
theorem log_order (L : Loop) (A : Analyses) (bs : List Nat) (F : Function)
    (t : Instruction) (hP : L.preheader ∉ L.blocks)
    (ht : getTerminator (blockInsts F L.preheader) = some t) (hU : Uniq F)
    (b c : Nat) (X U : Instruction) (hX : (b, X) ∈ hoistLog L A bs F)
    (hUl : (c, U) ∈ hoistLog L A bs F) (huse : Value.inst X.id ∈ U.operands) :
    ∃ l1 l2 l3, (hoistLog L A bs F).map (fun e => e.2) = l1 ++ X :: l2 ++ U :: l3 := by
  obtain ⟨pre, post, S, hbs, hS, hm⟩ := (mem_hoistLog L A bs F t hP ht (c, U)).1 hUl
  simp only at hbs hm
  obtain ⟨hXF, hXd, _, hbP⟩ := hoistLog_orig L A bs F t hP ht (b, X) hX
  simp only at hXF hXd hbP
  obtain ⟨_, _, hinv, _⟩ := (mem_hoistedAt L A c S U).1 hm
  have hXpre : (b, X) ∈ hoistLog L A pre F := by
    by_contra hn
    have hXS : X ∈ blockInsts S b := by
      obtain ⟨G2, g1, _, _, g4⟩ := visitAll_spec L A pre F t hP ht
      rw [hS] at g1
      simp only [Option.some.injEq] at g1
      subst g1
      rw [g4 b hbP, List.mem_filter]
      refine ⟨hXF, ?_⟩
      simp only [decide_eq_true_eq]
      rw [mem_logIds_iff L A pre F t hP ht hU b X hXF]
      exact hn
    have hUS : Uniq S := uniq_visitAll L A pre F S t hP ht hU hS
    have hcont := containsInst_of_mem L S hUS b X hXS (directMember_mem L A b hXd)
    rw [isLoopInvariance_false_of_operand L S U X.id huse hcont] at hinv
    exact absurd hinv (by decide)
  have hXm : X ∈ (hoistLog L A pre F).map (fun e => e.2) :=
    List.mem_map.2 ⟨(b, X), hXpre, rfl⟩
  obtain ⟨a1, a2, ha⟩ := List.append_of_mem hXm
  obtain ⟨b1, b2, hb⟩ := List.append_of_mem hm
  rw [hbs, hoistLog_append, hS]
  simp only [hoistLog, List.map_append, List.map_map]
  have hid : List.map ((fun e : Nat × Instruction => e.2) ∘ fun I => (c, I))
      (hoistedAt L A c S) = hoistedAt L A c S := by
    simp [Function.comp_def]
  rw [hid, ha, hb]
  exact ⟨a1, a2 ++ b1, b2 ++ List.map (fun e => e.2)
    (match visitBlock L A c S with
      | none => []
      | some G => hoistLog L A post G), by simp⟩

/-- Every instruction hoisted by a run ends in the preheader at a position that
dominates each instruction that used it before the run and was dominated by it. -/
theorem hoisted_dominates_users (L : Loop) (A : Analyses) (bs : List Nat) (F G : Function)
    (t : Instruction) (hP : L.preheader ∉ L.blocks)
    (ht : getTerminator (blockInsts F L.preheader) = some t) (hU : Uniq F)
    (hG : visitAll L A bs F = some G)
    (hdomP : A.dominates L.preheader L.header = true)
    (htree : ∀ b ∈ bs, A.dominates L.header b = true)
    (htrans : ∀ a b c, A.dominates a b = true → A.dominates b c = true →
      A.dominates a c = true)
    (hanti : ∀ a b, A.dominates a b = true → A.dominates b a = true → a = b)
    (b : Nat) (X : Instruction) (hX : X ∈ blockInsts F b) (hmoved : X ∉ blockInsts G b)
    (c : Nat) (U : Instruction) (hUF : U ∈ blockInsts F c)
    (huse : Value.inst X.id ∈ U.operands) (hdom : InstDominates A F X U) :
    InstDominates A G X U := by
  have hXlog := (moved_iff_log L A bs F G t hP ht hU hG b X hX).1 hmoved
  obtain ⟨_, hXd, hbbs, hbP⟩ := hoistLog_orig L A bs F t hP ht (b, X) hXlog
  simp only at hXd hbbs hbP
  obtain ⟨p1, p2, hXG⟩ := hoisted_mem_preheader L A bs F G t hP ht hG (b, X) hXlog
  simp only at hXG
  have hXGm : X ∈ blockInsts G L.preheader := by
    rw [hXG]
    simp
  obtain ⟨G2, g1, _, g3, g4⟩ := visitAll_spec L A bs F t hP ht
  rw [hG] at g1
  simp only [Option.some.injEq] at g1
  subst g1
  by_cases hUG : U ∈ blockInsts G c
  · obtain ⟨bx, bu, h1, h2, h3⟩ := hdom
    obtain ⟨hbx, _⟩ := hU bx b X X h1 hX rfl
    obtain ⟨hbu, _⟩ := hU bu c U U h2 hUF rfl
    subst hbx
    subst hbu
    have hPb : A.dominates L.preheader bx = true :=
      htrans _ _ _ hdomP (htree bx hbbs)
    have hPc : A.dominates L.preheader bu = true := by
      rcases h3 with ⟨heq, _⟩ | ⟨_, hdom⟩
      · rw [← heq]
        exact hPb
      · exact htrans _ _ _ hPb hdom
    have hcP : bu ≠ L.preheader := by
      intro hc
      rcases h3 with ⟨heq, _⟩ | ⟨_, hdom⟩
      · exact hbP (heq.trans hc)
      · rw [hc] at hdom
        exact hbP (hanti _ _ hdom hPb)
    exact ⟨L.preheader, bu, hXGm, hUG, Or.inr ⟨fun h => hcP h.symm, hPc⟩⟩
  · have hUlog := (moved_iff_log L A bs F G t hP ht hU hG c U hUF).1 hUG
    obtain ⟨l1, l2, l3, hl⟩ := log_order L A bs F t hP ht hU b c X U hXlog hUlog huse
    have hshape : blockInsts G L.preheader
        = ((blockInsts F L.preheader).dropLast ++ l1) ++ X :: l2 ++ U :: (l3 ++ [t]) := by
      rw [g3, hl]
      simp
    have hUGm : U ∈ blockInsts G L.preheader := by
      rw [hshape]
      simp
    exact ⟨L.preheader, L.preheader, hXGm, hUGm, Or.inl ⟨rfl, _, _, _, hshape⟩⟩

/-- The preheader dominates every block that the block of a hoisted instruction
dominates, and is none of them. -/
theorem preheader_dominates_of_hoisted (L : Loop) (A : Analyses) (bs : List Nat)
    (F G : Function) (t : Instruction) (hP : L.preheader ∉ L.blocks)
    (ht : getTerminator (blockInsts F L.preheader) = some t) (hU : Uniq F)
    (hG : visitAll L A bs F = some G)
    (hdomP : A.dominates L.preheader L.header = true)
    (htree : ∀ b ∈ bs, A.dominates L.header b = true)
    (htrans : ∀ a b c, A.dominates a b = true → A.dominates b c = true →
      A.dominates a c = true)
    (hanti : ∀ a b, A.dominates a b = true → A.dominates b a = true → a = b)
    (b : Nat) (X : Instruction) (hX : X ∈ blockInsts F b) (hmoved : X ∉ blockInsts G b)
    (d : Nat) (hd : b = d ∨ A.dominates b d = true) :
    d ≠ L.preheader ∧ A.dominates L.preheader d = true := by
  have hXlog := (moved_iff_log L A bs F G t hP ht hU hG b X hX).1 hmoved
  obtain ⟨_, _, hbbs, hbP⟩ := hoistLog_orig L A bs F t hP ht (b, X) hXlog
  simp only at hbbs hbP
  have hPb : A.dominates L.preheader b = true := htrans _ _ _ hdomP (htree b hbbs)
  rcases hd with rfl | hd
  · exact ⟨hbP, hPb⟩
  · refine ⟨?_, htrans _ _ _ hPb hd⟩
    intro hdP
    rw [hdP] at hd
    exact hbP (hanti _ _ hd hPb)

/-! ## LICM: a loop with a loop-carried phi -/

/-- The instructions of the loop with a loop-carried phi, block by block. -/
theorem mem_scenarioPhi (b : Nat) (X : Instruction) (hX : X ∈ blockInsts scenarioPhi b) :
    (b = 0 ∧ (X = defI ∨ X = preheaderTermB))
      ∨ (b = 1 ∧ (X = phiP ∨ X = incP ∨ X = addX ∨ X = branchB))
      ∨ (b = 2 ∧ (X = phiX ∨ X = storeX ∨ X = retB)) := by
  have hb := lt_length_of_mem_blockInsts _ _ _ hX
  simp only [scenarioPhi, List.length_cons, List.length_nil] at hb
  interval_cases b <;> simpa [blockInsts, scenarioPhi] using hX

/-- In the loop with a loop-carried phi every definition dominates its uses by the
instructions of a kind the pass moves. -/
theorem scenarioPhi_defs_dominate_uses :
    ∀ b c X U, X ∈ blockInsts scenarioPhi b → U ∈ blockInsts scenarioPhi c →
      U.hasInvariantKind = true → Value.inst X.id ∈ U.operands →
      InstDominates analysesB scenarioPhi X U := by
  intro b c X U hX hU hk huse
  have hX2 := mem_scenarioPhi b X hX
  rcases mem_scenarioPhi c U hU with ⟨rfl, rfl | rfl⟩ | ⟨rfl, rfl | rfl | rfl | rfl⟩
    | ⟨rfl, rfl | rfl | rfl⟩
  · simp [defI] at huse
  · simp [preheaderTermB] at huse
  · exact absurd hk (by decide)
  · have hid : X.id = 7 := by simpa [incP] using huse
    rcases hX2 with ⟨rfl, rfl | rfl⟩ | ⟨rfl, rfl | rfl | rfl | rfl⟩ | ⟨rfl, rfl | rfl | rfl⟩
    · simp [defI] at hid
    · simp [preheaderTermB] at hid
    · exact ⟨1, 1, by decide, by decide, Or.inl ⟨rfl, [], [], [addX, branchB], rfl⟩⟩
    · simp [incP] at hid
    · simp [addX] at hid
    · simp [branchB] at hid
    · simp [phiX] at hid
    · simp [storeX] at hid
    · simp [retB] at hid
  · have hid : X.id = 1 := by simpa [addX] using huse
    rcases hX2 with ⟨rfl, rfl | rfl⟩ | ⟨rfl, rfl | rfl | rfl | rfl⟩ | ⟨rfl, rfl | rfl | rfl⟩
    · exact ⟨0, 1, by decide, by decide, Or.inr ⟨by decide, rfl⟩⟩
    · simp [preheaderTermB] at hid
    · simp [phiP] at hid
    · simp [incP] at hid
    · simp [addX] at hid
    · simp [branchB] at hid
    · simp [phiX] at hid
    · simp [storeX] at hid
    · simp [retB] at hid
  · exact absurd hk (by decide)
  · exact absurd hk (by decide)
  · exact absurd hk (by decide)
  · exact absurd hk (by decide)

/-- In the loop with a loop-carried phi the phi is not dominated by the instruction
it uses along the back edge, which stands after it in the header. -/
theorem scenarioPhi_phi_not_dominated :
    ¬ InstDominates analysesB scenarioPhi incP phiP := by
  rintro ⟨bx, bu, h1, h2, h3⟩
  have hx := mem_scenarioPhi bx incP h1
  have hu := mem_scenarioPhi bu phiP h2
  have hbx : bx = 1 := by
    rcases hx with ⟨_, h | h⟩ | ⟨h, _⟩ | ⟨_, h | h | h⟩
    · exact absurd h (by decide)
    · exact absurd h (by decide)
    · exact h
    · exact absurd h (by decide)
    · exact absurd h (by decide)
    · exact absurd h (by decide)
  have hbu : bu = 1 := by
    rcases hu with ⟨_, h | h⟩ | ⟨h, _⟩ | ⟨_, h | h | h⟩
    · exact absurd h (by decide)
    · exact absurd h (by decide)
    · exact h
    · exact absurd h (by decide)
    · exact absurd h (by decide)
    · exact absurd h (by decide)
  subst hbx
  subst hbu
  rcases h3 with ⟨_, l1, l2, l3, hl⟩ | ⟨hne, _⟩
  · have hl2 : [phiP, incP, addX, branchB] = l1 ++ incP :: l2 ++ phiP :: l3 := hl
    cases l1 with
    | nil =>
      simp only [List.nil_append, List.cons_append] at hl2
      have := (List.cons.inj hl2).1
      exact absurd this (by decide)
    | cons a l1 =>
      simp only [List.cons_append] at hl2
      have h2 := (List.cons.inj hl2).2
      have hmem : phiP ∈ [incP, addX, branchB] := by
        rw [h2]
        simp
      exact absurd hmem (by decide)
  · exact hne rfl

/-- In the loop with a loop-carried phi, after the run no instruction left in the
header uses an instruction that was hoisted from the header. -/
theorem scenarioPhi_no_same_block_user :
    ∀ b I, directMember loopB analysesB b = true → I ∈ blockInsts scenarioPhiHoisted b →
      ∀ x, Value.inst x ∈ I.operands → ∀ J, J ∈ blockInsts scenarioPhi b → J.id = x →
        J ∈ blockInsts scenarioPhiHoisted b := by
  intro b I hd hI x hx J hJ hid
  have hb : b = 1 := by
    have := directMember_mem _ _ _ hd
    simpa [loopB] using this
  subst hb
  have hI2 : I = phiP ∨ I = incP ∨ I = branchB := by
    simpa [blockInsts, scenarioPhiHoisted] using hI
  have hJ2 : J = phiP ∨ J = incP ∨ J = addX ∨ J = branchB := by
    simpa [blockInsts, scenarioPhi] using hJ
  rcases hI2 with rfl | rfl | rfl
  · have hx8 : x = 8 := by simpa [phiP] using hx
    rw [hx8] at hid
    rcases hJ2 with rfl | rfl | rfl | rfl
    · exact absurd hid (by decide)
    · decide
    · exact absurd hid (by decide)
    · exact absurd hid (by decide)
  · have hx7 : x = 7 := by simpa [incP] using hx
    rw [hx7] at hid
    rcases hJ2 with rfl | rfl | rfl | rfl
    · decide
    · exact absurd hid (by decide)
    · exact absurd hid (by decide)
    · exact absurd hid (by decide)
  · simp [branchB] at hx

/-- In the loop with a loop-carried phi no instruction uses the terminator of the
preheader. -/
theorem scenarioPhi_terminator_unused :
    ∀ c U, U ∈ blockInsts scenarioPhi c →
      Value.inst preheaderTermB.id ∉ U.operands := by
  intro c U hU
  rcases mem_scenarioPhi c U hU with ⟨rfl, rfl | rfl⟩ | ⟨rfl, rfl | rfl | rfl | rfl⟩
    | ⟨rfl, rfl | rfl | rfl⟩ <;> decide

/-! ## ADCE: main results -/

/-- C1, as the code has it: after `doADCE`, a block reachable from the entry holds,
in their original order, exactly its instructions that the pass put in the live set,
and the live set is liveness restricted to reachable code: the trivially live
instructions of reachable blocks, closed under "is an instruction operand of a live
instruction of a reachable block" (the operands of an instruction of a block no edge
leads to are not followed).  Every other instruction of the block is gone.  When
operands of reachable code are defined in reachable code, this liveness is plain
backward reachability over operand edges from the trivially live instructions of
reachable blocks; when terminators only stand last in their blocks, the same blocks
are reachable after the run as before. -/
theorem doADCE_keeps_exactly_live (F : Function) (hU : UniqueIds F) (b : Nat)
    (hb : Reachable F b) :
    blockInsts (doADCE F).1 b = (blockInsts F b).filter (fun I => decide (I.id ∈ liveSet F))
      ∧ (∀ x, x ∈ liveSet F ↔ Live F x)
      ∧ (∀ I, I ∈ blockInsts (doADCE F).1 b ↔ I ∈ blockInsts F b ∧ Live F I.id)
      ∧ (OperandsReachable F → ∀ x, Live F x ↔ Needed F x)
      ∧ (WellTerminated F → ∀ c, Reachable (doADCE F).1 c ↔ Reachable F c) :=
  ⟨blockInsts_doADCE_reachable F (uniq_of_uniqueIds F hU) b hb,
    mem_liveSet_iff F (uniq_of_uniqueIds F hU),
    mem_doADCE_reachable F (uniq_of_uniqueIds F hU) b hb,
    fun hO => live_iff_needed F (uniq_of_uniqueIds F hU) hO,
    fun hWT => reachable_doADCE_iff F (uniq_of_uniqueIds F hU) hWT⟩

/-- Scenario A for C1: `u = mul c, d` (id 2) is deleted, `t = add a, b` (id 1), the
store (id 3) and the return (id 4) are retained. -/
theorem doADCE_keeps_exactly_live_scenarioA :
    UniqueIds scenarioA ∧ Reachable scenarioA 0
      ∧ (blockInsts (doADCE scenarioA).1 0).map (fun I => I.id) = [1, 3, 4]
      ∧ (blockInsts (doADCE scenarioA).1 0
            = (blockInsts scenarioA 0).filter (fun I => decide (I.id ∈ liveSet scenarioA))
          ∧ (∀ x, x ∈ liveSet scenarioA ↔ Live scenarioA x)
          ∧ (∀ I, I ∈ blockInsts (doADCE scenarioA).1 0
              ↔ I ∈ blockInsts scenarioA 0 ∧ Live scenarioA I.id)
          ∧ (OperandsReachable scenarioA → ∀ x, Live scenarioA x ↔ Needed scenarioA x)
          ∧ (WellTerminated scenarioA →
              ∀ c, Reachable (doADCE scenarioA).1 c ↔ Reachable scenarioA c)) :=
  ⟨by decide, Reachable.entry (by decide), by decide,
    doADCE_keeps_exactly_live scenarioA (by decide) 0 (Reachable.entry (by decide))⟩

/-- Counterexample to C1 as stated (`scenarioNeeded`): `x = add a, b` (id 1) is an
instruction of the reachable entry block and is reached by following operand edges
backwards from the return of the reachable block 2, a trivially live instruction:
the return uses the phi `p`, `p` uses `y`, and `y` uses `x`. But `y` is in a block
no edge leads to, whose operands the work-list loop does not follow; `x` is not in
the live set and the run deletes it. -/
theorem doADCE_deletes_needed :
    UniqueIds scenarioNeeded ∧ WellTerminated scenarioNeeded
      ∧ Reachable scenarioNeeded 0 ∧ ¬ Reachable scenarioNeeded 1
      ∧ Reachable scenarioNeeded 2
      ∧ neededX ∈ blockInsts scenarioNeeded 0
      ∧ neededRet ∈ blockInsts scenarioNeeded 2 ∧ isTriviallyLive neededRet = true
      ∧ Value.inst neededPhi.id ∈ neededRet.operands
      ∧ Value.inst neededY.id ∈ neededPhi.operands
      ∧ Value.inst neededX.id ∈ neededY.operands
      ∧ Needed scenarioNeeded neededX.id
      ∧ ¬ Live scenarioNeeded neededX.id
      ∧ doADCE scenarioNeeded = (scenarioNeededAfter, true)
      ∧ neededX ∉ blockInsts (doADCE scenarioNeeded).1 0 := by
  have h0 : Reachable scenarioNeeded 0 := Reachable.entry (by decide)
  have h2 : Reachable scenarioNeeded 2 :=
    Reachable.step h0 (by decide) (by decide)
  have hret : Needed scenarioNeeded neededRet.id :=
    Needed.trivial h2 (by decide) (by decide)
  have hphi : Needed scenarioNeeded neededPhi.id :=
    Needed.operand hret (by decide : neededRet ∈ blockInsts scenarioNeeded 2) (by decide)
  have hy : Needed scenarioNeeded neededY.id :=
    Needed.operand hphi (by decide : neededPhi ∈ blockInsts scenarioNeeded 2) (by decide)
  have hx : Needed scenarioNeeded neededX.id :=
    Needed.operand hy (by decide : neededY ∈ blockInsts scenarioNeeded 1) (by decide)
  refine ⟨by decide, by decide, h0, ?_, h2, by decide, by decide, by decide, by decide,
    by decide, by decide, hx, ?_, by decide, by decide⟩
  · intro h
    have := (mem_dfOrder_iff scenarioNeeded 1).2 h
    revert this
    decide
  · intro h
    have := (mem_liveSet_iff scenarioNeeded (uniq_of_uniqueIds _ (by decide)) _).2 h
    revert this
    decide

/-- C2: ADCE is idempotent: run on the function a first run produced, `doADCE`
deletes nothing and returns false. -/
theorem doADCE_idempotent (F : Function) (hU : UniqueIds F) (hWT : WellTerminated F) :
    doADCE (doADCE F).1 = ((doADCE F).1, false) :=
  doADCE_idem F (uniq_of_uniqueIds F hU) hWT

/-- Scenario A for C2: the second run leaves the output of the first run alone. -/
theorem doADCE_idempotent_scenarioA :
    UniqueIds scenarioA ∧ WellTerminated scenarioA
      ∧ doADCE (doADCE scenarioA).1 = ((doADCE scenarioA).1, false) :=
  ⟨by decide, by decide, doADCE_idempotent scenarioA (by decide) (by decide)⟩

/-- C3: every instruction of a reachable block that is a terminator, a store, a
call, a volatile load, has side effects or may write memory is still in its block
after `doADCE`; a reachable block keeps its terminator and its outgoing edges, and
when terminators only stand last in their blocks the successors of every block are
the same as before. -/
theorem doADCE_keeps_trivially_live (F : Function) (hU : UniqueIds F) (b : Nat)
    (hb : Reachable F b) :
    (∀ I ∈ blockInsts F b,
        (I.isTerminator = true ∨ I.kind = Kind.store ∨ I.kind = Kind.call
          ∨ (I.kind = Kind.load ∧ I.volatile = true) ∨ I.mayHaveSideEffects = true
          ∨ I.mayWriteToMemory = true) →
        I ∈ blockInsts (doADCE F).1 b)
      ∧ (∀ t, getTerminator (blockInsts F b) = some t →
          getTerminator (blockInsts (doADCE F).1 b) = some t)
      ∧ (∀ c, c ∈ successors F b → c ∈ successors (doADCE F).1 b)
      ∧ (WellTerminated F → ∀ c, successors (doADCE F).1 c = successors F c) := by
  have hUq := uniq_of_uniqueIds F hU
  refine ⟨?_, getTerminator_doADCE F hUq b hb, ?_, fun hWT => successors_doADCE F hUq hWT⟩
  · intro I hI hk
    apply triviallyLive_mem_doADCE F hUq b hb I hI
    unfold isTriviallyLive
    rcases hk with h | h | h | h | h | h
    · simp [h]
    · simp [h]
    · simp [h]
    · simp [h.1, h.2]
    · simp [h]
    · simp [h]
  · intro c hc
    unfold successors at hc ⊢
    cases ht : getTerminator (blockInsts F b) with
    | none => simp [ht] at hc
    | some t =>
      rw [getTerminator_doADCE F hUq b hb t ht]
      simpa [ht] using hc

/-- Scenario A for C3: the store and the return stay in the entry block. -/
theorem doADCE_keeps_trivially_live_scenarioA :
    UniqueIds scenarioA ∧ Reachable scenarioA 0
      ∧ ((∀ I ∈ blockInsts scenarioA 0,
          (I.isTerminator = true ∨ I.kind = Kind.store ∨ I.kind = Kind.call
            ∨ (I.kind = Kind.load ∧ I.volatile = true) ∨ I.mayHaveSideEffects = true
            ∨ I.mayWriteToMemory = true) →
          I ∈ blockInsts (doADCE scenarioA).1 0)
        ∧ (∀ t, getTerminator (blockInsts scenarioA 0) = some t →
            getTerminator (blockInsts (doADCE scenarioA).1 0) = some t)
        ∧ (∀ c, c ∈ successors scenarioA 0 → c ∈ successors (doADCE scenarioA).1 0)
        ∧ (WellTerminated scenarioA →
            ∀ c, successors (doADCE scenarioA).1 c = successors scenarioA c)) :=
  ⟨by decide, Reachable.entry (by decide),
    doADCE_keeps_trivially_live scenarioA (by decide) 0 (Reachable.entry (by decide))⟩

/-- C4: a block that is not reachable from the entry block has the same instruction
sequence after `doADCE` as before, and the function keeps all its blocks. -/
theorem doADCE_unreachable_untouched (F : Function) (b : Nat) (hb : ¬ Reachable F b) :
    (doADCE F).1.length = F.length ∧ blockInsts (doADCE F).1 b = blockInsts F b :=
  ⟨length_doADCE F, blockInsts_doADCE_unreachable F b hb⟩

/-- Witness for C4: the unused `add` of the unreachable block is still there. -/
theorem doADCE_unreachable_untouched_witness :
    ¬ Reachable scenarioUnreachable 1
      ∧ (blockInsts (doADCE scenarioUnreachable).1 1).map (fun I => I.id) = [2, 3]
      ∧ ((doADCE scenarioUnreachable).1.length = scenarioUnreachable.length
        ∧ blockInsts (doADCE scenarioUnreachable).1 1 = blockInsts scenarioUnreachable 1) :=
  ⟨fun h => absurd ((mem_dfOrder_iff _ _).2 h) (by decide), by decide,
    doADCE_unreachable_untouched scenarioUnreachable 1
      (fun h => absurd ((mem_dfOrder_iff _ _).2 h) (by decide))⟩

/-- C5: `doADCE` returns true exactly when some instruction of the function is no
longer in its block after the run, which is exactly when the zero-use deletion step
or the final sweep queued an instruction; it returns false exactly when the
function is unchanged. -/
theorem doADCE_returns_changed (F : Function) :
    ((doADCE F).2 = true ↔ ∃ b I, I ∈ blockInsts F b ∧ I ∉ blockInsts (doADCE F).1 b)
      ∧ ((doADCE F).2 = true ↔ zeroUse F ≠ [] ∨ sweepDead F ≠ [])
      ∧ ((doADCE F).2 = false ↔ (doADCE F).1 = F) := by
  refine ⟨doADCE_changed_iff F, ?_, doADCE_unchanged_iff F⟩
  rw [doADCE_snd]
  simp only [Bool.or_eq_true, Bool.not_eq_true', List.isEmpty_eq_false]

/-! ## LICM: main results -/

/-- C6, as the code has it: `doLICM` returns true on every loop whose preheader lies
outside the loop and ends in a terminator, whether or not an instruction was
moved; no run returns false. -/
theorem doLICM_returns_true (L : Loop) (A : Analyses) (F : Function) (HN : DomTreeNode)
    (t : Instruction) (hN : A.getNode L.header = some HN) (hP : L.preheader ∉ L.blocks)
    (ht : getTerminator (blockInsts F L.preheader) = some t) :
    (∃ G, doLICM L A F = some (G, true)) ∧ ∀ r, doLICM L A F = some r → r.2 = true := by
  obtain ⟨G, hG, _⟩ := visitAll_spec L A (preorder HN) F t hP ht
  have h := doLICM_some L A F G HN hN hG
  refine ⟨⟨G, h⟩, ?_⟩
  intro r hr
  rw [h] at hr
  simp only [Option.some.injEq] at hr
  rw [← hr]

/-- Witness for C6 on the loop with nothing to hoist. -/
theorem doLICM_returns_true_witness :
    analysesB.getNode loopB.header = some headerNodeB ∧ loopB.preheader ∉ loopB.blocks
      ∧ ((∃ G, doLICM loopB analysesB scenarioIdle = some (G, true))
        ∧ ∀ r, doLICM loopB analysesB scenarioIdle = some r → r.2 = true) :=
  ⟨rfl, by decide,
    doLICM_returns_true loopB analysesB scenarioIdle headerNodeB preheaderTermIdle
      rfl (by decide) (by decide)⟩

/-- Counterexample to C6 as stated: on a loop in which no instruction is both
loop-invariant and safe to hoist, `doLICM` moves nothing and still returns true. -/
theorem doLICM_true_without_motion :
    (∀ b ∈ loopB.blocks, ∀ I ∈ blockInsts scenarioIdle b,
        (isLoopInvariance loopB scenarioIdle I && safeToHoist loopB analysesB b I) = false)
      ∧ doLICM loopB analysesB scenarioIdle = some (scenarioIdle, true) := by
  decide

/-- In the dominator subtree of Scenario B a dominating block comes first in the
pre-order. -/
theorem headerNodeB_dominators_first :
    ∀ pre post b c, preorder headerNodeB = pre ++ b :: post → c ∈ preorder headerNodeB →
      c ≠ b → analysesB.dominates c b = true → c ∈ pre := by
  intro pre post b c hsplit hc hne hdom
  have hpo : preorder headerNodeB = [1, 2] := by decide
  rw [hpo] at hsplit hc
  simp only [analysesB, decide_eq_true_eq] at hdom
  have hc2 : c = 1 ∨ c = 2 := by simpa using hc
  cases pre with
  | nil =>
    simp only [List.nil_append, List.cons.injEq] at hsplit
    omega
  | cons a pre =>
    simp only [List.cons_append, List.cons.injEq] at hsplit
    obtain ⟨ha, hrest⟩ := hsplit
    cases pre with
    | nil =>
      simp only [List.nil_append, List.cons.injEq] at hrest
      have : c = 1 := by omega
      simp [this, ← ha]
    | cons a2 pre =>
      simp at hrest

/-- C7, as the code has it: a second LICM run on the output of a first run moves no
instruction provided no instruction left in a direct member block of the loop has
an operand that the first run hoisted from that same block. The input is
well-formed: the instructions have distinct identities, the pre-order of the
dominator tree visits no block twice and visits the dominators of a block before
it, and inside the loop a definition dominates each of its uses by an instruction
of a kind the pass moves (a binary operation, a shift, a select, a cast or a
getelementptr, which use an operand where they stand; nothing is asked of a phi,
which is none of these). -/
theorem doLICM_idempotent_of_no_same_block_user (L : Loop) (A : Analyses)
    (F G : Function) (HN : DomTreeNode) (t : Instruction)
    (hN : A.getNode L.header = some HN) (hP : L.preheader ∉ L.blocks)
    (ht : getTerminator (blockInsts F L.preheader) = some t) (hU : UniqueIds F)
    (hnd : (preorder HN).Nodup)
    (hssa : ∀ b c X U, b ∈ L.blocks → c ∈ L.blocks → X ∈ blockInsts F b →
      U ∈ blockInsts F c → U.hasInvariantKind = true → Value.inst X.id ∈ U.operands →
      InstDominates A F X U)
    (horder : ∀ pre post b c, preorder HN = pre ++ b :: post → c ∈ preorder HN → c ≠ b →
      A.dominates c b = true → c ∈ pre)
    (hG : doLICM L A F = some (G, true))
    (hsame : ∀ b I, directMember L A b = true → I ∈ blockInsts G b →
      ∀ x, Value.inst x ∈ I.operands → ∀ J, J ∈ blockInsts F b → J.id = x →
        J ∈ blockInsts G b) :
    doLICM L A G = some (G, true) := by
  have hv : visitAll L A (preorder HN) F = some G := by
    rw [doLICM_eq L A F HN hN] at hG
    cases hvis : visitAll L A (preorder HN) F with
    | none => simp [hvis] at hG
    | some G2 =>
      rw [hvis] at hG
      simp only [Option.map_some', Option.some.injEq, Prod.mk.injEq, and_true] at hG
      rw [hG]
  exact doLICM_some L A G G HN hN
    (visitAll_idem_same_block L A (preorder HN) F G t hP ht (uniq_of_uniqueIds F hU) hnd hv
      hssa horder hsame)

/-- Witness for C7 as amended, on a loop with a loop-carried phi: the first run
hoists `x = add i, 5`, no user of `x` is left in its block, and the second run
changes nothing. The phi `p` uses `q`, which is defined after it; the condition on
the input asks nothing of a phi. -/
theorem doLICM_idempotent_of_no_same_block_user_witness :
    doLICM loopB analysesB scenarioPhi = some (scenarioPhiHoisted, true)
      ∧ phiP ∈ blockInsts scenarioPhi 1 ∧ incP ∈ blockInsts scenarioPhi 1
      ∧ Value.inst incP.id ∈ phiP.operands
      ∧ ¬ InstDominates analysesB scenarioPhi incP phiP
      ∧ doLICM loopB analysesB scenarioPhiHoisted = some (scenarioPhiHoisted, true) := by
  refine ⟨by decide, by decide, by decide, by decide, scenarioPhi_phi_not_dominated, ?_⟩
  exact doLICM_idempotent_of_no_same_block_user loopB analysesB scenarioPhi
    scenarioPhiHoisted headerNodeB preheaderTermB rfl (by decide) (by decide) (by decide)
    (by decide) (fun b c X U _ _ => scenarioPhi_defs_dominate_uses b c X U)
    headerNodeB_dominators_first (by decide)
    scenarioPhi_no_same_block_user

/-- Counterexample to C7 as stated (Scenario B): the first run hoists `x` (id 3) and
leaves its user `y` (id 4), which sits later in the same block; the second run,
started on the output of the first, moves `y`. -/
theorem doLICM_second_run_moves :
    (doLICM loopB analysesB scenarioB).map
        (fun r => (r.1.map (fun B => B.insts.map (fun I => I.id)), r.2))
      = some ([[1, 3, 2], [4, 5], [6]], true)
    ∧ ((doLICM loopB analysesB scenarioB).bind (fun r => doLICM loopB analysesB r.1)).map
        (fun r => (r.1.map (fun B => B.insts.map (fun I => I.id)), r.2))
      = some ([[1, 3, 4, 2], [5], [6]], true) := by
  decide

/-- C8: for a loop whose preheader dominates the header, with the header dominating
the blocks of its dominator subtree, each instruction hoisted by LICM ends in the
preheader before its terminator, at a position that dominates every instruction
that used it before the run and was dominated by it (in an input in which every
definition dominates its uses: every user that is not a phi). A phi uses an
operand at the end of an incoming block that the block of the definition dominates
or is; the preheader dominates every such block and is none of them. -/
theorem doLICM_hoisted_dominates_uses (L : Loop) (A : Analyses) (F : Function)
    (HN : DomTreeNode) (t : Instruction) (hN : A.getNode L.header = some HN)
    (hP : L.preheader ∉ L.blocks)
    (ht : getTerminator (blockInsts F L.preheader) = some t) (hU : UniqueIds F)
    (hdomP : A.dominates L.preheader L.header = true)
    (htree : ∀ b ∈ preorder HN, A.dominates L.header b = true)
    (htrans : ∀ a b c, A.dominates a b = true → A.dominates b c = true →
      A.dominates a c = true)
    (hanti : ∀ a b, A.dominates a b = true → A.dominates b a = true → a = b) :
    ∃ G, doLICM L A F = some (G, true)
      ∧ ∀ b X, X ∈ blockInsts F b → X ∉ blockInsts G b →
          (∃ l1 l2, blockInsts G L.preheader = l1 ++ X :: l2 ++ [t])
          ∧ (∀ c U, U ∈ blockInsts F c → Value.inst X.id ∈ U.operands →
              InstDominates A F X U → InstDominates A G X U)
          ∧ (∀ d, b = d ∨ A.dominates b d = true →
              d ≠ L.preheader ∧ A.dominates L.preheader d = true) := by
  have hUq := uniq_of_uniqueIds F hU
  obtain ⟨G, hG, _⟩ := visitAll_spec L A (preorder HN) F t hP ht
  refine ⟨G, doLICM_some L A F G HN hN hG, ?_⟩
  intro b X hX hmoved
  refine ⟨?_, ?_, ?_⟩
  · exact hoisted_mem_preheader L A (preorder HN) F G t hP ht hG (b, X)
      ((moved_iff_log L A (preorder HN) F G t hP ht hUq hG b X hX).1 hmoved)
  · intro c U hUF huse hdom
    exact hoisted_dominates_users L A (preorder HN) F G t hP ht hUq hG hdomP htree htrans
      hanti b X hX hmoved c U hUF huse hdom
  · intro d hd
    exact preheader_dominates_of_hoisted L A (preorder HN) F G t hP ht hUq hG hdomP htree
      htrans hanti b X hX hmoved d hd

/-- C9: an instruction is moved by one LICM run exactly when its block is a direct
member of the loop and, in the state in which the pre-order walk of the header's
dominator subtree reaches its block, it satisfies both `isLoopInvariance` and
`safeToHoist`; a moved instruction is in the preheader afterwards, and blocks that
are not direct members of the loop keep their instructions. -/
theorem doLICM_moves_iff (L : Loop) (A : Analyses) (F : Function) (HN : DomTreeNode)
    (t : Instruction) (hN : A.getNode L.header = some HN) (hP : L.preheader ∉ L.blocks)
    (ht : getTerminator (blockInsts F L.preheader) = some t) (hU : UniqueIds F)
    (hnd : (preorder HN).Nodup) :
    ∃ G, doLICM L A F = some (G, true)
      ∧ doLICMRecursive L A HN F = visitAll L A (preorder HN) F
      ∧ (∀ b I, I ∈ blockInsts F b →
          (I ∉ blockInsts G b ↔ directMember L A b = true
            ∧ ∃ pre post S, preorder HN = pre ++ b :: post ∧ visitAll L A pre F = some S
              ∧ isLoopInvariance L S I = true ∧ safeToHoist L A b I = true)
          ∧ (I ∉ blockInsts G b → I ∈ blockInsts G L.preheader))
      ∧ ∀ b, directMember L A b = false → b ≠ L.preheader →
          blockInsts G b = blockInsts F b := by
  have hUq := uniq_of_uniqueIds F hU
  obtain ⟨G, hG, _, _, g4⟩ := visitAll_spec L A (preorder HN) F t hP ht
  refine ⟨G, doLICM_some L A F G HN hN hG, doLICMRecursive_eq_visitAll L A HN F, ?_, ?_⟩
  · intro b I hI
    refine ⟨?_, ?_⟩
    · rw [moved_iff_log L A (preorder HN) F G t hP ht hUq hG b I hI]
      exact mem_log_iff_scan L A (preorder HN) F t hP ht hnd b I hI
    · intro hmoved
      obtain ⟨l1, l2, hl⟩ := hoisted_mem_preheader L A (preorder HN) F G t hP ht hG (b, I)
        ((moved_iff_log L A (preorder HN) F G t hP ht hUq hG b I hI).1 hmoved)
      rw [hl]
      simp
  · intro b hd hb
    rw [g4 b hb, List.filter_eq_self]
    intro J _
    simp only [decide_eq_true_eq, List.mem_map, not_exists, not_and]
    intro e he heq
    simp only [Prod.mk.injEq] at heq
    have := (hoistLog_orig L A (preorder HN) F t hP ht e he).2.1
    rw [heq.1, hd] at this
    exact absurd this (by decide)

/-- C10: after an LICM run the preheader holds its original instructions up to the
terminator, then the hoisted instructions in hoisting order, then its original
terminator; the hoisted instructions are exactly the instructions that left their
block, and those that came from one block stand in their original relative order. -/
theorem doLICM_preheader_sequence (L : Loop) (A : Analyses) (F : Function)
    (HN : DomTreeNode) (t : Instruction) (hN : A.getNode L.header = some HN)
    (hP : L.preheader ∉ L.blocks)
    (ht : getTerminator (blockInsts F L.preheader) = some t) (hU : UniqueIds F)
    (hnd : (preorder HN).Nodup) :
    ∃ G, doLICM L A F = some (G, true)
      ∧ blockInsts F L.preheader = (blockInsts F L.preheader).dropLast ++ [t]
      ∧ blockInsts G L.preheader = (blockInsts F L.preheader).dropLast
          ++ (hoistLog L A (preorder HN) F).map (fun e => e.2) ++ [t]
      ∧ (∀ I, I ∈ (hoistLog L A (preorder HN) F).map (fun e => e.2)
          ↔ ∃ b, I ∈ blockInsts F b ∧ I ∉ blockInsts G b)
      ∧ ∀ b, List.Sublist
          (((hoistLog L A (preorder HN) F).filter (fun e => decide (e.1 = b))).map
            (fun e => e.2))
          (blockInsts F b) := by
  have hUq := uniq_of_uniqueIds F hU
  obtain ⟨G, hG, _, g3, _⟩ := visitAll_spec L A (preorder HN) F t hP ht
  refine ⟨G, doLICM_some L A F G HN hN hG, getTerminator_eq_append _ t ht, g3, ?_,
    log_filter_sublist L A (preorder HN) F t hP ht hnd⟩
  intro I
  constructor
  · intro hI
    obtain ⟨e, he, rfl⟩ := List.mem_map.1 hI
    have horig := (hoistLog_orig L A (preorder HN) F t hP ht e he).1
    exact ⟨e.1, horig,
      (moved_iff_log L A (preorder HN) F G t hP ht hUq hG e.1 e.2 horig).2 he⟩
  · rintro ⟨b, hI, hmoved⟩
    exact List.mem_map.2 ⟨(b, I),
      (moved_iff_log L A (preorder HN) F G t hP ht hUq hG b I hI).1 hmoved, rfl⟩

/-- A loop with a loop-carried phi for C8: `x = add i, 5` ends before the preheader's
terminator, where it dominates the store that uses it in the exit block; the
preheader dominates the header, at whose end the phi of the exit block uses `x`. -/
theorem doLICM_hoisted_dominates_uses_scenarioPhi :
    analysesB.getNode loopB.header = some headerNodeB ∧ loopB.preheader ∉ loopB.blocks
      ∧ getTerminator (blockInsts scenarioPhi loopB.preheader) = some preheaderTermB
      ∧ UniqueIds scenarioPhi
      ∧ analysesB.dominates loopB.preheader loopB.header = true
      ∧ (∀ b ∈ preorder headerNodeB, analysesB.dominates loopB.header b = true)
      ∧ doLICM loopB analysesB scenarioPhi = some (scenarioPhiHoisted, true)
      ∧ (∃ l1 l2, blockInsts scenarioPhiHoisted loopB.preheader
          = l1 ++ addX :: l2 ++ [preheaderTermB])
      ∧ InstDominates analysesB scenarioPhi addX storeX
      ∧ InstDominates analysesB scenarioPhiHoisted addX storeX
      ∧ Value.inst addX.id ∈ phiX.operands
      ∧ (1 ≠ loopB.preheader ∧ analysesB.dominates loopB.preheader 1 = true) := by
  have hrun : doLICM loopB analysesB scenarioPhi = some (scenarioPhiHoisted, true) := by
    decide
  have hdom : InstDominates analysesB scenarioPhi addX storeX :=
    ⟨1, 2, by decide, by decide, Or.inr ⟨by decide, rfl⟩⟩
  obtain ⟨G, hG, hall⟩ := doLICM_hoisted_dominates_uses loopB analysesB scenarioPhi
    headerNodeB preheaderTermB rfl (by decide) (by decide) (by decide) (by decide)
    (by decide)
    (by
      intro a b c hab hbc
      simp only [analysesB, decide_eq_true_eq] at hab hbc ⊢
      exact Nat.le_trans hab hbc)
    (by
      intro a b hab hba
      simp only [analysesB, decide_eq_true_eq] at hab hba
      exact Nat.le_antisymm hab hba)
  rw [hrun] at hG
  have hGG : G = scenarioPhiHoisted := (congrArg Prod.fst (Option.some.inj hG)).symm
  rw [hGG] at hall
  obtain ⟨h1, h2, h3⟩ := hall 1 addX (by decide) (by decide)
  exact ⟨rfl, by decide, by decide, by decide, by decide, by decide, hrun, h1, hdom,
    h2 2 storeX (by decide) (by decide) hdom, by decide, h3 1 (Or.inl rfl)⟩

/-- Scenario B for C9: `x = add i, 5` is the instruction that moves. -/
theorem doLICM_moves_iff_scenarioB :
    analysesB.getNode loopB.header = some headerNodeB ∧ loopB.preheader ∉ loopB.blocks
      ∧ getTerminator (blockInsts scenarioB loopB.preheader) = some preheaderTermB
      ∧ UniqueIds scenarioB ∧ (preorder headerNodeB).Nodup
      ∧ ∃ G, doLICM loopB analysesB scenarioB = some (G, true)
        ∧ doLICMRecursive loopB analysesB headerNodeB scenarioB
            = visitAll loopB analysesB (preorder headerNodeB) scenarioB
        ∧ (∀ b I, I ∈ blockInsts scenarioB b →
            (I ∉ blockInsts G b ↔ directMember loopB analysesB b = true
              ∧ ∃ pre post S, preorder headerNodeB = pre ++ b :: post
                ∧ visitAll loopB analysesB pre scenarioB = some S
                ∧ isLoopInvariance loopB S I = true ∧ safeToHoist loopB analysesB b I = true)
            ∧ (I ∉ blockInsts G b → I ∈ blockInsts G loopB.preheader))
        ∧ ∀ b, directMember loopB analysesB b = false → b ≠ loopB.preheader →
            blockInsts G b = blockInsts scenarioB b :=
  ⟨rfl, by decide, by decide, by decide, by decide,
    doLICM_moves_iff loopB analysesB scenarioB headerNodeB preheaderTermB
      rfl (by decide) (by decide) (by decide) (by decide)⟩

/-- Scenario B for C10: `x = add i, 5` (id 3) moves to immediately before the
preheader's terminator. -/
theorem doLICM_preheader_sequence_scenarioB :
    analysesB.getNode loopB.header = some headerNodeB ∧ loopB.preheader ∉ loopB.blocks
      ∧ getTerminator (blockInsts scenarioB loopB.preheader) = some preheaderTermB
      ∧ UniqueIds scenarioB ∧ (preorder headerNodeB).Nodup
      ∧ (hoistLog loopB analysesB (preorder headerNodeB) scenarioB).map (fun e => e.2)
          = [addX]
      ∧ ∃ G, doLICM loopB analysesB scenarioB = some (G, true)
        ∧ blockInsts scenarioB loopB.preheader
            = (blockInsts scenarioB loopB.preheader).dropLast ++ [preheaderTermB]
        ∧ blockInsts G loopB.preheader = (blockInsts scenarioB loopB.preheader).dropLast
            ++ (hoistLog loopB analysesB (preorder headerNodeB) scenarioB).map (fun e => e.2)
            ++ [preheaderTermB]
        ∧ (∀ I, I ∈ (hoistLog loopB analysesB (preorder headerNodeB) scenarioB).map
              (fun e => e.2)
            ↔ ∃ b, I ∈ blockInsts scenarioB b ∧ I ∉ blockInsts G b)
        ∧ ∀ b, List.Sublist
            (((hoistLog loopB analysesB (preorder headerNodeB) scenarioB).filter
              (fun e => decide (e.1 = b))).map (fun e => e.2))
            (blockInsts scenarioB b) :=
  ⟨rfl, by decide, by decide, by decide, by decide, by decide,
    doLICM_preheader_sequence loopB analysesB scenarioB headerNodeB preheaderTermB
      rfl (by decide) (by decide) (by decide) (by decide)⟩

/-! ## LICM: instructions that stay -/

/-- An instruction is not hoisted when one of its operands is defined by an
instruction that is in a block of the loop at the moment the instruction's block is
scanned: an operand defined in the instruction's own block, or one the run leaves
in place. -/
theorem stays_of_loop_operand (L : Loop) (A : Analyses) (bs : List Nat) (F G : Function)
    (t : Instruction) (hP : L.preheader ∉ L.blocks)
    (ht : getTerminator (blockInsts F L.preheader) = some t) (hU : Uniq F)
    (hnd : bs.Nodup) (hG : visitAll L A bs F = some G)
    (b : Nat) (I : Instruction) (hI : I ∈ blockInsts F b)
    (c : Nat) (J : Instruction) (hJ : J ∈ blockInsts F c) (hx : Value.inst J.id ∈ I.operands)
    (hc : c ∈ L.blocks)
    (hstill : c = b ∨ J ∈ blockInsts G c
      ∨ ∀ pre post, bs = pre ++ b :: post → (c, J) ∉ hoistLog L A pre F) :
    I ∈ blockInsts G b := by
  by_contra hmoved
  have hlog := (moved_iff_log L A bs F G t hP ht hU hG b I hI).1 hmoved
  obtain ⟨hd, pre, post, S, hbs, hS, hinv, _⟩ :=
    (mem_log_iff_scan L A bs F t hP ht hnd b I hI).1 hlog
  have hbP : b ≠ L.preheader := fun h => hP (h ▸ directMember_mem L A b hd)
  have hcP : c ≠ L.preheader := fun h => hP (h ▸ hc)
  obtain ⟨S2, s1, _, s3, s4⟩ := visitAll_spec L A pre F t hP ht
  rw [hS] at s1
  simp only [Option.some.injEq] at s1
  subst s1
  have htS : getTerminator (blockInsts S L.preheader) = some t := by
    rw [s3]
    exact getTerminator_append _ t (getTerminator_isTerminator _ _ ht)
  have hUS : Uniq S := uniq_visitAll L A pre F S t hP ht hU hS
  have hJS : J ∈ blockInsts S c := by
    rcases hstill with h | h | h
    · subst h
      have hbpre : c ∉ pre := by
        intro hmem
        rw [hbs] at hnd
        exact (List.nodup_append.1 hnd).2.2 hmem (List.mem_cons_self _ _)
      rw [blockInsts_at_scan L A pre F S t hP ht hS c hbpre hbP]
      exact hJ
    · have hrest : visitAll L A (b :: post) S = some G := by
        have := visitAll_append L A pre (b :: post) F
        rw [← hbs, hG, hS] at this
        exact this.symm
      exact visitAll_sub L A (b :: post) S G t hP htS hrest c hcP J h
    · rw [s4 c hcP, List.mem_filter]
      refine ⟨hJ, ?_⟩
      simp only [decide_eq_true_eq]
      rw [mem_logIds_iff L A pre F t hP ht hU c J hJ]
      exact h pre post hbs
  have hcon := containsInst_of_mem L S hUS c J hJS hc
  rw [isLoopInvariance_false_of_operand L S I J.id hx hcon] at hinv
  exact absurd hinv (by decide)

/-- The blocks other than the preheader keep their remaining instructions in their
original relative order. -/
theorem visitAll_sublist (L : Loop) (A : Analyses) (bs : List Nat) (F G : Function)
    (t : Instruction) (hP : L.preheader ∉ L.blocks)
    (ht : getTerminator (blockInsts F L.preheader) = some t)
    (hG : visitAll L A bs F = some G) (b : Nat) (hb : b ≠ L.preheader) :
    List.Sublist (blockInsts G b) (blockInsts F b) := by
  obtain ⟨G2, g1, _, _, g4⟩ := visitAll_spec L A bs F t hP ht
  rw [hG] at g1
  simp only [Option.some.injEq] at g1
  subst g1
  rw [g4 b hb]
  exact List.filter_sublist _

/-! ## LICM: C11 -/

/-- C11, as the code has it: an instruction of the loop with an operand defined by
an instruction of the loop stays in its block, at its position relative to the
other instructions that stay, whenever that operand is defined in the
instruction's own block, or is itself left in place by the run, or at least is
not hoisted from a block that the walk visits before the instruction's block. (An
instruction whose operands inside the loop were all hoisted from blocks visited
earlier can be hoisted in the same run.) -/
theorem doLICM_keeps_user_of_loop_operand (L : Loop) (A : Analyses) (F : Function)
    (HN : DomTreeNode) (t : Instruction) (hN : A.getNode L.header = some HN)
    (hP : L.preheader ∉ L.blocks)
    (ht : getTerminator (blockInsts F L.preheader) = some t) (hU : UniqueIds F)
    (hnd : (preorder HN).Nodup) :
    ∃ G, doLICM L A F = some (G, true)
      ∧ (∀ b I c J, b ∈ L.blocks → I ∈ blockInsts F b → c ∈ L.blocks →
          J ∈ blockInsts F c → Value.inst J.id ∈ I.operands →
          (c = b ∨ J ∈ blockInsts G c
            ∨ ∀ pre post, preorder HN = pre ++ b :: post →
                (c, J) ∉ hoistLog L A pre F) →
          I ∈ blockInsts G b)
      ∧ ∀ b, b ∈ L.blocks → List.Sublist (blockInsts G b) (blockInsts F b) := by
  have hUq := uniq_of_uniqueIds F hU
  obtain ⟨G, hG, _⟩ := visitAll_spec L A (preorder HN) F t hP ht
  refine ⟨G, doLICM_some L A F G HN hN hG, ?_, ?_⟩
  · intro b I c J _ hI hc hJ hx hstill
    exact stays_of_loop_operand L A (preorder HN) F G t hP ht hUq hnd hG b I hI c J hJ hx
      hc hstill
  · intro b hb
    exact visitAll_sublist L A (preorder HN) F G t hP ht hG b (fun h => hP (h ▸ hb))

/-- Scenario B for C11: the user `y` of `x` stays in the header, `x` being defined
in the same block. -/
theorem doLICM_keeps_user_of_loop_operand_scenarioB :
    analysesB.getNode loopB.header = some headerNodeB ∧ loopB.preheader ∉ loopB.blocks
      ∧ getTerminator (blockInsts scenarioB loopB.preheader) = some preheaderTermB
      ∧ UniqueIds scenarioB ∧ (preorder headerNodeB).Nodup
      ∧ addY ∈ blockInsts scenarioB 1 ∧ addX ∈ blockInsts scenarioB 1
      ∧ Value.inst addX.id ∈ addY.operands
      ∧ ∃ G, doLICM loopB analysesB scenarioB = some (G, true)
        ∧ (∀ b I c J, b ∈ loopB.blocks → I ∈ blockInsts scenarioB b → c ∈ loopB.blocks →
            J ∈ blockInsts scenarioB c → Value.inst J.id ∈ I.operands →
            (c = b ∨ J ∈ blockInsts G c
              ∨ ∀ pre post, preorder headerNodeB = pre ++ b :: post →
                  (c, J) ∉ hoistLog loopB analysesB pre scenarioB) →
            I ∈ blockInsts G b)
        ∧ ∀ b, b ∈ loopB.blocks → List.Sublist (blockInsts G b) (blockInsts scenarioB b) :=
  ⟨rfl, by decide, by decide, by decide, by decide, by decide, by decide, by decide,
    doLICM_keeps_user_of_loop_operand loopB analysesB scenarioB headerNodeB preheaderTermB
      rfl (by decide) (by decide) (by decide) (by decide)⟩

/-- Counterexample to C11 as stated: in the two-block loop the body's instruction
`y = add x, 1` has, before the run, the operand `x` defined in the header of the
loop; the run hoists `x` when it visits the header and then hoists `y` as well when
it visits the body. -/
theorem doLICM_hoists_user_of_hoisted_operand :
    addY ∈ blockInsts scenarioTwoBlocks 2 ∧ 2 ∈ loopTwoBlocks.blocks
      ∧ addX ∈ blockInsts scenarioTwoBlocks 1 ∧ 1 ∈ loopTwoBlocks.blocks
      ∧ Value.inst addX.id ∈ addY.operands
      ∧ analysesTwoBlocks.dominates 1 2 = true
      ∧ doLICM loopTwoBlocks analysesTwoBlocks scenarioTwoBlocks
          = some (scenarioTwoBlocksHoisted, true)
      ∧ addY ∉ blockInsts scenarioTwoBlocksHoisted 2
      ∧ addY ∈ blockInsts scenarioTwoBlocksHoisted loopTwoBlocks.preheader := by
  decide

/-! ## ADCE: deleted instructions and their users -/

/-- An instruction operand of an instruction that remains in a reachable block is
not deleted by the run. -/
theorem operand_kept_of_reachable (F : Function) (hU : Uniq F) (b : Nat)
    (hb : Reachable F b) (I : Instruction) (hI : I ∈ blockInsts (doADCE F).1 b) (x : Nat)
    (hx : Value.inst x ∈ I.operands) (c : Nat) (X : Instruction)
    (hX : X ∈ blockInsts F c) (hid : X.id = x) : X ∈ blockInsts (doADCE F).1 c := by
  obtain ⟨hIF, hlive⟩ := (mem_doADCE_reachable F hU b hb I).1 hI
  have hlx : Live F X.id := hid ▸ Live.operand hlive hb hIF hx
  by_cases hc : Reachable F c
  · exact (mem_doADCE_reachable F hU c hc X).2 ⟨hX, hlx⟩
  · rw [blockInsts_doADCE_unreachable F c hc]
    exact hX

/-- An instruction queued by the first scan has no user anywhere in the function. -/
theorem zeroUse_use_empty (F : Function) (d : Nat × Nat) (h : d ∈ zeroUse F) :
    use_empty F d.2 = true := by
  obtain ⟨b, _, I, _, _, hu, rfl⟩ := (mem_zeroUse F d).1 h
  exact hu

/-! ## ADCE: the work-list loop ends -/

theorem markLive_of_mem (I : Nat) (s : State) (h : I ∈ s.LiveSet) : markLive I s = s := by
  unfold markLive
  rw [if_pos h]

theorem markLive_of_not_mem (I : Nat) (s : State) (h : I ∉ s.LiveSet) :
    markLive I s = { LiveSet := I :: s.LiveSet, WorkList := I :: s.WorkList } := by
  unfold markLive
  rw [if_neg h]

theorem stateOk_markLive (I : Nat) (s : State) (h : StateOk s) : StateOk (markLive I s) := by
  by_cases hI : I ∈ s.LiveSet
  · rw [markLive_of_mem I s hI]
    exact h
  · rw [markLive_of_not_mem I s hI]
    obtain ⟨h1, h2, h3⟩ := h
    refine ⟨List.nodup_cons.2 ⟨hI, h1⟩, List.nodup_cons.2 ⟨fun hw => hI (h3 I hw), h2⟩, ?_⟩
    intro x hx
    rcases List.mem_cons.1 hx with rfl | hx
    · exact List.mem_cons_self _ _
    · exact List.mem_cons_of_mem _ (h3 x hx)

theorem stateOk_scanBlock (F : Function) (b : Nat) (insts : List Instruction) (s : State)
    (dead : List (Nat × Nat)) (h : StateOk s) :
    StateOk (scanBlock F b insts (s, dead)).1 := by
  induction insts generalizing s dead with
  | nil => simpa [scanBlock] using h
  | cons I rest ih =>
    unfold scanBlock
    split
    · exact ih _ _ (stateOk_markLive I.id s h)
    · split
      · exact ih _ _ h
      · exact ih _ _ h

theorem stateOk_scan (F : Function) (R : List Nat) (acc : State × List (Nat × Nat))
    (h : StateOk acc.1) : StateOk (scan F R acc).1 := by
  induction R generalizing acc with
  | nil => simpa [scan] using h
  | cons b bs ih =>
    unfold scan
    exact ih _ (stateOk_scanBlock F b _ acc.1 acc.2 h)

theorem stateOk_scanned (F : Function) : StateOk (scanned F) := by
  unfold scanned
  apply stateOk_scan
  exact ⟨List.nodup_nil, List.nodup_nil, fun x hx => absurd hx (List.not_mem_nil x)⟩

theorem stateOk_markOperands (ops : List Value) (s : State) (h : StateOk s) :
    StateOk (markOperands ops s) := by
  induction ops generalizing s with
  | nil => simpa [markOperands] using h
  | cons v ops ih =>
    cases v with
    | inst x =>
      unfold markOperands
      exact ih _ (stateOk_markLive x s h)
    | const c =>
      unfold markOperands
      exact ih _ h
    | arg n =>
      unfold markOperands
      exact ih _ h

theorem stateOk_propagateStep (F : Function) (R : List Nat) (I : Nat) (s : State)
    (h : StateOk s) : StateOk (propagateStep F R I s) := by
  unfold propagateStep
  split
  · split
    · exact stateOk_markOperands _ s h
    · exact h
  · exact h

theorem stateOk_pop (s : State) (I : Nat) (W : List Nat) (h : StateOk s)
    (hW : s.WorkList = I :: W) :
    StateOk { s with WorkList := W } ∧ I ∈ s.LiveSet ∧ I ∉ W := by
  obtain ⟨h1, h2, h3⟩ := h
  rw [hW] at h2 h3
  exact ⟨⟨h1, (List.nodup_cons.1 h2).2, fun x hx => h3 x (List.mem_cons_of_mem _ hx)⟩,
    h3 I (List.mem_cons_self _ _), (List.nodup_cons.1 h2).1⟩

theorem mem_work_markLive (I : Nat) (s : State) (x : Nat)
    (h : x ∈ (markLive I s).WorkList) : x ∈ s.WorkList ∨ (x = I ∧ I ∉ s.LiveSet) := by
  by_cases hI : I ∈ s.LiveSet
  · rw [markLive_of_mem I s hI] at h
    exact Or.inl h
  · rw [markLive_of_not_mem I s hI] at h
    rcases List.mem_cons.1 h with rfl | h
    · exact Or.inr ⟨rfl, hI⟩
    · exact Or.inl h

theorem mem_work_markOperands (ops : List Value) (s : State) (x : Nat)
    (h : x ∈ (markOperands ops s).WorkList) :
    x ∈ s.WorkList ∨ (Value.inst x ∈ ops ∧ x ∉ s.LiveSet) := by
  induction ops generalizing s with
  | nil => exact Or.inl (by simpa [markOperands] using h)
  | cons v ops ih =>
    cases v with
    | inst y =>
      unfold markOperands at h
      rcases ih _ h with h1 | ⟨h1, h2⟩
      · rcases mem_work_markLive y s x h1 with h3 | ⟨rfl, h3⟩
        · exact Or.inl h3
        · exact Or.inr ⟨List.mem_cons_self _ _, h3⟩
      · refine Or.inr ⟨List.mem_cons_of_mem _ h1, fun hx => h2 ?_⟩
        exact (mem_markLive y x s).2 (Or.inr hx)
    | const c =>
      unfold markOperands at h
      rcases ih _ h with h1 | ⟨h1, h2⟩
      · exact Or.inl h1
      · exact Or.inr ⟨List.mem_cons_of_mem _ h1, h2⟩
    | arg n =>
      unfold markOperands at h
      rcases ih _ h with h1 | ⟨h1, h2⟩
      · exact Or.inl h1
      · exact Or.inr ⟨List.mem_cons_of_mem _ h1, h2⟩

theorem mem_work_propagateStep (F : Function) (R : List Nat) (I : Nat) (s : State) (x : Nat)
    (h : x ∈ (propagateStep F R I s).WorkList) :
    x ∈ s.WorkList ∨ (x ∈ operandIds F ∧ x ∉ s.LiveSet) := by
  unfold propagateStep at h
  split at h
  · rename_i b J hf
    split at h
    · rcases mem_work_markOperands _ s x h with h1 | ⟨h1, h2⟩
      · exact Or.inl h1
      · exact Or.inr ⟨mem_operandIds F b J x (findInst_some F I b J hf).1 h1, h2⟩
    · exact Or.inl h
  · exact Or.inl h

/-- No instruction is popped twice, and what is popped was on the work list or is
an operand that was not yet in the live set. -/
theorem popped_spec (F : Function) (R : List Nat) (fuel : Nat) (s : State) (h : StateOk s) :
    (popped F R fuel s).Nodup
      ∧ ∀ x ∈ popped F R fuel s, x ∈ s.WorkList ∨ (x ∈ operandIds F ∧ x ∉ s.LiveSet) := by
  induction fuel generalizing s with
  | zero => simp [popped]
  | succ fuel ih =>
    unfold popped
    cases hW : s.WorkList with
    | nil => simp
    | cons I W =>
      simp only
      obtain ⟨hok, hIL, hIW⟩ := stateOk_pop s I W h hW
      obtain ⟨hnd, hmem⟩ := ih _ (stateOk_propagateStep F R I _ hok)
      have hmono : ∀ x, x ∈ s.LiveSet →
          x ∈ (propagateStep F R I { s with WorkList := W }).LiveSet :=
        fun x hx => propagateStep_live_mono F R I { s with WorkList := W } x hx
      refine ⟨List.nodup_cons.2 ⟨?_, hnd⟩, ?_⟩
      · intro hI
        rcases hmem I hI with h1 | ⟨_, h2⟩
        · rcases mem_work_propagateStep F R I _ I h1 with h3 | ⟨_, h3⟩
          · exact hIW h3
          · exact h3 hIL
        · exact h2 (hmono I hIL)
      · intro x hx
        rcases List.mem_cons.1 hx with rfl | hx
        · exact Or.inl (List.mem_cons_self _ _)
        · rcases hmem x hx with h1 | ⟨h1, h2⟩
          · rcases mem_work_propagateStep F R I _ x h1 with h3 | h3
            · exact Or.inl (List.mem_cons_of_mem _ h3)
            · exact Or.inr h3
          · exact Or.inr ⟨h1, fun hxl => h2 (hmono x hxl)⟩

/-- When fewer instructions are popped than iterations are allowed, the loop has
ended with an empty work list. -/
theorem popped_done (F : Function) (R : List Nat) (fuel : Nat) (s : State)
    (h : (popped F R fuel s).length < fuel) : (propagate F R fuel s).WorkList = [] := by
  induction fuel generalizing s with
  | zero => omega
  | succ fuel ih =>
    unfold propagate
    unfold popped at h
    cases hW : s.WorkList with
    | nil => simpa using hW
    | cons I W =>
      rw [hW] at h
      simp only [List.length_cons] at h
      simp only
      exact ih _ (by omega)

/-- Once the loop has ended, more iterations change nothing. -/
theorem propagate_mono (F : Function) (R : List Nat) (f1 : Nat) (s : State)
    (h : (propagate F R f1 s).WorkList = []) (f2 : Nat) (hf : f1 ≤ f2) :
    propagate F R f2 s = propagate F R f1 s := by
  induction f1 generalizing s f2 with
  | zero =>
    simp only [propagate] at h
    cases f2 with
    | zero => rfl
    | succ f2 =>
      simp only [propagate]
      rw [h]
  | succ f1 ih =>
    cases f2 with
    | zero => omega
    | succ f2 =>
      unfold propagate at h ⊢
      cases hW : s.WorkList with
      | nil => rfl
      | cons I W =>
        rw [hW] at h
        simp only at h ⊢
        exact ih _ h f2 (by omega)

theorem mem_operandIds_iff (F : Function) (x : Nat) :
    x ∈ operandIds F ↔ ∃ b J, J ∈ blockInsts F b ∧ Value.inst x ∈ J.operands := by
  constructor
  · intro h
    unfold operandIds at h
    simp only [List.mem_flatMap, List.mem_filterMap] at h
    obtain ⟨B, hB, J, hJ, v, hv, hvx⟩ := h
    obtain ⟨b, hb, hbB⟩ := List.getElem_of_mem hB
    refine ⟨b, J, ?_, ?_⟩
    · unfold blockInsts
      rw [List.getElem?_eq_getElem hb, hbB]
      exact hJ
    · cases v with
      | inst y =>
        simp only [Option.some.injEq] at hvx
        rw [← hvx]
        exact hv
      | const c => simp at hvx
      | arg n => simp at hvx
  · rintro ⟨b, J, hJ, hx⟩
    exact mem_operandIds F b J x hJ hx

theorem mem_instIds_iff (F : Function) (x : Nat) :
    x ∈ instIds F ↔ ∃ b J, J ∈ blockInsts F b ∧ J.id = x := by
  constructor
  · intro h
    unfold instIds at h
    simp only [List.mem_flatMap, List.mem_map] at h
    obtain ⟨B, hB, J, hJ, hid⟩ := h
    obtain ⟨b, hb, hbB⟩ := List.getElem_of_mem hB
    refine ⟨b, J, ?_, hid⟩
    unfold blockInsts
    rw [List.getElem?_eq_getElem hb, hbB]
    exact hJ
  · rintro ⟨b, J, hJ, rfl⟩
    exact mem_instIds_of_mem F b J hJ

/-- After the zero-use deletion the operands still refer to instructions of the
function: an instruction with a user is not queued by the first scan. -/
theorem operandsDefined_afterZeroUse (F : Function) (hO : OperandsDefined F) :
    OperandsDefined (afterZeroUse F) := by
  intro x hx
  obtain ⟨b, J, hJ, hJx⟩ := (mem_operandIds_iff _ x).1 hx
  have hJF := blockInsts_afterZeroUse_sub F b J hJ
  obtain ⟨c, X, hX, hid⟩ := (mem_instIds_iff F x).1 (hO x (mem_operandIds F b J x hJF hJx))
  refine (mem_instIds_iff _ x).2 ⟨c, X, ?_, hid⟩
  unfold afterZeroUse
  rw [blockInsts_eraseAll, List.mem_filter]
  refine ⟨hX, ?_⟩
  simp only [decide_eq_true_eq]
  intro hz
  have := zeroUse_use_empty F _ hz
  simp only [hid] at this
  rw [use_empty_false F b J x hJF hJx] at this
  exact absurd this (by decide)

theorem scanned_work (F : Function) : (scanned F).WorkList = (scanned F).LiveSet := by
  unfold scanned
  exact scan_work_eq F _ _ rfl

/-- Every popped instruction is an instruction of the function the loop runs on. -/
theorem popped_mem_instIds (F : Function) (hU : Uniq F) (hO : OperandsDefined F)
    (fuel : Nat) (x : Nat)
    (hx : x ∈ popped (afterZeroUse F) (dfOrder F) fuel (scanned F)) :
    x ∈ instIds (afterZeroUse F) := by
  rcases (popped_spec _ _ fuel _ (stateOk_scanned F)).2 x hx with h | ⟨h, _⟩
  · rw [scanned_work] at h
    obtain ⟨b, hb, I, hI, ht, rfl⟩ := (mem_scan_live F x).1 h
    exact mem_instIds_of_mem _ b I
      (mem_afterZeroUse_of_live F hU b I hI (Live.trivial hb hI ht))
  · exact operandsDefined_afterZeroUse F hO x h

theorem instIds_afterZeroUse_sub (F : Function) (x : Nat)
    (h : x ∈ instIds (afterZeroUse F)) : x ∈ instIds F := by
  obtain ⟨b, J, hJ, hid⟩ := (mem_instIds_iff _ x).1 h
  exact (mem_instIds_iff F x).2 ⟨b, J, blockInsts_afterZeroUse_sub F b J hJ, hid⟩

theorem length_le_of_nodup_subset (l m : List Nat) (hl : l.Nodup) (h : ∀ x ∈ l, x ∈ m) :
    l.length ≤ m.length :=
  (List.subperm_of_subset hl h).length_le

/-! ## ADCE: C21 and C22 -/

/-- C21, the part the code has and the input on which it fails: an instruction
deleted in the first step has no user anywhere in the function, and no instruction
that remains in a reachable block has a deleted instruction as an operand. An
instruction of an unreachable block can: in `scenarioDeadUse` the instruction
`x = add a, b` of the entry block is used only by a store of a block no edge leads
to; `x` is not live, the final sweep deletes it while the store still uses it, and
after the run the store has the deleted `x` as an operand. -/
theorem doADCE_leaves_dangling_use :
    (∀ (F : Function), UniqueIds F →
      (∀ d ∈ zeroUse F, use_empty F d.2 = true)
        ∧ ∀ b, Reachable F b → ∀ I ∈ blockInsts (doADCE F).1 b, ∀ x,
            Value.inst x ∈ I.operands → ∀ c X, X ∈ blockInsts F c → X.id = x →
              X ∈ blockInsts (doADCE F).1 c)
    ∧ UniqueIds scenarioDeadUse ∧ WellTerminated scenarioDeadUse
    ∧ OperandsDefined scenarioDeadUse
    ∧ dfOrder scenarioDeadUse = [0]
    ∧ ¬ Reachable scenarioDeadUse 1
    ∧ zeroUse scenarioDeadUse = []
    ∧ sweepDead scenarioDeadUse = [(0, 1)]
    ∧ use_empty (afterZeroUse scenarioDeadUse) 1 = false
    ∧ doADCE scenarioDeadUse = (scenarioDeadUseAfter, true)
    ∧ findInst scenarioDeadUseAfter 1 = none
    ∧ ∃ J ∈ blockInsts scenarioDeadUseAfter 1, Value.inst 1 ∈ J.operands := by
  refine ⟨?_, by decide, by decide, by decide, by decide, ?_, by decide, by decide, by decide,
    by decide, by decide, ?_⟩
  · intro F hU
    refine ⟨fun d hd => zeroUse_use_empty F d hd, ?_⟩
    intro b hb I hI x hx c X hX hid
    exact operand_kept_of_reachable F (uniq_of_uniqueIds F hU) b hb I hI x hx c X hX hid
  · intro h
    have := (mem_dfOrder_iff scenarioDeadUse 1).2 h
    revert this
    decide
  · exact ⟨_, List.mem_cons_self _ _, List.mem_cons_self _ _⟩

/-- C22: `markLive` puts an instruction on the work list only when it is not yet in
the live set, and then once; in a run of `doADCE` no instruction is popped twice,
every popped instruction is an instruction of the function, so the loop performs at
most as many pops as the function has instructions; the work list is empty when
`doADCE` returns, the loop ends in the same state under every bound above the
number of instructions, and the assertion of `runOnFunction` holds. -/
theorem propagate_terminates (F : Function) (hU : UniqueIds F) (hO : OperandsDefined F) :
    (∀ (I : Nat) (s : State), (I ∈ s.LiveSet → markLive I s = s)
        ∧ (I ∉ s.LiveSet →
          markLive I s = { LiveSet := I :: s.LiveSet, WorkList := I :: s.WorkList }))
    ∧ (∀ fuel, (popped (afterZeroUse F) (dfOrder F) fuel (scanned F)).Nodup
        ∧ (∀ x ∈ popped (afterZeroUse F) (dfOrder F) fuel (scanned F),
            x ∈ instIds (afterZeroUse F))
        ∧ (popped (afterZeroUse F) (dfOrder F) fuel (scanned F)).length
            ≤ (instIds (afterZeroUse F)).length
        ∧ (popped (afterZeroUse F) (dfOrder F) fuel (scanned F)).length
            ≤ (instIds F).length)
    ∧ (finalState F).WorkList = []
    ∧ (∀ fuel, (instIds (afterZeroUse F)).length < fuel →
        propagate (afterZeroUse F) (dfOrder F) fuel (scanned F) = finalState F)
    ∧ (doADCE F).1 = eraseAll (afterZeroUse F)
        (sweep (afterZeroUse F) (dfOrder F) (finalState F).LiveSet
          (List.range (afterZeroUse F).length))
    ∧ ADCE.runOnFunction F = some (doADCE F) := by
  have hfin : (finalState F).WorkList = [] :=
    propagate_done _ _ _ _ (propagateWeight_le_fuel _ _)
  have hpop : ∀ fuel, (popped (afterZeroUse F) (dfOrder F) fuel (scanned F)).length
      ≤ (instIds (afterZeroUse F)).length := fun fuel =>
    length_le_of_nodup_subset _ _ (popped_spec _ _ fuel _ (stateOk_scanned F)).1
      (fun x hx => popped_mem_instIds F (uniq_of_uniqueIds F hU) hO fuel x hx)
  refine ⟨fun I s => ⟨markLive_of_mem I s, markLive_of_not_mem I s⟩, ?_, hfin, ?_, rfl, ?_⟩
  · intro fuel
    refine ⟨(popped_spec _ _ fuel _ (stateOk_scanned F)).1,
      fun x hx => popped_mem_instIds F (uniq_of_uniqueIds F hU) hO fuel x hx, hpop fuel, ?_⟩
    exact length_le_of_nodup_subset _ _ (popped_spec _ _ fuel _ (stateOk_scanned F)).1
      (fun x hx => instIds_afterZeroUse_sub F x
        (popped_mem_instIds F (uniq_of_uniqueIds F hU) hO fuel x hx))
  · intro fuel hf
    have hdone : (propagate (afterZeroUse F) (dfOrder F) fuel (scanned F)).WorkList = [] :=
      popped_done _ _ fuel _ (lt_of_le_of_lt (hpop fuel) hf)
    rcases Nat.le_total fuel (propagateFuel (afterZeroUse F) (scanned F)) with h | h
    · exact (propagate_mono _ _ fuel _ hdone _ h).symm
    · exact propagate_mono _ _ _ _ hfin fuel h
  · unfold ADCE.runOnFunction
    rw [hfin]
    rfl

/-- Scenario A for C22: the loop pops the return, the store and `t`, three of the
four instructions, and ends with an empty work list. -/
theorem propagate_terminates_scenarioA :
    UniqueIds scenarioA ∧ OperandsDefined scenarioA
      ∧ popped (afterZeroUse scenarioA) (dfOrder scenarioA) 4 (scanned scenarioA) = [4, 3, 1]
      ∧ (finalState scenarioA).WorkList = []
      ∧ ADCE.runOnFunction scenarioA = some (doADCE scenarioA) :=
  ⟨by decide, by decide, by decide,
    (propagate_terminates scenarioA (by decide) (by decide)).2.2.1,
    (propagate_terminates scenarioA (by decide) (by decide)).2.2.2.2.2⟩

/-! ## LICM: C23 and C24 -/

/-- C23: `isLoopInvariance` returns true if and only if the kind of the instruction
is binary-op, shift, select, cast or indexed-field-address and no operand is an
instruction contained in the loop; operands that are constants, function
parameters or instructions outside the loop never disqualify, and an instruction
of any other kind is not loop-invariant whatever its operands. -/
theorem isLoopInvariance_iff (L : Loop) (F : Function) (I : Instruction) :
    (isLoopInvariance L F I = true ↔
      (I.kind = Kind.binaryOp ∨ I.kind = Kind.shift ∨ I.kind = Kind.select
        ∨ I.kind = Kind.cast ∨ I.kind = Kind.getElementPtr)
      ∧ ∀ x, Value.inst x ∈ I.operands → L.containsInst F x = false)
    ∧ ((I.kind = Kind.binaryOp ∨ I.kind = Kind.shift ∨ I.kind = Kind.select
        ∨ I.kind = Kind.cast ∨ I.kind = Kind.getElementPtr) →
      (∀ v ∈ I.operands, (∃ c, v = Value.const c) ∨ (∃ n, v = Value.arg n)
        ∨ ∃ x, v = Value.inst x ∧ L.containsInst F x = false) →
      isLoopInvariance L F I = true)
    ∧ ((I.kind = Kind.load ∨ I.kind = Kind.store ∨ I.kind = Kind.call ∨ I.kind = Kind.cmp
        ∨ I.kind = Kind.alloca ∨ I.kind = Kind.terminator ∨ I.kind = Kind.other) →
      isLoopInvariance L F I = false) := by
  have hops : operandsInvariant L F I.operands = true
      ↔ ∀ x, Value.inst x ∈ I.operands → L.containsInst F x = false := by
    constructor
    · intro h x hx
      cases hc : L.containsInst F x with
      | false => rfl
      | true =>
        have := (operandsInvariant_false_iff L F I.operands).2 ⟨x, hx, hc⟩
        rw [h] at this
        exact absurd this (by decide)
    · intro h
      cases ho : operandsInvariant L F I.operands with
      | true => rfl
      | false =>
        obtain ⟨x, hx, hc⟩ := (operandsInvariant_false_iff L F I.operands).1 ho
        rw [h x hx] at hc
        exact absurd hc (by decide)
  have hmain : isLoopInvariance L F I = true ↔
      (I.kind = Kind.binaryOp ∨ I.kind = Kind.shift ∨ I.kind = Kind.select
        ∨ I.kind = Kind.cast ∨ I.kind = Kind.getElementPtr)
      ∧ ∀ x, Value.inst x ∈ I.operands → L.containsInst F x = false := by
    rw [← hops]
    unfold isLoopInvariance Instruction.isBinaryOp Instruction.isShift Instruction.isCast
    cases hk : I.kind <;> simp
  refine ⟨hmain, ?_, ?_⟩
  · intro hk hv
    refine hmain.2 ⟨hk, ?_⟩
    intro x hx
    rcases hv _ hx with ⟨c, h⟩ | ⟨n, h⟩ | ⟨y, h, hc⟩
    · exact Value.noConfusion h
    · exact Value.noConfusion h
    · rw [Value.inst.inj h]
      exact hc
  · intro hk
    cases hb : isLoopInvariance L F I with
    | false => rfl
    | true =>
      have := (hmain.1 hb).1
      rcases hk with h | h | h | h | h | h | h <;> rw [h] at this <;> simp at this

/-- C24: `safeToHoist` returns true if and only if the instruction is safe to execute
speculatively, or the loop has at least one exit block and the block of the
instruction dominates every exit block; for a loop without exit blocks it returns
true exactly when the instruction is safe to execute speculatively. -/
theorem safeToHoist_iff (L : Loop) (A : Analyses) (parent : Nat) (I : Instruction) :
    (safeToHoist L A parent I = true ↔
      A.isSafeToSpeculativelyExecute I = true
        ∨ (L.exitBlocks ≠ [] ∧ ∀ e ∈ L.exitBlocks, A.dominates parent e = true))
    ∧ (L.exitBlocks = [] →
      (safeToHoist L A parent I = true ↔ A.isSafeToSpeculativelyExecute I = true)) := by
  have hdom : ∀ es : List Nat, dominatesAllExits A parent es = true
      ↔ ∀ e ∈ es, A.dominates parent e = true := by
    intro es
    induction es with
    | nil => simp [dominatesAllExits]
    | cons e es ih =>
      unfold dominatesAllExits
      cases hd : A.dominates parent e with
      | false => simp [hd]
      | true => simp [hd, ih]
  have hmain : safeToHoist L A parent I = true ↔
      A.isSafeToSpeculativelyExecute I = true
        ∨ (L.exitBlocks ≠ [] ∧ ∀ e ∈ L.exitBlocks, A.dominates parent e = true) := by
    unfold safeToHoist
    cases hs : A.isSafeToSpeculativelyExecute I with
    | true => simp
    | false =>
      cases he : L.exitBlocks with
      | nil => simp
      | cons e es =>
        rw [← he, ← hdom]
        simp [he]
  refine ⟨hmain, ?_⟩
  intro he
  rw [hmain]
  constructor
  · rintro (h | ⟨h, _⟩)
    · exact h
    · exact absurd he h
  · exact Or.inl

/-! ## LICM: the operands of hoisted instructions -/

/-- An instruction operand of a hoisted instruction that is not hoisted itself is in
a block outside the loop. -/
theorem operand_outside_of_hoisted (L : Loop) (A : Analyses) (bs : List Nat) (F : Function)
    (t : Instruction) (hP : L.preheader ∉ L.blocks)
    (ht : getTerminator (blockInsts F L.preheader) = some t) (hU : Uniq F)
    (b : Nat) (H : Instruction) (hH : (b, H) ∈ hoistLog L A bs F)
    (c : Nat) (O : Instruction) (hO : O ∈ blockInsts F c)
    (huse : Value.inst O.id ∈ H.operands) (hOn : (c, O) ∉ hoistLog L A bs F) :
    c ∉ L.blocks := by
  intro hc
  obtain ⟨pre, post, S, hbs, hS, hm⟩ := (mem_hoistLog L A bs F t hP ht (b, H)).1 hH
  simp only at hbs hm
  obtain ⟨_, _, hinv, _⟩ := (mem_hoistedAt L A b S H).1 hm
  have hcP : c ≠ L.preheader := fun h => hP (h ▸ hc)
  have hOpre : (c, O) ∉ hoistLog L A pre F := by
    intro h
    apply hOn
    rw [hbs, hoistLog_append]
    exact List.mem_append.2 (Or.inl h)
  have hOS : O ∈ blockInsts S c := by
    obtain ⟨G2, g1, _, _, g4⟩ := visitAll_spec L A pre F t hP ht
    rw [hS] at g1
    simp only [Option.some.injEq] at g1
    subst g1
    rw [g4 c hcP, List.mem_filter]
    refine ⟨hO, ?_⟩
    simp only [decide_eq_true_eq]
    rw [mem_logIds_iff L A pre F t hP ht hU c O hO]
    exact hOpre
  have hUS : Uniq S := uniq_visitAll L A pre F S t hP ht hU hS
  have hcont := containsInst_of_mem L S hUS c O hOS hc
  rw [isLoopInvariance_false_of_operand L S H O.id huse hcont] at hinv
  exact absurd hinv (by decide)

/-- Every instruction operand of a hoisted instruction that dominated it before the
run is, after the run, earlier in the preheader than the hoisted instruction or in
a block that dominates the preheader. -/
theorem operand_before_hoisted (L : Loop) (A : Analyses) (bs : List Nat) (F G : Function)
    (t : Instruction) (hP : L.preheader ∉ L.blocks)
    (ht : getTerminator (blockInsts F L.preheader) = some t) (hU : Uniq F)
    (hG : visitAll L A bs F = some G)
    (hout : ∀ c b, c ∉ L.blocks → b ∈ L.blocks → A.dominates c b = true →
      A.dominates c L.preheader = true)
    (hterm : ∀ c U, U ∈ blockInsts F c → Value.inst t.id ∉ U.operands)
    (b : Nat) (H : Instruction) (hH : H ∈ blockInsts F b) (hmoved : H ∉ blockInsts G b)
    (c : Nat) (O : Instruction) (hO : O ∈ blockInsts F c)
    (huse : Value.inst O.id ∈ H.operands) (hdom : InstDominates A F O H) :
    (∃ l1 l2 l3, blockInsts G L.preheader = l1 ++ O :: l2 ++ H :: l3)
      ∨ (c ≠ L.preheader ∧ O ∈ blockInsts G c ∧ A.dominates c L.preheader = true) := by
  have hHlog := (moved_iff_log L A bs F G t hP ht hU hG b H hH).1 hmoved
  obtain ⟨_, hHd, _, hbP⟩ := hoistLog_orig L A bs F t hP ht (b, H) hHlog
  simp only at hHd hbP
  have hbL : b ∈ L.blocks := directMember_mem L A b hHd
  obtain ⟨G2, g1, _, g3, _⟩ := visitAll_spec L A bs F t hP ht
  rw [hG] at g1
  simp only [Option.some.injEq] at g1
  subst g1
  by_cases hOlog : (c, O) ∈ hoistLog L A bs F
  · left
    obtain ⟨l1, l2, l3, hl⟩ := log_order L A bs F t hP ht hU c b O H hOlog hHlog huse
    refine ⟨(blockInsts F L.preheader).dropLast ++ l1, l2, l3 ++ [t], ?_⟩
    rw [g3, hl]
    simp
  · have hc := operand_outside_of_hoisted L A bs F t hP ht hU b H hHlog c O hO huse hOlog
    by_cases hcP : c = L.preheader
    · left
      rw [hcP, getTerminator_eq_append _ t ht] at hO
      rcases List.mem_append.1 hO with h | h
      · obtain ⟨a1, a2, ha⟩ := List.append_of_mem h
        have hm : H ∈ (hoistLog L A bs F).map (fun e => e.2) :=
          List.mem_map.2 ⟨(b, H), hHlog, rfl⟩
        obtain ⟨b1, b2, hb⟩ := List.append_of_mem hm
        refine ⟨a1, a2 ++ b1, b2 ++ [t], ?_⟩
        rw [g3, ha, hb]
        simp
      · have hOt : O = t := by simpa using h
        rw [hOt] at huse
        exact absurd huse (hterm b H hH)
    · right
      have hOG : O ∈ blockInsts G c := by
        by_contra hn
        exact hOlog ((moved_iff_log L A bs F G t hP ht hU hG c O hO).1 hn)
      refine ⟨hcP, hOG, ?_⟩
      obtain ⟨bx, bu, h1, h2, h3⟩ := hdom
      obtain ⟨hbx, _⟩ := hU bx c O O h1 hO rfl
      obtain ⟨hbu, _⟩ := hU bu b H H h2 hH rfl
      subst hbx
      subst hbu
      rcases h3 with ⟨heq, _⟩ | ⟨_, hdom⟩
      · rw [heq] at hc
        exact absurd hbL hc
      · exact hout bx bu hc hbL hdom

/-! ## LICM: the operands of hoisted instructions (claim) -/

/-- C34: for a loop with a preheader outside the loop whose terminator defines no
value that an instruction uses, and analyses in which a block outside the loop that
dominates a block of the loop dominates the preheader, the LICM run has a result,
and in it every instruction operand of a hoisted instruction that dominated it
before the run (as every operand does in an input in which every definition
dominates its uses, a hoisted instruction being no phi) is earlier in the
preheader than the hoisted instruction or is in another block, one that dominates
the preheader; so the operand dominates the hoisted instruction in the result. -/
theorem doLICM_operands_dominate_hoisted (L : Loop) (A : Analyses) (F : Function)
    (HN : DomTreeNode) (t : Instruction) (hN : A.getNode L.header = some HN)
    (hP : L.preheader ∉ L.blocks)
    (ht : getTerminator (blockInsts F L.preheader) = some t) (hU : UniqueIds F)
    (hout : ∀ c b, c ∉ L.blocks → b ∈ L.blocks → A.dominates c b = true →
      A.dominates c L.preheader = true)
    (hterm : ∀ c U, U ∈ blockInsts F c → Value.inst t.id ∉ U.operands) :
    ∃ G, doLICM L A F = some (G, true)
      ∧ ∀ b H, H ∈ blockInsts F b → H ∉ blockInsts G b →
          H ∈ blockInsts G L.preheader ∧ H.hasInvariantKind = true
          ∧ ∀ c O, O ∈ blockInsts F c → Value.inst O.id ∈ H.operands →
              InstDominates A F O H →
              ((∃ l1 l2 l3, blockInsts G L.preheader = l1 ++ O :: l2 ++ H :: l3)
                ∨ (c ≠ L.preheader ∧ O ∈ blockInsts G c
                  ∧ A.dominates c L.preheader = true))
              ∧ InstDominates A G O H := by
  have hUq := uniq_of_uniqueIds F hU
  obtain ⟨G, hG, _⟩ := visitAll_spec L A (preorder HN) F t hP ht
  refine ⟨G, doLICM_some L A F G HN hN hG, ?_⟩
  intro b H hH hmoved
  have hlog := (moved_iff_log L A (preorder HN) F G t hP ht hUq hG b H hH).1 hmoved
  have hHG : H ∈ blockInsts G L.preheader := by
    obtain ⟨l1, l2, hl⟩ := hoisted_mem_preheader L A (preorder HN) F G t hP ht hG (b, H) hlog
    simp only at hl
    rw [hl]
    simp
  have hkind : H.hasInvariantKind = true := by
    obtain ⟨pre, post, S, _, _, hm⟩ := (mem_hoistLog L A (preorder HN) F t hP ht (b, H)).1 hlog
    exact hasInvariantKind_of_invariant L S H ((mem_hoistedAt L A b S H).1 hm).2.2.1
  refine ⟨hHG, hkind, ?_⟩
  intro c O hO huse hdom
  have hpos := operand_before_hoisted L A (preorder HN) F G t hP ht hUq hG hout hterm
    b H hH hmoved c O hO huse hdom
  refine ⟨hpos, ?_⟩
  rcases hpos with ⟨l1, l2, l3, hl⟩ | ⟨hcP, hOG, hdomP⟩
  · refine ⟨L.preheader, L.preheader, ?_, hHG, Or.inl ⟨rfl, l1, l2, l3, hl⟩⟩
    rw [hl]
    simp
  · exact ⟨c, L.preheader, hOG, hHG, Or.inr ⟨hcP, hdomP⟩⟩

/-- A loop with a loop-carried phi for C34: `x = add i, 5` is hoisted behind the
definition of `i`, its operand, which was in the preheader before the run. -/
theorem doLICM_operands_dominate_hoisted_scenarioPhi :
    analysesB.getNode loopB.header = some headerNodeB
      ∧ loopB.preheader ∉ loopB.blocks
      ∧ getTerminator (blockInsts scenarioPhi loopB.preheader) = some preheaderTermB
      ∧ UniqueIds scenarioPhi
      ∧ doLICM loopB analysesB scenarioPhi = some (scenarioPhiHoisted, true)
      ∧ addX ∈ blockInsts scenarioPhi 1 ∧ addX ∉ blockInsts scenarioPhiHoisted 1
      ∧ defI ∈ blockInsts scenarioPhi 0 ∧ Value.inst defI.id ∈ addX.operands
      ∧ InstDominates analysesB scenarioPhi defI addX
      ∧ (∃ l1 l2 l3, blockInsts scenarioPhiHoisted loopB.preheader
          = l1 ++ defI :: l2 ++ addX :: l3)
      ∧ InstDominates analysesB scenarioPhiHoisted defI addX := by
  have hrun : doLICM loopB analysesB scenarioPhi = some (scenarioPhiHoisted, true) := by
    decide
  have hdom : InstDominates analysesB scenarioPhi defI addX :=
    ⟨0, 1, by decide, by decide, Or.inr ⟨by decide, rfl⟩⟩
  refine ⟨rfl, by decide, by decide, by decide, hrun, by decide, by decide, by decide,
    by decide, hdom, ⟨[], [], [preheaderTermB], rfl⟩, ?_⟩
  obtain ⟨G, hG, hall⟩ := doLICM_operands_dominate_hoisted loopB analysesB
    scenarioPhi headerNodeB preheaderTermB rfl (by decide) (by decide) (by decide)
    (by
      intro c b hc hb hdom
      simp only [analysesB, loopB, decide_eq_true_eq, List.mem_cons,
        List.mem_singleton, List.not_mem_nil, or_false] at hc hb hdom ⊢
      omega)
    scenarioPhi_terminator_unused
  rw [hrun] at hG
  have hGG : G = scenarioPhiHoisted := (congrArg Prod.fst (Option.some.inj hG)).symm
  rw [hGG] at hall
  exact ((hall 1 addX (by decide) (by decide)).2.2 0 defI (by decide) (by decide) hdom).2

namespace SROA

/-! ## SROA: the eligibility tests -/

theorem mem_users (F : Function) (V : Value) (U : Instruction) :
    U ∈ users F V ↔ U ∈ allInsts F ∧ V ∈ U.operands := by
  unfold users
  simp [List.mem_filter]

theorem mem_operands_of_getOperand (U : Instruction) (i : Nat) (V : Value)
    (h : U.getOperand i = some V) : V ∈ U.operands := by
  unfold Instruction.getOperand at h
  exact List.getElem?_mem h

/-- The unfolding of `SROA::isAllocaPromotable` on an allocation. -/
theorem isAllocaPromotable_eq (F : Function) (AI : Instruction) (ty : Ty)
    (hty : AI.opcode = Opcode.alloca ty) :
    isAllocaPromotable F AI
      = ((ty.isFPOrFPVectorTy || ty.isIntOrIntVectorTy || ty.isPtrOrPtrVectorTy)
        && (users F (Value.inst AI.id)).all (fun U =>
          match U.opcode with
          | Opcode.load =>
            !(U.isVolatile || decide (U.getOperand 0 ≠ some (Value.inst AI.id)))
          | Opcode.store =>
            !(U.isVolatile || decide (U.getOperand 1 ≠ some (Value.inst AI.id)))
          | _ => false)) := by
  unfold isAllocaPromotable
  rw [hty]
  simp only
  cases (ty.isFPOrFPVectorTy || ty.isIntOrIntVectorTy || ty.isPtrOrPtrVectorTy) <;> simp

/-- The unfolding of `SROA::canBeEliminatedStructAlloca` on an allocation. -/
theorem canBeEliminatedStructAlloca_eq (F : Function) (AI : Instruction) (ty : Ty)
    (hty : AI.opcode = Opcode.alloca ty) :
    canBeEliminatedStructAlloca F AI
      = (ty.isStructTy && (users F (Value.inst AI.id)).all (fun U =>
          match U.opcode with
          | Opcode.getElementPtr => isU1TypeGetElementPtr F U (Value.inst AI.id)
          | Opcode.cmp _ => isU2TypeEqOrNe U (Value.inst AI.id)
          | _ => false)) := by
  unfold canBeEliminatedStructAlloca
  rw [hty]
  simp only
  cases ty.isStructTy <;> simp

theorem canBeEliminatedStructAlloca_isAlloca (F : Function) (AI : Instruction)
    (h : canBeEliminatedStructAlloca F AI = true) : AI.isAlloca = true := by
  unfold canBeEliminatedStructAlloca at h
  unfold Instruction.isAlloca
  split at h <;> simp_all

theorem canBeEliminatedStructAlloca_false_of_user (F : Function) (AI U : Instruction)
    (hU : U ∈ users F (Value.inst AI.id))
    (hk : U.opcode ≠ Opcode.getElementPtr) (hc : ∀ p, U.opcode ≠ Opcode.cmp p) :
    canBeEliminatedStructAlloca F AI = false := by
  cases hty : AI.opcode with
  | alloca ty =>
    rw [canBeEliminatedStructAlloca_eq F AI ty hty, Bool.and_eq_false_iff]
    right
    rw [List.all_eq_false]
    refine ⟨U, hU, ?_⟩
    split
    · rename_i h
      exact absurd h hk
    · rename_i p h
      exact absurd h (hc p)
    · simp
  | _ =>
    unfold canBeEliminatedStructAlloca
    rw [hty]

end SROA

namespace SROA

/-! ## SROA: the fixpoint loop -/

theorem eliminateWorkList_nil (b : Nat) (F : Function) (n : Nat) :
    eliminateWorkList b [] F n = Except.ok (F, n) := by
  cases b <;> rfl

theorem eliminateWorkList_count (b : Nat) (wl : List Nat) (F G : Function) (n m : Nat)
    (h : eliminateWorkList b wl F n = Except.ok (G, m)) :
    n ≤ m ∧ (wl ≠ [] → n < m) := by
  induction b generalizing wl F n with
  | zero =>
    cases wl with
    | nil =>
      rw [eliminateWorkList_nil] at h
      simp only [Except.ok.injEq, Prod.mk.injEq] at h
      exact ⟨by omega, fun hne => absurd rfl hne⟩
    | cons a wl => simp [eliminateWorkList] at h
  | succ b ih =>
    cases wl with
    | nil =>
      rw [eliminateWorkList_nil] at h
      simp only [Except.ok.injEq, Prod.mk.injEq] at h
      exact ⟨by omega, fun hne => absurd rfl hne⟩
    | cons a wl =>
      simp only [eliminateWorkList] at h
      cases he : eliminateStructAlloca F a with
      | error e => simp [he] at h
      | ok r =>
        rw [he] at h
        have := (ih _ _ _ h).1
        exact ⟨by omega, fun _ => by omega⟩

theorem replace_zero (F G : Function)
    (h : replaceStructAllocsWithIndividualFields F = Except.ok (G, 0)) :
    eliminatableAllocas F = [] ∧ G = F := by
  unfold replaceStructAllocsWithIndividualFields at h
  have hc := (eliminateWorkList_count _ _ _ _ _ _ h).2
  have hnil : (eliminatableAllocas F).reverse = [] := by
    by_contra hne
    exact absurd (hc hne) (by omega)
  rw [hnil, eliminateWorkList_nil] at h
  simp only [Except.ok.injEq, Prod.mk.injEq] at h
  exact ⟨by simpa using hnil, h.1.symm⟩

theorem replace_of_nil (F : Function) (h : eliminatableAllocas F = []) :
    replaceStructAllocsWithIndividualFields F = Except.ok (F, 0) := by
  unfold replaceStructAllocsWithIndividualFields
  rw [h]
  exact eliminateWorkList_nil _ _ _

theorem eliminatableAllocas_eq_nil (F : Function) :
    eliminatableAllocas F = [] ↔
      ∀ AI ∈ allInsts F, canBeEliminatedStructAlloca F AI = false := by
  unfold eliminatableAllocas
  rw [List.map_eq_nil_iff, List.filter_eq_nil_iff]
  constructor
  · intro h AI hAI
    have := h AI hAI
    by_contra hc
    simp only [Bool.not_eq_false] at hc
    rw [hc, canBeEliminatedStructAlloca_isAlloca F AI hc] at this
    exact this rfl
  · intro h AI hAI
    rw [h AI hAI]
    simp

theorem promotableAllocas_nil (H : Host) (F : Function) (l : List Instruction)
    (V : List Nat) (h : promotableAllocas H F l = Except.ok V) :
    V = [] ↔ ∀ I ∈ l, (I.isAlloca && isAllocaPromotable F I) = false := by
  induction l generalizing V with
  | nil =>
    simp only [promotableAllocas, Except.ok.injEq] at h
    simp [← h]
  | cons I rest ih =>
    simp only [promotableAllocas] at h
    by_cases hp : (I.isAlloca && isAllocaPromotable F I) = true
    · rw [if_pos hp] at h
      split at h
      · cases hr : promotableAllocas H F rest with
        | error e => simp [hr] at h
        | ok W =>
          rw [hr] at h
          simp only [Except.ok.injEq] at h
          subst h
          constructor
          · intro hc
            exact absurd hc (by simp)
          · intro hall
            have := hall I (List.mem_cons_self _ _)
            rw [hp] at this
            exact absurd this (by decide)
      · simp at h
    · rw [if_neg hp] at h
      rw [ih V h]
      simp only [Bool.not_eq_true] at hp
      constructor
      · intro hall J hJ
        rcases List.mem_cons.1 hJ with rfl | hJ
        · exact hp
        · exact hall J hJ
      · intro hall J hJ
        exact hall J (List.mem_cons_of_mem _ hJ)

theorem promotableAllocas_of_none (H : Host) (F : Function) (l : List Instruction)
    (h : ∀ I ∈ l, (I.isAlloca && isAllocaPromotable F I) = false) :
    promotableAllocas H F l = Except.ok [] := by
  induction l with
  | nil => rfl
  | cons I rest ih =>
    simp only [promotableAllocas]
    rw [if_neg (by rw [h I (List.mem_cons_self _ _)]; decide)]
    exact ih (fun J hJ => h J (List.mem_cons_of_mem _ hJ))

theorem promote_zero (H : Host) (F G : Function)
    (h : promoteScalarAllocasToVirtualReg H F = Except.ok (G, 0)) :
    G = F ∧ ∀ I ∈ allInsts F, (I.isAlloca && isAllocaPromotable F I) = false := by
  unfold promoteScalarAllocasToVirtualReg at h
  cases hs : promotableAllocas H F (allInsts F) with
  | error e => simp [hs] at h
  | ok V =>
    rw [hs] at h
    simp only at h
    split at h
    · rename_i hpos
      simp only [Except.ok.injEq, Prod.mk.injEq] at h
      omega
    · simp only [Except.ok.injEq, Prod.mk.injEq] at h
      refine ⟨h.1.symm, ?_⟩
      have hV : V = [] := List.length_eq_zero.1 h.2
      exact (promotableAllocas_nil H F _ V hs).1 hV

theorem promote_of_none (H : Host) (F : Function)
    (h : ∀ I ∈ allInsts F, (I.isAlloca && isAllocaPromotable F I) = false) :
    promoteScalarAllocasToVirtualReg H F = Except.ok (F, 0) := by
  unfold promoteScalarAllocasToVirtualReg
  rw [promotableAllocas_of_none H F _ h]
  rfl

theorem iteration_zero (H : Host) (F G : Function)
    (h : iteration H F = Except.ok (G, 0, 0)) :
    G = F ∧ eliminatableAllocas F = []
      ∧ ∀ I ∈ allInsts F, (I.isAlloca && isAllocaPromotable F I) = false := by
  unfold iteration at h
  cases hr : replaceStructAllocsWithIndividualFields F with
  | error e => simp [hr] at h
  | ok r =>
    rw [hr] at h
    simp only at h
    cases hp : promoteScalarAllocasToVirtualReg H r.1 with
    | error e => simp [hp] at h
    | ok p =>
      rw [hp] at h
      simp only [Except.ok.injEq, Prod.mk.injEq] at h
      obtain ⟨h1, h2, h3⟩ := h
      have hr2 : replaceStructAllocsWithIndividualFields F = Except.ok (r.1, 0) := by
        rw [hr, ← h2]
      obtain ⟨e1, e2⟩ := replace_zero F r.1 hr2
      have hp2 : promoteScalarAllocasToVirtualReg H r.1 = Except.ok (p.1, 0) := by
        rw [hp, ← h3]
      obtain ⟨e3, e4⟩ := promote_zero H r.1 p.1 hp2
      rw [e2] at e3 e4
      exact ⟨by rw [← h1, e3], e1, e4⟩

theorem iteration_of_none (H : Host) (F : Function) (h1 : eliminatableAllocas F = [])
    (h2 : ∀ I ∈ allInsts F, (I.isAlloca && isAllocaPromotable F I) = false) :
    iteration H F = Except.ok (F, 0, 0) := by
  unfold iteration
  rw [replace_of_nil F h1]
  simp only
  rw [promote_of_none H F h2]

/-- One round of the loop of `runOnFunction` in terms of `iteration`. -/
theorem runLoop_succ (H : Host) (b : Nat) (c : Bool) (F : Function) :
    runLoop H (b + 1) c F
      = match iteration H F with
        | Except.error e => Except.error e
        | Except.ok s =>
          if 0 < s.2.1 ∨ 0 < s.2.2 then runLoop H b true s.1 else Except.ok (s.1, c) := by
  simp only [runLoop, iteration]
  cases replaceStructAllocsWithIndividualFields F with
  | error e => rfl
  | ok r =>
    simp only
    cases promoteScalarAllocasToVirtualReg H r.1 with
    | error e => rfl
    | ok p =>
      simp only
      by_cases hc : 0 < r.2 ∨ 0 < p.2
      · rw [if_pos hc]
        have : (decide (r.2 > 0) || decide (p.2 > 0)) = true := by simpa using hc
        rw [this]
        simp
      · rw [if_neg hc]
        have : (decide (r.2 > 0) || decide (p.2 > 0)) = false := by
          simp only [not_or, Nat.not_lt, Nat.le_zero] at hc
          simp [hc.1, hc.2]
        rw [this]
        simp

theorem iterates_counts (H : Host) (F G : Function) (cs : List (Nat × Nat))
    (h : Iterates H F cs G) :
    ∃ init, cs = init ++ [(0, 0)] ∧ ∀ e ∈ init, 0 < e.1 ∨ 0 < e.2 := by
  induction h with
  | last F G h => exact ⟨[], rfl, by simp⟩
  | step F F2 G r p cs h hc _ ih =>
    obtain ⟨init, hcs, hall⟩ := ih
    refine ⟨(r, p) :: init, by rw [hcs]; rfl, ?_⟩
    intro e he
    rcases List.mem_cons.1 he with rfl | he
    · exact hc
    · exact hall e he

theorem iterates_changed_iff (H : Host) (F G : Function) (cs : List (Nat × Nat))
    (h : Iterates H F cs G) : (∃ e ∈ cs, 0 < e.1 ∨ 0 < e.2) ↔ 1 < cs.length := by
  obtain ⟨init, hcs, hall⟩ := iterates_counts H F G cs h
  subst hcs
  constructor
  · rintro ⟨e, he, hc⟩
    rcases List.mem_append.1 he with he | he
    · have : 0 < init.length := List.length_pos_of_mem he
      simp only [List.length_append, List.length_singleton]
      omega
    · simp only [List.mem_singleton] at he
      subst he
      simp at hc
  · intro hl
    simp only [List.length_append, List.length_singleton] at hl
    cases init with
    | nil => simp at hl
    | cons e init =>
      exact ⟨e, by simp, hall e (List.mem_cons_self _ _)⟩

theorem iterates_final (H : Host) (F G : Function) (cs : List (Nat × Nat))
    (h : Iterates H F cs G) : iteration H G = Except.ok (G, 0, 0) := by
  induction h with
  | last F G h =>
    obtain ⟨e1, e2, e3⟩ := iteration_zero H F G h
    subst e1
    exact h
  | step F F2 G r p cs h hc _ ih => exact ih

theorem runLoop_iff (H : Host) (b : Nat) (c : Bool) (F G : Function) (c2 : Bool) :
    runLoop H b c F = Except.ok (G, c2) ↔
      ∃ cs, Iterates H F cs G ∧ cs.length ≤ b ∧ c2 = (c || decide (1 < cs.length)) := by
  constructor
  · intro h
    induction b generalizing c F with
    | zero => simp [runLoop] at h
    | succ b ih =>
      rw [runLoop_succ] at h
      cases hi : iteration H F with
      | error e => simp [hi] at h
      | ok s =>
        obtain ⟨F2, r, p⟩ := s
        rw [hi] at h
        simp only at h
        by_cases hc : 0 < r ∨ 0 < p
        · rw [if_pos hc] at h
          obtain ⟨cs, h1, h2, h3⟩ := ih true F2 h
          refine ⟨(r, p) :: cs, Iterates.step F F2 G r p cs hi hc h1, ?_, ?_⟩
          · simp only [List.length_cons]
            omega
          · have hpos : 0 < cs.length := by
              obtain ⟨init, hcs, _⟩ := iterates_counts H F2 G cs h1
              rw [hcs]
              simp
            rw [h3]
            simp only [Bool.true_or, List.length_cons]
            have : 1 < cs.length + 1 := by omega
            simp [this]
        · rw [if_neg hc] at h
          simp only [Except.ok.injEq, Prod.mk.injEq] at h
          obtain ⟨h1, h2⟩ := h
          subst h1
          simp only [not_or, Nat.not_lt, Nat.le_zero] at hc
          rw [hc.1, hc.2] at hi
          refine ⟨[(0, 0)], Iterates.last F F2 hi, ?_, ?_⟩
          · simp
          · simp [h2]
  · rintro ⟨cs, h1, h2, h3⟩
    induction h1 generalizing b c with
    | last F G h =>
      cases b with
      | zero => simp at h2
      | succ b =>
        rw [runLoop_succ, h]
        simp [h3]
    | step F F2 G r p cs h hc hrest ih =>
      cases b with
      | zero => simp at h2
      | succ b =>
        rw [runLoop_succ, h]
        simp only
        rw [if_pos hc]
        have hpos : 0 < cs.length := by
          obtain ⟨init, hcs, _⟩ := iterates_counts H F2 G cs hrest
          rw [hcs]
          simp
        apply ih b true
        · simp only [List.length_cons] at h2
          omega
        · rw [h3]
          simp only [List.length_cons, Bool.true_or]
          have : 1 < cs.length + 1 := by omega
          simp [this]

end SROA
namespace SROA

/-! ## SROA: the primitives on the instruction list -/

theorem allInsts_replaceAllUsesWith (F : Function) (id : Nat) (V : Value) :
    allInsts (replaceAllUsesWith F id V)
      = (allInsts F).map (fun I => I.replaceUsesOfWith id V) := by
  unfold allInsts replaceAllUsesWith
  rw [List.map_flatten]

theorem allInsts_eraseFromParent (F : Function) (id : Nat) :
    allInsts (eraseFromParent F id) = (allInsts F).filter (fun I => decide (I.id ≠ id)) := by
  unfold allInsts eraseFromParent
  rw [List.filter_flatten]

theorem allInsts_eraseUsers (us : List Nat) (F : Function) :
    allInsts (eraseUsers us F) = (allInsts F).filter (fun I => decide (I.id ∉ us)) := by
  induction us generalizing F with
  | nil => simp [eraseUsers]
  | cons u us ih =>
    simp only [eraseUsers]
    rw [ih, allInsts_eraseFromParent, List.filter_filter]
    apply List.filter_congr
    intro I _
    simp only [List.mem_cons, not_or, Bool.decide_and, ne_eq]
    rw [Bool.and_comm]

theorem insertBeforeIn_perm_or_eq (New : Instruction) (pos : Nat) (B : List Instruction) :
    insertBeforeIn New pos B = B ∨ List.Perm (insertBeforeIn New pos B) (New :: B) := by
  induction B with
  | nil => left; rfl
  | cons I rest ih =>
    simp only [insertBeforeIn]
    by_cases h : I.id = pos
    · rw [if_pos h]
      right
      exact List.Perm.refl _
    · rw [if_neg h]
      rcases ih with ih | ih
      · left
        rw [ih]
      · right
        exact (List.Perm.cons I ih).trans (List.Perm.swap New I rest)

theorem insertBeforeIn_perm (New : Instruction) (pos : Nat) (B : List Instruction)
    (h : ∃ J ∈ B, J.id = pos) : List.Perm (insertBeforeIn New pos B) (New :: B) := by
  induction B with
  | nil => simp at h
  | cons I rest ih =>
    simp only [insertBeforeIn]
    by_cases hI : I.id = pos
    · rw [if_pos hI]
    · rw [if_neg hI]
      obtain ⟨J, hJ, hJp⟩ := h
      rcases List.mem_cons.1 hJ with rfl | hJ
      · exact absurd hJp hI
      · exact (List.Perm.cons I (ih ⟨J, hJ, hJp⟩)).trans (List.Perm.swap New I rest)

end SROA
namespace SROA

/-! ## SROA: the weight of the allocations -/

theorem allocaWeight_replaceUsesOfWith (I : Instruction) (id : Nat) (V : Value) :
    (I.replaceUsesOfWith id V).allocaWeight = I.allocaWeight := rfl

theorem allocaWeight_replaceAllUsesWith (F : Function) (id : Nat) (V : Value) :
    allocaWeight (replaceAllUsesWith F id V) = allocaWeight F := by
  unfold allocaWeight
  rw [allInsts_replaceAllUsesWith, List.map_map]
  rfl

theorem sum_filter_le {α : Type} (w : α → Nat) (p : α → Bool) (l : List α) :
    ((l.filter p).map w).sum ≤ (l.map w).sum := by
  induction l with
  | nil => simp
  | cons I rest ih =>
    simp only [List.filter_cons]
    split
    · simp only [List.map_cons, List.sum_cons]
      omega
    · simp only [List.map_cons, List.sum_cons]
      omega

theorem sum_filter_add_le {α : Type} (w : α → Nat) (p : α → Bool) (l : List α)
    (x : α) (hx : x ∈ l) (hp : p x = false) :
    ((l.filter p).map w).sum + w x ≤ (l.map w).sum := by
  induction l with
  | nil => simp at hx
  | cons I rest ih =>
    rcases List.mem_cons.1 hx with rfl | hx
    · simp only [List.filter_cons, hp, List.map_cons, List.sum_cons]
      have := sum_filter_le w p rest
      simp only [Bool.false_eq_true, ↓reduceIte]
      omega
    · have := ih hx
      simp only [List.filter_cons]
      split
      · simp only [List.map_cons, List.sum_cons]
        omega
      · simp only [List.map_cons, List.sum_cons]
        omega

theorem weight_insertBeforeIn (New : Instruction) (pos : Nat) (B : List Instruction) :
    ((insertBeforeIn New pos B).map Instruction.allocaWeight).sum
      ≤ (B.map Instruction.allocaWeight).sum + New.allocaWeight := by
  rcases insertBeforeIn_perm_or_eq New pos B with h | h
  · rw [h]
    omega
  · rw [(h.map _).sum_eq]
    simp only [List.map_cons, List.sum_cons]
    omega

theorem weight_insertBeforeIn_ge (New : Instruction) (pos : Nat) (B : List Instruction) :
    (B.map Instruction.allocaWeight).sum
      ≤ ((insertBeforeIn New pos B).map Instruction.allocaWeight).sum := by
  rcases insertBeforeIn_perm_or_eq New pos B with h | h
  · rw [h]
  · rw [(h.map _).sum_eq]
    simp only [List.map_cons, List.sum_cons]
    omega

theorem allocaWeight_cons (B : BasicBlock) (F : Function) :
    allocaWeight (B :: F) = (B.map Instruction.allocaWeight).sum + allocaWeight F := by
  unfold allocaWeight allInsts
  simp

theorem allocaWeight_insertBefore (New : Instruction) (pos : Nat) (F : Function)
    (hN : New.allocaWeight = 0) : allocaWeight (insertBefore New pos F) = allocaWeight F := by
  induction F with
  | nil => rfl
  | cons B rest ih =>
    unfold insertBefore at ih ⊢
    rw [List.map_cons, allocaWeight_cons, allocaWeight_cons, ih]
    have h1 := weight_insertBeforeIn New pos B
    have h2 := weight_insertBeforeIn_ge New pos B
    omega

theorem allocaWeight_insertAlloca (first : Option Nat) (New : Instruction) (F : Function) :
    allocaWeight (insertAlloca first New F) ≤ allocaWeight F + New.allocaWeight := by
  cases F with
  | nil => simp [insertAlloca]
  | cons B rest =>
    cases first with
    | some pos =>
      simp only [insertAlloca]
      rw [allocaWeight_cons, allocaWeight_cons]
      have := weight_insertBeforeIn New pos B
      omega
    | none =>
      simp only [insertAlloca]
      rw [allocaWeight_cons, allocaWeight_cons]
      simp only [List.map_append, List.sum_append, List.map_cons, List.map_nil, List.sum_cons,
        List.sum_nil]
      omega

theorem allocaWeight_createFieldAllocas (first : Option Nat) (fs : List Ty) (F : Function) :
    allocaWeight (createFieldAllocas first fs F).1 ≤ allocaWeight F + Ty.weightList fs := by
  induction fs generalizing F with
  | nil => simp [createFieldAllocas, Ty.weightList]
  | cons ty tys ih =>
    simp only [createFieldAllocas, Ty.weightList]
    have h1 := ih (insertAlloca first
      { id := freshId F, opcode := Opcode.alloca ty, operands := [], isVolatile := false } F)
    have h2 := allocaWeight_insertAlloca first
      { id := freshId F, opcode := Opcode.alloca ty, operands := [], isVolatile := false } F
    have h3 : Instruction.allocaWeight
        { id := freshId F, opcode := Opcode.alloca ty, operands := [], isVolatile := false }
        = ty.weight := rfl
    omega

theorem allocaWeight_replaceU2 (F G : Function) (CI : Instruction)
    (h : replaceU2TypeEqOrNe F CI = Except.ok G) : allocaWeight G = allocaWeight F := by
  unfold replaceU2TypeEqOrNe at h
  split at h
  · simp only [Except.ok.injEq] at h
    rw [← h, allocaWeight_replaceAllUsesWith]
  · simp only [Except.ok.injEq] at h
    rw [← h, allocaWeight_replaceAllUsesWith]
  · simp at h

theorem allocaWeight_replaceU1 (F G : Function) (GEPI : Instruction) (NA : List Nat)
    (h : replaceU1TypeGetElementPtr F GEPI NA = Except.ok G) :
    allocaWeight G = allocaWeight F := by
  unfold replaceU1TypeGetElementPtr at h
  split at h
  · simp at h
  · split at h
    · split at h
      · simp at h
      · split at h
        · simp at h
        · split at h
          · simp only [Except.ok.injEq] at h
            rw [← h, allocaWeight_replaceAllUsesWith]
          · simp only [Except.ok.injEq] at h
            rw [← h, allocaWeight_replaceAllUsesWith]
            apply allocaWeight_insertBefore
            rfl
    · simp at h

/-- One round of the loop over the users that ends with a result. -/
theorem rewriteUsers_cons_ok (NA : List Nat) (u : Nat) (us : List Nat) (F : Function)
    (r : Function × List Nat) (h : rewriteUsers NA (u :: us) F = Except.ok r) :
    ∃ U G s, getInst F u = some U
      ∧ ((U.opcode = Opcode.getElementPtr ∧ replaceU1TypeGetElementPtr F U NA = Except.ok G)
        ∨ ((∃ p, U.opcode = Opcode.cmp p) ∧ replaceU2TypeEqOrNe F U = Except.ok G))
      ∧ rewriteUsers NA us G = Except.ok s ∧ r = (s.1, u :: s.2) := by
  simp only [rewriteUsers] at h
  cases hg : getInst F u with
  | none => simp [hg] at h
  | some U =>
    rw [hg] at h
    simp only at h
    cases ho : U.opcode with
    | getElementPtr =>
      rw [ho] at h
      simp only at h
      cases h1 : replaceU1TypeGetElementPtr F U NA with
      | error e => simp [h1] at h
      | ok G =>
        rw [h1] at h
        simp only at h
        cases h2 : rewriteUsers NA us G with
        | error e => simp [h2] at h
        | ok s =>
          rw [h2] at h
          simp only [Except.ok.injEq] at h
          exact ⟨U, G, s, rfl, Or.inl ⟨ho, h1⟩, h2, h.symm⟩
    | cmp p =>
      rw [ho] at h
      simp only at h
      cases h1 : replaceU2TypeEqOrNe F U with
      | error e => simp [h1] at h
      | ok G =>
        rw [h1] at h
        simp only at h
        cases h2 : rewriteUsers NA us G with
        | error e => simp [h2] at h
        | ok s =>
          rw [h2] at h
          simp only [Except.ok.injEq] at h
          exact ⟨U, G, s, rfl, Or.inr ⟨⟨p, ho⟩, h1⟩, h2, h.symm⟩
    | alloca ty => simp [ho] at h
    | load => simp [ho] at h
    | store => simp [ho] at h
    | phi => simp [ho] at h
    | other => simp [ho] at h

theorem allocaWeight_rewriteUsers (NA us : List Nat) (F : Function) (r : Function × List Nat)
    (h : rewriteUsers NA us F = Except.ok r) : allocaWeight r.1 = allocaWeight F := by
  induction us generalizing F r with
  | nil =>
    simp only [rewriteUsers, Except.ok.injEq] at h
    rw [← h]
  | cons u us ih =>
    obtain ⟨U, G, s, _, hstep, hrest, hr⟩ := rewriteUsers_cons_ok NA u us F r h
    rw [hr]
    simp only
    rw [ih G s hrest]
    rcases hstep with ⟨_, h1⟩ | ⟨_, h1⟩
    · exact allocaWeight_replaceU1 F G U NA h1
    · exact allocaWeight_replaceU2 F G U h1

end SROA
namespace SROA

theorem getInst_some (F : Function) (a : Nat) (A : Instruction) (h : getInst F a = some A) :
    A ∈ allInsts F ∧ A.id = a := by
  unfold getInst at h
  refine ⟨List.mem_of_find?_eq_some h, ?_⟩
  simpa using List.find?_some h

/-- The steps of `eliminateStructAlloca` on a run that ends with a result. -/
theorem eliminateStructAlloca_ok (F : Function) (a : Nat) (r : Function × List Nat)
    (h : eliminateStructAlloca F a = Except.ok r) :
    ∃ A fs s, getInst F a = some A ∧ A.opcode = Opcode.alloca (Ty.struct fs)
      ∧ rewriteUsers
          ((createFieldAllocas ((getFirstNonPHI (getEntryBlock F)).map (fun I => I.id))
            fs F).2.map (fun N => N.id))
          ((users (createFieldAllocas ((getFirstNonPHI (getEntryBlock F)).map (fun I => I.id))
            fs F).1 (Value.inst a)).map (fun U => U.id))
          (createFieldAllocas ((getFirstNonPHI (getEntryBlock F)).map (fun I => I.id))
            fs F).1 = Except.ok s
      ∧ r = (eraseFromParent (eraseUsers s.2 s.1) a,
          ((createFieldAllocas ((getFirstNonPHI (getEntryBlock F)).map (fun I => I.id))
            fs F).2.filter (fun N => match N.opcode with
              | Opcode.alloca ty => ty.isAggregateType
              | _ => false)).map (fun N => N.id)) := by
  unfold eliminateStructAlloca at h
  cases hg : getInst F a with
  | none => simp [hg] at h
  | some A =>
    rw [hg] at h
    simp only at h
    split at h
    · rename_i fs ho
      split at h
      · simp at h
      · rename_i s hs
        simp only [Except.ok.injEq] at h
        exact ⟨A, fs, s, rfl, ho, hs, h.symm⟩
    · simp at h

theorem mem_insertBeforeIn_of_mem (New : Instruction) (pos : Nat) (B : List Instruction)
    (I : Instruction) (h : I ∈ B) : I ∈ insertBeforeIn New pos B := by
  rcases insertBeforeIn_perm_or_eq New pos B with e | e
  · rw [e]
    exact h
  · exact e.mem_iff.2 (List.mem_cons_of_mem _ h)

theorem mem_insertBeforeIn (New : Instruction) (pos : Nat) (B : List Instruction)
    (I : Instruction) (h : I ∈ insertBeforeIn New pos B) : I = New ∨ I ∈ B := by
  rcases insertBeforeIn_perm_or_eq New pos B with e | e
  · rw [e] at h
    exact Or.inr h
  · exact List.mem_cons.1 (e.mem_iff.1 h)

theorem mem_allInsts_insertBefore_of_mem (New : Instruction) (pos : Nat) (F : Function)
    (I : Instruction) (h : I ∈ allInsts F) : I ∈ allInsts (insertBefore New pos F) := by
  unfold allInsts insertBefore at *
  rw [List.mem_flatten] at h ⊢
  obtain ⟨B, hB, hI⟩ := h
  exact ⟨insertBeforeIn New pos B, List.mem_map.2 ⟨B, hB, rfl⟩,
    mem_insertBeforeIn_of_mem New pos B I hI⟩

theorem mem_allInsts_insertBefore (New : Instruction) (pos : Nat) (F : Function)
    (I : Instruction) (h : I ∈ allInsts (insertBefore New pos F)) :
    I = New ∨ I ∈ allInsts F := by
  unfold allInsts insertBefore at *
  rw [List.mem_flatten] at h
  obtain ⟨B2, hB2, hI⟩ := h
  obtain ⟨B, hB, rfl⟩ := List.mem_map.1 hB2
  rcases mem_insertBeforeIn New pos B I hI with e | e
  · exact Or.inl e
  · exact Or.inr (List.mem_flatten.2 ⟨B, hB, e⟩)

theorem mem_allInsts_insertAlloca_of_mem (first : Option Nat) (New : Instruction)
    (F : Function) (I : Instruction) (h : I ∈ allInsts F) :
    I ∈ allInsts (insertAlloca first New F) := by
  cases F with
  | nil => simp [allInsts] at h
  | cons B rest =>
    unfold allInsts at h ⊢
    rw [List.flatten_cons, List.mem_append] at h
    cases first with
    | some pos =>
      simp only [insertAlloca, List.flatten_cons, List.mem_append]
      rcases h with h | h
      · exact Or.inl (mem_insertBeforeIn_of_mem New pos B I h)
      · exact Or.inr h
    | none =>
      simp only [insertAlloca, List.flatten_cons, List.mem_append]
      rcases h with h | h
      · exact Or.inl (Or.inl h)
      · exact Or.inr h

theorem mem_allInsts_insertAlloca (first : Option Nat) (New : Instruction)
    (F : Function) (I : Instruction) (h : I ∈ allInsts (insertAlloca first New F)) :
    I = New ∨ I ∈ allInsts F := by
  cases F with
  | nil => simp [insertAlloca, allInsts] at h
  | cons B rest =>
    unfold allInsts at h ⊢
    rw [List.flatten_cons, List.mem_append]
    cases first with
    | some pos =>
      simp only [insertAlloca, List.flatten_cons, List.mem_append] at h
      rcases h with h | h
      · rcases mem_insertBeforeIn New pos B I h with e | e
        · exact Or.inl e
        · exact Or.inr (Or.inl e)
      · exact Or.inr (Or.inr h)
    | none =>
      simp only [insertAlloca, List.flatten_cons, List.mem_append, List.mem_singleton] at h
      rcases h with (h | h) | h
      · exact Or.inr (Or.inl h)
      · exact Or.inl h
      · exact Or.inr (Or.inr h)

theorem mem_createFieldAllocas_of_mem (first : Option Nat) (fs : List Ty) (F : Function)
    (I : Instruction) (h : I ∈ allInsts F) :
    I ∈ allInsts (createFieldAllocas first fs F).1 := by
  induction fs generalizing F with
  | nil => exact h
  | cons ty tys ih =>
    simp only [createFieldAllocas]
    exact ih _ (mem_allInsts_insertAlloca_of_mem first _ F I h)

theorem mem_createFieldAllocas (first : Option Nat) (fs : List Ty) (F : Function)
    (I : Instruction) (h : I ∈ allInsts (createFieldAllocas first fs F).1) :
    I ∈ (createFieldAllocas first fs F).2 ∨ I ∈ allInsts F := by
  induction fs generalizing F with
  | nil => exact Or.inr h
  | cons ty tys ih =>
    simp only [createFieldAllocas] at h ⊢
    rcases ih _ h with e | e
    · exact Or.inl (List.mem_cons_of_mem _ e)
    · rcases mem_allInsts_insertAlloca first _ F I e with e2 | e2
      · exact Or.inl (by rw [e2]; exact List.mem_cons_self _ _)
      · exact Or.inr e2

/-- An instruction with the given id and class is in the function. -/
theorem hasInst_replaceAllUsesWith (F : Function) (id : Nat) (V : Value) (a : Nat)
    (op : Opcode) (h : ∃ I ∈ allInsts F, I.id = a ∧ I.opcode = op) :
    ∃ I ∈ allInsts (replaceAllUsesWith F id V), I.id = a ∧ I.opcode = op := by
  obtain ⟨I, hI, h1, h2⟩ := h
  refine ⟨I.replaceUsesOfWith id V, ?_, h1, h2⟩
  rw [allInsts_replaceAllUsesWith]
  exact List.mem_map.2 ⟨I, hI, rfl⟩

theorem hasInst_replaceU1 (F G : Function) (GEPI : Instruction) (NA : List Nat)
    (hr : replaceU1TypeGetElementPtr F GEPI NA = Except.ok G) (a : Nat)
    (op : Opcode) (h : ∃ I ∈ allInsts F, I.id = a ∧ I.opcode = op) :
    ∃ I ∈ allInsts G, I.id = a ∧ I.opcode = op := by
  unfold replaceU1TypeGetElementPtr at hr
  split at hr
  · simp at hr
  · split at hr
    · split at hr
      · simp at hr
      · split at hr
        · simp at hr
        · split at hr
          · simp only [Except.ok.injEq] at hr
            rw [← hr]
            exact hasInst_replaceAllUsesWith F _ _ a op h
          · simp only [Except.ok.injEq] at hr
            rw [← hr]
            apply hasInst_replaceAllUsesWith
            obtain ⟨I, hI, h1, h2⟩ := h
            exact ⟨I, mem_allInsts_insertBefore_of_mem _ _ F I hI, h1, h2⟩
    · simp at hr

theorem hasInst_replaceU2 (F G : Function) (CI : Instruction)
    (hr : replaceU2TypeEqOrNe F CI = Except.ok G) (a : Nat)
    (op : Opcode) (h : ∃ I ∈ allInsts F, I.id = a ∧ I.opcode = op) :
    ∃ I ∈ allInsts G, I.id = a ∧ I.opcode = op := by
  unfold replaceU2TypeEqOrNe at hr
  split at hr
  · simp only [Except.ok.injEq] at hr
    rw [← hr]
    exact hasInst_replaceAllUsesWith F _ _ a op h
  · simp only [Except.ok.injEq] at hr
    rw [← hr]
    exact hasInst_replaceAllUsesWith F _ _ a op h
  · simp at hr

theorem hasInst_rewriteUsers (NA us : List Nat) (F : Function) (r : Function × List Nat)
    (hr : rewriteUsers NA us F = Except.ok r) (a : Nat)
    (op : Opcode) (h : ∃ I ∈ allInsts F, I.id = a ∧ I.opcode = op) :
    ∃ I ∈ allInsts r.1, I.id = a ∧ I.opcode = op := by
  induction us generalizing F r with
  | nil =>
    simp only [rewriteUsers, Except.ok.injEq] at hr
    rw [← hr]
    exact h
  | cons u us ih =>
    obtain ⟨U, G, s, _, hstep, hrest, hrr⟩ := rewriteUsers_cons_ok NA u us F r hr
    rw [hrr]
    apply ih G s hrest
    rcases hstep with ⟨_, h1⟩ | ⟨_, h1⟩
    · exact hasInst_replaceU1 F G U NA h1 a op h
    · exact hasInst_replaceU2 F G U h1 a op h

/-- Each decomposition lowers the weight of the allocations of the function. -/
theorem allocaWeight_eliminate (F : Function) (a : Nat) (r : Function × List Nat)
    (h : eliminateStructAlloca F a = Except.ok r) : allocaWeight r.1 < allocaWeight F := by
  obtain ⟨A, fs, s, hg, ho, hs, hr⟩ := eliminateStructAlloca_ok F a r h
  obtain ⟨hA, hid⟩ := getInst_some F a A hg
  have h1 := allocaWeight_createFieldAllocas
    ((getFirstNonPHI (getEntryBlock F)).map (fun I => I.id)) fs F
  have h2 := allocaWeight_rewriteUsers _ _ _ s hs
  obtain ⟨A2, hA2, hid2, ho2⟩ := hasInst_rewriteUsers _ _ _ s hs a (Opcode.alloca (Ty.struct fs))
    ⟨A, mem_createFieldAllocas_of_mem _ fs F A hA, hid, ho⟩
  have hw : A2.allocaWeight = 1 + Ty.weightList fs := by
    unfold Instruction.allocaWeight
    rw [ho2]
    rfl
  have h3 : allocaWeight r.1 + A2.allocaWeight ≤ allocaWeight s.1 := by
    rw [hr]
    unfold allocaWeight
    rw [allInsts_eraseFromParent, allInsts_eraseUsers, List.filter_filter]
    apply sum_filter_add_le _ _ _ A2 hA2
    simp [hid2]
  omega

end SROA
namespace SROA

/-! ## SROA: termination -/

theorem replaceU1_ne_fuel (F : Function) (GEPI : Instruction) (NA : List Nat) :
    replaceU1TypeGetElementPtr F GEPI NA ≠ Except.error Failure.fuel := by
  unfold replaceU1TypeGetElementPtr
  split
  · simp
  · split
    · split
      · simp
      · split
        · simp
        · split <;> simp
    · simp

theorem replaceU2_ne_fuel (F : Function) (CI : Instruction) :
    replaceU2TypeEqOrNe F CI ≠ Except.error Failure.fuel := by
  unfold replaceU2TypeEqOrNe
  split <;> simp

theorem rewriteUsers_ne_fuel (NA us : List Nat) (F : Function) :
    rewriteUsers NA us F ≠ Except.error Failure.fuel := by
  induction us generalizing F with
  | nil => simp [rewriteUsers]
  | cons u us ih =>
    simp only [rewriteUsers]
    split
    · simp
    · split
      · split
        · rename_i e he
          intro h
          simp only [Except.error.injEq] at h
          rw [h] at he
          exact replaceU1_ne_fuel _ _ _ he
        · rename_i G _
          split
          · rename_i e he
            intro h
            simp only [Except.error.injEq] at h
            rw [h] at he
            exact ih G he
          · simp
      · split
        · rename_i e he
          intro h
          simp only [Except.error.injEq] at h
          rw [h] at he
          exact replaceU2_ne_fuel _ _ he
        · rename_i G _
          split
          · rename_i e he
            intro h
            simp only [Except.error.injEq] at h
            rw [h] at he
            exact ih G he
          · simp
      · simp

theorem eliminate_ne_fuel (F : Function) (a : Nat) :
    eliminateStructAlloca F a ≠ Except.error Failure.fuel := by
  unfold eliminateStructAlloca
  split
  · simp
  · split
    · simp only
      split
      · rename_i e he
        intro h
        simp only [Except.error.injEq] at h
        rw [h] at he
        exact rewriteUsers_ne_fuel _ _ _ he
      · simp
    · simp

theorem eliminateWorkList_weight (b : Nat) (wl : List Nat) (F : Function) (n : Nat)
    (hb : allocaWeight F < b) :
    eliminateWorkList b wl F n ≠ Except.error Failure.fuel
      ∧ ∀ G m, eliminateWorkList b wl F n = Except.ok (G, m) →
          allocaWeight G + m ≤ allocaWeight F + n := by
  induction b generalizing wl F n with
  | zero => omega
  | succ b ih =>
    cases wl with
    | nil =>
      rw [eliminateWorkList_nil]
      refine ⟨by simp, ?_⟩
      intro G m h
      simp only [Except.ok.injEq, Prod.mk.injEq] at h
      rw [← h.1, ← h.2]
    | cons a wl =>
      simp only [eliminateWorkList]
      cases he : eliminateStructAlloca F a with
      | error e =>
        simp only
        refine ⟨?_, by simp⟩
        intro h
        simp only [Except.error.injEq] at h
        rw [h] at he
        exact eliminate_ne_fuel F a he
      | ok r =>
        simp only
        have hw := allocaWeight_eliminate F a r he
        obtain ⟨h1, h2⟩ := ih (pushEligible r.1 r.2 wl) r.1 (n + 1) (by omega)
        refine ⟨h1, ?_⟩
        intro G m h
        have := h2 G m h
        omega

theorem replace_weight (F : Function) :
    replaceStructAllocsWithIndividualFields F ≠ Except.error Failure.fuel
      ∧ ∀ G m, replaceStructAllocsWithIndividualFields F = Except.ok (G, m) →
          allocaWeight G + m ≤ allocaWeight F := by
  unfold replaceStructAllocsWithIndividualFields
  obtain ⟨h1, h2⟩ := eliminateWorkList_weight (allocaWeight F + 1)
    (eliminatableAllocas F).reverse F 0 (by omega)
  exact ⟨h1, fun G m h => by have := h2 G m h; omega⟩

theorem weight_pos (ty : Ty) : 0 < ty.weight := by
  cases ty <;> simp [Ty.weight]

theorem allocaWeight_eq_allocaTypes (F : Function) :
    allocaWeight F = ((allocaTypes F).map (fun e => e.2.weight)).sum := by
  unfold allocaWeight allocaTypes
  induction allInsts F with
  | nil => rfl
  | cons I rest ih =>
    simp only [List.map_cons, List.sum_cons, List.filterMap_cons]
    cases ho : I.opcode <;>
      simp [Instruction.allocaWeight, ho, ih]

theorem mem_allocaTypes (F : Function) (I : Instruction) (hI : I ∈ allInsts F)
    (ha : I.isAlloca = true) : ∃ ty, (I.id, ty) ∈ allocaTypes F := by
  unfold Instruction.isAlloca at ha
  unfold allocaTypes
  cases ho : I.opcode with
  | alloca ty =>
    refine ⟨ty, List.mem_filterMap.2 ⟨I, hI, ?_⟩⟩
    rw [ho]
  | _ => simp [ho] at ha

theorem promotableAllocas_mem (H : Host) (F : Function) (l : List Instruction)
    (V : List Nat) (h : promotableAllocas H F l = Except.ok V) (v : Nat) (hv : v ∈ V) :
    ∃ I ∈ l, I.id = v ∧ I.isAlloca = true ∧ isAllocaPromotable F I = true := by
  induction l generalizing V with
  | nil =>
    simp only [promotableAllocas, Except.ok.injEq] at h
    rw [← h] at hv
    simp at hv
  | cons I rest ih =>
    simp only [promotableAllocas] at h
    by_cases hp : (I.isAlloca && isAllocaPromotable F I) = true
    · rw [if_pos hp] at h
      split at h
      · cases hr : promotableAllocas H F rest with
        | error e => simp [hr] at h
        | ok W =>
          rw [hr] at h
          simp only [Except.ok.injEq] at h
          rw [← h] at hv
          rcases List.mem_cons.1 hv with rfl | hv
          · rw [Bool.and_eq_true] at hp
            exact ⟨I, List.mem_cons_self _ _, rfl, hp.1, hp.2⟩
          · obtain ⟨J, hJ, h1, h2, h3⟩ := ih W hr hv
            exact ⟨J, List.mem_cons_of_mem _ hJ, h1, h2, h3⟩
      · simp at h
    · rw [if_neg hp] at h
      obtain ⟨J, hJ, h1, h2, h3⟩ := ih V h hv
      exact ⟨J, List.mem_cons_of_mem _ hJ, h1, h2, h3⟩

theorem promotableAllocas_ne_fuel (H : Host) (F : Function) (l : List Instruction) :
    promotableAllocas H F l ≠ Except.error Failure.fuel := by
  induction l with
  | nil => simp [promotableAllocas]
  | cons I rest ih =>
    simp only [promotableAllocas]
    split
    · split
      · split
        · rename_i e he
          intro h
          simp only [Except.error.injEq] at h
          rw [h] at he
          exact ih he
        · simp
      · simp
    · exact ih

theorem promote_weight (H : Host)
    (hprim : ∀ V F, List.Sublist (allocaTypes (H.PromoteMemToReg V F))
      ((allocaTypes F).filter (fun e => decide (e.1 ∉ V))))
    (F : Function) :
    promoteScalarAllocasToVirtualReg H F ≠ Except.error Failure.fuel
      ∧ ∀ G p, promoteScalarAllocasToVirtualReg H F = Except.ok (G, p) →
          allocaWeight G ≤ allocaWeight F ∧ (0 < p → allocaWeight G < allocaWeight F) := by
  unfold promoteScalarAllocasToVirtualReg
  cases hs : promotableAllocas H F (allInsts F) with
  | error e =>
    simp only
    refine ⟨?_, by simp⟩
    intro h
    simp only [Except.error.injEq] at h
    rw [h] at hs
    exact promotableAllocas_ne_fuel H F _ hs
  | ok V =>
    simp only
    split
    · rename_i hpos
      refine ⟨by simp, ?_⟩
      intro G p h
      simp only [Except.ok.injEq, Prod.mk.injEq] at h
      obtain ⟨h1, _⟩ := h
      subst h1
      cases V with
      | nil => simp at hpos
      | cons v V =>
        obtain ⟨I, hI, hid, ha, _⟩ := promotableAllocas_mem H F _ (v :: V) hs v
          (List.mem_cons_self _ _)
        obtain ⟨ty, hty⟩ := mem_allocaTypes F I hI ha
        have hsub := hprim (v :: V) F
        have h1 : ((allocaTypes (H.PromoteMemToReg (v :: V) F)).map (fun e => e.2.weight)).sum
            ≤ (((allocaTypes F).filter (fun e => decide (e.1 ∉ v :: V))).map
                (fun e => e.2.weight)).sum :=
          List.Sublist.sum_le_sum (hsub.map _) (by simp)
        have h2 := sum_filter_add_le (fun e : Nat × Ty => e.2.weight)
          (fun e => decide (e.1 ∉ v :: V)) (allocaTypes F) (I.id, ty) hty (by simp [hid])
        have h3 := weight_pos ty
        rw [allocaWeight_eq_allocaTypes, allocaWeight_eq_allocaTypes F]
        simp only at h2
        constructor
        · omega
        · intro _
          omega
    · rename_i hpos
      refine ⟨by simp, ?_⟩
      intro G p h
      simp only [Except.ok.injEq, Prod.mk.injEq] at h
      obtain ⟨h1, h2⟩ := h
      subst h1
      refine ⟨le_refl _, ?_⟩
      intro hp
      omega

theorem iteration_weight (H : Host)
    (hprim : ∀ V F, List.Sublist (allocaTypes (H.PromoteMemToReg V F))
      ((allocaTypes F).filter (fun e => decide (e.1 ∉ V))))
    (F : Function) :
    iteration H F ≠ Except.error Failure.fuel
      ∧ ∀ G r p, iteration H F = Except.ok (G, r, p) → (0 < r ∨ 0 < p) →
          allocaWeight G < allocaWeight F := by
  unfold iteration
  obtain ⟨r1, r2⟩ := replace_weight F
  cases hr : replaceStructAllocsWithIndividualFields F with
  | error e =>
    simp only
    refine ⟨?_, by simp⟩
    intro h
    simp only [Except.error.injEq] at h
    rw [h] at hr
    exact r1 hr
  | ok r =>
    simp only
    obtain ⟨p1, p2⟩ := promote_weight H hprim r.1
    cases hp : promoteScalarAllocasToVirtualReg H r.1 with
    | error e =>
      simp only
      refine ⟨?_, by simp⟩
      intro h
      simp only [Except.error.injEq] at h
      rw [h] at hp
      exact p1 hp
    | ok p =>
      simp only
      refine ⟨by simp, ?_⟩
      intro G n m h hc
      simp only [Except.ok.injEq, Prod.mk.injEq] at h
      obtain ⟨h1, h2, h3⟩ := h
      have hw1 := r2 r.1 r.2 hr
      have hw2 := p2 p.1 p.2 hp
      rw [← h1]
      rcases hc with hc | hc
      · omega
      · have := hw2.2 (by omega)
        omega

theorem runLoop_ne_fuel (H : Host)
    (hprim : ∀ V F, List.Sublist (allocaTypes (H.PromoteMemToReg V F))
      ((allocaTypes F).filter (fun e => decide (e.1 ∉ V))))
    (b : Nat) (c : Bool) (F : Function) (hb : allocaWeight F < b) :
    runLoop H b c F ≠ Except.error Failure.fuel := by
  induction b generalizing c F with
  | zero => omega
  | succ b ih =>
    rw [runLoop_succ]
    obtain ⟨i1, i2⟩ := iteration_weight H hprim F
    cases hi : iteration H F with
    | error e =>
      simp only
      intro h
      simp only [Except.error.injEq] at h
      rw [h] at hi
      exact i1 hi
    | ok s =>
      obtain ⟨F2, r, p⟩ := s
      simp only
      split
      · rename_i hc
        have := i2 F2 r p hi hc
        exact ih true F2 (by omega)
      · simp

theorem iterates_length (H : Host)
    (hprim : ∀ V F, List.Sublist (allocaTypes (H.PromoteMemToReg V F))
      ((allocaTypes F).filter (fun e => decide (e.1 ∉ V))))
    (F G : Function) (cs : List (Nat × Nat)) (h : Iterates H F cs G) :
    cs.length ≤ allocaWeight F + 1 := by
  induction h with
  | last F G h => simp
  | step F F2 G r p cs h hc _ ih =>
    have := (iteration_weight H hprim F).2 F2 r p h hc
    simp only [List.length_cons]
    omega

end SROA
namespace SROA

/-! ## SROA: the straight-line promotion primitive -/

theorem substOperands_opcode (env : List (Nat × Value)) (I : Instruction) :
    (substOperands env I).opcode = I.opcode := rfl

theorem substOperands_id (env : List (Nat × Value)) (I : Instruction) :
    (substOperands env I).id = I.id := rfl

theorem allocaTypes_promoteIn (AI : Nat) (env : List (Nat × Value)) (cur : Value)
    (l : List Instruction) :
    (promoteIn AI env cur l).filterMap (fun I =>
        match I.opcode with
        | Opcode.alloca ty => some (I.id, ty)
        | _ => none)
      = (l.filterMap (fun I =>
        match I.opcode with
        | Opcode.alloca ty => some (I.id, ty)
        | _ => none)).filter (fun e => decide (e.1 ≠ AI)) := by
  induction l generalizing env cur with
  | nil => rfl
  | cons I rest ih =>
    simp only [promoteIn, substOperands_opcode]
    cases ho : I.opcode with
    | load =>
      simp only
      split
      · rw [ih]
        simp [List.filterMap_cons, ho]
      · simp [List.filterMap_cons, ho, substOperands_opcode, ih]
    | store =>
      simp only
      split
      · rw [ih]
        simp [List.filterMap_cons, ho]
      · simp [List.filterMap_cons, ho, substOperands_opcode, ih]
    | alloca ty =>
      simp only
      split
      · rename_i hid
        rw [ih]
        simp [List.filterMap_cons, ho, hid]
      · rename_i hid
        simp [List.filterMap_cons, ho, substOperands_opcode, substOperands_id, ih, hid]
    | getElementPtr => simp [List.filterMap_cons, ho, substOperands_opcode, ih]
    | cmp p => simp [List.filterMap_cons, ho, substOperands_opcode, ih]
    | phi => simp [List.filterMap_cons, ho, substOperands_opcode, ih]
    | other => simp [List.filterMap_cons, ho, substOperands_opcode, ih]

theorem allocaTypes_map_promoteIn (AI : Nat) (F : Function) :
    allocaTypes (F.map (promoteIn AI [] Value.undef))
      = (allocaTypes F).filter (fun e => decide (e.1 ≠ AI)) := by
  unfold allocaTypes allInsts
  induction F with
  | nil => rfl
  | cons B rest ih =>
    simp only [List.map_cons, List.flatten_cons, List.filterMap_append, List.filter_append]
    rw [ih, allocaTypes_promoteIn]

/-- The straight-line promotion primitive removes the allocations it is handed and
adds none. -/
theorem allocaTypes_promoteStraightLine (V : List Nat) (F : Function) :
    allocaTypes (promoteStraightLine V F)
      = (allocaTypes F).filter (fun e => decide (e.1 ∉ V)) := by
  induction V generalizing F with
  | nil => simp [promoteStraightLine]
  | cons v V ih =>
    simp only [promoteStraightLine]
    rw [ih, allocaTypes_map_promoteIn, List.filter_filter]
    apply List.filter_congr
    intro e _
    simp only [List.mem_cons, not_or, Bool.decide_and, ne_eq]
    rw [Bool.and_comm]

end SROA
namespace SROA

/-! ## SROA: fresh identities -/

theorem le_foldr_max (l : List Nat) (x : Nat) (h : x ∈ l) : x ≤ l.foldr max 0 := by
  induction l with
  | nil => simp at h
  | cons y rest ih =>
    simp only [List.foldr_cons]
    rcases List.mem_cons.1 h with rfl | h
    · exact le_max_left _ _
    · exact le_trans (ih h) (le_max_right _ _)

theorem foldr_max_le (l : List Nat) (m : Nat) (h : ∀ x ∈ l, x ≤ m) : l.foldr max 0 ≤ m := by
  induction l with
  | nil => simp
  | cons y rest ih =>
    simp only [List.foldr_cons]
    exact max_le (h y (List.mem_cons_self _ _)) (ih (fun x hx => h x (List.mem_cons_of_mem _ hx)))

theorem mem_usedIds (F : Function) (x : Nat) :
    x ∈ usedIds F ↔ ∃ I ∈ allInsts F, x = I.id ∨ Value.inst x ∈ I.operands := by
  unfold usedIds
  simp only [List.mem_flatMap, List.mem_cons, List.mem_filterMap]
  constructor
  · rintro ⟨I, hI, h | ⟨o, ho, he⟩⟩
    · exact ⟨I, hI, Or.inl h⟩
    · refine ⟨I, hI, Or.inr ?_⟩
      cases o with
      | inst y =>
        simp only [Value.instId?, Option.some.injEq] at he
        rw [← he]
        exact ho
      | _ => simp [Value.instId?] at he
  · rintro ⟨I, hI, h | h⟩
    · exact ⟨I, hI, Or.inl h⟩
    · exact ⟨I, hI, Or.inr ⟨Value.inst x, h, rfl⟩⟩

theorem lt_freshId (F : Function) (x : Nat) (h : x ∈ usedIds F) : x < freshId F := by
  unfold freshId
  have := le_foldr_max (usedIds F) x h
  omega

theorem id_lt_freshId (F : Function) (I : Instruction) (h : I ∈ allInsts F) :
    I.id < freshId F :=
  lt_freshId F I.id ((mem_usedIds F I.id).2 ⟨I, h, Or.inl rfl⟩)

theorem operand_lt_freshId (F : Function) (I : Instruction) (h : I ∈ allInsts F) (x : Nat)
    (hx : Value.inst x ∈ I.operands) : x < freshId F :=
  lt_freshId F x ((mem_usedIds F x).2 ⟨I, h, Or.inr hx⟩)

theorem freshId_mono (F G : Function) (h : ∀ I ∈ allInsts F, I ∈ allInsts G) :
    freshId F ≤ freshId G := by
  unfold freshId
  apply Nat.succ_le_succ
  apply foldr_max_le
  intro x hx
  apply le_foldr_max
  rw [mem_usedIds] at hx ⊢
  obtain ⟨I, hI, hc⟩ := hx
  exact ⟨I, h I hI, hc⟩

/-- The new allocations of `createFieldAllocas`: one per field, of the field's type,
without operands, with an identity that is not in use in the function. -/
theorem createFieldAllocas_news (first : Option Nat) (fs : List Ty) (F : Function) :
    (createFieldAllocas first fs F).2.map (fun A => A.opcode) = fs.map Opcode.alloca
      ∧ ∀ A ∈ (createFieldAllocas first fs F).2,
          A.operands = [] ∧ A.isVolatile = false ∧ freshId F ≤ A.id := by
  induction fs generalizing F with
  | nil => simp [createFieldAllocas]
  | cons ty tys ih =>
    simp only [createFieldAllocas, List.map_cons, List.mem_cons]
    obtain ⟨h1, h2⟩ := ih (insertAlloca first
      { id := freshId F, opcode := Opcode.alloca ty, operands := [], isVolatile := false } F)
    refine ⟨by rw [h1], ?_⟩
    intro A hA
    rcases hA with rfl | hA
    · exact ⟨rfl, rfl, le_refl _⟩
    · obtain ⟨e1, e2, e3⟩ := h2 A hA
      exact ⟨e1, e2, le_trans
        (freshId_mono F _ (fun I hI => mem_allInsts_insertAlloca_of_mem first _ F I hI)) e3⟩

theorem getEntryBlock_sub (F : Function) (I : Instruction) (h : I ∈ getEntryBlock F) :
    I ∈ allInsts F := by
  cases F with
  | nil => simp [getEntryBlock] at h
  | cons B rest =>
    unfold allInsts
    simp only [getEntryBlock, List.headD_cons] at h
    simp [h]

theorem mem_entry_insertAlloca (first : Option Nat) (New : Instruction) (F : Function)
    (hF : F ≠ []) (hfirst : ∀ pos, first = some pos → ∃ J ∈ getEntryBlock F, J.id = pos) :
    New ∈ getEntryBlock (insertAlloca first New F)
      ∧ ∀ I ∈ getEntryBlock F, I ∈ getEntryBlock (insertAlloca first New F) := by
  cases F with
  | nil => exact absurd rfl hF
  | cons B rest =>
    cases first with
    | some pos =>
      simp only [insertAlloca, getEntryBlock, List.headD_cons]
      have hperm := insertBeforeIn_perm New pos B (hfirst pos rfl)
      exact ⟨hperm.mem_iff.2 (List.mem_cons_self _ _),
        fun I hI => mem_insertBeforeIn_of_mem New pos B I hI⟩
    | none =>
      simp only [insertAlloca, getEntryBlock, List.headD_cons, List.mem_append,
        List.mem_singleton]
      exact ⟨Or.inr trivial, fun I hI => Or.inl hI⟩

theorem insertAlloca_ne_nil (first : Option Nat) (New : Instruction) (F : Function)
    (hF : F ≠ []) : insertAlloca first New F ≠ [] := by
  cases F with
  | nil => exact absurd rfl hF
  | cons B rest =>
    cases first <;> simp [insertAlloca]

/-- The new allocations are in the entry block. -/
theorem createFieldAllocas_mem_entry (first : Option Nat) (fs : List Ty) (F : Function)
    (hF : F ≠ []) (hfirst : ∀ pos, first = some pos → ∃ J ∈ getEntryBlock F, J.id = pos) :
    (∀ A ∈ (createFieldAllocas first fs F).2,
        A ∈ getEntryBlock (createFieldAllocas first fs F).1)
      ∧ ∀ I ∈ getEntryBlock F, I ∈ getEntryBlock (createFieldAllocas first fs F).1 := by
  induction fs generalizing F with
  | nil => simp [createFieldAllocas]
  | cons ty tys ih =>
    simp only [createFieldAllocas, List.mem_cons]
    obtain ⟨m1, m2⟩ := mem_entry_insertAlloca first
      { id := freshId F, opcode := Opcode.alloca ty, operands := [], isVolatile := false } F
      hF hfirst
    obtain ⟨h1, h2⟩ := ih (insertAlloca first
      { id := freshId F, opcode := Opcode.alloca ty, operands := [], isVolatile := false } F)
      (insertAlloca_ne_nil _ _ _ hF)
      (fun pos hp => by
        obtain ⟨J, hJ, hJp⟩ := hfirst pos hp
        exact ⟨J, m2 J hJ, hJp⟩)
    refine ⟨?_, fun I hI => h2 I (m2 I hI)⟩
    intro A hA
    rcases hA with rfl | hA
    · exact h2 _ m1
    · exact h1 A hA

theorem getFirstNonPHI_mem (F : Function) (pos : Nat)
    (h : (getFirstNonPHI (getEntryBlock F)).map (fun I => I.id) = some pos) :
    ∃ J ∈ getEntryBlock F, J.id = pos := by
  unfold getFirstNonPHI at h
  cases hf : (getEntryBlock F).find? (fun I => decide (I.opcode ≠ Opcode.phi)) with
  | none =>
    rw [hf] at h
    exact absurd h (by simp)
  | some J =>
    rw [hf] at h
    simp only [Option.map_some', Option.some.injEq] at h
    exact ⟨J, List.mem_of_find?_eq_some hf, h⟩

end SROA
namespace SROA

/-! ## SROA: the rewrites as one substitution -/

theorem lookup_append_singleton (env : List (Nat × Value)) (u : Nat) (V : Value) (x : Nat) :
    (env ++ [(u, V)]).lookup x
      = match env.lookup x with
        | some W => some W
        | none => if x = u then some V else none := by
  induction env with
  | nil =>
    simp only [List.nil_append, List.lookup]
    by_cases h : x = u
    · simp [h]
    · have : (x == u) = false := by simpa using h
      simp [this, h]
  | cons e env ih =>
    obtain ⟨k, W⟩ := e
    simp only [List.cons_append, List.lookup]
    cases hk : x == k with
    | true => simp
    | false => simpa using ih

theorem mem_of_lookup (env : List (Nat × Value)) (x : Nat) (V : Value)
    (h : env.lookup x = some V) : (x, V) ∈ env := by
  induction env with
  | nil => simp [List.lookup] at h
  | cons e env ih =>
    obtain ⟨k, W⟩ := e
    simp only [List.lookup] at h
    cases hk : x == k with
    | true =>
      rw [hk] at h
      simp only [Option.some.injEq] at h
      have : x = k := by simpa using hk
      rw [this, h]
      exact List.mem_cons_self _ _
    | false =>
      rw [hk] at h
      exact List.mem_cons_of_mem _ (ih h)

theorem substOperands_snoc (env : List (Nat × Value)) (u : Nat) (V : Value)
    (I : Instruction) (henv : ∀ e ∈ env, e.2 ≠ Value.inst u) :
    (substOperands env I).replaceUsesOfWith u V = substOperands (env ++ [(u, V)]) I := by
  unfold Instruction.replaceUsesOfWith substOperands
  simp only [List.map_map, Instruction.mk.injEq, true_and, and_true]
  apply List.map_congr_left
  intro o _
  simp only [Function.comp]
  cases o with
  | inst x =>
    simp only
    rw [lookup_append_singleton]
    cases hl : env.lookup x with
    | some W =>
      simp only
      rw [if_neg (henv (x, W) (mem_of_lookup env x W hl))]
    | none =>
      simp only
      by_cases hx : x = u
      · simp [hx]
      · simp [hx]
  | constantInt v => simp
  | constantPointerNull => simp
  | undef => simp
  | argument n => simp

theorem getInst_of_map (Fc F0 : Function) (env : List (Nat × Value))
    (h : allInsts Fc = (allInsts F0).map (substOperands env)) (u : Nat) :
    getInst Fc u = (getInst F0 u).map (substOperands env) := by
  unfold getInst
  rw [h, List.find?_map]
  rfl

theorem substOperands_operands_field (env : List (Nat × Value)) (I : Instruction) (a : Nat)
    (c0 ck : Int) (hops : I.operands = [Value.inst a, Value.constantInt c0, Value.constantInt ck])
    (ha : env.lookup a = none) :
    (substOperands env I).operands
      = [Value.inst a, Value.constantInt c0, Value.constantInt ck] := by
  unfold substOperands
  simp [hops, ha]

theorem append_singleton_append {α : Type} (l : List α) (x : α) (m : List α) :
    l ++ [x] ++ m = l ++ x :: m := by simp

theorem allInsts_map_map (F : Function) (f : Instruction → Instruction) :
    allInsts (F.map (fun B => B.map f)) = (allInsts F).map f := by
  unfold allInsts
  rw [List.map_flatten]

theorem substOperands_nil (I : Instruction) : substOperands [] I = I := by
  unfold substOperands
  have : (fun o : Value =>
      match o with
      | Value.inst x =>
        match List.lookup x ([] : List (Nat × Value)) with
        | some V => V
        | none => o
      | x => o) = id := by
    funext o
    cases o <;> simp [List.lookup]
  rw [this, List.map_id]

/-- The loop over the users when each user is a field address `(base, 0, k)` of an
existing field: the loop ends with a result, every user is queued for erasure, and
the effect on the function is one substitution in the operands, which sends each
user to the new allocation of its field. -/
theorem rewriteUsers_fields (a : Nat) (NA : List Nat) (us : List Nat) (F0 : Function) :
    ∀ (Fc : Function) (env : List (Nat × Value)),
      Fc = F0.map (fun B => B.map (substOperands env)) →
      env.lookup a = none →
      (∀ e ∈ env, ∀ u ∈ us, e.2 ≠ Value.inst u) →
      (∀ t ∈ NA, ∀ u ∈ us, t ≠ u) →
      a ∉ us →
      (∀ u ∈ us, ∃ U k t, getInst F0 u = some U ∧ U.opcode = Opcode.getElementPtr
        ∧ U.operands = [Value.inst a, Value.constantInt 0, Value.constantInt (Int.ofNat k)]
        ∧ NA[k]? = some t) →
      ∃ env2, rewriteUsers NA us Fc
          = Except.ok (F0.map (fun B => B.map (substOperands (env ++ env2))), us)
        ∧ ∀ e ∈ env2, ∃ U k t, e.1 ∈ us ∧ getInst F0 e.1 = some U
            ∧ U.operands
                = [Value.inst a, Value.constantInt 0, Value.constantInt (Int.ofNat k)]
            ∧ NA[k]? = some t ∧ e.2 = Value.inst t := by
  induction us with
  | nil =>
    intro Fc env h _ _ _ _ _
    exact ⟨[], by simp [rewriteUsers, h], by simp⟩
  | cons u us ih =>
    intro Fc env h ha henv hNA hau hus
    obtain ⟨U, k, t, hg, ho, hops, ht⟩ := hus u (List.mem_cons_self _ _)
    have hgc : getInst Fc u = some (substOperands env U) := by
      rw [getInst_of_map Fc F0 env (by rw [h, allInsts_map_map]) u, hg]
      rfl
    have hid : U.id = u := (getInst_some F0 u U hg).2
    have hops2 := substOperands_operands_field env U a 0 (Int.ofNat k) hops ha
    have hstep : replaceU1TypeGetElementPtr Fc (substOperands env U) NA
        = Except.ok (replaceAllUsesWith Fc u (Value.inst t)) := by
      unfold replaceU1TypeGetElementPtr Instruction.getOperand
      rw [hops2]
      simp [ht, substOperands_id, hid]
    have hnext : replaceAllUsesWith Fc u (Value.inst t)
        = F0.map (fun B => B.map (substOperands (env ++ [(u, Value.inst t)]))) := by
      unfold replaceAllUsesWith
      rw [h, List.map_map]
      apply List.map_congr_left
      intro B _
      simp only [Function.comp, List.map_map]
      apply List.map_congr_left
      intro I _
      exact substOperands_snoc env u (Value.inst t) I
        (fun e he => henv e he u (List.mem_cons_self _ _))
    have hua : u ≠ a := fun e => hau (e ▸ List.mem_cons_self _ _)
    obtain ⟨env2, g1, g3⟩ := ih (replaceAllUsesWith Fc u (Value.inst t))
      (env ++ [(u, Value.inst t)]) hnext
      (by
        rw [lookup_append_singleton, ha]
        simp [Ne.symm hua])
      (by
        intro e he u2 hu2
        rcases List.mem_append.1 he with he | he
        · exact henv e he u2 (List.mem_cons_of_mem _ hu2)
        · simp only [List.mem_singleton] at he
          rw [he]
          simp only [ne_eq, Value.inst.injEq]
          exact hNA t (List.getElem?_mem ht) u2 (List.mem_cons_of_mem _ hu2))
      (fun t2 ht2 u2 hu2 => hNA t2 ht2 u2 (List.mem_cons_of_mem _ hu2))
      (fun hmem => hau (List.mem_cons_of_mem _ hmem))
      (fun u2 hu2 => hus u2 (List.mem_cons_of_mem _ hu2))
    refine ⟨(u, Value.inst t) :: env2, ?_, ?_⟩
    · simp only [rewriteUsers, hgc, substOperands_opcode, ho, hstep, g1]
      rw [append_singleton_append]
    · intro e he
      rcases List.mem_cons.1 he with rfl | he
      · exact ⟨U, k, t, List.mem_cons_self _ _, hg, hops, ht, rfl⟩
      · obtain ⟨U2, k2, t2, e1, e2, e3, e4, e5⟩ := g3 e he
        exact ⟨U2, k2, t2, List.mem_cons_of_mem _ e1, e2, e3, e4, e5⟩

end SROA
namespace SROA

/-! ## SROA: decomposing a structure of scalars -/

theorem eq_of_id_eq (F : Function) (hU : UniqueIds F) (I J : Instruction)
    (hI : I ∈ allInsts F) (hJ : J ∈ allInsts F) (h : I.id = J.id) : I = J :=
  List.inj_on_of_nodup_map hU hI hJ h

theorem getInst_of_mem (F : Function) (hU : UniqueIds F) (I : Instruction)
    (hI : I ∈ allInsts F) : getInst F I.id = some I := by
  cases hg : getInst F I.id with
  | none =>
    unfold getInst at hg
    rw [List.find?_eq_none] at hg
    exact absurd (hg I hI) (by simp)
  | some J =>
    obtain ⟨hJ, hid⟩ := getInst_some F I.id J hg
    rw [eq_of_id_eq F hU J I hJ hI hid]

theorem isAggregateType_of_firstClass (ty : Ty)
    (h : (ty.isFPOrFPVectorTy || ty.isIntOrIntVectorTy || ty.isPtrOrPtrVectorTy) = true) :
    ty.isAggregateType = false := by
  cases ty with
  | array n e => simp [Ty.isFPOrFPVectorTy, Ty.isIntOrIntVectorTy, Ty.isPtrOrPtrVectorTy,
      Ty.getScalarType] at h
  | struct fs => simp [Ty.isFPOrFPVectorTy, Ty.isIntOrIntVectorTy, Ty.isPtrOrPtrVectorTy,
      Ty.getScalarType] at h
  | _ => rfl

theorem promotableAllocas_complete (H : Host) (F : Function) (l : List Instruction)
    (V : List Nat) (h : promotableAllocas H F l = Except.ok V) (I : Instruction)
    (hI : I ∈ l) (ha : I.isAlloca = true) (hp : isAllocaPromotable F I = true) :
    I.id ∈ V := by
  induction l generalizing V with
  | nil => simp at hI
  | cons J rest ih =>
    simp only [promotableAllocas] at h
    by_cases hc : (J.isAlloca && isAllocaPromotable F J) = true
    · rw [if_pos hc] at h
      split at h
      · cases hr : promotableAllocas H F rest with
        | error e => simp [hr] at h
        | ok W =>
          rw [hr] at h
          simp only [Except.ok.injEq] at h
          rw [← h]
          rcases List.mem_cons.1 hI with rfl | hI
          · exact List.mem_cons_self _ _
          · exact List.mem_cons_of_mem _ (ih W hr hI)
      · simp at h
    · rw [if_neg hc] at h
      rcases List.mem_cons.1 hI with rfl | hI
      · rw [ha, hp] at hc
        exact absurd rfl hc
      · exact ih V h hI

theorem mem_substOperands_operands (env : List (Nat × Value)) (I : Instruction) (V : Value)
    (h : V ∈ (substOperands env I).operands) :
    V ∈ I.operands ∨ ∃ x, Value.inst x ∈ I.operands ∧ env.lookup x = some V := by
  unfold substOperands at h
  simp only [List.mem_map] at h
  obtain ⟨o, ho, he⟩ := h
  cases o with
  | inst x =>
    simp only at he
    cases hl : env.lookup x with
    | some W =>
      rw [hl] at he
      simp only at he
      exact Or.inr ⟨x, ho, by rw [hl, he]⟩
    | none =>
      rw [hl] at he
      simp only at he
      exact Or.inl (he ▸ ho)
  | constantInt v => exact Or.inl (he ▸ ho)
  | constantPointerNull => exact Or.inl (he ▸ ho)
  | undef => exact Or.inl (he ▸ ho)
  | argument n => exact Or.inl (he ▸ ho)

theorem substOperands_getOperand (env : List (Nat × Value)) (I : Instruction) (i : Nat)
    (V : Value) (h : (substOperands env I).getOperand i = some V) :
    ∃ v, I.getOperand i = some v
      ∧ (V = v ∨ ∃ x, v = Value.inst x ∧ env.lookup x = some V) := by
  unfold Instruction.getOperand substOperands at *
  simp only [List.getElem?_map, Option.map_eq_some'] at h
  obtain ⟨v, hv, he⟩ := h
  refine ⟨v, hv, ?_⟩
  cases v with
  | inst x =>
    simp only at he
    cases hl : env.lookup x with
    | some W =>
      rw [hl] at he
      simp only at he
      exact Or.inr ⟨x, rfl, by rw [hl, he]⟩
    | none =>
      rw [hl] at he
      simp only at he
      exact Or.inl he.symm
  | constantInt c => exact Or.inl he.symm
  | constantPointerNull => exact Or.inl he.symm
  | undef => exact Or.inl he.symm
  | argument n => exact Or.inl he.symm

theorem substOperands_getOperand_inst (env : List (Nat × Value)) (I : Instruction) (i x : Nat)
    (V : Value) (h : I.getOperand i = some (Value.inst x)) (hl : env.lookup x = some V) :
    (substOperands env I).getOperand i = some V := by
  unfold Instruction.getOperand substOperands at *
  simp only [List.getElem?_map, h, Option.map_some', hl]

end SROA
namespace SROA

theorem createFieldAllocas_nodup (first : Option Nat) (fs : List Ty) (F : Function)
    (hF : F ≠ []) (hfirst : ∀ pos, first = some pos → ∃ J ∈ getEntryBlock F, J.id = pos) :
    ((createFieldAllocas first fs F).2.map (fun A => A.id)).Nodup := by
  induction fs generalizing F with
  | nil => simp [createFieldAllocas]
  | cons ty tys ih =>
    simp only [createFieldAllocas, List.map_cons, List.nodup_cons]
    obtain ⟨m1, m2⟩ := mem_entry_insertAlloca first
      { id := freshId F, opcode := Opcode.alloca ty, operands := [], isVolatile := false } F
      hF hfirst
    refine ⟨?_, ih _ (insertAlloca_ne_nil _ _ _ hF) (fun pos hp => by
      obtain ⟨J, hJ, hJp⟩ := hfirst pos hp
      exact ⟨J, m2 J hJ, hJp⟩)⟩
    intro hmem
    obtain ⟨A, hA, hid⟩ := List.mem_map.1 hmem
    have h1 := ((createFieldAllocas_news first tys _).2 A hA).2.2
    have h2 := id_lt_freshId _ _ (getEntryBlock_sub _ _ m1)
    simp only at h2
    omega

theorem substOperands_isVolatile (env : List (Nat × Value)) (I : Instruction) :
    (substOperands env I).isVolatile = I.isVolatile := rfl

theorem substOperands_of_no_operands (env : List (Nat × Value)) (A : Instruction)
    (h : A.operands = []) : substOperands env A = A := by
  cases A
  simp only at h
  subst h
  rfl

/-- Decomposing a structure of scalar fields whose only users are field addresses
`(base, 0, k)` that are used only as the address of non-volatile loads and stores:
the decomposition ends with a result and no sub-aggregate, the allocation is gone,
and there is one new allocation per field, each promotable. -/
theorem eliminate_scalar_struct (F : Function) (AI : Instruction) (fs : List Ty)
    (hU : UniqueIds F) (hAI : AI ∈ allInsts F)
    (ho : AI.opcode = Opcode.alloca (Ty.struct fs))
    (hfs : ∀ ty ∈ fs,
      (ty.isFPOrFPVectorTy || ty.isIntOrIntVectorTy || ty.isPtrOrPtrVectorTy) = true)
    (husers : ∀ U ∈ users F (Value.inst AI.id), U.opcode = Opcode.getElementPtr
      ∧ ∃ k, k < fs.length ∧ U.operands
          = [Value.inst AI.id, Value.constantInt 0, Value.constantInt (Int.ofNat k)])
    (hgu : ∀ U ∈ users F (Value.inst AI.id), ∀ W ∈ users F (Value.inst U.id),
      (W.opcode = Opcode.load ∧ W.isVolatile = false
        ∧ W.getOperand 0 = some (Value.inst U.id))
      ∨ (W.opcode = Opcode.store ∧ W.isVolatile = false
        ∧ W.getOperand 1 = some (Value.inst U.id)
        ∧ W.getOperand 0 ≠ some (Value.inst U.id))) :
    ∃ (G : Function) (News : List Instruction),
      eliminateStructAlloca F AI.id = Except.ok (G, [])
      ∧ (∀ I ∈ allInsts G, I.id ≠ AI.id)
      ∧ News.map (fun A => A.opcode) = fs.map Opcode.alloca
      ∧ (News.map (fun A => A.id)).Nodup
      ∧ ∀ A ∈ News, A.operands = [] ∧ (∀ I ∈ allInsts F, I.id ≠ A.id) ∧ A ∈ allInsts G
          ∧ isAllocaPromotable G A = true ∧ llvmIsAllocaPromotable G A = true := by
  have hF : F ≠ [] := by
    intro h
    rw [h] at hAI
    simp [allInsts] at hAI
  have hn := createFieldAllocas_news
    ((getFirstNonPHI (getEntryBlock F)).map (fun I => I.id)) fs F
  have hentry := createFieldAllocas_mem_entry
    ((getFirstNonPHI (getEntryBlock F)).map (fun I => I.id)) fs F hF (getFirstNonPHI_mem F)
  have hnd := createFieldAllocas_nodup
    ((getFirstNonPHI (getEntryBlock F)).map (fun I => I.id)) fs F hF (getFirstNonPHI_mem F)
  have hsub1 := mem_createFieldAllocas_of_mem
    ((getFirstNonPHI (getEntryBlock F)).map (fun I => I.id)) fs F
  have hsub2 := mem_createFieldAllocas
    ((getFirstNonPHI (getEntryBlock F)).map (fun I => I.id)) fs F
  have hunf : eliminateStructAlloca F AI.id
      = match rewriteUsers
          ((createFieldAllocas ((getFirstNonPHI (getEntryBlock F)).map (fun I => I.id))
            fs F).2.map (fun N => N.id))
          ((users (createFieldAllocas ((getFirstNonPHI (getEntryBlock F)).map (fun I => I.id))
            fs F).1 (Value.inst AI.id)).map (fun U => U.id))
          (createFieldAllocas ((getFirstNonPHI (getEntryBlock F)).map (fun I => I.id))
            fs F).1 with
        | Except.error e => Except.error e
        | Except.ok s =>
          Except.ok (eraseFromParent (eraseUsers s.2 s.1) AI.id,
            ((createFieldAllocas ((getFirstNonPHI (getEntryBlock F)).map (fun I => I.id))
              fs F).2.filter (fun N => match N.opcode with
                | Opcode.alloca ty => ty.isAggregateType
                | _ => false)).map (fun N => N.id)) := by
    unfold eliminateStructAlloca
    rw [getInst_of_mem F hU AI hAI]
    simp only [ho]
  cases hr0 : createFieldAllocas ((getFirstNonPHI (getEntryBlock F)).map (fun I => I.id))
    fs F with
  | mk F1 News =>
  rw [hr0] at hn hentry hnd hsub1 hsub2 hunf
  simp only at hn hentry hnd hsub1 hsub2 hunf
  obtain ⟨hn1, hn2⟩ := hn
  have hNewsF1 : ∀ A ∈ News, A ∈ allInsts F1 :=
    fun A hA => getEntryBlock_sub F1 A (hentry.1 A hA)
  have hlen : News.length = fs.length := by
    have := congrArg List.length hn1
    simpa using this
  -- the users of the allocation after the insertion are its users before
  have husersF1 : ∀ U ∈ users F1 (Value.inst AI.id), U ∈ users F (Value.inst AI.id) := by
    intro U hUm
    rw [mem_users] at hUm ⊢
    rcases hsub2 U hUm.1 with h | h
    · rw [(hn2 U h).1] at hUm
      simp at hUm
    · exact ⟨h, hUm.2⟩
  have hget1 : ∀ U ∈ allInsts F, getInst F1 U.id = some U := by
    intro U hUm
    cases hg : getInst F1 U.id with
    | none =>
      unfold getInst at hg
      rw [List.find?_eq_none] at hg
      exact absurd (hg U (hsub1 U hUm)) (by simp)
    | some J =>
      obtain ⟨hJ, hid⟩ := getInst_some F1 U.id J hg
      rcases hsub2 J hJ with h | h
      · have h1 := (hn2 J h).2.2
        have h2 := id_lt_freshId F U hUm
        omega
      · rw [eq_of_id_eq F hU J U h hUm hid]
  have hfresh : ∀ t ∈ News.map (fun N => N.id), ∀ I ∈ allInsts F, I.id ≠ t := by
    intro t ht I hI
    obtain ⟨A, hA, rfl⟩ := List.mem_map.1 ht
    have h1 := (hn2 A hA).2.2
    have h2 := id_lt_freshId F I hI
    omega
  have hmapnil : F1 = F1.map (fun B => B.map (substOperands [])) := by
    have : substOperands [] = id := funext substOperands_nil
    rw [this]
    simp
  obtain ⟨env2, hrw, henv2⟩ := rewriteUsers_fields AI.id (News.map (fun N => N.id))
    ((users F1 (Value.inst AI.id)).map (fun U => U.id)) F1 F1 [] hmapnil rfl
    (by simp)
    (by
      intro t ht u hu
      obtain ⟨U, hUm, rfl⟩ := List.mem_map.1 hu
      exact (hfresh t ht U ((mem_users F _ U).1 (husersF1 U hUm)).1).symm)
    (by
      intro hmem
      obtain ⟨U, hUm, hid⟩ := List.mem_map.1 hmem
      have hUF := husersF1 U hUm
      have := eq_of_id_eq F hU U AI ((mem_users F _ U).1 hUF).1 hAI hid
      have hk := (husers U hUF).1
      rw [this, ho] at hk
      exact Opcode.noConfusion hk)
    (by
      intro u hu
      obtain ⟨U, hUm, rfl⟩ := List.mem_map.1 hu
      have hUF := husersF1 U hUm
      obtain ⟨hk, k, hkl, hops⟩ := husers U hUF
      have hkl2 : k < (News.map (fun N => N.id)).length := by
        rw [List.length_map, hlen]
        exact hkl
      exact ⟨U, k, (News.map (fun N => N.id))[k], hget1 U ((mem_users F _ U).1 hUF).1, hk, hops,
        List.getElem?_eq_getElem hkl2⟩)
  simp only [List.nil_append] at hrw
  rw [hrw] at hunf
  simp only at hunf
  have hsubs : (News.filter (fun N => match N.opcode with
      | Opcode.alloca ty => ty.isAggregateType
      | _ => false)).map (fun N => N.id) = [] := by
    rw [List.map_eq_nil_iff, List.filter_eq_nil_iff]
    intro A hA
    have : A.opcode ∈ News.map (fun A => A.opcode) := List.mem_map.2 ⟨A, hA, rfl⟩
    rw [hn1] at this
    obtain ⟨ty, hty, he⟩ := List.mem_map.1 this
    rw [← he]
    simp [isAggregateType_of_firstClass ty (hfs ty hty)]
  rw [hsubs] at hunf
  have hG : allInsts (eraseFromParent (eraseUsers
        ((users F1 (Value.inst AI.id)).map (fun U => U.id))
        (F1.map (fun B => B.map (substOperands env2)))) AI.id)
      = ((allInsts F1).map (substOperands env2)).filter (fun I =>
          decide (I.id ∉ (users F1 (Value.inst AI.id)).map (fun U => U.id))
            && decide (I.id ≠ AI.id)) := by
    rw [allInsts_eraseFromParent, allInsts_eraseUsers, allInsts_map_map, List.filter_filter]
    apply List.filter_congr
    intro I _
    rw [Bool.and_comm]
  refine ⟨_, News, hunf, ?_, hn1, hnd, ?_⟩
  · intro I hI
    rw [hG, List.mem_filter] at hI
    have := hI.2
    simp only [Bool.and_eq_true, decide_eq_true_eq] at this
    exact this.2
  · intro A hA
    have hAid : A.id ∈ News.map (fun N => N.id) := List.mem_map.2 ⟨A, hA, rfl⟩
    have hAG : A ∈ allInsts (eraseFromParent (eraseUsers
        ((users F1 (Value.inst AI.id)).map (fun U => U.id))
        (F1.map (fun B => B.map (substOperands env2)))) AI.id) := by
      rw [hG, List.mem_filter]
      refine ⟨List.mem_map.2 ⟨A, hNewsF1 A hA,
        substOperands_of_no_operands env2 A (hn2 A hA).1⟩, ?_⟩
      simp only [Bool.and_eq_true, decide_eq_true_eq, List.mem_map, not_exists, not_and]
      refine ⟨?_, fun h => hfresh A.id hAid AI hAI h.symm⟩
      intro U hUm hid
      exact hfresh A.id hAid U ((mem_users F _ U).1 (husersF1 U hUm)).1 hid
    refine ⟨(hn2 A hA).1, fun I hI => hfresh A.id hAid I hI, hAG, ?_⟩
    -- the users of the new allocation
    have hop : A.opcode ∈ News.map (fun A => A.opcode) := List.mem_map.2 ⟨A, hA, rfl⟩
    rw [hn1] at hop
    obtain ⟨ty, hty, he⟩ := List.mem_map.1 hop
    have hform : ∀ W2 ∈ users (eraseFromParent (eraseUsers
          ((users F1 (Value.inst AI.id)).map (fun U => U.id))
          (F1.map (fun B => B.map (substOperands env2)))) AI.id) (Value.inst A.id),
        (W2.opcode = Opcode.load ∧ W2.isVolatile = false
          ∧ W2.getOperand 0 = some (Value.inst A.id))
        ∨ (W2.opcode = Opcode.store ∧ W2.isVolatile = false
          ∧ W2.getOperand 1 = some (Value.inst A.id)
          ∧ W2.getOperand 0 ≠ some (Value.inst A.id)) := by
      intro W2 hW2
      rw [mem_users, hG, List.mem_filter] at hW2
      obtain ⟨⟨hW2m, _⟩, hW2o⟩ := hW2
      obtain ⟨W, hW, rfl⟩ := List.mem_map.1 hW2m
      have hnotop : ∀ W3 ∈ allInsts F, Value.inst A.id ∉ W3.operands := by
        intro W3 hW3 h
        have h1 := operand_lt_freshId F W3 hW3 A.id h
        have h2 := (hn2 A hA).2.2
        omega
      have hWF : W ∈ allInsts F := by
        rcases hsub2 W hW with hWn | hWF
        · rw [substOperands_of_no_operands env2 W (hn2 W hWn).1, (hn2 W hWn).1] at hW2o
          simp at hW2o
        · exact hWF
      have huser : ∀ x, Value.inst x ∈ W.operands →
          env2.lookup x = some (Value.inst A.id) →
          ∃ U2 ∈ users F (Value.inst AI.id), U2.id = x ∧ W ∈ users F (Value.inst U2.id) := by
        intro x hx hl
        obtain ⟨U, k, t, hxu, _, _, _, _⟩ :=
          henv2 (x, Value.inst A.id) (mem_of_lookup env2 x _ hl)
        simp only at hxu
        obtain ⟨U2, hU2m, hU2id⟩ := List.mem_map.1 hxu
        refine ⟨U2, husersF1 U2 hU2m, hU2id, ?_⟩
        rw [mem_users, hU2id]
        exact ⟨hWF, hx⟩
      rcases mem_substOperands_operands env2 W _ hW2o with h | ⟨x, hx, hl⟩
      · exact absurd h (hnotop W hWF)
      · obtain ⟨U2, hU2F, hU2id, hWu⟩ := huser x hx hl
        rcases hgu U2 hU2F W hWu with ⟨hko, hv, hops⟩ | ⟨hko, hv, hops, hval⟩
        · left
          refine ⟨hko, hv, ?_⟩
          rw [hU2id] at hops
          exact substOperands_getOperand_inst env2 W 0 x _ hops hl
        · right
          refine ⟨hko, hv, ?_, ?_⟩
          · rw [hU2id] at hops
            exact substOperands_getOperand_inst env2 W 1 x _ hops hl
          · intro h0
            obtain ⟨v, hv0, hc⟩ := substOperands_getOperand env2 W 0 _ h0
            rcases hc with hc | ⟨x3, hx3, hl3⟩
            · rw [← hc] at hv0
              exact hnotop W hWF (mem_operands_of_getOperand W 0 _ hv0)
            · rw [hx3] at hv0
              obtain ⟨U3, hU3F, hU3id, hWu3⟩ :=
                huser x3 (mem_operands_of_getOperand W 0 _ hv0) hl3
              rcases hgu U3 hU3F W hWu3 with ⟨hko3, _, _⟩ | ⟨_, _, _, hval3⟩
              · rw [hko] at hko3
                exact Opcode.noConfusion hko3
              · rw [hU3id] at hval3
                exact hval3 hv0
    refine ⟨?_, ?_⟩
    · rw [isAllocaPromotable_eq _ A ty he.symm, hfs ty hty, Bool.true_and, List.all_eq_true]
      intro W2 hW2
      rcases hform W2 hW2 with ⟨h1, h2, h3⟩ | ⟨h1, h2, h3, _⟩
      · rw [h1]
        simp [h2, h3]
      · rw [h1]
        simp [h2, h3]
    · unfold llvmIsAllocaPromotable
      rw [List.all_eq_true]
      intro W2 hW2
      rcases hform W2 hW2 with ⟨h1, h2, h3⟩ | ⟨h1, h2, h3, h4⟩
      · rw [h1]
        simp [h2, h3]
      · rw [h1]
        simp [h2, h3, h4]

end SROA

namespace SROA

/-- A structure whose only users are field addresses `(base, 0, k)` that are used
only as the address of loads and stores is decomposition-eligible. -/
theorem canBeEliminated_of_fields (F : Function) (AI : Instruction) (fs : List Ty)
    (hAI : AI ∈ allInsts F) (ho : AI.opcode = Opcode.alloca (Ty.struct fs))
    (husers : ∀ U ∈ users F (Value.inst AI.id), U.opcode = Opcode.getElementPtr
      ∧ ∃ k, k < fs.length ∧ U.operands
          = [Value.inst AI.id, Value.constantInt 0, Value.constantInt (Int.ofNat k)])
    (hgu : ∀ U ∈ users F (Value.inst AI.id), ∀ W ∈ users F (Value.inst U.id),
      (W.opcode = Opcode.load ∧ W.isVolatile = false
        ∧ W.getOperand 0 = some (Value.inst U.id))
      ∨ (W.opcode = Opcode.store ∧ W.isVolatile = false
        ∧ W.getOperand 1 = some (Value.inst U.id)
        ∧ W.getOperand 0 ≠ some (Value.inst U.id))) :
    canBeEliminatedStructAlloca F AI = true := by
  rw [canBeEliminatedStructAlloca_eq F AI _ ho]
  simp only [Ty.isStructTy, Bool.true_and, List.all_eq_true]
  intro U hUm
  obtain ⟨hk, k, _, hops⟩ := husers U hUm
  rw [hk]
  simp only
  unfold isU1TypeGetElementPtr
  have hpos : 0 < (allInsts F).length := List.length_pos_of_mem hAI
  obtain ⟨n, hn⟩ : ∃ n, (allInsts F).length = n + 1 := ⟨(allInsts F).length - 1, by omega⟩
  rw [hn]
  simp only [isU1Fuel, Instruction.getOperand, hops]
  simp only [List.length_cons, List.length_nil, Nat.reduceAdd, Nat.lt_irrefl, ↓reduceIte,
    List.getElem?_cons_zero, ne_eq, not_true_eq_false, List.getElem?_cons_succ,
    List.drop_succ_cons, List.drop_zero, List.all_cons, Value.isConstant, List.all_nil,
    Bool.and_self, Bool.not_true, Bool.false_eq_true, List.all_eq_true]
  intro W hW
  rcases hgu U hUm W hW with ⟨hko, _, h0⟩ | ⟨hko, _, h1, _⟩
  · rw [hko]
    simpa [Instruction.getOperand] using h0
  · rw [hko]
    simpa [Instruction.getOperand] using h1

end SROA

namespace SROA

theorem replace_single (F G : Function) (a : Nat) (h1 : eliminatableAllocas F = [a])
    (h2 : eliminateStructAlloca F a = Except.ok (G, [])) :
    replaceStructAllocsWithIndividualFields F = Except.ok (G, 1) := by
  unfold replaceStructAllocsWithIndividualFields
  rw [h1]
  simp only [List.reverse_cons, List.reverse_nil, List.nil_append, eliminateWorkList, h2,
    pushEligible, Nat.zero_add]

theorem runLoop_mono (H : Host) (b : Nat) (c : Bool) (F : Function)
    (h : runLoop H b c F ≠ Except.error Failure.fuel) (b2 : Nat) (hb : b ≤ b2) :
    runLoop H b2 c F = runLoop H b c F := by
  induction b generalizing c F b2 with
  | zero => exact absurd rfl h
  | succ b ih =>
    obtain ⟨b3, rfl⟩ : ∃ b3, b2 = b3 + 1 := ⟨b2 - 1, by omega⟩
    rw [runLoop_succ] at h ⊢
    rw [runLoop_succ]
    cases hi : iteration H F with
    | error e => rfl
    | ok s =>
      rw [hi] at h
      simp only at h ⊢
      split
      · rename_i hc
        rw [if_pos hc] at h
        exact ih true s.1 h b3 (by omega)
      · rfl

end SROA
namespace SROA

/-! ## SROA: the depth of the recursion of `isU1TypeGetElementPtr` -/

/-- One level of the recursion of `isU1TypeGetElementPtr`. -/
theorem isU1Fuel_succ (F : Function) (n : Nat) (GEPI : Instruction) (Val : Value) :
    isU1Fuel F (n + 1) GEPI Val
      = (decide (3 ≤ GEPI.operands.length) && decide (GEPI.getOperand 0 = some Val)
        && decide (GEPI.getOperand 1 = some (Value.constantInt 0))
        && (GEPI.operands.drop 2).all Value.isConstant
        && (users F (Value.inst GEPI.id)).all (fun U =>
          match U.opcode with
          | Opcode.getElementPtr => isU1Fuel F n U (Value.inst GEPI.id)
          | Opcode.cmp _ => isU2TypeEqOrNe U (Value.inst GEPI.id)
          | Opcode.load => decide (U.getOperand 0 = some (Value.inst GEPI.id))
          | Opcode.store => decide (U.getOperand 1 = some (Value.inst GEPI.id))
          | _ => false)) := by
  simp only [isU1Fuel]
  by_cases h1 : GEPI.operands.length < 3
  · have : ¬ 3 ≤ GEPI.operands.length := by omega
    simp [h1, this]
  · have h1b : 3 ≤ GEPI.operands.length := by omega
    rw [if_neg h1]
    by_cases h2 : GEPI.getOperand 0 = some Val
    · by_cases h3 : GEPI.getOperand 1 = some (Value.constantInt 0)
      · cases h4 : (GEPI.operands.drop 2).all Value.isConstant <;> simp [h1b, h2, h3, h4]
      · simp [h1b, h2, h3]
    · simp [h1b, h2]

theorem isU1Fuel_false_of_base (F : Function) (n : Nat) (GEPI : Instruction) (Val : Value)
    (h : GEPI.getOperand 0 ≠ some Val) : isU1Fuel F n GEPI Val = false := by
  cases n with
  | zero => rfl
  | succ n =>
    rw [isU1Fuel_succ]
    simp [h]

theorem all_congr_mem {α : Type} (l : List α) (f g : α → Bool)
    (h : ∀ x ∈ l, f x = g x) : l.all f = l.all g := by
  induction l with
  | nil => rfl
  | cons x rest ih =>
    simp only [List.all_cons]
    rw [h x (List.mem_cons_self _ _), ih (fun y hy => h y (List.mem_cons_of_mem _ hy))]

theorem chain_length_le (F : Function) (S : List Instruction)
    (h1 : ∀ c ∈ S, c ∈ allInsts F) (h2 : (S.map (fun c => c.id)).Nodup) :
    S.length ≤ (allInsts F).length := by
  have hsub : S.map (fun c => c.id) ⊆ (allInsts F).map (fun c => c.id) := by
    intro x hx
    obtain ⟨c, hc, rfl⟩ := List.mem_map.1 hx
    exact List.mem_map.2 ⟨c, h1 c hc, rfl⟩
  have := (h2.subperm hsub).length_le
  simpa using this

/-- Along a chain of field addresses, each based on the one before, no instruction
occurs twice; so the recursion of `isU1TypeGetElementPtr` from a base that is not a
`getelementptr` is never deeper than the function has instructions. -/
theorem isU1Fuel_chain (F : Function) (hU : UniqueIds F) (a : Nat)
    (ha : ∀ I ∈ allInsts F, I.id = a → I.opcode ≠ Opcode.getElementPtr) (n : Nat) :
    ∀ (m : Nat) (g : Instruction) (Val : Value) (S : List Instruction),
      (allInsts F).length ≤ S.length + n → (allInsts F).length ≤ S.length + m →
      g ∈ allInsts F → g.opcode = Opcode.getElementPtr →
      (∀ c ∈ S, c ∈ allInsts F ∧ c.opcode = Opcode.getElementPtr) →
      (S.map (fun c => c.id)).Nodup →
      (∀ c ∈ S, c.getOperand 0 ≠ some Val) →
      (∀ c ∈ S, (∃ d ∈ S, c.getOperand 0 = some (Value.inst d.id))
        ∨ c.getOperand 0 = some (Value.inst a)) →
      (Val = Value.inst a ∨ ∃ h ∈ S, Val = Value.inst h.id) →
      isU1Fuel F n g Val = isU1Fuel F m g Val := by
  have key : ∀ (g : Instruction) (Val : Value) (S : List Instruction),
      g ∈ allInsts F → g.opcode = Opcode.getElementPtr →
      (∀ c ∈ S, c ∈ allInsts F ∧ c.opcode = Opcode.getElementPtr) →
      (S.map (fun c => c.id)).Nodup →
      (∀ c ∈ S, c.getOperand 0 ≠ some Val) →
      (∀ c ∈ S, (∃ d ∈ S, c.getOperand 0 = some (Value.inst d.id))
        ∨ c.getOperand 0 = some (Value.inst a)) →
      (Val = Value.inst a ∨ ∃ h ∈ S, Val = Value.inst h.id) →
      g.getOperand 0 = some Val →
      g.id ∉ S.map (fun c => c.id)
        ∧ (∀ c ∈ g :: S, c ∈ allInsts F ∧ c.opcode = Opcode.getElementPtr)
        ∧ ((g :: S).map (fun c => c.id)).Nodup
        ∧ (∀ c ∈ g :: S, c.getOperand 0 ≠ some (Value.inst g.id))
        ∧ (∀ c ∈ g :: S, (∃ d ∈ g :: S, c.getOperand 0 = some (Value.inst d.id))
            ∨ c.getOperand 0 = some (Value.inst a)) := by
    intro g Val S hg hgo hS hnd hbase hlink hval hgb
    have hnot : g.id ∉ S.map (fun c => c.id) := by
      intro hmem
      obtain ⟨c, hc, hid⟩ := List.mem_map.1 hmem
      have : c = g := eq_of_id_eq F hU c g (hS c hc).1 hg hid
      rw [this] at hc
      exact hbase g hc hgb
    have hga : g.id ≠ a := fun e => ha g hg e hgo
    refine ⟨hnot, ?_, ?_, ?_, ?_⟩
    · intro c hc
      rcases List.mem_cons.1 hc with rfl | hc
      · exact ⟨hg, hgo⟩
      · exact hS c hc
    · simp only [List.map_cons, List.nodup_cons]
      exact ⟨hnot, hnd⟩
    · intro c hc
      rcases List.mem_cons.1 hc with rfl | hc
      · rw [hgb]
        rcases hval with hv | ⟨h, hh, hv⟩
        · rw [hv]
          simp only [ne_eq, Option.some.injEq, Value.inst.injEq]
          exact fun e => hga e.symm
        · rw [hv]
          simp only [ne_eq, Option.some.injEq, Value.inst.injEq]
          intro e
          exact hnot (List.mem_map.2 ⟨h, hh, e⟩)
      · rcases hlink c hc with ⟨d, hd, hl⟩ | hl
        · rw [hl]
          simp only [ne_eq, Option.some.injEq, Value.inst.injEq]
          intro e
          exact hnot (List.mem_map.2 ⟨d, hd, e⟩)
        · rw [hl]
          simp only [ne_eq, Option.some.injEq, Value.inst.injEq]
          exact fun e => hga e.symm
    · intro c hc
      rcases List.mem_cons.1 hc with rfl | hc
      · rcases hval with hv | ⟨h, hh, hv⟩
        · right
          rw [hgb, hv]
        · left
          exact ⟨h, List.mem_cons_of_mem _ hh, by rw [hgb, hv]⟩
      · rcases hlink c hc with ⟨d, hd, hl⟩ | hl
        · exact Or.inl ⟨d, List.mem_cons_of_mem _ hd, hl⟩
        · exact Or.inr hl
  have hzero : ∀ (m : Nat) (g : Instruction) (Val : Value) (S : List Instruction),
      (allInsts F).length ≤ S.length →
      g ∈ allInsts F → g.opcode = Opcode.getElementPtr →
      (∀ c ∈ S, c ∈ allInsts F ∧ c.opcode = Opcode.getElementPtr) →
      (S.map (fun c => c.id)).Nodup →
      (∀ c ∈ S, c.getOperand 0 ≠ some Val) →
      (∀ c ∈ S, (∃ d ∈ S, c.getOperand 0 = some (Value.inst d.id))
        ∨ c.getOperand 0 = some (Value.inst a)) →
      (Val = Value.inst a ∨ ∃ h ∈ S, Val = Value.inst h.id) →
      isU1Fuel F m g Val = false := by
    intro m g Val S hlen hg hgo hS hnd hbase hlink hval
    by_cases hgb : g.getOperand 0 = some Val
    · obtain ⟨_, k2, k3, _, _⟩ := key g Val S hg hgo hS hnd hbase hlink hval hgb
      have := chain_length_le F (g :: S) (fun c hc => (k2 c hc).1) k3
      simp only [List.length_cons] at this
      omega
    · exact isU1Fuel_false_of_base F m g Val hgb
  induction n with
  | zero =>
    intro m g Val S hn _ hg hgo hS hnd hbase hlink hval
    rw [hzero m g Val S (by omega) hg hgo hS hnd hbase hlink hval]
    rfl
  | succ n ih =>
    intro m g Val S hn hm hg hgo hS hnd hbase hlink hval
    cases m with
    | zero =>
      rw [hzero (n + 1) g Val S (by omega) hg hgo hS hnd hbase hlink hval]
      rfl
    | succ m =>
      by_cases hgb : g.getOperand 0 = some Val
      · obtain ⟨_, k2, k3, k4, k5⟩ := key g Val S hg hgo hS hnd hbase hlink hval hgb
        rw [isU1Fuel_succ, isU1Fuel_succ]
        congr 1
        apply all_congr_mem
        intro U hUm
        cases hUo : U.opcode with
        | getElementPtr =>
          simp only
          exact ih m U (Value.inst g.id) (g :: S)
            (by simp only [List.length_cons]; omega)
            (by simp only [List.length_cons]; omega)
            ((mem_users F _ U).1 hUm).1 hUo k2 k3 k4 k5
            (Or.inr ⟨g, List.mem_cons_self _ _, rfl⟩)
        | _ => rfl
      · rw [isU1Fuel_false_of_base F _ g Val hgb, isU1Fuel_false_of_base F _ g Val hgb]

/-- The bound in `isU1TypeGetElementPtr` is never used up on a function with
distinct instruction identities when the base is not a `getelementptr`: every
larger bound gives the same answer. -/
theorem isU1Fuel_stable (F : Function) (hU : UniqueIds F) (a : Nat)
    (ha : ∀ I ∈ allInsts F, I.id = a → I.opcode ≠ Opcode.getElementPtr)
    (g : Instruction) (hg : g ∈ allInsts F) (hgo : g.opcode = Opcode.getElementPtr)
    (n : Nat) (hn : (allInsts F).length ≤ n) :
    isU1Fuel F n g (Value.inst a) = isU1TypeGetElementPtr F g (Value.inst a) := by
  unfold isU1TypeGetElementPtr
  exact isU1Fuel_chain F hU a ha n (allInsts F).length g (Value.inst a) []
    (by simpa using hn) (by simp) hg hgo (by simp) (by simp) (by simp) (by simp) (Or.inl rfl)

end SROA
namespace SROA

/-! ## SROA: the defensive branches on an eligible allocation -/

theorem getInst_replaceAllUsesWith (F : Function) (id : Nat) (V : Value) (u : Nat) :
    getInst (replaceAllUsesWith F id V) u
      = (getInst F u).map (fun I => I.replaceUsesOfWith id V) := by
  unfold getInst
  rw [allInsts_replaceAllUsesWith, List.find?_map]
  rfl

theorem replaceUsesOfWith_eq_self (I : Instruction) (x : Nat) (V : Value)
    (h : Value.inst x ∉ I.operands) : I.replaceUsesOfWith x V = I := by
  unfold Instruction.replaceUsesOfWith
  have : I.operands.map (fun o => if o = Value.inst x then V else o) = I.operands := by
    have hid : ∀ o ∈ I.operands, (fun o => if o = Value.inst x then V else o) o = id o := by
      intro o ho
      have : o ≠ Value.inst x := fun e => h (e ▸ ho)
      simp [this]
    rw [List.map_congr_left hid, List.map_id]
  rw [this]

theorem find?_insertBeforeIn (New : Instruction) (pos : Nat) (B : List Instruction)
    (p : Instruction → Bool) (hp : p New = false) :
    (insertBeforeIn New pos B).find? p = B.find? p := by
  induction B with
  | nil => rfl
  | cons I rest ih =>
    simp only [insertBeforeIn]
    split
    · simp [List.find?_cons, hp]
    · simp only [List.find?_cons]
      rw [ih]

theorem find?_flatten_map (F : Function) (f : List Instruction → List Instruction)
    (p : Instruction → Bool) (h : ∀ B, (f B).find? p = B.find? p) :
    (F.map f).flatten.find? p = F.flatten.find? p := by
  induction F with
  | nil => rfl
  | cons B rest ih =>
    simp only [List.map_cons, List.flatten_cons, List.find?_append, h B, ih]

theorem getInst_insertBefore (New : Instruction) (pos : Nat) (F : Function) (u : Nat)
    (h : New.id ≠ u) : getInst (insertBefore New pos F) u = getInst F u := by
  unfold getInst allInsts insertBefore
  exact find?_flatten_map F _ _ (fun B => find?_insertBeforeIn New pos B _ (by simpa using h))

/-- The shape of a user of an eligible allocation `a`: a `getelementptr` of at least
three operands or an equality or inequality comparison, whose operands are the
allocation and constants. -/
theorem user_shape_of_eligible (F : Function) (AI U : Instruction)
    (hel : canBeEliminatedStructAlloca F AI = true)
    (hU : U ∈ users F (Value.inst AI.id)) :
    ((U.opcode = Opcode.getElementPtr ∧ 3 ≤ U.operands.length)
      ∨ U.opcode = Opcode.cmp Predicate.ICMP_EQ ∨ U.opcode = Opcode.cmp Predicate.ICMP_NE)
    ∧ ∀ o ∈ U.operands, o = Value.inst AI.id ∨ o.isConstant = true := by
  cases hty : AI.opcode with
  | alloca ty =>
    rw [canBeEliminatedStructAlloca_eq F AI ty hty, Bool.and_eq_true, List.all_eq_true] at hel
    have := hel.2 U hU
    cases ho : U.opcode with
    | getElementPtr =>
      rw [ho] at this
      simp only at this
      unfold isU1TypeGetElementPtr at this
      have hpos : 0 < (allInsts F).length :=
        List.length_pos_of_mem ((mem_users F _ U).1 hU).1
      obtain ⟨n, hn⟩ : ∃ n, (allInsts F).length = n + 1 :=
        ⟨(allInsts F).length - 1, by omega⟩
      rw [hn, isU1Fuel_succ] at this
      simp only [Bool.and_eq_true, decide_eq_true_eq, List.all_eq_true] at this
      obtain ⟨⟨⟨⟨h1, h2⟩, h3⟩, h4⟩, _⟩ := this
      refine ⟨Or.inl ⟨rfl, h1⟩, ?_⟩
      intro o hmem
      obtain ⟨i, hi, hio⟩ := List.getElem_of_mem hmem
      have hget : U.operands[i]? = some o := by
        rw [List.getElem?_eq_getElem hi, hio]
      match i, hget with
      | 0, hget =>
        left
        unfold Instruction.getOperand at h2
        rw [hget] at h2
        exact (Option.some.inj h2)
      | 1, hget =>
        right
        unfold Instruction.getOperand at h3
        rw [hget] at h3
        rw [Option.some.inj h3]
        rfl
      | j + 2, hget =>
        right
        apply h4
        have : (U.operands.drop 2)[j]? = some o := by
          rw [List.getElem?_drop]
          rw [Nat.add_comm]
          exact hget
        exact List.getElem?_mem this
    | cmp p =>
      rw [ho] at this
      simp only at this
      unfold isU2TypeEqOrNe at this
      rw [ho] at this
      simp only at this
      have hp : p = Predicate.ICMP_EQ ∨ p = Predicate.ICMP_NE := by
        by_contra hne
        simp only [not_or] at hne
        simp [hne.1, hne.2] at this
      have hp2 : (p = Predicate.ICMP_EQ || p = Predicate.ICMP_NE) = true := by
        rcases hp with h | h <;> simp [h]
      rw [hp2] at this
      simp only [Bool.not_true, Bool.false_eq_true, ↓reduceIte] at this
      split at this
      · exact absurd this (by decide)
      · rename_i hlen
        simp only [ne_eq, Decidable.not_not] at hlen
        refine ⟨?_, ?_⟩
        · rcases hp with h | h
          · exact Or.inr (Or.inl (by rw [h]))
          · exact Or.inr (Or.inr (by rw [h]))
        · match hops : U.operands, hlen with
          | [o0, o1], _ =>
            unfold Instruction.getOperand at this
            rw [hops] at this
            simp only [List.getElem?_cons_zero, List.getElem?_cons_succ] at this
            intro o hmem
            simp only [List.mem_cons, List.mem_singleton, List.not_mem_nil, or_false] at hmem
            split at this
            · rename_i h0
              rcases hmem with rfl | rfl
              · exact Or.inl h0
              · right
                cases o <;> simp_all [Value.isConstantPointerNull, Value.isConstant]
            · split at this
              · rename_i h1
                rcases hmem with rfl | rfl
                · right
                  cases o <;> simp_all [Value.isConstantPointerNull, Value.isConstant]
                · exact Or.inl h1
              · exact absurd this (by decide)
    | alloca t => simp [ho] at this
    | load => simp [ho] at this
    | store => simp [ho] at this
    | phi => simp [ho] at this
    | other => simp [ho] at this
  | _ =>
    have ha := canBeEliminatedStructAlloca_isAlloca F AI hel
    unfold Instruction.isAlloca at ha
    simp [hty] at ha

end SROA
namespace SROA

theorem users_createFieldAllocas (first : Option Nat) (fs : List Ty) (F : Function)
    (V : Value) (U : Instruction)
    (h : U ∈ users (createFieldAllocas first fs F).1 V) : U ∈ users F V := by
  rw [mem_users] at h ⊢
  rcases mem_createFieldAllocas first fs F U h.1 with hn | hF
  · have := ((createFieldAllocas_news first fs F).2 U hn).1
    rw [this] at h
    exact absurd h.2 (by simp)
  · exact ⟨hF, h.2⟩

theorem getInst_createFieldAllocas (first : Option Nat) (fs : List Ty) (F : Function)
    (hU : UniqueIds F) (U : Instruction) (hUm : U ∈ allInsts F) :
    getInst (createFieldAllocas first fs F).1 U.id = some U := by
  cases hg : getInst (createFieldAllocas first fs F).1 U.id with
  | none =>
    unfold getInst at hg
    rw [List.find?_eq_none] at hg
    exact absurd (hg U (mem_createFieldAllocas_of_mem first fs F U hUm)) (by simp)
  | some J =>
    obtain ⟨hJ, hid⟩ := getInst_some _ U.id J hg
    rcases mem_createFieldAllocas first fs F J hJ with h | h
    · have h1 := ((createFieldAllocas_news first fs F).2 J h).2.2
      have h2 := id_lt_freshId F U hUm
      omega
    · rw [eq_of_id_eq F hU J U h hUm hid]

theorem replaceU1_outcome (F : Function) (U : Instruction) (NA : List Nat)
    (h : 3 ≤ U.operands.length) :
    (∃ V, replaceU1TypeGetElementPtr F U NA = Except.ok (replaceAllUsesWith F U.id V))
    ∨ (∃ V New, New.id = freshId F ∧ replaceU1TypeGetElementPtr F U NA
        = Except.ok (replaceAllUsesWith (insertBefore New U.id F) U.id V))
    ∨ replaceU1TypeGetElementPtr F U NA = Except.error Failure.fieldNotConstantInt
    ∨ replaceU1TypeGetElementPtr F U NA = Except.error Failure.fieldOutOfRange := by
  unfold replaceU1TypeGetElementPtr
  rw [if_neg (by omega)]
  split
  · split
    · exact Or.inr (Or.inr (Or.inr rfl))
    · split
      · exact Or.inr (Or.inr (Or.inr rfl))
      · split
        · exact Or.inl ⟨_, rfl⟩
        · exact Or.inr (Or.inl ⟨_, _, rfl, rfl⟩)
  · exact Or.inr (Or.inr (Or.inl rfl))

theorem replaceU2_outcome (F : Function) (U : Instruction)
    (h : U.opcode = Opcode.cmp Predicate.ICMP_EQ ∨ U.opcode = Opcode.cmp Predicate.ICMP_NE) :
    ∃ V, replaceU2TypeEqOrNe F U = Except.ok (replaceAllUsesWith F U.id V) := by
  unfold replaceU2TypeEqOrNe
  rcases h with h | h
  · rw [h]
    exact ⟨_, rfl⟩
  · rw [h]
    exact ⟨_, rfl⟩

theorem getInst_after_replace (F : Function) (a u : Nat) (V : Value) (u2 : Nat)
    (U2 : Instruction) (hg : getInst F u2 = some U2) (hua : u ≠ a)
    (hops : ∀ o ∈ U2.operands, o = Value.inst a ∨ o.isConstant = true) :
    getInst (replaceAllUsesWith F u V) u2 = some U2 := by
  rw [getInst_replaceAllUsesWith, hg]
  simp only [Option.map_some', Option.some.injEq]
  apply replaceUsesOfWith_eq_self
  intro hmem
  rcases hops _ hmem with h | h
  · simp only [Value.inst.injEq] at h
    exact hua h
  · simp [Value.isConstant] at h

/-- The loop over the users of an eligible allocation reaches no defensive branch
other than those of the field index. -/
theorem rewriteUsers_failures (a : Nat) (NA : List Nat) (us : List Nat) :
    ∀ (Fc : Function), a ∉ us →
      (∀ u ∈ us, ∃ U, getInst Fc u = some U
        ∧ ((U.opcode = Opcode.getElementPtr ∧ 3 ≤ U.operands.length)
          ∨ U.opcode = Opcode.cmp Predicate.ICMP_EQ
          ∨ U.opcode = Opcode.cmp Predicate.ICMP_NE)
        ∧ ∀ o ∈ U.operands, o = Value.inst a ∨ o.isConstant = true) →
      ∀ e, rewriteUsers NA us Fc = Except.error e →
        e = Failure.fieldNotConstantInt ∨ e = Failure.fieldOutOfRange := by
  induction us with
  | nil =>
    intro Fc _ _ e he
    simp [rewriteUsers] at he
  | cons u us ih =>
    intro Fc ha hgood e he
    obtain ⟨U, hg, hshape, hops⟩ := hgood u (List.mem_cons_self _ _)
    have hid : U.id = u := (getInst_some Fc u U hg).2
    have hua : u ≠ a := fun h => ha (h ▸ List.mem_cons_self _ _)
    have hrest : ∀ (G : Function) (V : Value),
        (G = replaceAllUsesWith Fc U.id V
          ∨ ∃ New, New.id = freshId Fc ∧ G = replaceAllUsesWith (insertBefore New U.id Fc) U.id V) →
        ∀ u2 ∈ us, ∃ U2, getInst G u2 = some U2
          ∧ ((U2.opcode = Opcode.getElementPtr ∧ 3 ≤ U2.operands.length)
            ∨ U2.opcode = Opcode.cmp Predicate.ICMP_EQ
            ∨ U2.opcode = Opcode.cmp Predicate.ICMP_NE)
          ∧ ∀ o ∈ U2.operands, o = Value.inst a ∨ o.isConstant = true := by
      intro G V hG u2 hu2
      obtain ⟨U2, hg2, hshape2, hops2⟩ := hgood u2 (List.mem_cons_of_mem _ hu2)
      refine ⟨U2, ?_, hshape2, hops2⟩
      rcases hG with rfl | ⟨New, hNew, rfl⟩
      · exact getInst_after_replace Fc a U.id V u2 U2 hg2 (hid ▸ hua) hops2
      · apply getInst_after_replace _ a U.id V u2 U2 _ (hid ▸ hua) hops2
        rw [getInst_insertBefore New U.id Fc u2 ?_, hg2]
        rw [hNew]
        have := id_lt_freshId Fc U2 (getInst_some Fc u2 U2 hg2).1
        rw [(getInst_some Fc u2 U2 hg2).2] at this
        omega
    have hus : a ∉ us := fun h => ha (List.mem_cons_of_mem _ h)
    simp only [rewriteUsers, hg] at he
    rcases hshape with ⟨ho, hlen⟩ | ho | ho
    · rw [ho] at he
      simp only at he
      rcases replaceU1_outcome Fc U NA hlen with ⟨V, h1⟩ | ⟨V, New, hNew, h1⟩ | h1 | h1
      · rw [h1] at he
        simp only at he
        cases h2 : rewriteUsers NA us (replaceAllUsesWith Fc U.id V) with
        | error e2 =>
          rw [h2] at he
          simp only [Except.error.injEq] at he
          rw [← he]
          exact ih _ hus (hrest _ V (Or.inl rfl)) e2 h2
        | ok r =>
          rw [h2] at he
          simp at he
      · rw [h1] at he
        simp only at he
        cases h2 : rewriteUsers NA us
            (replaceAllUsesWith (insertBefore New U.id Fc) U.id V) with
        | error e2 =>
          rw [h2] at he
          simp only [Except.error.injEq] at he
          rw [← he]
          exact ih _ hus (hrest _ V (Or.inr ⟨New, hNew, rfl⟩)) e2 h2
        | ok r =>
          rw [h2] at he
          simp at he
      · rw [h1] at he
        simp only [Except.error.injEq] at he
        exact Or.inl he.symm
      · rw [h1] at he
        simp only [Except.error.injEq] at he
        exact Or.inr he.symm
    · rw [ho] at he
      simp only at he
      obtain ⟨V, h1⟩ := replaceU2_outcome Fc U (Or.inl ho)
      rw [h1] at he
      simp only at he
      cases h2 : rewriteUsers NA us (replaceAllUsesWith Fc U.id V) with
      | error e2 =>
        rw [h2] at he
        simp only [Except.error.injEq] at he
        rw [← he]
        exact ih _ hus (hrest _ V (Or.inl rfl)) e2 h2
      | ok r =>
        rw [h2] at he
        simp at he
    · rw [ho] at he
      simp only at he
      obtain ⟨V, h1⟩ := replaceU2_outcome Fc U (Or.inr ho)
      rw [h1] at he
      simp only at he
      cases h2 : rewriteUsers NA us (replaceAllUsesWith Fc U.id V) with
      | error e2 =>
        rw [h2] at he
        simp only [Except.error.injEq] at he
        rw [← he]
        exact ih _ hus (hrest _ V (Or.inl rfl)) e2 h2
      | ok r =>
        rw [h2] at he
        simp at he

/-- On an eligible allocation `eliminateStructAlloca` reaches no defensive branch
other than those of the field index: every user is handled as U1 or U2 and every
U2 predicate is an equality or an inequality. -/
theorem eliminate_failures (F : Function) (hU : UniqueIds F) (AI : Instruction)
    (hAI : AI ∈ allInsts F) (hel : canBeEliminatedStructAlloca F AI = true)
    (e : Failure) (he : eliminateStructAlloca F AI.id = Except.error e) :
    e = Failure.fieldNotConstantInt ∨ e = Failure.fieldOutOfRange := by
  have ha := canBeEliminatedStructAlloca_isAlloca F AI hel
  unfold Instruction.isAlloca at ha
  cases hty : AI.opcode with
  | alloca ty =>
    have hst : ty.isStructTy = true := by
      rw [canBeEliminatedStructAlloca_eq F AI ty hty, Bool.and_eq_true] at hel
      exact hel.1
    cases ty with
    | struct fs =>
      unfold eliminateStructAlloca at he
      rw [getInst_of_mem F hU AI hAI] at he
      simp only [hty] at he
      split at he
      · rename_i e2 h2
        simp only [Except.error.injEq] at he
        rw [← he]
        refine rewriteUsers_failures AI.id _ _ _ ?_ ?_ e2 h2
        · intro hmem
          obtain ⟨U, hUm, hid⟩ := List.mem_map.1 hmem
          have hUF := users_createFieldAllocas _ fs F _ U hUm
          have := eq_of_id_eq F hU U AI ((mem_users F _ U).1 hUF).1 hAI hid
          have hs := (user_shape_of_eligible F AI U hel hUF).1
          rw [this, hty] at hs
          rcases hs with ⟨h, _⟩ | h | h <;> exact Opcode.noConfusion h
        · intro u hu
          obtain ⟨U, hUm, rfl⟩ := List.mem_map.1 hu
          have hUF := users_createFieldAllocas _ fs F _ U hUm
          obtain ⟨hs, hops⟩ := user_shape_of_eligible F AI U hel hUF
          exact ⟨U, getInst_createFieldAllocas _ fs F hU U ((mem_users F _ U).1 hUF).1, hs, hops⟩
      · simp at he
    | _ => simp [Ty.isStructTy] at hst
  | _ => simp [hty] at ha

end SROA

namespace SROA

/-! ## SROA: C15 to C18 and C20 -/

/-- C15: on an allocation, `isAllocaPromotable` returns true if the allocated type is
a floating-point, integer or pointer type or a vector of these and every user is a
non-volatile load from the allocation or a non-volatile store that has the
allocation as its address operand and not as its value operand; it returns false
whenever the type is of another kind, such as an array or a structure, or some
user is a volatile load or store, or some user is neither a load nor a store. -/
theorem isAllocaPromotable_spec (F : Function) (AI : Instruction) (ty : Ty)
    (hty : AI.opcode = Opcode.alloca ty) :
    ((ty.isFPOrFPVectorTy || ty.isIntOrIntVectorTy || ty.isPtrOrPtrVectorTy) = true →
      (∀ U ∈ users F (Value.inst AI.id),
        (U.opcode = Opcode.load ∧ U.isVolatile = false
          ∧ U.getOperand 0 = some (Value.inst AI.id))
        ∨ (U.opcode = Opcode.store ∧ U.isVolatile = false
          ∧ U.getOperand 1 = some (Value.inst AI.id)
          ∧ U.getOperand 0 ≠ some (Value.inst AI.id))) →
      isAllocaPromotable F AI = true)
    ∧ ((ty.isFPOrFPVectorTy || ty.isIntOrIntVectorTy || ty.isPtrOrPtrVectorTy) = false →
      isAllocaPromotable F AI = false)
    ∧ ((∃ n e, ty = Ty.array n e) → isAllocaPromotable F AI = false)
    ∧ ((∃ fs, ty = Ty.struct fs) → isAllocaPromotable F AI = false)
    ∧ ((∃ U ∈ users F (Value.inst AI.id),
        (U.opcode = Opcode.load ∨ U.opcode = Opcode.store) ∧ U.isVolatile = true) →
      isAllocaPromotable F AI = false)
    ∧ ((∃ U ∈ users F (Value.inst AI.id),
        U.opcode ≠ Opcode.load ∧ U.opcode ≠ Opcode.store) →
      isAllocaPromotable F AI = false) := by
  rw [isAllocaPromotable_eq F AI ty hty]
  refine ⟨?_, ?_, ?_, ?_, ?_, ?_⟩
  · intro h1 h2
    rw [h1, Bool.true_and, List.all_eq_true]
    intro U hU
    rcases h2 U hU with ⟨ho, hv, ha⟩ | ⟨ho, hv, ha, _⟩
    · rw [ho]
      simp [hv, ha]
    · rw [ho]
      simp [hv, ha]
  · intro h1
    rw [h1, Bool.false_and]
  · rintro ⟨n, e, rfl⟩
    rfl
  · rintro ⟨fs, rfl⟩
    rfl
  · rintro ⟨U, hU, ho, hv⟩
    rw [Bool.and_eq_false_iff]
    right
    rw [List.all_eq_false]
    refine ⟨U, hU, ?_⟩
    rcases ho with ho | ho
    · rw [ho]
      simp [hv]
    · rw [ho]
      simp [hv]
  · rintro ⟨U, hU, h1, h2⟩
    rw [Bool.and_eq_false_iff]
    right
    rw [List.all_eq_false]
    refine ⟨U, hU, ?_⟩
    split
    · rename_i h
      exact absurd h h1
    · rename_i h
      exact absurd h h2
    · simp

/-- Scenario for C15: an integer allocation written and read without volatile
accesses is promotable. -/
theorem isAllocaPromotable_spec_witness :
    (mkInst 1 (Opcode.alloca Ty.int) []).opcode = Opcode.alloca Ty.int
      ∧ isAllocaPromotable
          [[mkInst 1 (Opcode.alloca Ty.int) [],
            mkInst 2 Opcode.store [Value.constantInt 5, Value.inst 1],
            mkInst 3 Opcode.load [Value.inst 1]]]
          (mkInst 1 (Opcode.alloca Ty.int) []) = true :=
  ⟨rfl, (isAllocaPromotable_spec
      [[mkInst 1 (Opcode.alloca Ty.int) [],
        mkInst 2 Opcode.store [Value.constantInt 5, Value.inst 1],
        mkInst 3 Opcode.load [Value.inst 1]]]
      (mkInst 1 (Opcode.alloca Ty.int) []) Ty.int rfl).1 (by decide) (by decide)⟩

/-- C17: on an allocation, `canBeEliminatedStructAlloca` returns true if and only if
the allocated type is a structure type and every user is a `getelementptr` that
`isU1TypeGetElementPtr` accepts with the allocation as base or a comparison that
`isU2TypeEqOrNe` accepts against it; a user of any other class and a type that is
not a structure, such as an array, make it false. -/
theorem canBeEliminatedStructAlloca_iff (F : Function) (AI : Instruction) (ty : Ty)
    (hty : AI.opcode = Opcode.alloca ty) :
    (canBeEliminatedStructAlloca F AI = true ↔
      ty.isStructTy = true ∧ ∀ U ∈ users F (Value.inst AI.id),
        (U.opcode = Opcode.getElementPtr
          ∧ isU1TypeGetElementPtr F U (Value.inst AI.id) = true)
        ∨ (∃ p, U.opcode = Opcode.cmp p ∧ isU2TypeEqOrNe U (Value.inst AI.id) = true))
    ∧ ((∃ U ∈ users F (Value.inst AI.id),
        U.opcode ≠ Opcode.getElementPtr ∧ ∀ p, U.opcode ≠ Opcode.cmp p) →
      canBeEliminatedStructAlloca F AI = false)
    ∧ (ty.isStructTy = false → canBeEliminatedStructAlloca F AI = false)
    ∧ ((∃ n e, ty = Ty.array n e) → canBeEliminatedStructAlloca F AI = false) := by
  refine ⟨?_, ?_, ?_, ?_⟩
  · rw [canBeEliminatedStructAlloca_eq F AI ty hty, Bool.and_eq_true, List.all_eq_true]
    constructor
    · rintro ⟨h1, h2⟩
      refine ⟨h1, ?_⟩
      intro U hU
      have := h2 U hU
      split at this
      · rename_i ho
        exact Or.inl ⟨ho, this⟩
      · rename_i p ho
        exact Or.inr ⟨p, ho, this⟩
      · exact absurd this (by decide)
    · rintro ⟨h1, h2⟩
      refine ⟨h1, ?_⟩
      intro U hU
      rcases h2 U hU with ⟨ho, h⟩ | ⟨p, ho, h⟩
      · rw [ho]
        exact h
      · rw [ho]
        exact h
  · rintro ⟨U, hU, h1, h2⟩
    exact canBeEliminatedStructAlloca_false_of_user F AI U hU h1 h2
  · intro h
    rw [canBeEliminatedStructAlloca_eq F AI ty hty, h, Bool.false_and]
  · rintro ⟨n, e, rfl⟩
    rw [canBeEliminatedStructAlloca_eq F AI _ hty]
    rfl

/-- Scenario C for C17: the structure allocation `s` is decomposition-eligible. -/
theorem canBeEliminatedStructAlloca_iff_oneLevel :
    (mkInst 1 (Opcode.alloca pairTy) []).opcode = Opcode.alloca pairTy
      ∧ (canBeEliminatedStructAlloca oneLevel (mkInst 1 (Opcode.alloca pairTy) []) = true ↔
        pairTy.isStructTy = true
          ∧ ∀ U ∈ users oneLevel (Value.inst (mkInst 1 (Opcode.alloca pairTy) []).id),
            (U.opcode = Opcode.getElementPtr
              ∧ isU1TypeGetElementPtr oneLevel U
                  (Value.inst (mkInst 1 (Opcode.alloca pairTy) []).id) = true)
            ∨ (∃ p, U.opcode = Opcode.cmp p
              ∧ isU2TypeEqOrNe U (Value.inst (mkInst 1 (Opcode.alloca pairTy) []).id) = true))
      ∧ canBeEliminatedStructAlloca oneLevel (mkInst 1 (Opcode.alloca pairTy) []) = true :=
  ⟨rfl, (canBeEliminatedStructAlloca_iff oneLevel (mkInst 1 (Opcode.alloca pairTy) [])
      pairTy rfl).1, by decide⟩

/-- C20, the part the code has and the input on which it fails: on an allocation
that satisfies `canBeEliminatedStructAlloca`, `eliminateStructAlloca` reaches no
defensive branch other than those of the field index (every user is handled as U1
or U2, every U2 predicate is an equality or an inequality). The field index is not
covered: the allocation of `undefIndex` is eligible, its only user being accepted
by `isU1TypeGetElementPtr`, whose test of the indices is `isa<Constant>`; the field
index is the constant `undef`, not an integer constant, and `eliminateStructAlloca`
ends in the defensive branch of `replaceU1TypeGetElementPtr` with the assertion
"the third argument of U1 Type must be a ConstantInt". -/
theorem eliminateStructAlloca_reaches_defensive_branch :
    (∀ (F : Function) (AI : Instruction) (e : Failure), UniqueIds F → AI ∈ allInsts F →
      canBeEliminatedStructAlloca F AI = true →
      eliminateStructAlloca F AI.id = Except.error e →
      e = Failure.fieldNotConstantInt ∨ e = Failure.fieldOutOfRange)
    ∧ UniqueIds undefIndex
    ∧ mkInst 1 (Opcode.alloca pairTy) [] ∈ allInsts undefIndex
    ∧ canBeEliminatedStructAlloca undefIndex (mkInst 1 (Opcode.alloca pairTy) []) = true
    ∧ isU1TypeGetElementPtr undefIndex
        (mkInst 2 Opcode.getElementPtr
          [Value.inst 1, Value.constantInt 0, Value.undef]) (Value.inst 1) = true
    ∧ replaceU1TypeGetElementPtr undefIndex
        (mkInst 2 Opcode.getElementPtr
          [Value.inst 1, Value.constantInt 0, Value.undef]) [3, 4]
        = Except.error Failure.fieldNotConstantInt
    ∧ eliminateStructAlloca undefIndex 1 = Except.error Failure.fieldNotConstantInt
    ∧ replaceStructAllocsWithIndividualFields undefIndex
        = Except.error Failure.fieldNotConstantInt :=
  ⟨fun F AI e hU hAI hel he => eliminate_failures F hU AI hAI hel e he,
    by decide, by decide, by decide, by decide, by decide, by decide, by decide⟩

end SROA

namespace SROA

/-! ## SROA: C12 and C13 -/

/-- C12: `runOnFunction` returns a result exactly when there is a run of
iterations, each running `replaceStructAllocsWithIndividualFields` and then
`promoteScalarAllocasToVirtualReg`, in which every iteration but the last
decomposes or promotes at least one allocation and the last has both counts zero;
the function returned is the one that run ends in, and the flag returned is true
if and only if some iteration decomposed or promoted at least one allocation. -/
theorem runOnFunction_iterates (H : Host) (bound : Nat) (F G : Function) (c : Bool) :
    (runOnFunction H bound F = Except.ok (G, c) ↔
      ∃ cs, Iterates H F cs G ∧ cs.length ≤ bound
        ∧ (c = true ↔ ∃ e ∈ cs, 0 < e.1 ∨ 0 < e.2))
    ∧ ∀ cs, Iterates H F cs G →
        ∃ init, cs = init ++ [(0, 0)] ∧ ∀ e ∈ init, 0 < e.1 ∨ 0 < e.2 := by
  refine ⟨?_, fun cs h => iterates_counts H F G cs h⟩
  unfold runOnFunction
  rw [runLoop_iff]
  constructor
  · rintro ⟨cs, h1, h2, h3⟩
    refine ⟨cs, h1, h2, ?_⟩
    rw [iterates_changed_iff H F G cs h1, h3]
    simp
  · rintro ⟨cs, h1, h2, h3⟩
    refine ⟨cs, h1, h2, ?_⟩
    rw [iterates_changed_iff H F G cs h1] at h3
    cases c with
    | true => simpa using h3.1 rfl
    | false =>
      have : ¬ 1 < cs.length := fun h => absurd (h3.2 h) (by decide)
      simp [this]

/-- Scenario C for C12: the first iteration decomposes one allocation and promotes
two, the second one does nothing, and the pass returns true. -/
theorem runOnFunction_iterates_oneLevel :
    runOnFunction straightLineHost 2 oneLevel = Except.ok (oneLevelPromoted, true)
      ∧ Iterates straightLineHost oneLevel [(1, 2), (0, 0)] oneLevelPromoted
      ∧ ∃ cs, Iterates straightLineHost oneLevel cs oneLevelPromoted ∧ cs.length ≤ 2
        ∧ (true = true ↔ ∃ e ∈ cs, 0 < e.1 ∨ 0 < e.2) :=
  ⟨by decide,
    Iterates.step oneLevel oneLevelPromoted oneLevelPromoted 1 2 [(0, 0)] (by decide)
      (Or.inl (by decide))
      (Iterates.last oneLevelPromoted oneLevelPromoted (by decide)),
    (runOnFunction_iterates straightLineHost 2 oneLevel oneLevelPromoted true).1.1
      (by decide)⟩

/-- C13: when `runOnFunction` returns, no allocation of the function it returns
satisfies `canBeEliminatedStructAlloca` or `isAllocaPromotable`; on that function
the decomposition phase and the promotion phase both count zero and change
nothing, and `runOnFunction` returns it unchanged with the flag false. -/
theorem runOnFunction_fixpoint (H : Host) (bound : Nat) (F G : Function) (c : Bool)
    (h : runOnFunction H bound F = Except.ok (G, c)) :
    (∀ AI ∈ allInsts G, AI.isAlloca = true →
      canBeEliminatedStructAlloca G AI = false ∧ isAllocaPromotable G AI = false)
    ∧ replaceStructAllocsWithIndividualFields G = Except.ok (G, 0)
    ∧ promoteScalarAllocasToVirtualReg H G = Except.ok (G, 0)
    ∧ ∀ bound2, 0 < bound2 → runOnFunction H bound2 G = Except.ok (G, false) := by
  unfold runOnFunction at h
  obtain ⟨cs, h1, _, _⟩ := (runLoop_iff H bound false F G c).1 h
  have hfin := iterates_final H F G cs h1
  obtain ⟨_, e2, e3⟩ := iteration_zero H G G hfin
  refine ⟨?_, replace_of_nil G e2, promote_of_none H G e3, ?_⟩
  · intro AI hAI ha
    refine ⟨(eliminatableAllocas_eq_nil G).1 e2 AI hAI, ?_⟩
    have := e3 AI hAI
    rw [ha, Bool.true_and] at this
    exact this
  · intro bound2 hb
    unfold runOnFunction
    rw [runLoop_iff]
    exact ⟨[(0, 0)], Iterates.last G G hfin, by simpa using hb, by simp⟩

/-- Scenario C for C13: the function the pass returns is a fixpoint. -/
theorem runOnFunction_fixpoint_oneLevel :
    runOnFunction straightLineHost 2 oneLevel = Except.ok (oneLevelPromoted, true)
      ∧ (∀ AI ∈ allInsts oneLevelPromoted, AI.isAlloca = true →
        canBeEliminatedStructAlloca oneLevelPromoted AI = false
          ∧ isAllocaPromotable oneLevelPromoted AI = false)
      ∧ replaceStructAllocsWithIndividualFields oneLevelPromoted
          = Except.ok (oneLevelPromoted, 0)
      ∧ promoteScalarAllocasToVirtualReg straightLineHost oneLevelPromoted
          = Except.ok (oneLevelPromoted, 0)
      ∧ ∀ bound2, 0 < bound2 →
          runOnFunction straightLineHost bound2 oneLevelPromoted
            = Except.ok (oneLevelPromoted, false) :=
  ⟨by decide,
    runOnFunction_fixpoint straightLineHost 2 oneLevel oneLevelPromoted true (by decide)⟩

/-- C18: an allocation whose address is the value operand of a store does not
satisfy `canBeEliminatedStructAlloca`. In Scenario D the address of the inner
structure is stored into the pointer field of the outer one: the decomposition
phase of the first iteration decomposes the outer structure only and leaves the
inner one, still ineligible, in place; the promotion phase of that iteration
removes the store, the second iteration decomposes the inner structure, and the
third one does nothing. -/
theorem canBeEliminatedStructAlloca_false_of_stored :
    (∀ (F : Function) (AI U : Instruction), U ∈ allInsts F → U.opcode = Opcode.store →
      U.getOperand 0 = some (Value.inst AI.id) → canBeEliminatedStructAlloca F AI = false)
    ∧ mkInst 10 Opcode.store [Value.inst 1, Value.inst 9] ∈ allInsts twoLevel
    ∧ canBeEliminatedStructAlloca twoLevel (mkInst 1 (Opcode.alloca pairTy) []) = false
    ∧ canBeEliminatedStructAlloca twoLevel (mkInst 2 (Opcode.alloca outerTy) []) = true
    ∧ replaceStructAllocsWithIndividualFields twoLevel = Except.ok (twoLevelDecomposed, 1)
    ∧ getInst twoLevelDecomposed 2 = none
    ∧ getInst twoLevelDecomposed 1 = some (mkInst 1 (Opcode.alloca pairTy) [])
    ∧ mkInst 10 Opcode.store [Value.inst 1, Value.inst 18] ∈ allInsts twoLevelDecomposed
    ∧ canBeEliminatedStructAlloca twoLevelDecomposed (mkInst 1 (Opcode.alloca pairTy) [])
        = false
    ∧ iteration straightLineHost twoLevel = Except.ok (twoLevelFirst, 1, 3)
    ∧ canBeEliminatedStructAlloca twoLevelFirst (mkInst 1 (Opcode.alloca pairTy) []) = true
    ∧ Iterates straightLineHost twoLevel [(1, 3), (1, 2), (0, 0)] twoLevelPromoted
    ∧ runOnFunction straightLineHost 3 twoLevel = Except.ok (twoLevelPromoted, true)
    ∧ runOnFunction straightLineHost 2 twoLevel = Except.error Failure.fuel := by
  refine ⟨?_, by decide, by decide, by decide, by decide, by decide, by decide, by decide,
    by decide, by decide, by decide, ?_, by decide, by decide⟩
  · intro F AI U hU ho hv
    exact canBeEliminatedStructAlloca_false_of_user F AI U
      ((mem_users F _ U).2 ⟨hU, mem_operands_of_getOperand U 0 _ hv⟩)
      (by rw [ho]; exact fun h => Opcode.noConfusion h)
      (fun p => by rw [ho]; exact fun h => Opcode.noConfusion h)
  · exact Iterates.step twoLevel twoLevelFirst twoLevelPromoted 1 3 [(1, 2), (0, 0)]
      (by decide) (Or.inl (by decide))
      (Iterates.step twoLevelFirst twoLevelPromoted twoLevelPromoted 1 2 [(0, 0)]
        (by decide) (Or.inl (by decide))
        (Iterates.last twoLevelPromoted twoLevelPromoted (by decide)))

end SROA

namespace SROA

/-! ## SROA: C14 and C19 -/

/-- C14, as the code has it: when the promotion primitive removes every allocation
it is handed and adds none, the loop of `runOnFunction` ends within W + 1
iterations, where W is the number of nodes of the type trees of the allocations of
the function: with a bound above W the run ends for a reason other than the bound,
every larger bound gives the same result, and no run of iterations is longer than
W + 1. -/
theorem runOnFunction_terminates (H : Host)
    (hprim : ∀ V F, List.Sublist (allocaTypes (H.PromoteMemToReg V F))
      ((allocaTypes F).filter (fun e => decide (e.1 ∉ V))))
    (F : Function) :
    (∀ bound, allocaWeight F < bound →
      runOnFunction H bound F ≠ Except.error Failure.fuel
        ∧ runOnFunction H bound F = runOnFunction H (allocaWeight F + 1) F)
    ∧ ∀ cs G, Iterates H F cs G → cs.length ≤ allocaWeight F + 1 := by
  refine ⟨?_, fun cs G h => iterates_length H hprim F G cs h⟩
  intro bound hb
  unfold runOnFunction
  exact ⟨runLoop_ne_fuel H hprim bound false F hb,
    runLoop_mono H (allocaWeight F + 1) false F
      (runLoop_ne_fuel H hprim _ false F (by omega)) bound (by omega)⟩

/-- Scenario D for C14: the weight of the allocations is 7, and the run has three
iterations. -/
theorem runOnFunction_terminates_twoLevel :
    allocaWeight twoLevel = 7
      ∧ Iterates straightLineHost twoLevel [(1, 3), (1, 2), (0, 0)] twoLevelPromoted
      ∧ (∀ bound, allocaWeight twoLevel < bound →
        runOnFunction straightLineHost bound twoLevel ≠ Except.error Failure.fuel
          ∧ runOnFunction straightLineHost bound twoLevel
              = runOnFunction straightLineHost (allocaWeight twoLevel + 1) twoLevel)
      ∧ ∀ cs G, Iterates straightLineHost twoLevel cs G →
          cs.length ≤ allocaWeight twoLevel + 1 :=
  ⟨by decide,
    Iterates.step twoLevel twoLevelFirst twoLevelPromoted 1 3 [(1, 2), (0, 0)]
      (by decide) (Or.inl (by decide))
      (Iterates.step twoLevelFirst twoLevelPromoted twoLevelPromoted 1 2 [(0, 0)]
        (by decide) (Or.inl (by decide))
        (Iterates.last twoLevelPromoted twoLevelPromoted (by decide))),
    runOnFunction_terminates straightLineHost
      (fun V F => by
        show List.Sublist (allocaTypes (promoteStraightLine V F)) _
        rw [allocaTypes_promoteStraightLine]) twoLevel⟩

/-- Counterexample to C14 as stated: in Scenario D the largest aggregate nesting
depth among the allocated types is 1, the promotion primitive removes every
allocation it is handed and adds none, and the loop of `runOnFunction` runs three
iterations, two of which decompose and promote; a bound of one or two iterations is
used up before the loop ends. -/
theorem runOnFunction_exceeds_nesting_depth :
    maxNestingDepth twoLevel = 1
      ∧ (∀ V F, allocaTypes (straightLineHost.PromoteMemToReg V F)
          = (allocaTypes F).filter (fun e => decide (e.1 ∉ V)))
      ∧ iteration straightLineHost twoLevel = Except.ok (twoLevelFirst, 1, 3)
      ∧ iteration straightLineHost twoLevelFirst = Except.ok (twoLevelPromoted, 1, 2)
      ∧ iteration straightLineHost twoLevelPromoted = Except.ok (twoLevelPromoted, 0, 0)
      ∧ runOnFunction straightLineHost 1 twoLevel = Except.error Failure.fuel
      ∧ runOnFunction straightLineHost 2 twoLevel = Except.error Failure.fuel
      ∧ runOnFunction straightLineHost 3 twoLevel = Except.ok (twoLevelPromoted, true) :=
  ⟨by decide, fun V F => allocaTypes_promoteStraightLine V F, by decide, by decide,
    by decide, by decide, by decide, by decide⟩

end SROA

namespace SROA

/-- Scenario D for C18: the inner structure, whose address is stored, is not
decomposition-eligible. -/
theorem canBeEliminatedStructAlloca_false_of_stored_twoLevel :
    mkInst 10 Opcode.store [Value.inst 1, Value.inst 9] ∈ allInsts twoLevel
      ∧ canBeEliminatedStructAlloca twoLevel (mkInst 1 (Opcode.alloca pairTy) []) = false :=
  ⟨by decide,
    canBeEliminatedStructAlloca_false_of_stored.1 twoLevel
      (mkInst 1 (Opcode.alloca pairTy) [])
      (mkInst 10 Opcode.store [Value.inst 1, Value.inst 9]) (by decide) rfl rfl⟩

end SROA

namespace SROA

/-! ## SROA: the classification of the users -/

theorem isU2TypeEqOrNe_true_iff (CI : Instruction) (V : Value) :
    isU2TypeEqOrNe CI V = true ↔
      ∃ p a b, CI.opcode = Opcode.cmp p ∧ (p = Predicate.ICMP_EQ ∨ p = Predicate.ICMP_NE)
        ∧ CI.operands = [a, b]
        ∧ ((a = V ∧ b = Value.constantPointerNull)
          ∨ (b = V ∧ a = Value.constantPointerNull)) := by
  have hnull : ∀ v : Value, v.isConstantPointerNull = true ↔ v = Value.constantPointerNull := by
    intro v
    cases v <;> simp [Value.isConstantPointerNull]
  unfold isU2TypeEqOrNe
  cases ho : CI.opcode with
  | cmp p =>
    simp only
    by_cases hp : p = Predicate.ICMP_EQ ∨ p = Predicate.ICMP_NE
    · have hp2 : (p = Predicate.ICMP_EQ || p = Predicate.ICMP_NE) = true := by
        rcases hp with h | h <;> simp [h]
      rw [hp2]
      simp only [Bool.not_true, Bool.false_eq_true, ↓reduceIte]
      match hops : CI.operands with
      | [] => simp
      | [_] => simp
      | [a, b] =>
        unfold Instruction.getOperand
        rw [hops]
        simp only [List.length_cons, List.length_nil, ne_eq, not_true_eq_false, ↓reduceIte,
          List.getElem?_cons_zero, List.getElem?_cons_succ]
        constructor
        · intro h
          refine ⟨p, a, b, rfl, hp, rfl, ?_⟩
          split at h
          · rename_i h0
            exact Or.inl ⟨h0, (hnull b).1 h⟩
          · split at h
            · rename_i h1
              exact Or.inr ⟨h1, (hnull a).1 h⟩
            · exact absurd h (by decide)
        · rintro ⟨p2, a2, b2, hp2e, _, hab, hcase⟩
          simp only [List.cons.injEq, and_true] at hab
          obtain ⟨rfl, rfl⟩ := hab
          rcases hcase with ⟨h0, h1⟩ | ⟨h1, h0⟩
          · rw [if_pos h0]
            exact (hnull _).2 h1
          · by_cases ha : a = V
            · rw [if_pos ha]
              rw [h1, ← ha, h0]
              rfl
            · rw [if_neg ha, if_pos h1]
              exact (hnull _).2 h0
      | _ :: _ :: _ :: _ =>
        simp only [List.length_cons, ne_eq]
        rw [if_pos (by omega)]
        simp
    · have hp2 : (p = Predicate.ICMP_EQ || p = Predicate.ICMP_NE) = false := by
        simp only [not_or] at hp
        simp [hp.1, hp.2]
      rw [hp2]
      simp only [Bool.not_false, ↓reduceIte, Bool.false_eq_true, false_iff]
      rintro ⟨p2, a, b, hpe, hp3, _⟩
      simp only [Opcode.cmp.injEq] at hpe
      subst hpe
      exact hp hp3
  | _ => simp

/-- A comparison among the users of an allocation that `isU2TypeEqOrNe` rejects makes
the allocation ineligible. -/
theorem canBeEliminated_false_of_cmp (F : Function) (AI CI : Instruction)
    (hCI : CI ∈ users F (Value.inst AI.id)) (p : Predicate) (ho : CI.opcode = Opcode.cmp p)
    (h : isU2TypeEqOrNe CI (Value.inst AI.id) = false) :
    canBeEliminatedStructAlloca F AI = false := by
  cases hty : AI.opcode with
  | alloca ty =>
    rw [canBeEliminatedStructAlloca_eq F AI ty hty, Bool.and_eq_false_iff]
    right
    rw [List.all_eq_false]
    refine ⟨CI, hCI, ?_⟩
    rw [ho]
    simp [h]
  | _ =>
    unfold canBeEliminatedStructAlloca
    rw [hty]

/-- One level of `isU1TypeGetElementPtr` at a positive depth bound, as a
conjunction. -/
theorem isU1Fuel_true_iff (F : Function) (n : Nat) (G : Instruction) (Val : Value) :
    isU1Fuel F (n + 1) G Val = true ↔
      3 ≤ G.operands.length ∧ G.getOperand 0 = some Val
        ∧ G.getOperand 1 = some (Value.constantInt 0)
        ∧ (∀ o ∈ G.operands.drop 2, o.isConstant = true)
        ∧ ∀ U ∈ users F (Value.inst G.id),
            (U.opcode = Opcode.getElementPtr ∧ isU1Fuel F n U (Value.inst G.id) = true)
            ∨ (∃ p, U.opcode = Opcode.cmp p ∧ isU2TypeEqOrNe U (Value.inst G.id) = true)
            ∨ (U.opcode = Opcode.load ∧ U.getOperand 0 = some (Value.inst G.id))
            ∨ (U.opcode = Opcode.store ∧ U.getOperand 1 = some (Value.inst G.id)) := by
  rw [isU1Fuel_succ]
  simp only [Bool.and_eq_true, decide_eq_true_eq, List.all_eq_true]
  constructor
  · rintro ⟨⟨⟨⟨h1, h2⟩, h3⟩, h4⟩, h5⟩
    refine ⟨h1, h2, h3, h4, ?_⟩
    intro U hU
    have := h5 U hU
    cases ho : U.opcode with
    | getElementPtr =>
      rw [ho] at this
      exact Or.inl ⟨rfl, this⟩
    | cmp p =>
      rw [ho] at this
      exact Or.inr (Or.inl ⟨p, rfl, this⟩)
    | load =>
      rw [ho] at this
      exact Or.inr (Or.inr (Or.inl ⟨rfl, by simpa using this⟩))
    | store =>
      rw [ho] at this
      exact Or.inr (Or.inr (Or.inr ⟨rfl, by simpa using this⟩))
    | alloca t =>
      rw [ho] at this
      simp at this
    | phi =>
      rw [ho] at this
      simp at this
    | other =>
      rw [ho] at this
      simp at this
  · rintro ⟨h1, h2, h3, h4, h5⟩
    refine ⟨⟨⟨⟨h1, h2⟩, h3⟩, h4⟩, ?_⟩
    intro U hU
    rcases h5 U hU with ⟨ho, h⟩ | ⟨p, ho, h⟩ | ⟨ho, h⟩ | ⟨ho, h⟩
    · rw [ho]
      exact h
    · rw [ho]
      exact h
    · rw [ho]
      simpa using h
    · rw [ho]
      simpa using h

/-- The recursive test at the root of a chain: `isU1TypeGetElementPtr` with an
allocation as base holds exactly when the operands have the form
`(base, 0, constant, ...)` and every user passes the test of its class, the test
for a `getelementptr` user being `isU1TypeGetElementPtr` itself. -/
theorem isU1TypeGetElementPtr_iff (F : Function) (hU : UniqueIds F) (a : Nat)
    (ha : ∀ I ∈ allInsts F, I.id = a → I.opcode ≠ Opcode.getElementPtr)
    (G : Instruction) (hG : G ∈ allInsts F) (hGo : G.opcode = Opcode.getElementPtr) :
    isU1TypeGetElementPtr F G (Value.inst a) = true ↔
      3 ≤ G.operands.length ∧ G.getOperand 0 = some (Value.inst a)
        ∧ G.getOperand 1 = some (Value.constantInt 0)
        ∧ (∀ o ∈ G.operands.drop 2, o.isConstant = true)
        ∧ ∀ U ∈ users F (Value.inst G.id),
            (U.opcode = Opcode.getElementPtr
              ∧ isU1TypeGetElementPtr F U (Value.inst G.id) = true)
            ∨ (∃ p, U.opcode = Opcode.cmp p ∧ isU2TypeEqOrNe U (Value.inst G.id) = true)
            ∨ (U.opcode = Opcode.load ∧ U.getOperand 0 = some (Value.inst G.id))
            ∨ (U.opcode = Opcode.store ∧ U.getOperand 1 = some (Value.inst G.id)) := by
  obtain ⟨n, hn⟩ : ∃ n, (allInsts F).length = n + 1 :=
    ⟨(allInsts F).length - 1, by have := List.length_pos_of_mem hG; omega⟩
  have hstab : G.getOperand 0 = some (Value.inst a) →
      ∀ U ∈ users F (Value.inst G.id), U.opcode = Opcode.getElementPtr →
        isU1Fuel F n U (Value.inst G.id) = isU1TypeGetElementPtr F U (Value.inst G.id) := by
    intro hbase U hUm hUo
    unfold isU1TypeGetElementPtr
    rw [hn]
    refine isU1Fuel_chain F hU a ha n (n + 1) U (Value.inst G.id) [G] ?_ ?_
      ((mem_users F _ U).1 hUm).1 hUo ?_ ?_ ?_ ?_ ?_
    · simp only [List.length_singleton]
      omega
    · simp only [List.length_singleton]
      omega
    · intro c hc
      rw [List.mem_singleton.1 hc]
      exact ⟨hG, hGo⟩
    · simp
    · intro c hc
      rw [List.mem_singleton.1 hc, hbase]
      intro h
      simp only [Option.some.injEq, Value.inst.injEq] at h
      exact ha G hG h.symm hGo
    · intro c hc
      rw [List.mem_singleton.1 hc]
      exact Or.inr hbase
    · exact Or.inr ⟨G, List.mem_singleton_self G, rfl⟩
  unfold isU1TypeGetElementPtr
  rw [hn, isU1Fuel_true_iff]
  constructor
  · rintro ⟨h1, h2, h3, h4, h5⟩
    refine ⟨h1, h2, h3, h4, ?_⟩
    intro U hUm
    rcases h5 U hUm with ⟨ho, h⟩ | h
    · left
      refine ⟨ho, ?_⟩
      have := hstab h2 U hUm ho
      unfold isU1TypeGetElementPtr at this
      rw [hn] at this
      rw [← this]
      exact h
    · exact Or.inr h
  · rintro ⟨h1, h2, h3, h4, h5⟩
    refine ⟨h1, h2, h3, h4, ?_⟩
    intro U hUm
    rcases h5 U hUm with ⟨ho, h⟩ | h
    · left
      refine ⟨ho, ?_⟩
      have := hstab h2 U hUm ho
      unfold isU1TypeGetElementPtr at this
      rw [hn] at this
      rw [this]
      exact h
    · exact Or.inr h

/-- A member of the chain of an eligible allocation passes the test at some depth. -/
theorem inChain_accepted (F : Function) (AI : Instruction)
    (hel : canBeEliminatedStructAlloca F AI = true) (g : Instruction)
    (hg : InChain F AI.id g) : ∃ n V, isU1Fuel F (n + 1) g V = true := by
  induction hg with
  | root G hG ho =>
    cases hty : AI.opcode with
    | alloca ty =>
      rw [canBeEliminatedStructAlloca_eq F AI ty hty, Bool.and_eq_true, List.all_eq_true] at hel
      have := hel.2 G hG
      rw [ho] at this
      simp only at this
      unfold isU1TypeGetElementPtr at this
      obtain ⟨n, hn⟩ : ∃ n, (allInsts F).length = n + 1 :=
        ⟨(allInsts F).length - 1, by
          have := List.length_pos_of_mem ((mem_users F _ G).1 hG).1
          omega⟩
      rw [hn] at this
      exact ⟨n, _, this⟩
    | _ =>
      have ha := canBeEliminatedStructAlloca_isAlloca F AI hel
      unfold Instruction.isAlloca at ha
      simp [hty] at ha
  | next G U _ hU ho ih =>
    obtain ⟨n, V, h⟩ := ih
    rw [isU1Fuel_true_iff] at h
    rcases h.2.2.2.2 U hU with ⟨_, h2⟩ | ⟨p, h1, _⟩ | ⟨h1, _⟩ | ⟨h1, _⟩
    · cases n with
      | zero => simp [isU1Fuel] at h2
      | succ m => exact ⟨m, _, h2⟩
    · rw [ho] at h1
      exact Opcode.noConfusion h1
    · rw [ho] at h1
      exact Opcode.noConfusion h1
    · rw [ho] at h1
      exact Opcode.noConfusion h1

/-- Every use anywhere in the chain of an eligible allocation is a further member of
the chain, a U2 comparison, a load from the member or a store to the member. -/
theorem inChain_users (F : Function) (AI : Instruction)
    (hel : canBeEliminatedStructAlloca F AI = true) (g : Instruction)
    (hg : InChain F AI.id g) :
    3 ≤ g.operands.length ∧ g.getOperand 1 = some (Value.constantInt 0)
      ∧ (∀ o ∈ g.operands.drop 2, o.isConstant = true)
      ∧ ∀ W ∈ users F (Value.inst g.id),
          (W.opcode = Opcode.getElementPtr ∧ InChain F AI.id W)
          ∨ (∃ p, W.opcode = Opcode.cmp p ∧ isU2TypeEqOrNe W (Value.inst g.id) = true)
          ∨ (W.opcode = Opcode.load ∧ W.getOperand 0 = some (Value.inst g.id))
          ∨ (W.opcode = Opcode.store ∧ W.getOperand 1 = some (Value.inst g.id)) := by
  obtain ⟨n, V, h⟩ := inChain_accepted F AI hel g hg
  rw [isU1Fuel_true_iff] at h
  obtain ⟨h1, _, h3, h4, h5⟩ := h
  refine ⟨h1, h3, h4, ?_⟩
  intro W hW
  rcases h5 W hW with ⟨ho, _⟩ | h
  · exact Or.inl ⟨ho, InChain.next g W hg hW ho⟩
  · exact Or.inr h

/-! ## SROA: one round of the rewrite loop -/

theorem replaceU1_ok (F G : Function) (U : Instruction) (NA : List Nat)
    (h : replaceU1TypeGetElementPtr F U NA = Except.ok G) :
    ∃ (k t : Nat), 3 ≤ U.operands.length
      ∧ U.getOperand 2 = some (Value.constantInt (Int.ofNat k)) ∧ NA[k]? = some t
      ∧ ((U.operands.length = 3 ∧ G = replaceAllUsesWith F U.id (Value.inst t))
        ∨ (3 < U.operands.length
          ∧ G = replaceAllUsesWith (insertBefore (NewGEPI F U t) U.id F) U.id
              (Value.inst (freshId F)))) := by
  unfold replaceU1TypeGetElementPtr at h
  split at h
  · exact absurd h (by simp)
  · rename_i hlen
    split at h
    · rename_i c hc
      split at h
      · exact absurd h (by simp)
      · rename_i hneg
        split at h
        · exact absurd h (by simp)
        · rename_i t ht
          have hc2 : Int.ofNat c.toNat = c := Int.toNat_of_nonneg (by omega)
          refine ⟨c.toNat, t, by omega, by rw [hc2]; exact hc, ht, ?_⟩
          split at h
          · rename_i h3
            exact Or.inl ⟨h3, (Except.ok.inj h).symm⟩
          · rename_i h3
            exact Or.inr ⟨by omega, (Except.ok.inj h).symm⟩
    · exact absurd h (by simp)

theorem replaceU1_of_index (F : Function) (U : Instruction) (NA : List Nat) (k t : Nat)
    (hlen : 3 ≤ U.operands.length)
    (hk : U.getOperand 2 = some (Value.constantInt (Int.ofNat k))) (ht : NA[k]? = some t) :
    replaceU1TypeGetElementPtr F U NA
      = Except.ok (if U.operands.length = 3 then replaceAllUsesWith F U.id (Value.inst t)
          else replaceAllUsesWith (insertBefore (NewGEPI F U t) U.id F) U.id
            (Value.inst (freshId F))) := by
  unfold replaceU1TypeGetElementPtr
  rw [if_neg (by omega), hk]
  have hnn : ¬ Int.ofNat k < 0 := by simp
  have htn : (Int.ofNat k).toNat = k := rfl
  simp only [hnn, ↓reduceIte, htn, ht]
  by_cases h3 : U.operands.length = 3
  · rw [if_pos h3, if_pos h3]
  · rw [if_neg h3, if_neg h3]
    rfl

theorem replaceU2_ok (F G : Function) (U : Instruction)
    (h : replaceU2TypeEqOrNe F U = Except.ok G) :
    (U.opcode = Opcode.cmp Predicate.ICMP_EQ
        ∧ G = replaceAllUsesWith F U.id (Value.constantInt 0))
      ∨ (U.opcode = Opcode.cmp Predicate.ICMP_NE
        ∧ G = replaceAllUsesWith F U.id (Value.constantInt 1)) := by
  unfold replaceU2TypeEqOrNe at h
  split at h
  · rename_i ho
    exact Or.inl ⟨ho, (Except.ok.inj h).symm⟩
  · rename_i ho
    exact Or.inr ⟨ho, (Except.ok.inj h).symm⟩
  · exact absurd h (by simp)

/-- What one round does to the function: the uses of the user are replaced by a
constant, a new allocation or a new instruction, after that new instruction, if
any, is inserted before the user. -/
theorem rewriteStep_shape (NA : List Nat) (F : Function) (U : Instruction) (G : Function)
    (h : RewriteStep NA F U G) :
    ∃ (V : Value) (Fi : Function), G = replaceAllUsesWith Fi U.id V
      ∧ (V = Value.constantInt 0 ∨ V = Value.constantInt 1 ∨ (∃ t ∈ NA, V = Value.inst t)
        ∨ V = Value.inst (freshId F))
      ∧ (Fi = F ∨ ∃ t ∈ NA, Fi = insertBefore (NewGEPI F U t) U.id F) := by
  rcases h with ⟨_, h⟩ | ⟨_, h⟩
  · obtain ⟨k, t, _, _, ht, h2⟩ := replaceU1_ok F G U NA h
    have htm : t ∈ NA := List.getElem?_mem ht
    rcases h2 with ⟨_, rfl⟩ | ⟨_, rfl⟩
    · exact ⟨_, F, rfl, Or.inr (Or.inr (Or.inl ⟨t, htm, rfl⟩)), Or.inl rfl⟩
    · exact ⟨_, _, rfl, Or.inr (Or.inr (Or.inr rfl)), Or.inr ⟨t, htm, rfl⟩⟩
  · rcases replaceU2_ok F G U h with ⟨_, rfl⟩ | ⟨_, rfl⟩
    · exact ⟨_, F, rfl, Or.inl rfl, Or.inl rfl⟩
    · exact ⟨_, F, rfl, Or.inr (Or.inl rfl), Or.inl rfl⟩

theorem rewriteUsers_snd (NA : List Nat) (us : List Nat) :
    ∀ (F : Function) (r : Function × List Nat),
      rewriteUsers NA us F = Except.ok r → r.2 = us := by
  induction us with
  | nil =>
    intro F r h
    simp only [rewriteUsers, Except.ok.injEq] at h
    rw [← h]
  | cons u us ih =>
    intro F r h
    obtain ⟨U, G, s, _, _, hs, rfl⟩ := rewriteUsers_cons_ok NA u us F r h
    simp only
    rw [ih G s hs]

/-- A property of the function that every round preserves holds after the loop. -/
theorem rewriteUsers_inv (NA S : List Nat) (P : Function → Prop)
    (hstep : ∀ F U G, P F → U.id ∈ S → getInst F U.id = some U → RewriteStep NA F U G → P G)
    (us : List Nat) :
    (∀ u ∈ us, u ∈ S) → ∀ (Fc : Function) (r : Function × List Nat),
      rewriteUsers NA us Fc = Except.ok r → P Fc → P r.1 := by
  induction us with
  | nil =>
    intro _ Fc r h hP
    simp only [rewriteUsers, Except.ok.injEq] at h
    rw [← h]
    exact hP
  | cons u us ih =>
    intro hS Fc r h hP
    obtain ⟨U, G, s, hg, hstep2, hs, rfl⟩ := rewriteUsers_cons_ok NA u us Fc r h
    have hid : U.id = u := (getInst_some Fc u U hg).2
    simp only
    refine ih (fun x hx => hS x (List.mem_cons_of_mem _ hx)) G s hs ?_
    refine hstep Fc U G hP (hid ▸ hS u (List.mem_cons_self _ _)) (hid ▸ hg) ?_
    exact hstep2

theorem mem_replaceUsesOfWith_operands (I : Instruction) (x : Nat) (V o : Value)
    (h : o ∈ (I.replaceUsesOfWith x V).operands) :
    o = V ∨ (o ∈ I.operands ∧ o ≠ Value.inst x) := by
  unfold Instruction.replaceUsesOfWith at h
  simp only [List.mem_map] at h
  obtain ⟨o2, ho2, rfl⟩ := h
  by_cases hx : o2 = Value.inst x
  · rw [if_pos hx]
    exact Or.inl rfl
  · rw [if_neg hx]
    exact Or.inr ⟨ho2, hx⟩

theorem noUse_replaceAllUsesWith (F : Function) (x : Nat) (V : Value)
    (hV : V ≠ Value.inst x) :
    ∀ I ∈ allInsts (replaceAllUsesWith F x V), Value.inst x ∉ I.operands := by
  intro I hI hmem
  rw [allInsts_replaceAllUsesWith, List.mem_map] at hI
  obtain ⟨J, _, rfl⟩ := hI
  rcases mem_replaceUsesOfWith_operands J x V _ hmem with h | ⟨_, h⟩
  · exact hV h.symm
  · exact h rfl

theorem mem_NewGEPI_operands (F : Function) (U : Instruction) (t : Nat) (o : Value)
    (h : o ∈ (NewGEPI F U t).operands) : o = Value.inst t ∨ o ∈ U.operands.drop 1 := by
  unfold NewGEPI at h
  simp only [List.mem_cons, List.mem_append] at h
  rcases h with h | h | h
  · exact Or.inl h
  · right
    match hops : U.operands, h with
    | [], h => simp at h
    | [_], h => simp at h
    | _ :: b :: rest, h =>
      simp only [List.take_succ_cons, List.take_zero, List.drop_succ_cons, List.drop_zero,
        List.mem_singleton] at h
      rw [h]
      simp
  · right
    match hops : U.operands, h with
    | [], h => simp at h
    | [_], h => simp at h
    | [_, _], h => simp at h
    | _ :: b :: c :: rest, h =>
      simp only [List.drop_succ_cons, List.drop_zero] at h
      simp only [List.drop_succ_cons, List.drop_zero, List.mem_cons]
      exact Or.inr (Or.inr h)

theorem mem_of_mem_drop_one (l : List Value) (o : Value) (h : o ∈ l.drop 1) : o ∈ l :=
  List.mem_of_mem_drop h

/-- A user whose operands are the allocation and constants is the same instruction
after a round that rewrites another user. -/
theorem getInst_step_stable (NA : List Nat) (F : Function) (U : Instruction) (G : Function)
    (a u2 : Nat) (U2 : Instruction) (h : RewriteStep NA F U G) (hua : U.id ≠ a)
    (hg : getInst F u2 = some U2)
    (hops : ∀ o ∈ U2.operands, o = Value.inst a ∨ o.isConstant = true) :
    getInst G u2 = some U2 := by
  obtain ⟨V, Fi, rfl, _, hFi⟩ := rewriteStep_shape NA F U G h
  apply getInst_after_replace _ a U.id V u2 U2 _ hua hops
  rcases hFi with rfl | ⟨t, _, rfl⟩
  · exact hg
  · rw [getInst_insertBefore _ U.id F u2 ?_, hg]
    show freshId F ≠ u2
    have := id_lt_freshId F U2 (getInst_some F u2 U2 hg).1
    rw [(getInst_some F u2 U2 hg).2] at this
    omega

/-- A property that every round on an unchanged user preserves holds after the loop,
when the operands of the users are the allocation and constants: every user is
still the instruction it was when its round comes. -/
theorem rewriteUsers_inv_stable (a : Nat) (NA S : List Nat) (F0 : Function)
    (hgood : ∀ u ∈ S, ∃ U, getInst F0 u = some U
      ∧ ∀ o ∈ U.operands, o = Value.inst a ∨ o.isConstant = true)
    (ha : a ∉ S) (P : Function → Prop)
    (hstep : ∀ F U G, P F → U.id ∈ S → getInst F0 U.id = some U →
      getInst F U.id = some U → RewriteStep NA F U G → P G)
    (us : List Nat) (hus : ∀ u ∈ us, u ∈ S) (Fc : Function) (r : Function × List Nat)
    (h : rewriteUsers NA us Fc = Except.ok r)
    (hstab : ∀ u ∈ S, getInst Fc u = getInst F0 u) (hP : P Fc) :
    P r.1 ∧ ∀ u ∈ S, getInst r.1 u = getInst F0 u := by
  refine rewriteUsers_inv NA S (fun F => P F ∧ ∀ u ∈ S, getInst F u = getInst F0 u) ?_
    us hus Fc r h ⟨hP, hstab⟩
  rintro F U G ⟨hPF, hst⟩ hUS hg hstep2
  have hg0 : getInst F0 U.id = some U := by rw [← hst U.id hUS]; exact hg
  refine ⟨hstep F U G hPF hUS hg0 hg hstep2, ?_⟩
  intro u hu
  obtain ⟨U2, hU2, hops⟩ := hgood u hu
  rw [hU2]
  refine getInst_step_stable NA F U G a u U2 hstep2 ?_ ?_ hops
  · intro h
    exact ha (h ▸ hUS)
  · rw [hst u hu]
    exact hU2

theorem hasId_step (NA : List Nat) (F : Function) (U : Instruction) (G : Function)
    (h : RewriteStep NA F U G) (x : Nat) (hx : ∃ I ∈ allInsts F, I.id = x) :
    ∃ I ∈ allInsts G, I.id = x := by
  obtain ⟨I, hI, hid⟩ := hx
  rcases h with ⟨_, h⟩ | ⟨_, h⟩
  · obtain ⟨J, hJ, hJid, _⟩ := hasInst_replaceU1 F G U NA h x I.opcode ⟨I, hI, hid, rfl⟩
    exact ⟨J, hJ, hJid⟩
  · obtain ⟨J, hJ, hJid, _⟩ := hasInst_replaceU2 F G U h x I.opcode ⟨I, hI, hid, rfl⟩
    exact ⟨J, hJ, hJid⟩

/-- An instruction of the function that nothing uses stays unused through a round:
the values a round puts in are constants, new allocations and the new instruction. -/
theorem noUse_step (NA : List Nat) (F : Function) (U : Instruction) (G : Function)
    (h : RewriteStep NA F U G) (hU : getInst F U.id = some U) (x : Nat) (hxNA : x ∉ NA)
    (hx : ∃ I ∈ allInsts F, I.id = x)
    (hno : ∀ I ∈ allInsts F, Value.inst x ∉ I.operands) :
    ∀ I ∈ allInsts G, Value.inst x ∉ I.operands := by
  obtain ⟨V, Fi, rfl, hV, hFi⟩ := rewriteStep_shape NA F U G h
  obtain ⟨X, hX, hXid⟩ := hx
  have hfresh : x < freshId F := hXid ▸ id_lt_freshId F X hX
  intro I hI hmem
  rw [allInsts_replaceAllUsesWith, List.mem_map] at hI
  obtain ⟨J, hJ, rfl⟩ := hI
  rcases mem_replaceUsesOfWith_operands J U.id V _ hmem with hv | ⟨hJo, _⟩
  · rcases hV with h1 | h1 | ⟨t, ht, h1⟩ | h1
    · rw [h1] at hv
      exact Value.noConfusion hv
    · rw [h1] at hv
      exact Value.noConfusion hv
    · rw [h1] at hv
      exact hxNA (Value.inst.inj hv ▸ ht)
    · rw [h1] at hv
      have := Value.inst.inj hv
      omega
  · rcases hFi with rfl | ⟨t, ht, rfl⟩
    · exact hno J hJ hJo
    · rcases mem_allInsts_insertBefore _ U.id F J hJ with rfl | hJF
      · rcases mem_NewGEPI_operands F U t _ hJo with h1 | h1
        · exact hxNA (Value.inst.inj h1 ▸ ht)
        · exact hno U (getInst_some F U.id U hU).1 (mem_of_mem_drop_one _ _ h1)
      · exact hno J hJF hJo

/-- After the loop over the users nothing uses a rewritten user. -/
theorem rewriteUsers_noUse (NA : List Nat) (us : List Nat) :
    ∀ (Fc : Function) (r : Function × List Nat), rewriteUsers NA us Fc = Except.ok r →
      (∀ u ∈ us, u ∉ NA) →
      ∀ u ∈ us, ∀ I ∈ allInsts r.1, Value.inst u ∉ I.operands := by
  induction us with
  | nil =>
    intro _ _ _ _ u hu
    exact absurd hu (List.not_mem_nil u)
  | cons u us ih =>
    intro Fc r h hNA x hx
    obtain ⟨U, G, s, hg, hstep, hs, rfl⟩ := rewriteUsers_cons_ok NA u us Fc r h
    have hid : U.id = u := (getInst_some Fc u U hg).2
    have hUm : U ∈ allInsts Fc := (getInst_some Fc u U hg).1
    have hstep2 : RewriteStep NA Fc U G := hstep
    simp only
    rcases List.mem_cons.1 hx with rfl | hx
    · have hnoG : ∀ I ∈ allInsts G, Value.inst x ∉ I.operands := by
        obtain ⟨V, Fi, rfl, hV, _⟩ := rewriteStep_shape NA Fc U G hstep2
        rw [← hid]
        apply noUse_replaceAllUsesWith
        rcases hV with h1 | h1 | ⟨t, ht, h1⟩ | h1
        · rw [h1]
          exact fun hh => Value.noConfusion hh
        · rw [h1]
          exact fun hh => Value.noConfusion hh
        · rw [h1]
          intro hh
          exact hNA x (List.mem_cons_self _ _) (hid ▸ Value.inst.inj hh ▸ ht)
        · rw [h1]
          intro hh
          have := Value.inst.inj hh
          have := id_lt_freshId Fc U hUm
          omega
      have hidG : ∃ I ∈ allInsts G, I.id = x := hasId_step NA Fc U G hstep2 x ⟨U, hUm, hid⟩
      exact (rewriteUsers_inv NA us
        (fun F => (∀ I ∈ allInsts F, Value.inst x ∉ I.operands) ∧ ∃ I ∈ allInsts F, I.id = x)
        (fun F U2 G2 hP _ hg2 hst =>
          ⟨noUse_step NA F U2 G2 hst hg2 x (hNA x (List.mem_cons_self _ _)) hP.2 hP.1,
            hasId_step NA F U2 G2 hst x hP.2⟩)
        us (fun _ h => h) G s hs ⟨hnoG, hidG⟩).1
    · exact ih G s hs (fun v hv => hNA v (List.mem_cons_of_mem _ hv)) x hx

/-- The operands of a `getelementptr` user of an eligible allocation: the allocation,
the integer constant zero, then constants. -/
theorem gep_user_shape (F : Function) (AI U : Instruction)
    (hel : canBeEliminatedStructAlloca F AI = true)
    (hU : U ∈ users F (Value.inst AI.id)) (ho : U.opcode = Opcode.getElementPtr) :
    3 ≤ U.operands.length ∧ U.getOperand 0 = some (Value.inst AI.id)
      ∧ U.getOperand 1 = some (Value.constantInt 0)
      ∧ (∀ o ∈ U.operands.drop 2, o.isConstant = true)
      ∧ ∀ o ∈ U.operands.drop 1, o.isConstant = true := by
  cases hty : AI.opcode with
  | alloca ty =>
    rw [canBeEliminatedStructAlloca_eq F AI ty hty, Bool.and_eq_true, List.all_eq_true] at hel
    have := hel.2 U hU
    rw [ho] at this
    simp only at this
    unfold isU1TypeGetElementPtr at this
    obtain ⟨n, hn⟩ : ∃ n, (allInsts F).length = n + 1 :=
      ⟨(allInsts F).length - 1, by
        have := List.length_pos_of_mem ((mem_users F _ U).1 hU).1
        omega⟩
    rw [hn, isU1Fuel_true_iff] at this
    obtain ⟨h1, h2, h3, h4, _⟩ := this
    refine ⟨h1, h2, h3, h4, ?_⟩
    intro o hmem
    match hops : U.operands, hmem with
    | [], hmem => simp at hmem
    | [_], hmem => simp at hmem
    | x0 :: x1 :: rest, hmem =>
      simp only [List.drop_succ_cons, List.drop_zero, List.mem_cons] at hmem
      rcases hmem with rfl | hmem
      · unfold Instruction.getOperand at h3
        rw [hops] at h3
        simp only [List.getElem?_cons_succ, List.getElem?_cons_zero, Option.some.injEq] at h3
        rw [h3]
        rfl
      · apply h4
        rw [hops]
        simpa using hmem
  | _ =>
    have ha := canBeEliminatedStructAlloca_isAlloca F AI hel
    unfold Instruction.isAlloca at ha
    simp [hty] at ha

/-! ## SROA: the allocations through the rewrite -/

theorem allocaTypes_replaceAllUsesWith (F : Function) (x : Nat) (V : Value) :
    allocaTypes (replaceAllUsesWith F x V) = allocaTypes F := by
  unfold allocaTypes
  rw [allInsts_replaceAllUsesWith, List.filterMap_map]
  rfl

theorem filterMap_insertBeforeIn {β : Type} (g : Instruction → Option β) (New : Instruction)
    (pos : Nat) (B : List Instruction) (hN : g New = none) :
    (insertBeforeIn New pos B).filterMap g = B.filterMap g := by
  induction B with
  | nil => rfl
  | cons I rest ih =>
    unfold insertBeforeIn
    split
    · rw [List.filterMap_cons, hN]
    · rw [List.filterMap_cons, List.filterMap_cons, ih]

theorem allocaTypes_insertBefore (New : Instruction) (pos : Nat) (F : Function)
    (hN : New.isAlloca = false) : allocaTypes (insertBefore New pos F) = allocaTypes F := by
  unfold allocaTypes allInsts insertBefore
  rw [List.filterMap_flatten, List.filterMap_flatten, List.map_map]
  congr 1
  apply List.map_congr_left
  intro B _
  apply filterMap_insertBeforeIn
  unfold Instruction.isAlloca at hN
  split
  · rename_i ty h
    rw [h] at hN
    simp at hN
  · rfl

theorem allocaTypes_step (NA : List Nat) (F : Function) (U : Instruction) (G : Function)
    (h : RewriteStep NA F U G) : allocaTypes G = allocaTypes F := by
  obtain ⟨V, Fi, rfl, _, hFi⟩ := rewriteStep_shape NA F U G h
  rw [allocaTypes_replaceAllUsesWith]
  rcases hFi with rfl | ⟨t, _, rfl⟩
  · rfl
  · exact allocaTypes_insertBefore _ _ _ rfl

theorem allocaTypes_rewriteUsers (NA us : List Nat) (Fc : Function)
    (r : Function × List Nat) (h : rewriteUsers NA us Fc = Except.ok r) :
    allocaTypes r.1 = allocaTypes Fc :=
  rewriteUsers_inv NA us (fun F => allocaTypes F = allocaTypes Fc)
    (fun F U G hP _ _ hst => (allocaTypes_step NA F U G hst).trans hP)
    us (fun _ h => h) Fc r h rfl

theorem allocaTypes_eraseFromParent (F : Function) (x : Nat) :
    allocaTypes (eraseFromParent F x) = (allocaTypes F).filter (fun e => decide (e.1 ≠ x)) := by
  unfold allocaTypes
  rw [allInsts_eraseFromParent]
  induction allInsts F with
  | nil => rfl
  | cons I rest ih =>
    by_cases hI : I.id = x
    · rw [List.filter_cons_of_neg (by simpa using hI), ih, List.filterMap_cons]
      split
      · rfl
      · rename_i e he
        rw [List.filter_cons_of_neg]
        split at he
        · simp only [Option.some.injEq] at he
          rw [← he]
          simpa using hI
        · exact absurd he (by simp)
    · rw [List.filter_cons_of_pos (by simpa using hI), List.filterMap_cons,
        List.filterMap_cons, ih]
      split
      · rfl
      · rename_i e he
        rw [List.filter_cons_of_pos]
        split at he
        · simp only [Option.some.injEq] at he
          rw [← he]
          simpa using hI
        · exact absurd he (by simp)

theorem allocaTypes_eraseUsers (us : List Nat) (F : Function) :
    allocaTypes (eraseUsers us F) = (allocaTypes F).filter (fun e => decide (e.1 ∉ us)) := by
  induction us generalizing F with
  | nil =>
    simp [eraseUsers]
  | cons u us ih =>
    unfold eraseUsers
    rw [ih, allocaTypes_eraseFromParent, List.filter_filter]
    apply List.filter_congr
    intro e _
    simp only [List.mem_cons, not_or, ne_eq, Bool.decide_and, Bool.and_comm]

/-! ## SROA: the entry block through the rewrite -/

theorem getEntryBlock_replaceAllUsesWith (F : Function) (x : Nat) (V : Value) :
    getEntryBlock (replaceAllUsesWith F x V)
      = (getEntryBlock F).map (fun I => I.replaceUsesOfWith x V) := by
  cases F <;> rfl

theorem getEntryBlock_insertBefore (New : Instruction) (pos : Nat) (F : Function) :
    getEntryBlock (insertBefore New pos F) = insertBeforeIn New pos (getEntryBlock F) := by
  cases F <;> rfl

theorem getEntryBlock_eraseFromParent (F : Function) (x : Nat) :
    getEntryBlock (eraseFromParent F x)
      = (getEntryBlock F).filter (fun I => decide (I.id ≠ x)) := by
  cases F <;> rfl

theorem getEntryBlock_eraseUsers (us : List Nat) (F : Function) :
    getEntryBlock (eraseUsers us F)
      = (getEntryBlock F).filter (fun I => decide (I.id ∉ us)) := by
  induction us generalizing F with
  | nil => simp [eraseUsers]
  | cons u us ih =>
    unfold eraseUsers
    rw [ih, getEntryBlock_eraseFromParent, List.filter_filter]
    apply List.filter_congr
    intro e _
    simp only [List.mem_cons, not_or, ne_eq, Bool.decide_and, Bool.and_comm]

theorem insertBeforeIn_append_left (New : Instruction) (pos : Nat) (l m : List Instruction)
    (h : ∀ J ∈ l, J.id ≠ pos) :
    insertBeforeIn New pos (l ++ m) = l ++ insertBeforeIn New pos m := by
  induction l with
  | nil => rfl
  | cons I rest ih =>
    have hI : ¬ I.id = pos := h I (List.mem_cons_self _ _)
    have h1 : insertBeforeIn New pos (I :: (rest ++ m))
        = I :: insertBeforeIn New pos (rest ++ m) := by
      simp only [insertBeforeIn, hI, ↓reduceIte]
    rw [List.cons_append, h1, ih (fun J hJ => h J (List.mem_cons_of_mem _ hJ)),
      List.cons_append]

theorem insertBeforeIn_cons_self (New I0 : Instruction) (m : List Instruction) :
    insertBeforeIn New I0.id (I0 :: m) = New :: I0 :: m := by
  unfold insertBeforeIn
  rw [if_pos rfl]

theorem allInsts_eq_entry_append (F : Function) :
    allInsts F = getEntryBlock F ++ allInsts F.tail := by
  cases F with
  | nil => rfl
  | cons B rest => simp [allInsts, getEntryBlock]

/-- The instruction a pointer refers to is the first instruction with that identity:
no instruction of another class before it in the entry block has it. -/
theorem id_ne_of_getInst (F : Function) (l m : List Instruction) (u : Nat) (U : Instruction)
    (hentry : getEntryBlock F = l ++ m) (hg : getInst F u = some U)
    (hl : ∀ J ∈ l, J.opcode ≠ U.opcode) : ∀ J ∈ l, J.id ≠ u := by
  intro J hJ hid
  unfold getInst at hg
  rw [allInsts_eq_entry_append, hentry, List.append_assoc, List.find?_append] at hg
  cases hf : l.find? (fun I => decide (I.id = u)) with
  | none =>
    rw [List.find?_eq_none] at hf
    exact hf J hJ (by simpa using hid)
  | some J2 =>
    rw [hf] at hg
    simp only [Option.or, Option.some.injEq] at hg
    have := List.mem_of_find?_eq_some hf
    exact hl J2 this (by rw [hg])

/-- The split of the entry block at its first instruction that is not a phi. -/
theorem entry_split (B : List Instruction) :
    ∃ pre post, B = pre ++ post ∧ (∀ J ∈ pre, J.opcode = Opcode.phi)
      ∧ ((getFirstNonPHI B = none ∧ post = [])
        ∨ ∃ I0 post2, getFirstNonPHI B = some I0 ∧ post = I0 :: post2) := by
  induction B with
  | nil => exact ⟨[], [], rfl, fun J hJ => absurd hJ (List.not_mem_nil J), Or.inl ⟨rfl, rfl⟩⟩
  | cons I rest ih =>
    by_cases hI : I.opcode = Opcode.phi
    · obtain ⟨pre, post, hB, hpre, hcase⟩ := ih
      refine ⟨I :: pre, post, by rw [hB]; rfl, ?_, ?_⟩
      · intro J hJ
        rcases List.mem_cons.1 hJ with rfl | hJ
        · exact hI
        · exact hpre J hJ
      · have hf : getFirstNonPHI (I :: rest) = getFirstNonPHI rest := by
          unfold getFirstNonPHI
          rw [List.find?_cons_of_neg]
          simpa using hI
        rw [hf]
        exact hcase
    · refine ⟨[], I :: rest, rfl, fun J hJ => absurd hJ (List.not_mem_nil J), Or.inr ⟨I, rest, ?_, rfl⟩⟩
      unfold getFirstNonPHI
      rw [List.find?_cons_of_pos]
      simpa using hI

/-- The new allocations are inserted, in field order, between the instructions of the
entry block before its first instruction that is not a phi and the rest of the
block. -/
theorem createFieldAllocas_shape (first : Option Nat) (pre post : List Instruction)
    (rest : Function)
    (hpost : (first = none ∧ post = [])
      ∨ ∃ I0 post2, first = some I0.id ∧ post = I0 :: post2 ∧ ∀ J ∈ pre, J.id ≠ I0.id)
    (fs : List Ty) :
    ∀ acc : List Instruction,
      (∀ pos, first = some pos → ∀ J ∈ acc, J.id ≠ pos) →
      (createFieldAllocas first fs ((pre ++ acc ++ post) :: rest)).1
        = (pre ++ acc ++ (createFieldAllocas first fs ((pre ++ acc ++ post) :: rest)).2
            ++ post) :: rest := by
  induction fs with
  | nil =>
    intro acc _
    simp [createFieldAllocas]
  | cons ty tys ih =>
    intro acc hacc
    have hcons : createFieldAllocas first (ty :: tys) ((pre ++ acc ++ post) :: rest)
        = ((createFieldAllocas first tys (insertAlloca first
              (IthAllocaInst ((pre ++ acc ++ post) :: rest) ty)
              ((pre ++ acc ++ post) :: rest))).1,
            IthAllocaInst ((pre ++ acc ++ post) :: rest) ty
              :: (createFieldAllocas first tys (insertAlloca first
                (IthAllocaInst ((pre ++ acc ++ post) :: rest) ty)
                ((pre ++ acc ++ post) :: rest))).2) := rfl
    generalize hN : IthAllocaInst ((pre ++ acc ++ post) :: rest) ty = New at hcons
    have hNid : New.id = freshId ((pre ++ acc ++ post) :: rest) := by
      rw [← hN]
      rfl
    have hins : insertAlloca first New ((pre ++ acc ++ post) :: rest)
        = (pre ++ (acc ++ [New]) ++ post) :: rest := by
      rcases hpost with ⟨hf, hp⟩ | ⟨I0, post2, hf, hp, hpre⟩
      · rw [hf, hp]
        simp [insertAlloca]
      · rw [hf, hp]
        simp only [insertAlloca]
        rw [insertBeforeIn_append_left, insertBeforeIn_cons_self]
        · simp
        · intro J hJ
          rcases List.mem_append.1 hJ with h | h
          · exact hpre J h
          · exact hacc I0.id hf J h
    have hnew : ∀ pos, first = some pos → ∀ J ∈ acc ++ [New], J.id ≠ pos := by
      intro pos hf J hJ
      rcases List.mem_append.1 hJ with h | h
      · exact hacc pos hf J h
      · rw [List.mem_singleton.1 h]
        rcases hpost with ⟨hf2, _⟩ | ⟨I0, post2, hf2, hp, _⟩
        · rw [hf2] at hf
          exact Option.noConfusion hf
        · rw [hf2] at hf
          have hI0 : I0 ∈ allInsts ((pre ++ acc ++ post) :: rest) := by
            rw [hp]
            simp [allInsts]
          have := id_lt_freshId _ I0 hI0
          simp only [Option.some.injEq] at hf
          rw [hNid]
          omega
    have := ih _ hnew
    rw [hcons, hins]
    simp only
    rw [this]
    simp

theorem nodup_entry_of_uniqueIds (B : List Instruction) (rest : Function)
    (hU : UniqueIds (B :: rest)) : (B.map (fun I => I.id)).Nodup := by
  unfold UniqueIds allInsts at hU
  rw [List.flatten_cons, List.map_append] at hU
  exact (List.nodup_append.1 hU).1

/-- The function after the new allocations are created: they stand, in field order,
in the entry block right before its first instruction that is not a phi. -/
theorem createFieldAllocas_entry (F : Function) (hU : UniqueIds F) (hF : F ≠ [])
    (fs : List Ty) :
    ∃ pre post rest, F = (pre ++ post) :: rest ∧ (∀ J ∈ pre, J.opcode = Opcode.phi)
      ∧ (createFieldAllocas ((getFirstNonPHI (getEntryBlock F)).map (fun I => I.id)) fs F).1
        = (pre ++ (createFieldAllocas
              ((getFirstNonPHI (getEntryBlock F)).map (fun I => I.id)) fs F).2 ++ post)
            :: rest := by
  cases F with
  | nil => exact absurd rfl hF
  | cons B rest =>
    obtain ⟨pre, post, hB, hpre, hcase⟩ := entry_split B
    subst hB
    refine ⟨pre, post, rest, rfl, hpre, ?_⟩
    have hnd := nodup_entry_of_uniqueIds (pre ++ post) rest hU
    have hsh := createFieldAllocas_shape
      ((getFirstNonPHI (getEntryBlock ((pre ++ post) :: rest))).map (fun I => I.id))
      pre post rest ?_ fs [] (fun _ _ J hJ => absurd hJ (List.not_mem_nil J))
    · simp only [List.append_nil] at hsh
      exact hsh
    · show ((getFirstNonPHI (pre ++ post)).map (fun I => I.id) = none ∧ post = []) ∨ _
      rcases hcase with ⟨h1, h2⟩ | ⟨I0, post2, h1, h2⟩
      · left
        rw [h1]
        exact ⟨rfl, h2⟩
      · right
        refine ⟨I0, post2, ?_, h2, ?_⟩
        · show (getFirstNonPHI (pre ++ post)).map (fun I => I.id) = some I0.id
          rw [h1]
          rfl
        · intro J hJ hid
          rw [h2, List.map_append, List.map_cons] at hnd
          have hdis := (List.nodup_append.1 hnd).2.2
          exact hdis (List.mem_map.2 ⟨J, hJ, rfl⟩) (hid ▸ List.mem_cons_self _ _)

theorem map_replaceUsesOfWith_news (News : List Instruction)
    (hNews : ∀ A ∈ News, A.operands = []) (x : Nat) (V : Value) :
    News.map (fun I => I.replaceUsesOfWith x V) = News := by
  induction News with
  | nil => rfl
  | cons A rest ih =>
    rw [List.map_cons, ih (fun B hB => hNews B (List.mem_cons_of_mem _ hB))]
    have : A.replaceUsesOfWith x V = A := by
      apply replaceUsesOfWith_eq_self
      rw [hNews A (List.mem_cons_self _ _)]
      exact List.not_mem_nil _
    rw [this]

/-- A round keeps the new allocations where they are: in the entry block, after
phis only. -/
theorem entryShape_step (News : List Instruction)
    (hNews : ∀ A ∈ News, A.operands = [] ∧ A.isAlloca = true)
    (NA : List Nat) (F : Function) (U : Instruction) (G : Function)
    (hstep : RewriteStep NA F U G) (hg : getInst F U.id = some U)
    (hsh : ∃ pre post, getEntryBlock F = pre ++ News ++ post
      ∧ ∀ J ∈ pre, J.opcode = Opcode.phi) :
    ∃ pre post, getEntryBlock G = pre ++ News ++ post ∧ ∀ J ∈ pre, J.opcode = Opcode.phi := by
  obtain ⟨pre, post, hentry, hpre⟩ := hsh
  have hmap : ∀ (Fi : Function) (post2 : List Instruction) (V : Value),
      getEntryBlock Fi = pre ++ News ++ post2 →
      ∃ pre3 post3, getEntryBlock (replaceAllUsesWith Fi U.id V) = pre3 ++ News ++ post3
        ∧ ∀ J ∈ pre3, J.opcode = Opcode.phi := by
    intro Fi post2 V hFi
    refine ⟨pre.map (fun I => I.replaceUsesOfWith U.id V),
      post2.map (fun I => I.replaceUsesOfWith U.id V), ?_, ?_⟩
    · rw [getEntryBlock_replaceAllUsesWith, hFi, List.map_append, List.map_append,
        map_replaceUsesOfWith_news News (fun A hA => (hNews A hA).1)]
    · intro J hJ
      obtain ⟨J2, hJ2, rfl⟩ := List.mem_map.1 hJ
      exact hpre J2 hJ2
  rcases hstep with ⟨ho, h⟩ | ⟨_, h⟩
  · obtain ⟨k, t, _, _, _, h2⟩ := replaceU1_ok F G U NA h
    rcases h2 with ⟨_, rfl⟩ | ⟨_, rfl⟩
    · exact hmap F post _ hentry
    · refine hmap _ (insertBeforeIn (NewGEPI F U t) U.id post) _ ?_
      rw [getEntryBlock_insertBefore, hentry, insertBeforeIn_append_left]
      refine id_ne_of_getInst F (pre ++ News) post U.id U hentry hg ?_
      intro J hJ
      rw [ho]
      rcases List.mem_append.1 hJ with hJ | hJ
      · rw [hpre J hJ]
        exact fun hh => Opcode.noConfusion hh
      · have := (hNews J hJ).2
        unfold Instruction.isAlloca at this
        intro hh
        rw [hh] at this
        exact absurd this (by decide)
  · rcases replaceU2_ok F G U h with ⟨_, rfl⟩ | ⟨_, rfl⟩
    · exact hmap F post _ hentry
    · exact hmap F post _ hentry

/-- A round creates no new user of the allocation: the instructions that use the
allocation afterwards are among its users before. -/
theorem usersOfAlloca_step (a : Nat) (NA S : List Nat) (F : Function) (U : Instruction)
    (G : Function) (hstep : RewriteStep NA F U G)
    (hgep : U.opcode = Opcode.getElementPtr → ∀ o ∈ U.operands.drop 1, o.isConstant = true)
    (haNA : a ∉ NA) (ha : ∃ I ∈ allInsts F, I.id = a)
    (hQ : ∀ I ∈ allInsts F, Value.inst a ∈ I.operands → I.id ∈ S) :
    ∀ I ∈ allInsts G, Value.inst a ∈ I.operands → I.id ∈ S := by
  obtain ⟨X, hX, hXid⟩ := ha
  have hfresh : a < freshId F := hXid ▸ id_lt_freshId F X hX
  have hmap : ∀ (Fi : Function) (V : Value), V ≠ Value.inst a →
      (∀ I ∈ allInsts Fi, Value.inst a ∈ I.operands → I.id ∈ S) →
      ∀ I ∈ allInsts (replaceAllUsesWith Fi U.id V), Value.inst a ∈ I.operands → I.id ∈ S := by
    intro Fi V hV hFi I hI hmem
    rw [allInsts_replaceAllUsesWith, List.mem_map] at hI
    obtain ⟨J, hJ, rfl⟩ := hI
    rcases mem_replaceUsesOfWith_operands J U.id V _ hmem with hv | ⟨hJo, _⟩
    · exact absurd hv.symm hV
    · exact hFi J hJ hJo
  rcases hstep with ⟨ho, h⟩ | ⟨_, h⟩
  · obtain ⟨k, t, _, _, ht, h2⟩ := replaceU1_ok F G U NA h
    have htm : t ∈ NA := List.getElem?_mem ht
    have hta : Value.inst t ≠ Value.inst a := fun hh => haNA (Value.inst.inj hh ▸ htm)
    rcases h2 with ⟨_, rfl⟩ | ⟨_, rfl⟩
    · exact hmap F _ hta hQ
    · refine hmap _ _ (fun hh => by have := Value.inst.inj hh; omega) ?_
      intro I hI hmem
      rcases mem_allInsts_insertBefore _ U.id F I hI with rfl | hIF
      · rcases mem_NewGEPI_operands F U t _ hmem with h1 | h1
        · exact absurd h1.symm hta
        · have := hgep ho _ h1
          simp [Value.isConstant] at this
      · exact hQ I hIF hmem
  · rcases replaceU2_ok F G U h with ⟨_, rfl⟩ | ⟨_, rfl⟩
    · exact hmap F _ (fun hh => Value.noConfusion hh) hQ
    · exact hmap F _ (fun hh => Value.noConfusion hh) hQ

/-! ## SROA: the run of `eliminateStructAlloca` -/

theorem users_of_shape (pre post News : List Instruction) (rest : Function) (V : Value)
    (hNews : ∀ A ∈ News, A.operands = []) :
    users ((pre ++ News ++ post) :: rest) V = users ((pre ++ post) :: rest) V := by
  unfold users allInsts
  simp only [List.flatten_cons, List.filter_append]
  have : News.filter (fun U => decide (V ∈ U.operands)) = [] := by
    rw [List.filter_eq_nil_iff]
    intro A hA
    rw [hNews A hA]
    simp
  rw [this, List.append_nil]

/-- The parts of a run of `eliminateStructAlloca` that ends with a result: the new
allocations in the entry block, the loop over the users, the erasures. -/
theorem eliminate_run (F : Function) (hU : UniqueIds F) (AI : Instruction)
    (hAI : AI ∈ allInsts F) (fs : List Ty) (ho : AI.opcode = Opcode.alloca (Ty.struct fs))
    (G : Function) (subs : List Nat)
    (hok : eliminateStructAlloca F AI.id = Except.ok (G, subs)) :
    ∃ (pre post : List Instruction) (rest : Function) (News : List Instruction)
      (Fr : Function),
      F = (pre ++ post) :: rest ∧ (∀ J ∈ pre, J.opcode = Opcode.phi)
      ∧ createFieldAllocas ((getFirstNonPHI (getEntryBlock F)).map (fun I => I.id)) fs F
          = ((pre ++ News ++ post) :: rest, News)
      ∧ News.map (fun A => A.opcode) = fs.map Opcode.alloca
      ∧ (∀ A ∈ News, A.operands = [] ∧ A.isVolatile = false ∧ freshId F ≤ A.id)
      ∧ (News.map (fun A => A.id)).Nodup
      ∧ rewriteUsers (News.map (fun A => A.id))
          ((users F (Value.inst AI.id)).map (fun U => U.id))
          ((pre ++ News ++ post) :: rest)
          = Except.ok (Fr, (users F (Value.inst AI.id)).map (fun U => U.id))
      ∧ G = eraseFromParent
          (eraseUsers ((users F (Value.inst AI.id)).map (fun U => U.id)) Fr) AI.id
      ∧ subs = (News.filter (fun N => match N.opcode with
          | Opcode.alloca ty => ty.isAggregateType
          | _ => false)).map (fun N => N.id) := by
  obtain ⟨A, fs2, s, hgA, hoA, hrw, hr⟩ := eliminateStructAlloca_ok F AI.id (G, subs) hok
  rw [getInst_of_mem F hU AI hAI] at hgA
  have hAeq : AI = A := Option.some.inj hgA
  subst hAeq
  rw [ho] at hoA
  have hfs : fs = fs2 := by
    simp only [Opcode.alloca.injEq, Ty.struct.injEq] at hoA
    exact hoA
  subst hfs
  have hF : F ≠ [] := by
    intro h
    rw [h] at hAI
    exact absurd hAI (by simp [allInsts])
  obtain ⟨pre, post, rest, hFeq, hpre, hsh⟩ := createFieldAllocas_entry F hU hF fs
  generalize hC : createFieldAllocas
    ((getFirstNonPHI (getEntryBlock F)).map (fun I => I.id)) fs F = C at hsh hrw hr
  have hnews := createFieldAllocas_news
    ((getFirstNonPHI (getEntryBlock F)).map (fun I => I.id)) fs F
  have hnd := createFieldAllocas_nodup
    ((getFirstNonPHI (getEntryBlock F)).map (fun I => I.id)) fs F hF
    (fun pos hpos => getFirstNonPHI_mem F pos hpos)
  rw [hC] at hnews hnd
  have husers : users C.1 (Value.inst AI.id) = users F (Value.inst AI.id) := by
    rw [hsh, users_of_shape pre post C.2 rest _ (fun A hA => (hnews.2 A hA).1), ← hFeq]
  rw [husers] at hrw
  have hs2 := rewriteUsers_snd _ _ _ _ hrw
  simp only [Prod.mk.injEq] at hr
  refine ⟨pre, post, rest, C.2, s.1, hFeq, hpre, ?_, hnews.1, hnews.2, hnd, ?_, ?_, hr.2⟩
  · rw [← hsh]
  · rw [← hsh, hrw, ← hs2]
  · rw [hr.1, hs2]

theorem news_isAlloca (News : List Instruction) (fs : List Ty)
    (h : News.map (fun A => A.opcode) = fs.map Opcode.alloca) :
    ∀ A ∈ News, A.isAlloca = true := by
  intro A hA
  have : A.opcode ∈ News.map (fun A => A.opcode) := List.mem_map.2 ⟨A, hA, rfl⟩
  rw [h] at this
  obtain ⟨ty, _, hty⟩ := List.mem_map.1 this
  unfold Instruction.isAlloca
  rw [← hty]

theorem allocaTypes_of_shape (pre post News : List Instruction) (rest : Function)
    (hpre : ∀ J ∈ pre, J.opcode = Opcode.phi) :
    allocaTypes ((pre ++ News ++ post) :: rest)
      = allocaTypes [News] ++ allocaTypes ((pre ++ post) :: rest) := by
  unfold allocaTypes allInsts
  simp only [List.flatten_cons, List.flatten_nil, List.append_nil, List.filterMap_append]
  have : pre.filterMap (fun I =>
      match I.opcode with
      | Opcode.alloca ty => some (I.id, ty)
      | _ => none) = [] := by
    rw [List.filterMap_eq_nil_iff]
    intro J hJ
    rw [hpre J hJ]
  rw [this]
  simp

/-- The user ids of an eligible allocation and the new allocations: the allocation is
not among its users, and the identities of the new allocations are new. -/
theorem eliminate_ids (F : Function) (hU : UniqueIds F) (AI : Instruction)
    (hAI : AI ∈ allInsts F) (hel : canBeEliminatedStructAlloca F AI = true)
    (News : List Instruction) (hfresh : ∀ A ∈ News, freshId F ≤ A.id) :
    AI.id ∉ (users F (Value.inst AI.id)).map (fun U => U.id)
      ∧ AI.id ∉ News.map (fun A => A.id)
      ∧ (∀ u ∈ (users F (Value.inst AI.id)).map (fun U => U.id),
          u ∉ News.map (fun A => A.id))
      ∧ ∀ I ∈ allInsts F, I.id ∉ News.map (fun A => A.id) := by
  have hold : ∀ I ∈ allInsts F, I.id ∉ News.map (fun A => A.id) := by
    intro I hI hmem
    obtain ⟨A, hA, hid⟩ := List.mem_map.1 hmem
    have h1 := hfresh A hA
    have h2 := id_lt_freshId F I hI
    omega
  refine ⟨?_, hold AI hAI, ?_, hold⟩
  · intro hmem
    obtain ⟨U, hUm, hid⟩ := List.mem_map.1 hmem
    have := eq_of_id_eq F hU U AI ((mem_users F _ U).1 hUm).1 hAI hid
    have hs := (user_shape_of_eligible F AI U hel hUm).1
    have ha := canBeEliminatedStructAlloca_isAlloca F AI hel
    unfold Instruction.isAlloca at ha
    rw [this] at hs
    rcases hs with ⟨h, _⟩ | h | h <;> rw [h] at ha <;> exact absurd ha (by decide)
  · intro u hu
    obtain ⟨U, hUm, rfl⟩ := List.mem_map.1 hu
    exact hold U ((mem_users F _ U).1 hUm).1

/-- The state after the loop over the users of an eligible allocation: only the
queued users use the allocation, nothing uses a queued user, the allocations are
those before the loop, and the new allocations stand in the entry block after phis
only. -/
theorem eliminate_facts (F : Function) (hU : UniqueIds F) (AI : Instruction)
    (hAI : AI ∈ allInsts F) (hel : canBeEliminatedStructAlloca F AI = true)
    (pre post News : List Instruction) (rest : Function) (Fr : Function) (fs : List Ty)
    (hF : F = (pre ++ post) :: rest) (hpre : ∀ J ∈ pre, J.opcode = Opcode.phi)
    (hC : createFieldAllocas ((getFirstNonPHI (getEntryBlock F)).map (fun I => I.id)) fs F
      = ((pre ++ News ++ post) :: rest, News))
    (hops : News.map (fun A => A.opcode) = fs.map Opcode.alloca)
    (hnews : ∀ A ∈ News, A.operands = [] ∧ A.isVolatile = false ∧ freshId F ≤ A.id)
    (hrw : rewriteUsers (News.map (fun A => A.id))
      ((users F (Value.inst AI.id)).map (fun U => U.id)) ((pre ++ News ++ post) :: rest)
      = Except.ok (Fr, (users F (Value.inst AI.id)).map (fun U => U.id))) :
    (∀ I ∈ allInsts Fr, Value.inst AI.id ∈ I.operands →
        I.id ∈ (users F (Value.inst AI.id)).map (fun U => U.id))
      ∧ (∀ u ∈ (users F (Value.inst AI.id)).map (fun U => U.id),
          ∀ I ∈ allInsts Fr, Value.inst u ∉ I.operands)
      ∧ allocaTypes Fr = allocaTypes [News] ++ allocaTypes F
      ∧ ∃ pre2 post2, getEntryBlock Fr = pre2 ++ News ++ post2
          ∧ ∀ J ∈ pre2, J.opcode = Opcode.phi := by
  obtain ⟨haus, haNA, husNA, _⟩ := eliminate_ids F hU AI hAI hel News
    (fun A hA => (hnews A hA).2.2)
  have hF1 : (createFieldAllocas ((getFirstNonPHI (getEntryBlock F)).map (fun I => I.id))
      fs F).1 = (pre ++ News ++ post) :: rest := by rw [hC]
  have hgood : ∀ u ∈ (users F (Value.inst AI.id)).map (fun U => U.id),
      ∃ U, getInst ((pre ++ News ++ post) :: rest) u = some U
        ∧ ∀ o ∈ U.operands, o = Value.inst AI.id ∨ o.isConstant = true := by
    intro u hu
    obtain ⟨U, hUm, rfl⟩ := List.mem_map.1 hu
    refine ⟨U, ?_, (user_shape_of_eligible F AI U hel hUm).2⟩
    rw [← hF1]
    exact getInst_createFieldAllocas _ fs F hU U ((mem_users F _ U).1 hUm).1
  have horig : ∀ U, U.id ∈ (users F (Value.inst AI.id)).map (fun U => U.id) →
      getInst ((pre ++ News ++ post) :: rest) U.id = some U →
      U ∈ users F (Value.inst AI.id) := by
    intro U hUS hg
    obtain ⟨U2, hU2, hid⟩ := List.mem_map.1 hUS
    have := getInst_createFieldAllocas
      ((getFirstNonPHI (getEntryBlock F)).map (fun I => I.id)) fs F hU U2
      ((mem_users F _ U2).1 hU2).1
    rw [hF1] at this
    rw [hid, hg] at this
    rw [Option.some.inj this]
    exact hU2
  have hAI1 : AI ∈ allInsts ((pre ++ News ++ post) :: rest) := by
    rw [← hF1]
    exact mem_createFieldAllocas_of_mem _ fs F AI hAI
  refine ⟨?_, ?_, ?_, ?_⟩
  · refine (rewriteUsers_inv_stable AI.id (News.map (fun A => A.id)) _ _ hgood haus
      (fun Fx => (∀ I ∈ allInsts Fx, Value.inst AI.id ∈ I.operands →
          I.id ∈ (users F (Value.inst AI.id)).map (fun U => U.id))
        ∧ ∃ I ∈ allInsts Fx, I.id = AI.id) ?_ _ (fun _ h => h) _ _ hrw (fun _ _ => rfl)
      ⟨?_, AI, hAI1, rfl⟩).1.1
    · intro Fx U Gx hP hUS hg0 _ hst
      refine ⟨usersOfAlloca_step AI.id _ _ Fx U Gx hst ?_ haNA hP.2 hP.1,
        hasId_step _ Fx U Gx hst AI.id hP.2⟩
      intro hgep
      exact (gep_user_shape F AI U hel (horig U hUS hg0) hgep).2.2.2.2
    · intro I hI hmem
      have : I ∈ users ((pre ++ News ++ post) :: rest) (Value.inst AI.id) :=
        (mem_users _ _ I).2 ⟨hI, hmem⟩
      rw [users_of_shape pre post News rest _ (fun A hA => (hnews A hA).1), ← hF] at this
      exact List.mem_map.2 ⟨I, this, rfl⟩
  · exact rewriteUsers_noUse _ _ _ _ hrw husNA
  · rw [allocaTypes_rewriteUsers _ _ _ _ hrw, allocaTypes_of_shape pre post News rest hpre,
      ← hF]
  · refine rewriteUsers_inv (News.map (fun A => A.id))
      ((users F (Value.inst AI.id)).map (fun U => U.id))
      (fun Fx => ∃ pre2 post2, getEntryBlock Fx = pre2 ++ News ++ post2
        ∧ ∀ J ∈ pre2, J.opcode = Opcode.phi) ?_ _ (fun _ h => h)
      ((pre ++ News ++ post) :: rest) _ hrw ⟨pre, post, rfl, hpre⟩
    intro Fx U Gx hP _ hg hst
    exact entryShape_step News
      (fun A hA => ⟨(hnews A hA).1, news_isAlloca News fs hops A hA⟩) _ Fx U Gx hst hg hP

/-- The loop over the users ends with a result when every user is a comparison for
equality or inequality or a `getelementptr` whose field index is an integer
constant that selects one of the new allocations. -/
theorem rewriteUsers_ok (a : Nat) (NA : List Nat) (us : List Nat) :
    ∀ (Fc : Function), a ∉ us →
      (∀ u ∈ us, ∃ U, getInst Fc u = some U
        ∧ ((U.opcode = Opcode.getElementPtr ∧ 3 ≤ U.operands.length
            ∧ ∃ k t, U.getOperand 2 = some (Value.constantInt (Int.ofNat k))
              ∧ NA[k]? = some t)
          ∨ U.opcode = Opcode.cmp Predicate.ICMP_EQ
          ∨ U.opcode = Opcode.cmp Predicate.ICMP_NE)
        ∧ ∀ o ∈ U.operands, o = Value.inst a ∨ o.isConstant = true) →
      ∃ r, rewriteUsers NA us Fc = Except.ok r := by
  induction us with
  | nil =>
    intro Fc _ _
    exact ⟨(Fc, []), rfl⟩
  | cons u us ih =>
    intro Fc ha hgood
    obtain ⟨U, hg, hshape, hops⟩ := hgood u (List.mem_cons_self _ _)
    have hid : U.id = u := (getInst_some Fc u U hg).2
    have hua : U.id ≠ a := fun h => ha (h ▸ hid ▸ List.mem_cons_self _ _)
    have hus : a ∉ us := fun h => ha (List.mem_cons_of_mem _ h)
    have hnext : ∀ G, RewriteStep NA Fc U G →
        ∃ r, rewriteUsers NA us G = Except.ok r := by
      intro G hst
      refine ih G hus ?_
      intro u2 hu2
      obtain ⟨U2, hg2, hshape2, hops2⟩ := hgood u2 (List.mem_cons_of_mem _ hu2)
      exact ⟨U2, getInst_step_stable NA Fc U G a u2 U2 hst hua hg2 hops2, hshape2, hops2⟩
    rcases hshape with ⟨ho, hlen, k, t, hk, ht⟩ | ho | ho
    · have h1 := replaceU1_of_index Fc U NA k t hlen hk ht
      obtain ⟨r, hr⟩ := hnext _ (Or.inl ⟨ho, h1⟩)
      refine ⟨(r.1, u :: r.2), ?_⟩
      simp only [rewriteUsers, hg]
      rw [ho]
      simp only [h1, hr]
    · obtain ⟨V, h1⟩ := replaceU2_outcome Fc U (Or.inl ho)
      obtain ⟨r, hr⟩ := hnext _ (Or.inr ⟨⟨_, ho⟩, h1⟩)
      refine ⟨(r.1, u :: r.2), ?_⟩
      simp only [rewriteUsers, hg]
      rw [ho]
      simp only [h1, hr]
    · obtain ⟨V, h1⟩ := replaceU2_outcome Fc U (Or.inr ho)
      obtain ⟨r, hr⟩ := hnext _ (Or.inr ⟨⟨_, ho⟩, h1⟩)
      refine ⟨(r.1, u :: r.2), ?_⟩
      simp only [rewriteUsers, hg]
      rw [ho]
      simp only [h1, hr]

/-- On an eligible allocation whose field addresses select fields of the structure
by integer constants, `eliminateStructAlloca` ends with a result. -/
theorem eliminate_ok (F : Function) (hU : UniqueIds F) (AI : Instruction)
    (hAI : AI ∈ allInsts F) (fs : List Ty) (ho : AI.opcode = Opcode.alloca (Ty.struct fs))
    (hel : canBeEliminatedStructAlloca F AI = true)
    (hidx : ∀ U ∈ users F (Value.inst AI.id), U.opcode = Opcode.getElementPtr →
      ∃ k, k < fs.length ∧ U.getOperand 2 = some (Value.constantInt (Int.ofNat k))) :
    ∃ G subs, eliminateStructAlloca F AI.id = Except.ok (G, subs) := by
  have hnews := createFieldAllocas_news
    ((getFirstNonPHI (getEntryBlock F)).map (fun I => I.id)) fs F
  generalize hC : createFieldAllocas
    ((getFirstNonPHI (getEntryBlock F)).map (fun I => I.id)) fs F = C at hnews
  have hlen : (C.2.map (fun N => N.id)).length = fs.length := by
    have := congrArg List.length hnews.1
    simpa using this
  have hrw : ∃ r, rewriteUsers (C.2.map (fun N => N.id))
      ((users C.1 (Value.inst AI.id)).map (fun U => U.id)) C.1 = Except.ok r := by
    refine rewriteUsers_ok AI.id _ _ C.1 ?_ ?_
    · intro hmem
      obtain ⟨U, hUm, hid⟩ := List.mem_map.1 hmem
      have hUF : U ∈ users F (Value.inst AI.id) := by
        rw [← hC] at hUm
        exact users_createFieldAllocas _ fs F _ U hUm
      exact (eliminate_ids F hU AI hAI hel [] (fun _ h => absurd h (List.not_mem_nil _))).1
        (List.mem_map.2 ⟨U, hUF, hid⟩)
    · intro u hu
      obtain ⟨U, hUm, rfl⟩ := List.mem_map.1 hu
      have hUF : U ∈ users F (Value.inst AI.id) := by
        rw [← hC] at hUm
        exact users_createFieldAllocas _ fs F _ U hUm
      obtain ⟨hs, hops⟩ := user_shape_of_eligible F AI U hel hUF
      refine ⟨U, ?_, ?_, hops⟩
      · rw [← hC]
        exact getInst_createFieldAllocas _ fs F hU U ((mem_users F _ U).1 hUF).1
      · rcases hs with ⟨hgep, hl⟩ | h | h
        · obtain ⟨k, hk, hk2⟩ := hidx U hUF hgep
          have hk3 : k < (C.2.map (fun N => N.id)).length := by omega
          exact Or.inl ⟨hgep, hl, k, (C.2.map (fun N => N.id))[k], hk2,
            List.getElem?_eq_getElem hk3⟩
        · exact Or.inr (Or.inl h)
        · exact Or.inr (Or.inr h)
  obtain ⟨r, hr⟩ := hrw
  unfold eliminateStructAlloca
  rw [getInst_of_mem F hU AI hAI]
  simp only [ho, hC, hr]
  exact ⟨_, _, rfl⟩

/-! ## SROA: the erasures -/

theorem allInsts_erased (us : List Nat) (a : Nat) (Fr : Function) (I : Instruction) :
    I ∈ allInsts (eraseFromParent (eraseUsers us Fr) a)
      ↔ I ∈ allInsts Fr ∧ I.id ∉ us ∧ I.id ≠ a := by
  rw [allInsts_eraseFromParent, allInsts_eraseUsers]
  simp only [List.mem_filter, decide_eq_true_eq]
  constructor
  · rintro ⟨⟨h1, h2⟩, h3⟩
    exact ⟨h1, h2, h3⟩
  · rintro ⟨h1, h2, h3⟩
    exact ⟨⟨h1, h2⟩, h3⟩

theorem users_eraseUsers_nil (us : List Nat) (Fr : Function) (V : Value)
    (h : ∀ I ∈ allInsts Fr, V ∈ I.operands → I.id ∈ us) : users (eraseUsers us Fr) V = [] := by
  unfold users
  rw [List.filter_eq_nil_iff]
  intro I hI
  rw [allInsts_eraseUsers, List.mem_filter] at hI
  simp only [decide_eq_true_eq] at hI ⊢
  exact fun hV => hI.2 (h I hI.1 hV)

theorem filter_news (News : List Instruction) (p : Instruction → Bool)
    (h : ∀ A ∈ News, p A = true) : News.filter p = News :=
  List.filter_eq_self.2 h

theorem mem_allocaTypes_iff (F : Function) (e : Nat × Ty) :
    e ∈ allocaTypes F ↔ ∃ I ∈ allInsts F, I.id = e.1 ∧ I.opcode = Opcode.alloca e.2 := by
  unfold allocaTypes
  rw [List.mem_filterMap]
  constructor
  · rintro ⟨I, hI, h⟩
    refine ⟨I, hI, ?_⟩
    split at h
    · rename_i ty hty
      simp only [Option.some.injEq] at h
      rw [← h]
      exact ⟨rfl, hty⟩
    · exact absurd h (by simp)
  · rintro ⟨I, hI, hid, ho⟩
    refine ⟨I, hI, ?_⟩
    rw [ho]
    simp only [Option.some.injEq]
    rw [hid]

theorem allocaTypes_keys_sublist (l : List Instruction) :
    List.Sublist ((l.filterMap (fun I =>
        match I.opcode with
        | Opcode.alloca ty => some (I.id, ty)
        | _ => none)).map (fun e => e.1)) (l.map (fun I => I.id)) := by
  induction l with
  | nil => exact List.Sublist.slnil
  | cons I rest ih =>
    rw [List.filterMap_cons, List.map_cons]
    split
    · exact List.Sublist.cons _ ih
    · rename_i e he
      rw [List.map_cons]
      have : e.1 = I.id := by
        split at he
        · simp only [Option.some.injEq] at he
          rw [← he]
        · exact absurd he (by simp)
      rw [this]
      exact List.Sublist.cons₂ _ ih

theorem length_filter_ne (l : List (Nat × Ty)) (x : Nat)
    (hnd : (l.map (fun e => e.1)).Nodup) (hx : x ∈ l.map (fun e => e.1)) :
    (l.filter (fun e => decide (e.1 ≠ x))).length + 1 = l.length := by
  induction l with
  | nil => exact absurd hx (List.not_mem_nil x)
  | cons e rest ih =>
    rw [List.map_cons, List.nodup_cons] at hnd
    by_cases he : e.1 = x
    · rw [List.filter_cons_of_neg (by simpa using he)]
      have : rest.filter (fun e => decide (e.1 ≠ x)) = rest := by
        rw [List.filter_eq_self]
        intro e2 he2
        simp only [ne_eq, decide_eq_true_eq]
        intro h2
        exact hnd.1 (he ▸ h2 ▸ List.mem_map.2 ⟨e2, he2, rfl⟩)
      rw [this, List.length_cons]
    · rw [List.filter_cons_of_pos (by simpa using he), List.length_cons, List.length_cons]
      rw [List.map_cons, List.mem_cons] at hx
      rcases hx with hx | hx
      · exact absurd hx.symm he
      · rw [ih hnd.2 hx]

theorem countAllocas_eq (F : Function) : countAllocas F = (allocaTypes F).length := by
  unfold countAllocas allocaTypes
  induction allInsts F with
  | nil => rfl
  | cons I rest ih =>
    rw [List.countP_cons, List.filterMap_cons, ih]
    unfold Instruction.isAlloca
    cases I.opcode <;> simp

theorem length_allocaTypes_news (News : List Instruction)
    (h : ∀ A ∈ News, A.isAlloca = true) : (allocaTypes [News]).length = News.length := by
  rw [← countAllocas_eq]
  unfold countAllocas allInsts
  simp only [List.flatten_cons, List.flatten_nil, List.append_nil]
  rw [List.countP_eq_length]
  exact h

/-! ## SROA: what a round leaves in place -/

theorem getOperand_replaceUsesOfWith (W : Instruction) (i x : Nat) (V o : Value)
    (h : W.getOperand i = some o) :
    (W.replaceUsesOfWith x V).getOperand i = some (if o = Value.inst x then V else o) := by
  unfold Instruction.getOperand Instruction.replaceUsesOfWith at *
  simp only [List.getElem?_map, h, Option.map_some']

/-- An operand that is not the rewritten user is still there after a round. -/
theorem operand_step (NA : List Nat) (F : Function) (U : Instruction) (G : Function)
    (h : RewriteStep NA F U G) (w : Nat) (op : Opcode) (i : Nat) (X : Value)
    (hX : X ≠ Value.inst U.id)
    (hW : ∃ W ∈ allInsts F, W.id = w ∧ W.opcode = op ∧ W.getOperand i = some X) :
    ∃ W ∈ allInsts G, W.id = w ∧ W.opcode = op ∧ W.getOperand i = some X := by
  obtain ⟨V, Fi, rfl, _, hFi⟩ := rewriteStep_shape NA F U G h
  obtain ⟨W, hWm, hid, hop, hget⟩ := hW
  have hWi : W ∈ allInsts Fi := by
    rcases hFi with rfl | ⟨t, _, rfl⟩
    · exact hWm
    · exact mem_allInsts_insertBefore_of_mem _ _ _ W hWm
  refine ⟨W.replaceUsesOfWith U.id V, ?_, hid, hop, ?_⟩
  · rw [allInsts_replaceAllUsesWith]
    exact List.mem_map.2 ⟨W, hWi, rfl⟩
  · rw [getOperand_replaceUsesOfWith W i U.id V X hget, if_neg hX]

/-- An operand that is none of the rewritten users is still there after the loop. -/
theorem operand_persists (NA us : List Nat) (Fc : Function) (r : Function × List Nat)
    (h : rewriteUsers NA us Fc = Except.ok r) (w : Nat) (op : Opcode) (i : Nat) (X : Value)
    (hX : ∀ x ∈ us, X ≠ Value.inst x)
    (hW : ∃ W ∈ allInsts Fc, W.id = w ∧ W.opcode = op ∧ W.getOperand i = some X) :
    ∃ W ∈ allInsts r.1, W.id = w ∧ W.opcode = op ∧ W.getOperand i = some X :=
  rewriteUsers_inv NA us
    (fun F => ∃ W ∈ allInsts F, W.id = w ∧ W.opcode = op ∧ W.getOperand i = some X)
    (fun F U G hP hUS _ hst => operand_step NA F U G hst w op i X (hX U.id hUS) hP)
    us (fun _ h => h) Fc r h hW

/-- An instruction that uses none of the rewritten users is still there, unchanged,
after the loop. -/
theorem inst_persists (NA us : List Nat) (Fc : Function) (r : Function × List Nat)
    (h : rewriteUsers NA us Fc = Except.ok r) (N : Instruction)
    (hN : ∀ x ∈ us, Value.inst x ∉ N.operands) (hm : N ∈ allInsts Fc) :
    N ∈ allInsts r.1 := by
  refine rewriteUsers_inv NA us (fun F => N ∈ allInsts F) ?_ us (fun _ h => h) Fc r h hm
  intro F U G hP hUS _ hst
  obtain ⟨V, Fi, rfl, _, hFi⟩ := rewriteStep_shape NA F U G hst
  have hNi : N ∈ allInsts Fi := by
    rcases hFi with rfl | ⟨t, _, rfl⟩
    · exact hP
    · exact mem_allInsts_insertBefore_of_mem _ _ _ N hP
  rw [allInsts_replaceAllUsesWith]
  exact List.mem_map.2 ⟨N, hNi, replaceUsesOfWith_eq_self N U.id V (hN U.id hUS)⟩

/-- The loop over the users, split at one user: the rounds before, its own round,
the rounds after. -/
theorem rewriteUsers_split (NA : List Nat) (done : List Nat) (u : Nat) (rest : List Nat) :
    ∀ (Fc : Function) (r : Function × List Nat),
      rewriteUsers NA (done ++ u :: rest) Fc = Except.ok r →
      ∃ Fi U Gi, rewriteUsers NA done Fc = Except.ok (Fi, done) ∧ getInst Fi u = some U
        ∧ RewriteStep NA Fi U Gi ∧ rewriteUsers NA rest Gi = Except.ok (r.1, rest) := by
  induction done with
  | nil =>
    intro Fc r h
    obtain ⟨U, G, s, hg, hstep, hs, rfl⟩ := rewriteUsers_cons_ok NA u rest Fc r h
    refine ⟨Fc, U, G, rfl, hg, hstep, ?_⟩
    rw [hs, ← rewriteUsers_snd NA rest G s hs]
  | cons d done ih =>
    intro Fc r h
    rw [List.cons_append] at h
    obtain ⟨D, G, s, hg, hstep, hs, rfl⟩ := rewriteUsers_cons_ok NA d _ Fc r h
    obtain ⟨Fi, U, Gi, h1, h2, h3, h4⟩ := ih G s hs
    refine ⟨Fi, U, Gi, ?_, h2, h3, h4⟩
    simp only [rewriteUsers, hg]
    rcases hstep with ⟨ho, hr⟩ | ⟨⟨p, ho⟩, hr⟩
    · rw [ho]
      simp only [hr, h1]
    · rw [ho]
      simp only [hr, h1]

/-! ## SROA: instruction identities through the rewrite -/

theorem ids_replaceAllUsesWith (F : Function) (x : Nat) (V : Value) :
    (allInsts (replaceAllUsesWith F x V)).map (fun I => I.id)
      = (allInsts F).map (fun I => I.id) := by
  rw [allInsts_replaceAllUsesWith, List.map_map]
  rfl

theorem insertBeforeIn_of_ne (New : Instruction) (pos : Nat) (B : List Instruction)
    (h : ∀ J ∈ B, J.id ≠ pos) : insertBeforeIn New pos B = B := by
  have := insertBeforeIn_append_left New pos B [] h
  simpa [insertBeforeIn] using this

/-- With distinct identities the new instruction is inserted once, immediately before
the instruction it is created before. -/
theorem insertBefore_split (New : Instruction) (F : Function) (U : Instruction)
    (hU : UniqueIds F) (hUm : U ∈ allInsts F) :
    ∃ Bs1 l1 l2 Bs2, F = Bs1 ++ (l1 ++ U :: l2) :: Bs2
      ∧ insertBefore New U.id F = Bs1 ++ (l1 ++ New :: U :: l2) :: Bs2 := by
  unfold allInsts at hUm
  obtain ⟨B, hB, hUB⟩ := List.mem_flatten.1 hUm
  obtain ⟨Bs1, Bs2, rfl⟩ := List.append_of_mem hB
  obtain ⟨l1, l2, rfl⟩ := List.append_of_mem hUB
  refine ⟨Bs1, l1, l2, Bs2, rfl, ?_⟩
  unfold UniqueIds allInsts at hU
  simp only [List.flatten_append, List.flatten_cons, List.map_append, List.map_cons] at hU
  have h1 : ∀ J ∈ Bs1.flatten, J.id ≠ U.id := by
    intro J hJ hid
    have := (List.nodup_append.1 hU).2.2
    exact this (List.mem_map.2 ⟨J, hJ, rfl⟩) (by
      rw [hid]
      simp)
  have hrest := (List.nodup_append.1 hU).2.1
  have h2 : ∀ J ∈ l1, J.id ≠ U.id := by
    intro J hJ hid
    have := (List.nodup_append.1 (List.nodup_append.1 hrest).1).2.2
    exact this (List.mem_map.2 ⟨J, hJ, rfl⟩) (by
      rw [hid]
      simp)
  have h3 : ∀ J ∈ Bs2.flatten, J.id ≠ U.id := by
    intro J hJ hid
    have := (List.nodup_append.1 hrest).2.2
    exact this (a := U.id) (by simp) (List.mem_map.2 ⟨J, hJ, hid⟩)
  unfold insertBefore
  rw [List.map_append, List.map_cons]
  have e1 : Bs1.map (insertBeforeIn New U.id) = Bs1 := by
    rw [List.map_congr_left (g := id), List.map_id]
    intro B hB
    exact insertBeforeIn_of_ne New U.id B
      (fun J hJ => h1 J (List.mem_flatten.2 ⟨B, hB, hJ⟩))
  have e2 : Bs2.map (insertBeforeIn New U.id) = Bs2 := by
    rw [List.map_congr_left (g := id), List.map_id]
    intro B hB
    exact insertBeforeIn_of_ne New U.id B
      (fun J hJ => h3 J (List.mem_flatten.2 ⟨B, hB, hJ⟩))
  rw [e1, e2, insertBeforeIn_append_left New U.id l1 _ h2, insertBeforeIn_cons_self]

theorem uniqueIds_replaceAllUsesWith (F : Function) (x : Nat) (V : Value)
    (hU : UniqueIds F) : UniqueIds (replaceAllUsesWith F x V) := by
  unfold UniqueIds
  rw [ids_replaceAllUsesWith]
  exact hU

theorem uniqueIds_insertBefore (New : Instruction) (F : Function) (U : Instruction)
    (hU : UniqueIds F) (hUm : U ∈ allInsts F) (hNew : ∀ I ∈ allInsts F, I.id ≠ New.id) :
    UniqueIds (insertBefore New U.id F) := by
  obtain ⟨Bs1, l1, l2, Bs2, hF, hins⟩ := insertBefore_split New F U hU hUm
  rw [hins]
  have hperm : List.Perm (allInsts (Bs1 ++ (l1 ++ New :: U :: l2) :: Bs2))
      (New :: allInsts (Bs1 ++ (l1 ++ U :: l2) :: Bs2)) := by
    unfold allInsts
    simp only [List.flatten_append, List.flatten_cons, List.append_assoc]
    refine (List.perm_append_left_iff Bs1.flatten).2 ?_ |>.trans List.perm_middle
    exact List.perm_middle
  unfold UniqueIds
  rw [(hperm.map _).nodup_iff, List.map_cons, List.nodup_cons, ← hF]
  refine ⟨?_, hU⟩
  intro hmem
  obtain ⟨I, hI, hid⟩ := List.mem_map.1 hmem
  exact hNew I hI hid

theorem uniqueIds_step (NA : List Nat) (F : Function) (U : Instruction) (G : Function)
    (hst : RewriteStep NA F U G) (hU : UniqueIds F) (hg : getInst F U.id = some U) :
    UniqueIds G := by
  obtain ⟨V, Fi, rfl, _, hFi⟩ := rewriteStep_shape NA F U G hst
  apply uniqueIds_replaceAllUsesWith
  rcases hFi with rfl | ⟨t, _, rfl⟩
  · exact hU
  · refine uniqueIds_insertBefore _ F U hU (getInst_some F U.id U hg).1 ?_
    intro I hI
    have := id_lt_freshId F I hI
    show I.id ≠ freshId F
    omega

theorem uniqueIds_rewriteUsers (NA us : List Nat) (Fc : Function)
    (r : Function × List Nat) (h : rewriteUsers NA us Fc = Except.ok r)
    (hU : UniqueIds Fc) : UniqueIds r.1 :=
  rewriteUsers_inv NA us UniqueIds
    (fun F U G hP _ hg hst => uniqueIds_step NA F U G hst hP hg) us (fun _ h => h) Fc r h hU

theorem uniqueIds_of_shape (pre post News : List Instruction) (rest : Function)
    (hU : UniqueIds ((pre ++ post) :: rest)) (hnd : (News.map (fun A => A.id)).Nodup)
    (hfresh : ∀ I ∈ allInsts ((pre ++ post) :: rest), I.id ∉ News.map (fun A => A.id)) :
    UniqueIds ((pre ++ News ++ post) :: rest) := by
  have hperm : List.Perm (allInsts ((pre ++ News ++ post) :: rest))
      (News ++ allInsts ((pre ++ post) :: rest)) := by
    unfold allInsts
    simp only [List.flatten_cons, List.append_assoc]
    exact List.perm_append_comm_assoc _ _ _
  unfold UniqueIds
  rw [(hperm.map _).nodup_iff, List.map_append, List.nodup_append]
  refine ⟨hnd, hU, ?_⟩
  intro x hx hx2
  obtain ⟨I, hI, rfl⟩ := List.mem_map.1 hx2
  exact hfresh I hI hx

/-! ## SROA: the round of one user -/

/-- What one round does, by the kind of the user. -/
theorem rewriteStep_cases (NA : List Nat) (F : Function) (U : Instruction) (G : Function)
    (h : RewriteStep NA F U G) :
    ∃ (V : Value) (Fi : Function), G = replaceAllUsesWith Fi U.id V
      ∧ (V = Value.constantInt 0 ∨ V = Value.constantInt 1 ∨ (∃ t ∈ NA, V = Value.inst t)
        ∨ V = Value.inst (freshId F))
      ∧ (Fi = F ∨ ∃ t ∈ NA, Fi = insertBefore (NewGEPI F U t) U.id F)
      ∧ ((U.opcode = Opcode.cmp Predicate.ICMP_EQ ∧ V = Value.constantInt 0)
        ∨ (U.opcode = Opcode.cmp Predicate.ICMP_NE ∧ V = Value.constantInt 1)
        ∨ ∃ k t, U.opcode = Opcode.getElementPtr
            ∧ U.getOperand 2 = some (Value.constantInt (Int.ofNat k)) ∧ NA[k]? = some t
            ∧ ((U.operands.length = 3 ∧ V = Value.inst t ∧ Fi = F)
              ∨ (3 < U.operands.length ∧ V = Value.inst (freshId F)
                ∧ Fi = insertBefore (NewGEPI F U t) U.id F))) := by
  rcases h with ⟨hg, h⟩ | ⟨_, h⟩
  · obtain ⟨k, t, _, hk, ht, h2⟩ := replaceU1_ok F G U NA h
    have htm : t ∈ NA := List.getElem?_mem ht
    rcases h2 with ⟨h3, rfl⟩ | ⟨h3, rfl⟩
    · exact ⟨_, F, rfl, Or.inr (Or.inr (Or.inl ⟨t, htm, rfl⟩)), Or.inl rfl,
        Or.inr (Or.inr ⟨k, t, hg, hk, ht, Or.inl ⟨h3, rfl, rfl⟩⟩)⟩
    · exact ⟨_, _, rfl, Or.inr (Or.inr (Or.inr rfl)), Or.inr ⟨t, htm, rfl⟩,
        Or.inr (Or.inr ⟨k, t, hg, hk, ht, Or.inr ⟨h3, rfl, rfl⟩⟩)⟩
  · rcases replaceU2_ok F G U h with ⟨ho, rfl⟩ | ⟨ho, rfl⟩
    · exact ⟨_, F, rfl, Or.inl rfl, Or.inl rfl, Or.inl ⟨ho, rfl⟩⟩
    · exact ⟨_, F, rfl, Or.inr (Or.inl rfl), Or.inl rfl, Or.inr (Or.inl ⟨ho, rfl⟩)⟩

theorem nodup_user_ids (F : Function) (hU : UniqueIds F) (V : Value) :
    ((users F V).map (fun U => U.id)).Nodup := by
  unfold users
  exact List.Nodup.sublist (List.Sublist.map _ (List.filter_sublist _)) hU

theorem NewGEPI_operands (F : Function) (U : Instruction) (t : Nat)
    (h1 : U.getOperand 1 = some (Value.constantInt 0)) :
    (NewGEPI F U t).operands
      = Value.inst t :: Value.constantInt 0 :: U.operands.drop 3 := by
  unfold NewGEPI
  simp only [List.cons.injEq, true_and]
  unfold Instruction.getOperand at h1
  match hops : U.operands with
  | [] => rw [hops] at h1; simp at h1
  | [_] => rw [hops] at h1; simp at h1
  | _ :: b :: rest =>
    rw [hops] at h1
    simp only [List.getElem?_cons_succ, List.getElem?_cons_zero, Option.some.injEq] at h1
    simp [h1]

/-- In a run of `eliminateStructAlloca` on an eligible allocation every user has its
round: the user is unchanged when its round comes, the identities are distinct, and
after the run every instruction that used the user has, in the same operand
position, the value the round put in. -/
theorem round_of_user (F : Function) (hU : UniqueIds F) (AI : Instruction)
    (hAI : AI ∈ allInsts F) (fs : List Ty) (ho : AI.opcode = Opcode.alloca (Ty.struct fs))
    (hel : canBeEliminatedStructAlloca F AI = true) (G : Function) (subs : List Nat)
    (hok : eliminateStructAlloca F AI.id = Except.ok (G, subs))
    (U : Instruction) (hUm : U ∈ users F (Value.inst AI.id)) :
    ∃ (Fi Gi : Function) (V : Value),
      getInst Fi U.id = some U ∧ UniqueIds Fi
      ∧ (∀ I ∈ allInsts F, ∃ J ∈ allInsts Fi, J.id = I.id)
      ∧ RewriteStep ((createFieldAllocas
          ((getFirstNonPHI (getEntryBlock F)).map (fun I => I.id)) fs F).2.map
            (fun A => A.id)) Fi U Gi
      ∧ ((U.opcode = Opcode.cmp Predicate.ICMP_EQ ∧ V = Value.constantInt 0)
        ∨ (U.opcode = Opcode.cmp Predicate.ICMP_NE ∧ V = Value.constantInt 1)
        ∨ ∃ k t, U.opcode = Opcode.getElementPtr
            ∧ U.getOperand 2 = some (Value.constantInt (Int.ofNat k))
            ∧ ((createFieldAllocas
                ((getFirstNonPHI (getEntryBlock F)).map (fun I => I.id)) fs F).2.map
                  (fun A => A.id))[k]? = some t
            ∧ ((U.operands.length = 3 ∧ V = Value.inst t)
              ∨ (3 < U.operands.length ∧ V = Value.inst (freshId Fi)
                ∧ NewGEPI Fi U t ∈ allInsts Gi)))
      ∧ (∀ N ∈ allInsts Gi, (∀ o ∈ N.operands, o.isConstant = true
            ∨ ∃ t ∈ (createFieldAllocas
                ((getFirstNonPHI (getEntryBlock F)).map (fun I => I.id)) fs F).2.map
                  (fun A => A.id), o = Value.inst t) →
          N.id ∉ (users F (Value.inst AI.id)).map (fun U => U.id) → N.id ≠ AI.id →
          N ∈ allInsts G)
      ∧ ∀ W ∈ allInsts F, W.id ≠ AI.id → ∀ i, W.getOperand i = some (Value.inst U.id) →
          ∃ W2 ∈ allInsts G, W2.id = W.id ∧ W2.opcode = W.opcode
            ∧ W2.getOperand i = some V := by
  obtain ⟨pre, post, rest, News, Fr, hF, hpre, hC, hops, hnews, hnd, hrw, hG, _⟩ :=
    eliminate_run F hU AI hAI fs ho G subs hok
  obtain ⟨haus, haNA, husNA, hold⟩ := eliminate_ids F hU AI hAI hel News
    (fun A hA => (hnews A hA).2.2)
  rw [hC]
  simp only
  have hF1 : (createFieldAllocas ((getFirstNonPHI (getEntryBlock F)).map (fun I => I.id))
      fs F).1 = (pre ++ News ++ post) :: rest := by rw [hC]
  have hmemF1 : ∀ I ∈ allInsts F, I ∈ allInsts ((pre ++ News ++ post) :: rest) := by
    intro I hI
    rw [← hF1]
    exact mem_createFieldAllocas_of_mem _ fs F I hI
  have hgood : ∀ u ∈ (users F (Value.inst AI.id)).map (fun U => U.id),
      ∃ U, getInst ((pre ++ News ++ post) :: rest) u = some U
        ∧ ∀ o ∈ U.operands, o = Value.inst AI.id ∨ o.isConstant = true := by
    intro u hu
    obtain ⟨U2, hU2, rfl⟩ := List.mem_map.1 hu
    refine ⟨U2, ?_, (user_shape_of_eligible F AI U2 hel hU2).2⟩
    rw [← hF1]
    exact getInst_createFieldAllocas _ fs F hU U2 ((mem_users F _ U2).1 hU2).1
  have hUid : U.id ∈ (users F (Value.inst AI.id)).map (fun U => U.id) :=
    List.mem_map.2 ⟨U, hUm, rfl⟩
  obtain ⟨done, later, hsplit⟩ := List.append_of_mem hUid
  have hndus := nodup_user_ids F hU (Value.inst AI.id)
  rw [hsplit] at hndus
  have hUdone : U.id ∉ done := fun h =>
    (List.nodup_append.1 hndus).2.2 h (List.mem_cons_self _ _)
  have hUlater : U.id ∉ later :=
    (List.nodup_cons.1 (List.nodup_append.1 hndus).2.1).1
  rw [hsplit] at hrw
  obtain ⟨Fi, U2, Gi, hdone, hgi, hst, hlater⟩ := rewriteUsers_split _ done U.id later _ _ hrw
  have hsub1 : ∀ u ∈ done, u ∈ (users F (Value.inst AI.id)).map (fun U => U.id) := by
    intro u hu
    rw [hsplit]
    exact List.mem_append_left _ hu
  have hsub2 : ∀ u ∈ later, u ∈ (users F (Value.inst AI.id)).map (fun U => U.id) := by
    intro u hu
    rw [hsplit]
    exact List.mem_append_right _ (List.mem_cons_of_mem _ hu)
  have hstab := (rewriteUsers_inv_stable AI.id (News.map (fun A => A.id)) _ _ hgood haus
    (fun _ => True) (fun _ _ _ _ _ _ _ _ => trivial) done hsub1 _ _ hdone
    (fun _ _ => rfl) trivial).2
  have hU2 : U2 = U := by
    have h1 := hstab U.id hUid
    have h2 : getInst ((pre ++ News ++ post) :: rest) U.id = some U := by
      rw [← hF1]
      exact getInst_createFieldAllocas _ fs F hU U ((mem_users F _ U).1 hUm).1
    simp only at h1
    rw [hgi, h2] at h1
    exact Option.some.inj h1
  subst hU2
  have hUF1 : UniqueIds ((pre ++ News ++ post) :: rest) := by
    refine uniqueIds_of_shape pre post News rest (hF ▸ hU) hnd ?_
    intro I hI
    exact hold I (hF ▸ hI)
  have hUFi : UniqueIds Fi := uniqueIds_rewriteUsers _ done _ _ hdone hUF1
  have hpersist : ∀ I ∈ allInsts F, ∃ J ∈ allInsts Fi, J.id = I.id := by
    intro I hI
    obtain ⟨J, hJ, hid, _⟩ := hasInst_rewriteUsers _ done _ _ hdone I.id I.opcode
      ⟨I, hmemF1 I hI, rfl, rfl⟩
    exact ⟨J, hJ, hid⟩
  obtain ⟨V, Fi2, hGi, hV, hFi2, hprec⟩ := rewriteStep_cases _ Fi U2 Gi hst
  have hVlater : ∀ x ∈ later, V ≠ Value.inst x := by
    intro x hx
    rcases hV with h1 | h1 | ⟨t, ht, h1⟩ | h1
    · rw [h1]
      exact fun hh => Value.noConfusion hh
    · rw [h1]
      exact fun hh => Value.noConfusion hh
    · rw [h1]
      intro hh
      exact husNA x (hsub2 x hx) (Value.inst.inj hh ▸ ht)
    · rw [h1]
      intro hh
      obtain ⟨Ux, hUx, rfl⟩ := List.mem_map.1 (hsub2 x hx)
      obtain ⟨J, hJ, hid⟩ := hpersist Ux ((mem_users F _ Ux).1 hUx).1
      have := id_lt_freshId Fi J hJ
      have := Value.inst.inj hh
      omega
  refine ⟨Fi, Gi, V, hgi, hUFi, hpersist, hst, ?_, ?_, ?_⟩
  · rcases hprec with h | h | ⟨k, t, hg, hk, ht, h3 | ⟨h3, hV2, hFi3⟩⟩
    · exact Or.inl h
    · exact Or.inr (Or.inl h)
    · exact Or.inr (Or.inr ⟨k, t, hg, hk, ht, Or.inl ⟨h3.1, h3.2.1⟩⟩)
    · refine Or.inr (Or.inr ⟨k, t, hg, hk, ht, Or.inr ⟨h3, hV2, ?_⟩⟩)
      obtain ⟨Bs1, l1, l2, Bs2, _, hins⟩ := insertBefore_split (NewGEPI Fi U2 t) Fi U2 hUFi
        (getInst_some Fi U2.id U2 hgi).1
      have hmem : NewGEPI Fi U2 t ∈ allInsts Fi2 := by
        rw [hFi3, hins]
        simp [allInsts]
      rw [hGi, allInsts_replaceAllUsesWith]
      refine List.mem_map.2 ⟨_, hmem, replaceUsesOfWith_eq_self _ U2.id V ?_⟩
      intro hm
      rcases mem_NewGEPI_operands Fi U2 t _ hm with h | h
      · exact husNA U2.id hUid (Value.inst.inj h ▸ List.getElem?_mem ht)
      · have := (gep_user_shape F AI U2 hel hUm hg).2.2.2.2 _ h
        simp [Value.isConstant] at this
  · intro N hN hNops hNus hNa
    have : N ∈ allInsts Fr := by
      refine inst_persists _ later Gi _ hlater N ?_ hN
      intro x hx hmem
      rcases hNops _ hmem with h | ⟨t, ht, h⟩
      · simp [Value.isConstant] at h
      · exact husNA x (hsub2 x hx) (Value.inst.inj h ▸ ht)
    rw [hG, allInsts_erased]
    exact ⟨this, hNus, hNa⟩
  · intro W hW hWa i hget
    have h1 := operand_persists _ done _ _ hdone W.id W.opcode i (Value.inst U2.id)
      (fun x hx hh => hUdone (Value.inst.inj hh ▸ hx)) ⟨W, hmemF1 W hW, rfl, rfl, hget⟩
    obtain ⟨W1, hW1, hid1, hop1, hget1⟩ := h1
    have hW1i : W1 ∈ allInsts Fi2 := by
      rcases hFi2 with rfl | ⟨t, _, rfl⟩
      · exact hW1
      · exact mem_allInsts_insertBefore_of_mem _ _ _ W1 hW1
    have h2 : ∃ W2 ∈ allInsts Gi, W2.id = W.id ∧ W2.opcode = W.opcode
        ∧ W2.getOperand i = some V := by
      refine ⟨W1.replaceUsesOfWith U2.id V, ?_, hid1, hop1, ?_⟩
      · rw [hGi, allInsts_replaceAllUsesWith]
        exact List.mem_map.2 ⟨W1, hW1i, rfl⟩
      · rw [getOperand_replaceUsesOfWith W1 i U2.id V _ hget1, if_pos rfl]
    obtain ⟨W3, hW3, hid3, hop3, hget3⟩ :=
      operand_persists _ later Gi _ hlater W.id W.opcode i V hVlater h2
    refine ⟨W3, ?_, hid3, hop3, hget3⟩
    rw [hG, allInsts_erased]
    refine ⟨hW3, ?_, by rw [hid3]; exact hWa⟩
    rw [hid3]
    intro hmem
    obtain ⟨Uw, hUw, hidw⟩ := List.mem_map.1 hmem
    have hWeq := eq_of_id_eq F hU Uw W ((mem_users F _ Uw).1 hUw).1 hW hidw
    have hopsw := (user_shape_of_eligible F AI Uw hel hUw).2 (Value.inst U2.id)
      (by rw [hWeq]; exact mem_operands_of_getOperand W i _ hget)
    rcases hopsw with h | h
    · exact haus (Value.inst.inj h ▸ hUid)
    · simp [Value.isConstant] at h

theorem nested_hidx : ∀ U ∈ users nested (Value.inst 1), U.opcode = Opcode.getElementPtr →
    ∃ k, k < [Ty.int, pairTy].length
      ∧ U.getOperand 2 = some (Value.constantInt (Int.ofNat k)) := by
  have hu : users nested (Value.inst 1)
      = [fieldAddr 2 1 0,
         mkInst 4 Opcode.getElementPtr
           [Value.inst 1, Value.constantInt 0, Value.constantInt 1, Value.constantInt 1],
         mkInst 6 Opcode.getElementPtr
           [Value.inst 1, Value.constantInt 0, Value.constantInt 1, Value.constantInt 0],
         mkInst 8 (Opcode.cmp Predicate.ICMP_EQ) [Value.inst 1, Value.constantPointerNull],
         mkInst 10 (Opcode.cmp Predicate.ICMP_NE) [Value.constantPointerNull, Value.inst 1]] := by
    decide
  intro U hU hg
  rw [hu] at hU
  simp only [List.mem_cons, List.mem_singleton, List.not_mem_nil, or_false] at hU
  rcases hU with rfl | rfl | rfl | rfl | rfl
  · exact ⟨0, by decide, rfl⟩
  · exact ⟨1, by decide, rfl⟩
  · exact ⟨1, by decide, rfl⟩
  · exact absurd hg (by decide)
  · exact absurd hg (by decide)

end SROA

namespace SROA

/-! ## SROA: C25 and C26 -/

/-- C25: `isU2TypeEqOrNe` returns true if and only if the comparison has the
predicate integer-equal or integer-not-equal and two operands, one of which is the
value and the other the null-pointer constant, in either order; it returns false
for a comparison with another predicate and for a comparison in which neither
operand is the null-pointer constant, such as a comparison of the value with
itself; and a comparison among the users of an allocation that it rejects makes
`canBeEliminatedStructAlloca` false. -/
theorem isU2TypeEqOrNe_spec (CI : Instruction) (V : Value) :
    (isU2TypeEqOrNe CI V = true ↔
      ∃ p a b, CI.opcode = Opcode.cmp p ∧ (p = Predicate.ICMP_EQ ∨ p = Predicate.ICMP_NE)
        ∧ CI.operands = [a, b]
        ∧ ((a = V ∧ b = Value.constantPointerNull)
          ∨ (b = V ∧ a = Value.constantPointerNull)))
    ∧ (CI.opcode = Opcode.cmp Predicate.other → isU2TypeEqOrNe CI V = false)
    ∧ (∀ a b, CI.operands = [a, b] → a ≠ Value.constantPointerNull →
        b ≠ Value.constantPointerNull → isU2TypeEqOrNe CI V = false)
    ∧ (∀ (F : Function) (AI : Instruction), CI ∈ users F (Value.inst AI.id) →
        (∃ p, CI.opcode = Opcode.cmp p) → isU2TypeEqOrNe CI (Value.inst AI.id) = false →
        canBeEliminatedStructAlloca F AI = false)
    ∧ isU2TypeEqOrNe (mkInst 2 (Opcode.cmp Predicate.ICMP_NE)
        [Value.constantPointerNull, Value.inst 1]) (Value.inst 1) = true
    ∧ isU2TypeEqOrNe (mkInst 2 (Opcode.cmp Predicate.other)
        [Value.inst 1, Value.constantPointerNull]) (Value.inst 1) = false
    ∧ isU2TypeEqOrNe (mkInst 2 (Opcode.cmp Predicate.ICMP_EQ)
        [Value.inst 1, Value.inst 1]) (Value.inst 1) = false
    ∧ canBeEliminatedStructAlloca
        [[mkInst 1 (Opcode.alloca pairTy) [],
          mkInst 2 (Opcode.cmp Predicate.other) [Value.inst 1, Value.constantPointerNull]]]
        (mkInst 1 (Opcode.alloca pairTy) []) = false := by
  refine ⟨isU2TypeEqOrNe_true_iff CI V, ?_, ?_, ?_, by decide, by decide, by decide,
    by decide⟩
  · intro ho
    cases h : isU2TypeEqOrNe CI V with
    | false => rfl
    | true =>
      obtain ⟨p, a, b, hp, hpe, _⟩ := (isU2TypeEqOrNe_true_iff CI V).1 h
      rw [ho] at hp
      simp only [Opcode.cmp.injEq] at hp
      subst hp
      rcases hpe with h | h <;> exact Predicate.noConfusion h
  · intro a b hops ha hb
    cases h : isU2TypeEqOrNe CI V with
    | false => rfl
    | true =>
      obtain ⟨p, a2, b2, _, _, hab, hcase⟩ := (isU2TypeEqOrNe_true_iff CI V).1 h
      rw [hops] at hab
      simp only [List.cons.injEq, and_true] at hab
      obtain ⟨rfl, rfl⟩ := hab
      rcases hcase with ⟨_, h1⟩ | ⟨_, h1⟩
      · exact absurd h1 hb
      · exact absurd h1 ha
  · rintro F AI hCI ⟨p, ho⟩ h
    exact canBeEliminated_false_of_cmp F AI CI hCI p ho h

/-- C30, the part the code has and the input on which it fails: on an eligible
allocation whose field addresses select fields by integer constants,
`eliminateStructAlloca` ends with a result; afterwards the allocation and its former
users are not in the function, no remaining instruction has the allocation or one
of the deleted users as an operand, and each of them was erased with an empty use
list: when a queued user is erased nothing in the function uses it, and when the
allocation is erased nothing uses the allocation. Eligibility does not give the
condition on the field addresses: the allocation of `undefLoaded` is eligible and
one of its field addresses has a field index that is a constant but not an integer
constant; `eliminateStructAlloca` stops at the assertion "the third argument of U1
Type must be a ConstantInt" and there is no function in which the allocation and
its users are deleted. -/
theorem eliminateStructAlloca_erases :
    (∀ (F : Function) (AI : Instruction) (fs : List Ty)
      (_ : UniqueIds F) (_ : AI ∈ allInsts F)
      (_ : AI.opcode = Opcode.alloca (Ty.struct fs))
      (_ : canBeEliminatedStructAlloca F AI = true)
      (_ : ∀ U ∈ users F (Value.inst AI.id), U.opcode = Opcode.getElementPtr →
        ∃ k, k < fs.length ∧ U.getOperand 2 = some (Value.constantInt (Int.ofNat k))),
      ∃ (G : Function) (subs : List Nat) (Fr : Function),
        eliminateStructAlloca F AI.id = Except.ok (G, subs)
        ∧ (∀ I ∈ allInsts G, I.id ≠ AI.id)
        ∧ (∀ U ∈ users F (Value.inst AI.id), ∀ I ∈ allInsts G, I.id ≠ U.id)
        ∧ (∀ I ∈ allInsts G, Value.inst AI.id ∉ I.operands
            ∧ ∀ U ∈ users F (Value.inst AI.id), Value.inst U.id ∉ I.operands)
        ∧ rewriteUsers
            ((createFieldAllocas ((getFirstNonPHI (getEntryBlock F)).map (fun I => I.id))
              fs F).2.map (fun A => A.id))
            ((users F (Value.inst AI.id)).map (fun U => U.id))
            (createFieldAllocas ((getFirstNonPHI (getEntryBlock F)).map (fun I => I.id))
              fs F).1
            = Except.ok (Fr, (users F (Value.inst AI.id)).map (fun U => U.id))
        ∧ G = eraseFromParent
            (eraseUsers ((users F (Value.inst AI.id)).map (fun U => U.id)) Fr) AI.id
        ∧ (∀ done u rest, (users F (Value.inst AI.id)).map (fun U => U.id)
              = done ++ u :: rest →
            users (eraseUsers done Fr) (Value.inst u) = [])
        ∧ users (eraseUsers ((users F (Value.inst AI.id)).map (fun U => U.id)) Fr)
            (Value.inst AI.id) = [])
    ∧ UniqueIds undefLoaded
    ∧ mkInst 1 (Opcode.alloca pairTy) [] ∈ allInsts undefLoaded
    ∧ canBeEliminatedStructAlloca undefLoaded (mkInst 1 (Opcode.alloca pairTy) []) = true
    ∧ (users undefLoaded (Value.inst 1)).map (fun U => U.id) = [2, 3]
    ∧ eliminateStructAlloca undefLoaded 1 = Except.error Failure.fieldNotConstantInt
    ∧ replaceStructAllocsWithIndividualFields undefLoaded
        = Except.error Failure.fieldNotConstantInt := by
  refine ⟨?_, by decide, by decide, by decide, by decide, by decide, by decide⟩
  intro F AI fs hU hAI ho hel hidx
  obtain ⟨G, subs, hok⟩ := eliminate_ok F hU AI hAI fs ho hel hidx
  obtain ⟨pre, post, rest, News, Fr, hF, hpre, hC, hops, hnews, _, hrw, hG, _⟩ :=
    eliminate_run F hU AI hAI fs ho G subs hok
  obtain ⟨hQ, hno, _, _⟩ :=
    eliminate_facts F hU AI hAI hel pre post News rest Fr fs hF hpre hC hops hnews hrw
  refine ⟨G, subs, Fr, hok, ?_, ?_, ?_, ?_, hG, ?_, ?_⟩
  · intro I hI
    rw [hG, allInsts_erased] at hI
    exact hI.2.2
  · intro U hUm I hI hid
    rw [hG, allInsts_erased] at hI
    exact hI.2.1 (hid ▸ List.mem_map.2 ⟨U, hUm, rfl⟩)
  · intro I hI
    rw [hG, allInsts_erased] at hI
    refine ⟨fun hmem => hI.2.1 (hQ I hI.1 hmem), ?_⟩
    intro U hUm
    exact hno U.id (List.mem_map.2 ⟨U, hUm, rfl⟩) I hI.1
  · rw [hC]
    exact hrw
  · intro done u rest2 hsplit
    apply users_eraseUsers_nil
    intro I hI hmem
    exact absurd hmem (hno u (by rw [hsplit]; simp) I hI)
  · exact users_eraseUsers_nil _ Fr _ hQ

/-- C27, the part the code has and the input on which it fails: on an eligible
allocation of a structure with N fields whose field addresses select fields by
integer constants, `eliminateStructAlloca` ends with a result and creates exactly N
new allocations, the i-th of the type of field i, with new and pairwise distinct
identities; afterwards they stand in the entry block, in field order and next to
each other, and only phis stand before them; the allocations of the function are
the new ones followed by the former ones without the eliminated allocation, so
their number changes by N - 1. Eligibility does not give the condition on the field
addresses: the allocation of `undefIndex` is eligible and its field address has a
field index that is a constant but not an integer constant; `eliminateStructAlloca`
stops at the assertion "the third argument of U1 Type must be a ConstantInt" and
there is no function in which the number of allocations has changed by N - 1. -/
theorem eliminateStructAlloca_allocas :
    (∀ (F : Function) (AI : Instruction) (fs : List Ty)
      (_ : UniqueIds F) (_ : AI ∈ allInsts F)
      (_ : AI.opcode = Opcode.alloca (Ty.struct fs))
      (_ : canBeEliminatedStructAlloca F AI = true)
      (_ : ∀ U ∈ users F (Value.inst AI.id), U.opcode = Opcode.getElementPtr →
        ∃ k, k < fs.length ∧ U.getOperand 2 = some (Value.constantInt (Int.ofNat k))),
      ∃ (G : Function) (subs : List Nat) (News pre post : List Instruction),
        eliminateStructAlloca F AI.id = Except.ok (G, subs)
        ∧ News.map (fun A => A.opcode) = fs.map Opcode.alloca
        ∧ News.length = fs.length
        ∧ (News.map (fun A => A.id)).Nodup
        ∧ (∀ A ∈ News, ∀ I ∈ allInsts F, I.id ≠ A.id)
        ∧ getEntryBlock G = pre ++ News ++ post
        ∧ (∀ J ∈ pre, J.opcode = Opcode.phi)
        ∧ allocaTypes G
            = allocaTypes [News] ++ (allocaTypes F).filter (fun e => decide (e.1 ≠ AI.id))
        ∧ countAllocas G + 1 = countAllocas F + fs.length)
    ∧ UniqueIds undefIndex
    ∧ mkInst 1 (Opcode.alloca pairTy) [] ∈ allInsts undefIndex
    ∧ canBeEliminatedStructAlloca undefIndex (mkInst 1 (Opcode.alloca pairTy) []) = true
    ∧ countAllocas undefIndex = 1
    ∧ eliminateStructAlloca undefIndex 1 = Except.error Failure.fieldNotConstantInt
    ∧ replaceStructAllocsWithIndividualFields undefIndex
        = Except.error Failure.fieldNotConstantInt := by
  refine ⟨?_, by decide, by decide, by decide, by decide, by decide, by decide⟩
  intro F AI fs hU hAI ho hel hidx
  obtain ⟨G, subs, hok⟩ := eliminate_ok F hU AI hAI fs ho hel hidx
  obtain ⟨pre, post, rest, News, Fr, hF, hpre, hC, hops, hnews, hnd, hrw, hG, _⟩ :=
    eliminate_run F hU AI hAI fs ho G subs hok
  obtain ⟨_, _, hat, pre2, post2, hentry, hpre2⟩ :=
    eliminate_facts F hU AI hAI hel pre post News rest Fr fs hF hpre hC hops hnews hrw
  obtain ⟨haus, haNA, husNA, hold⟩ := eliminate_ids F hU AI hAI hel News
    (fun A hA => (hnews A hA).2.2)
  have hlen : News.length = fs.length := by
    have := congrArg List.length hops
    simpa using this
  have hnewsId : ∀ A ∈ News, A.id ∉ (users F (Value.inst AI.id)).map (fun U => U.id)
      ∧ A.id ≠ AI.id := by
    intro A hA
    have hAm : A.id ∈ News.map (fun A => A.id) := List.mem_map.2 ⟨A, hA, rfl⟩
    exact ⟨fun h => husNA A.id h hAm, fun h => haNA (h ▸ hAm)⟩
  have hat2 : allocaTypes G
      = allocaTypes [News] ++ (allocaTypes F).filter (fun e => decide (e.1 ≠ AI.id)) := by
    rw [hG, allocaTypes_eraseFromParent, allocaTypes_eraseUsers, hat, List.filter_append,
      List.filter_append]
    have h1 : ∀ e ∈ allocaTypes [News],
        e.1 ∉ (users F (Value.inst AI.id)).map (fun U => U.id) ∧ e.1 ≠ AI.id := by
      intro e he
      obtain ⟨A, hA, hid, _⟩ := (mem_allocaTypes_iff _ e).1 he
      have hA2 : A ∈ News := by simpa [allInsts] using hA
      rw [← hid]
      exact hnewsId A hA2
    have h2 : ∀ e ∈ allocaTypes F,
        e.1 ∉ (users F (Value.inst AI.id)).map (fun U => U.id) := by
      intro e he hmem
      obtain ⟨I, hI, hid, hop⟩ := (mem_allocaTypes_iff _ e).1 he
      obtain ⟨U2, hU2, hid2⟩ := List.mem_map.1 hmem
      have := eq_of_id_eq F hU U2 I ((mem_users F _ U2).1 hU2).1 hI (hid2.trans hid.symm)
      have hs := (user_shape_of_eligible F AI U2 hel hU2).1
      rw [this, hop] at hs
      rcases hs with ⟨h, _⟩ | h | h <;> exact Opcode.noConfusion h
    have e1 : (allocaTypes [News]).filter
        (fun e => decide (e.1 ∉ (users F (Value.inst AI.id)).map (fun U => U.id)))
        = allocaTypes [News] :=
      List.filter_eq_self.2 (fun e he => decide_eq_true (h1 e he).1)
    have e2 : (allocaTypes [News]).filter (fun e => decide (e.1 ≠ AI.id))
        = allocaTypes [News] :=
      List.filter_eq_self.2 (fun e he => decide_eq_true (h1 e he).2)
    have e3 : (allocaTypes F).filter
        (fun e => decide (e.1 ∉ (users F (Value.inst AI.id)).map (fun U => U.id)))
        = allocaTypes F :=
      List.filter_eq_self.2 (fun e he => decide_eq_true (h2 e he))
    rw [e1, e2, e3]
  refine ⟨G, subs, News,
    (pre2.filter (fun I => decide (I.id ∉ (users F (Value.inst AI.id)).map (fun U => U.id)))).filter
      (fun I => decide (I.id ≠ AI.id)),
    (post2.filter (fun I => decide (I.id ∉ (users F (Value.inst AI.id)).map (fun U => U.id)))).filter
      (fun I => decide (I.id ≠ AI.id)),
    hok, hops, hlen, hnd, ?_, ?_, ?_, hat2, ?_⟩
  · intro A hA I hI hid
    exact hold I hI (hid ▸ List.mem_map.2 ⟨A, hA, rfl⟩)
  · rw [hG, getEntryBlock_eraseFromParent, getEntryBlock_eraseUsers, hentry,
      List.filter_append, List.filter_append, List.filter_append, List.filter_append]
    have e1 : News.filter
        (fun I => decide (I.id ∉ (users F (Value.inst AI.id)).map (fun U => U.id)))
        = News :=
      List.filter_eq_self.2 (fun A hA => decide_eq_true (hnewsId A hA).1)
    have e2 : News.filter (fun I => decide (I.id ≠ AI.id)) = News :=
      List.filter_eq_self.2 (fun A hA => decide_eq_true (hnewsId A hA).2)
    rw [e1, e2]
  · intro J hJ
    exact hpre2 J (List.mem_of_mem_filter (List.mem_of_mem_filter hJ))
  · rw [countAllocas_eq, countAllocas_eq, hat2, List.length_append,
      length_allocaTypes_news News (news_isAlloca News fs hops), hlen]
    have hkey : AI.id ∈ (allocaTypes F).map (fun e => e.1) :=
      List.mem_map.2 ⟨(AI.id, Ty.struct fs),
        (mem_allocaTypes_iff F _).2 ⟨AI, hAI, rfl, ho⟩, rfl⟩
    have hndF : ((allocaTypes F).map (fun e => e.1)).Nodup :=
      List.Nodup.sublist (allocaTypes_keys_sublist (allInsts F)) hU
    have := length_filter_ne (allocaTypes F) AI.id hndF hkey
    omega

/-- C28, the part the code has and the input on which it fails: in a run of
`eliminateStructAlloca` on an eligible allocation whose field addresses select
fields by integer constants, take a field address `GEPI` of the allocation with the
indices (0, k, t1, ..., tm) and let `A` be the k-th new allocation, of the type of
field k. Its round, in every function that holds it, replaces its uses with `A`
when m = 0; when m >= 1 it puts a new field address with the base `A` and the
indices (0, t1, ..., tm), of a new identity, immediately before `GEPI` and replaces
the uses of `GEPI` with it. After the run every instruction that had `GEPI` as an
operand has, in the same position, `A` when m = 0 and the new field address, which
is in the function, when m >= 1. Eligibility does not give the condition on the
field addresses: in `undefSibling` the field address 3 has the indices (0, 0) and
is used by the store 4, the allocation is eligible, and another field address of it
has a field index that is a constant but not an integer constant;
`eliminateStructAlloca` stops at the assertion "the third argument of U1 Type must
be a ConstantInt" and there is no function in which the store refers to the new
allocation. -/
theorem replaceU1TypeGetElementPtr_redirects :
    (∀ (F : Function) (AI : Instruction)
      (fs : List Ty) (_ : UniqueIds F) (_ : AI ∈ allInsts F)
      (_ : AI.opcode = Opcode.alloca (Ty.struct fs))
      (_ : canBeEliminatedStructAlloca F AI = true)
      (_ : ∀ U ∈ users F (Value.inst AI.id), U.opcode = Opcode.getElementPtr →
        ∃ k, k < fs.length ∧ U.getOperand 2 = some (Value.constantInt (Int.ofNat k)))
      (GEPI : Instruction) (_ : GEPI ∈ users F (Value.inst AI.id))
      (_ : GEPI.opcode = Opcode.getElementPtr) (k : Nat)
      (_ : GEPI.getOperand 2 = some (Value.constantInt (Int.ofNat k))),
      ∃ (G : Function) (subs : List Nat) (News : List Instruction) (A : Instruction)
        (ty : Ty),
        eliminateStructAlloca F AI.id = Except.ok (G, subs)
        ∧ (createFieldAllocas ((getFirstNonPHI (getEntryBlock F)).map (fun I => I.id))
            fs F).2 = News
        ∧ News[k]? = some A ∧ fs[k]? = some ty ∧ A.opcode = Opcode.alloca ty
        ∧ A ∈ allInsts G
        ∧ GEPI.operands = Value.inst AI.id :: Value.constantInt 0
            :: Value.constantInt (Int.ofNat k) :: GEPI.operands.drop 3
        ∧ (∀ Fx : Function, UniqueIds Fx → GEPI ∈ allInsts Fx →
            (GEPI.operands.length = 3 →
              replaceU1TypeGetElementPtr Fx GEPI (News.map (fun A => A.id))
                = Except.ok (replaceAllUsesWith Fx GEPI.id (Value.inst A.id)))
            ∧ (3 < GEPI.operands.length →
              ∃ (N : Instruction) (Bs1 : Function) (l1 l2 : List Instruction)
                (Bs2 : Function),
                N.opcode = Opcode.getElementPtr
                ∧ N.operands = Value.inst A.id :: Value.constantInt 0
                    :: GEPI.operands.drop 3
                ∧ (∀ I ∈ allInsts Fx, I.id ≠ N.id)
                ∧ Fx = Bs1 ++ (l1 ++ GEPI :: l2) :: Bs2
                ∧ replaceU1TypeGetElementPtr Fx GEPI (News.map (fun A => A.id))
                    = Except.ok (replaceAllUsesWith
                        (Bs1 ++ (l1 ++ N :: GEPI :: l2) :: Bs2) GEPI.id (Value.inst N.id))))
        ∧ (GEPI.operands.length = 3 →
            ∀ W ∈ allInsts F, ∀ i, W.getOperand i = some (Value.inst GEPI.id) →
              ∃ W2 ∈ allInsts G, W2.id = W.id ∧ W2.opcode = W.opcode
                ∧ W2.getOperand i = some (Value.inst A.id))
        ∧ (3 < GEPI.operands.length →
            ∃ N ∈ allInsts G, N.opcode = Opcode.getElementPtr
              ∧ N.operands = Value.inst A.id :: Value.constantInt 0
                  :: GEPI.operands.drop 3
              ∧ (∀ I ∈ allInsts F, I.id ≠ N.id)
              ∧ ∀ W ∈ allInsts F, ∀ i, W.getOperand i = some (Value.inst GEPI.id) →
                  ∃ W2 ∈ allInsts G, W2.id = W.id ∧ W2.opcode = W.opcode
                    ∧ W2.getOperand i = some (Value.inst N.id)))
    ∧ UniqueIds undefSibling
    ∧ mkInst 1 (Opcode.alloca pairTy) [] ∈ allInsts undefSibling
    ∧ canBeEliminatedStructAlloca undefSibling (mkInst 1 (Opcode.alloca pairTy) []) = true
    ∧ fieldAddr 3 1 0 ∈ users undefSibling (Value.inst 1)
    ∧ isU1TypeGetElementPtr undefSibling (fieldAddr 3 1 0) (Value.inst 1) = true
    ∧ mkInst 4 Opcode.store [Value.constantInt 7, Value.inst 3]
        ∈ users undefSibling (Value.inst (fieldAddr 3 1 0).id)
    ∧ eliminateStructAlloca undefSibling 1 = Except.error Failure.fieldNotConstantInt
    ∧ replaceStructAllocsWithIndividualFields undefSibling
        = Except.error Failure.fieldNotConstantInt := by
  refine ⟨?_, by decide, by decide, by decide, by decide, by decide, by decide, by decide, by decide⟩
  intro F AI fs hU hAI ho hel hidx GEPI hG hgep k hk
  obtain ⟨G, subs, hok⟩ := eliminate_ok F hU AI hAI fs ho hel hidx
  obtain ⟨pre, post, rest, News, Fr, hF, hpre, hC, hops, hnews, hnd, hrw, hGe, _⟩ :=
    eliminate_run F hU AI hAI fs ho G subs hok
  obtain ⟨haus, haNA, husNA, hold⟩ := eliminate_ids F hU AI hAI hel News
    (fun A hA => (hnews A hA).2.2)
  obtain ⟨hlen3, hop0, hop1, _, _⟩ := gep_user_shape F AI GEPI hel hG hgep
  have hlen : News.length = fs.length := by
    have := congrArg List.length hops
    simpa using this
  obtain ⟨k2, hk2, hk3⟩ := hidx GEPI hG hgep
  have hkk : k2 = k := by
    rw [hk3] at hk
    have := Value.constantInt.inj (Option.some.inj hk)
    exact Int.ofNat.inj this
  subst hkk
  have hkN : k2 < News.length := by omega
  have hA : News[k2]? = some News[k2] := List.getElem?_eq_getElem hkN
  have hAm : News[k2] ∈ News := List.getElem_mem hkN
  have hty : fs[k2]? = some fs[k2] := List.getElem?_eq_getElem hk2
  have hAop : News[k2].opcode = Opcode.alloca fs[k2] := by
    have h1 : (News.map (fun A => A.opcode))[k2]? = some News[k2].opcode := by
      rw [List.getElem?_map, hA]
      rfl
    rw [hops, List.getElem?_map, hty] at h1
    exact (Option.some.inj h1).symm
  have hNA : (News.map (fun A => A.id))[k2]? = some News[k2].id := by
    rw [List.getElem?_map, hA]
    rfl
  have hAG : News[k2] ∈ allInsts G := by
    rw [hGe, allInsts_erased]
    refine ⟨?_, fun h => husNA _ h (List.mem_map.2 ⟨_, hAm, rfl⟩),
      fun h => haNA (h ▸ List.mem_map.2 ⟨_, hAm, rfl⟩)⟩
    refine inst_persists _ _ _ _ hrw _ ?_ ?_
    · intro x _ hm
      rw [(hnews _ hAm).1] at hm
      simp at hm
    · simp [allInsts, hAm]
  have hshape : GEPI.operands = Value.inst AI.id :: Value.constantInt 0
      :: Value.constantInt (Int.ofNat k2) :: GEPI.operands.drop 3 := by
    unfold Instruction.getOperand at hop0 hop1 hk3
    match hops2 : GEPI.operands with
    | [] => rw [hops2] at hlen3; simp at hlen3
    | [_] => rw [hops2] at hlen3; simp at hlen3
    | [_, _] => rw [hops2] at hlen3; simp at hlen3
    | a :: b :: c :: r =>
      rw [hops2] at hop0 hop1 hk3
      simp only [List.getElem?_cons_zero, List.getElem?_cons_succ, Option.some.injEq]
        at hop0 hop1 hk3
      rw [hop0, hop1, hk3]
      rfl
  have hWa : ∀ W ∈ allInsts F, ∀ i, W.getOperand i = some (Value.inst GEPI.id) →
      W.id ≠ AI.id := by
    intro W hW i hget hid
    have hWu : W ∈ users F (Value.inst GEPI.id) :=
      (mem_users F _ W).2 ⟨hW, mem_operands_of_getOperand W i _ hget⟩
    have hWAI := eq_of_id_eq F hU W AI hW hAI hid
    have := (inChain_users F AI hel GEPI (InChain.root GEPI hG hgep)).2.2.2 W hWu
    rw [hWAI, ho] at this
    rcases this with ⟨h, _⟩ | ⟨p, h, _⟩ | ⟨h, _⟩ | ⟨h, _⟩ <;> exact Opcode.noConfusion h
  obtain ⟨Fi, Gi, V, hgi, hUFi, hpersist, hst, hcase, hkeep, huse⟩ :=
    round_of_user F hU AI hAI fs ho hel G subs hok GEPI hG
  rw [hC] at hcase hkeep
  simp only at hcase hkeep
  have hcase2 : (GEPI.operands.length = 3 ∧ V = Value.inst News[k2].id)
      ∨ (3 < GEPI.operands.length ∧ V = Value.inst (freshId Fi)
        ∧ NewGEPI Fi GEPI News[k2].id ∈ allInsts Gi) := by
    rcases hcase with ⟨h, _⟩ | ⟨h, _⟩ | ⟨k3, t, _, hk4, ht, h⟩
    · rw [hgep] at h
      exact Opcode.noConfusion h
    · rw [hgep] at h
      exact Opcode.noConfusion h
    · have hkk : k3 = k2 := by
        rw [hk3] at hk4
        have := Value.constantInt.inj (Option.some.inj hk4)
        exact (Int.ofNat.inj this).symm
      subst hkk
      rw [hNA] at ht
      have htt := Option.some.inj ht
      subst htt
      exact h
  refine ⟨G, subs, News, News[k2], fs[k2], hok, by rw [hC], hA, hty, hAop, hAG, hshape,
    ?_, ?_, ?_⟩
  · intro Fx hUx hmx
    have hstep := replaceU1_of_index Fx GEPI (News.map (fun A => A.id)) k2 News[k2].id hlen3
      hk3 hNA
    refine ⟨fun h3 => ?_, fun h3 => ?_⟩
    · rw [hstep, if_pos h3]
    · obtain ⟨Bs1, l1, l2, Bs2, hFx, hins⟩ :=
        insertBefore_split (NewGEPI Fx GEPI News[k2].id) Fx GEPI hUx hmx
      refine ⟨NewGEPI Fx GEPI News[k2].id, Bs1, l1, l2, Bs2, rfl,
        NewGEPI_operands Fx GEPI _ hop1, ?_, hFx, ?_⟩
      · intro I hI
        have := id_lt_freshId Fx I hI
        show I.id ≠ freshId Fx
        omega
      · rw [hstep, if_neg (by omega), hins]
        rfl
  · intro h3 W hW i hget
    rcases hcase2 with ⟨_, hV⟩ | ⟨h4, _⟩
    · rw [← hV]
      exact huse W hW (hWa W hW i hget) i hget
    · omega
  · intro h3
    rcases hcase2 with ⟨h4, _⟩ | ⟨_, hV, hN⟩
    · omega
    · refine ⟨NewGEPI Fi GEPI News[k2].id, ?_, rfl, NewGEPI_operands Fi GEPI _ hop1, ?_, ?_⟩
      · refine hkeep _ hN ?_ ?_ ?_
        · intro o hmo
          rw [NewGEPI_operands Fi GEPI _ hop1] at hmo
          simp only [List.mem_cons] at hmo
          rcases hmo with h | h | h
          · exact Or.inr ⟨News[k2].id, List.mem_map.2 ⟨_, hAm, rfl⟩, h⟩
          · left
            rw [h]
            rfl
          · left
            have h2 : o ∈ (GEPI.operands.drop 2).drop 1 := by
              simpa [List.drop_drop] using h
            exact (gep_user_shape F AI GEPI hel hG hgep).2.2.2.1 o (List.mem_of_mem_drop h2)
        · intro hm
          obtain ⟨Ux, hUx, hidx2⟩ := List.mem_map.1 hm
          obtain ⟨J, hJ, hid⟩ := hpersist Ux ((mem_users F _ Ux).1 hUx).1
          have := id_lt_freshId Fi J hJ
          have : (NewGEPI Fi GEPI News[k2].id).id = freshId Fi := rfl
          omega
        · intro hm
          obtain ⟨J, hJ, hid⟩ := hpersist AI hAI
          have := id_lt_freshId Fi J hJ
          have : (NewGEPI Fi GEPI News[k2].id).id = freshId Fi := rfl
          omega
      · intro I hI
        obtain ⟨J, hJ, hid⟩ := hpersist I hI
        have := id_lt_freshId Fi J hJ
        show I.id ≠ freshId Fi
        omega
      · intro W hW i hget
        have := huse W hW (hWa W hW i hget) i hget
        rw [hV] at this
        exact this

/-- C29, the part the code has and the input on which it fails: in a run of
`eliminateStructAlloca` on an eligible allocation whose field addresses select
fields by integer constants, a comparison among the users of the allocation has the
predicate equality or inequality; its round replaces its uses with the constant
false (the integer 0) for equality and the constant true (the integer 1) for
inequality and leaves no use of it; after the run every instruction other than the
allocation that had the comparison as an operand has that constant in the same
position, the comparison is not in the function, and no instruction has it as an
operand. Eligibility does not give the condition on the field addresses: in
`undefCompared` the comparison 3 of the allocation with the null pointer is used by
the instruction 4, the allocation is eligible, and a field address of it has a
field index that is a constant but not an integer constant; `eliminateStructAlloca`
stops at the assertion "the third argument of U1 Type must be a ConstantInt" and
there is no function in which the comparison is deleted. -/
theorem replaceU2TypeEqOrNe_resolves :
    (∀ (F : Function) (AI : Instruction)
      (fs : List Ty) (_ : UniqueIds F) (_ : AI ∈ allInsts F)
      (_ : AI.opcode = Opcode.alloca (Ty.struct fs))
      (_ : canBeEliminatedStructAlloca F AI = true)
      (_ : ∀ U ∈ users F (Value.inst AI.id), U.opcode = Opcode.getElementPtr →
        ∃ k, k < fs.length ∧ U.getOperand 2 = some (Value.constantInt (Int.ofNat k)))
      (CI : Instruction) (_ : CI ∈ users F (Value.inst AI.id)) (p : Predicate)
      (_ : CI.opcode = Opcode.cmp p),
      ∃ (ComparisonResult : Value),
        ((p = Predicate.ICMP_EQ ∧ ComparisonResult = Value.constantInt 0)
          ∨ (p = Predicate.ICMP_NE ∧ ComparisonResult = Value.constantInt 1))
        ∧ (∀ Fx : Function, replaceU2TypeEqOrNe Fx CI
            = Except.ok (replaceAllUsesWith Fx CI.id ComparisonResult))
        ∧ (∀ Fx : Function, ∀ I ∈ allInsts (replaceAllUsesWith Fx CI.id ComparisonResult),
            Value.inst CI.id ∉ I.operands)
        ∧ ∃ (G : Function) (subs : List Nat),
            eliminateStructAlloca F AI.id = Except.ok (G, subs)
            ∧ (∀ W ∈ allInsts F, W.id ≠ AI.id → ∀ i,
                W.getOperand i = some (Value.inst CI.id) →
                ∃ W2 ∈ allInsts G, W2.id = W.id ∧ W2.opcode = W.opcode
                  ∧ W2.getOperand i = some ComparisonResult)
            ∧ (∀ I ∈ allInsts G, I.id ≠ CI.id)
            ∧ (∀ I ∈ allInsts G, Value.inst CI.id ∉ I.operands))
    ∧ UniqueIds undefCompared
    ∧ mkInst 1 (Opcode.alloca pairTy) [] ∈ allInsts undefCompared
    ∧ canBeEliminatedStructAlloca undefCompared (mkInst 1 (Opcode.alloca pairTy) []) = true
    ∧ mkInst 3 (Opcode.cmp Predicate.ICMP_EQ) [Value.inst 1, Value.constantPointerNull]
        ∈ users undefCompared (Value.inst 1)
    ∧ isU2TypeEqOrNe
        (mkInst 3 (Opcode.cmp Predicate.ICMP_EQ) [Value.inst 1, Value.constantPointerNull])
        (Value.inst 1) = true
    ∧ mkInst 4 Opcode.other [Value.inst 3] ∈ users undefCompared (Value.inst 3)
    ∧ eliminateStructAlloca undefCompared 1 = Except.error Failure.fieldNotConstantInt
    ∧ replaceStructAllocsWithIndividualFields undefCompared
        = Except.error Failure.fieldNotConstantInt := by
  refine ⟨?_, by decide, by decide, by decide, by decide, by decide, by decide, by decide, by decide⟩
  intro F AI fs hU hAI ho hel hidx CI hCI p hp
  obtain ⟨G, subs, hok⟩ := eliminate_ok F hU AI hAI fs ho hel hidx
  obtain ⟨pre, post, rest, News, Fr, hF, hpre, hC, hops, hnews, hnd, hrw, hGe, _⟩ :=
    eliminate_run F hU AI hAI fs ho G subs hok
  obtain ⟨_, hno, _, _⟩ :=
    eliminate_facts F hU AI hAI hel pre post News rest Fr fs hF hpre hC hops hnews hrw
  obtain ⟨Fi, Gi, V, hgi, hUFi, hpersist, hst, hcase, hkeep, huse⟩ :=
    round_of_user F hU AI hAI fs ho hel G subs hok CI hCI
  have hcase2 : (p = Predicate.ICMP_EQ ∧ V = Value.constantInt 0)
      ∨ (p = Predicate.ICMP_NE ∧ V = Value.constantInt 1) := by
    rcases hcase with ⟨h, hV⟩ | ⟨h, hV⟩ | ⟨_, _, h, _⟩
    · rw [hp] at h
      exact Or.inl ⟨Opcode.cmp.inj h, hV⟩
    · rw [hp] at h
      exact Or.inr ⟨Opcode.cmp.inj h, hV⟩
    · rw [hp] at h
      exact Opcode.noConfusion h
  have hVne : V ≠ Value.inst CI.id := by
    rcases hcase2 with ⟨_, h⟩ | ⟨_, h⟩ <;> rw [h] <;> exact fun hh => Value.noConfusion hh
  refine ⟨V, hcase2, ?_, fun Fx => noUse_replaceAllUsesWith Fx CI.id V hVne, G, subs, hok,
    huse, ?_, ?_⟩
  · intro Fx
    unfold replaceU2TypeEqOrNe
    rcases hcase2 with ⟨h1, h2⟩ | ⟨h1, h2⟩
    · subst h1 h2
      rw [hp]
    · subst h1 h2
      rw [hp]
  · intro I hI hid
    rw [hGe, allInsts_erased] at hI
    exact hI.2.1 (hid ▸ List.mem_map.2 ⟨CI, hCI, rfl⟩)
  · intro I hI
    rw [hGe, allInsts_erased] at hI
    exact hno CI.id (List.mem_map.2 ⟨CI, hCI, rfl⟩) I hI.1

/-- Scenario for C30: in `nested` the allocation `a` is eligible; after the run
neither `a` nor one of its five users is in the function or used in it, and the run
gives `nestedDecomposed`. -/
theorem eliminateStructAlloca_erases_nested :
    UniqueIds nested
      ∧ canBeEliminatedStructAlloca nested (mkInst 1 (Opcode.alloca nestedTy) []) = true
      ∧ eliminateStructAlloca nested 1 = Except.ok (nestedDecomposed, [13])
      ∧ (users nested (Value.inst 1)).map (fun U => U.id) = [2, 4, 6, 8, 10]
      ∧ ∃ (G : Function) (subs : List Nat),
          eliminateStructAlloca nested 1 = Except.ok (G, subs)
          ∧ (∀ I ∈ allInsts G, I.id ≠ 1)
          ∧ (∀ U ∈ users nested (Value.inst 1), ∀ I ∈ allInsts G, I.id ≠ U.id)
          ∧ ∀ I ∈ allInsts G, Value.inst 1 ∉ I.operands
              ∧ ∀ U ∈ users nested (Value.inst 1), Value.inst U.id ∉ I.operands := by
  refine ⟨by decide, by decide, by decide, by decide, ?_⟩
  obtain ⟨G, subs, Fr, h1, h2, h3, h4, _⟩ :=
    eliminateStructAlloca_erases.1 nested (mkInst 1 (Opcode.alloca nestedTy) [])
      [Ty.int, pairTy] (by decide) (by decide) rfl (by decide) nested_hidx
  exact ⟨G, subs, h1, h2, h3, h4⟩

/-- Scenario for C27: the run on `nested` creates the allocations 12, of the integer
type, and 13, of the type of the second field, at the start of the entry block, and
the function has two allocations afterwards where it had one. -/
theorem eliminateStructAlloca_allocas_nested :
    UniqueIds nested
      ∧ canBeEliminatedStructAlloca nested (mkInst 1 (Opcode.alloca nestedTy) []) = true
      ∧ eliminateStructAlloca nested 1 = Except.ok (nestedDecomposed, [13])
      ∧ (getEntryBlock nestedDecomposed).take 2
          = [mkInst 12 (Opcode.alloca Ty.int) [], mkInst 13 (Opcode.alloca pairTy) []]
      ∧ countAllocas nested = 1 ∧ countAllocas nestedDecomposed = 2
      ∧ ∃ (G : Function) (subs : List Nat) (News pre post : List Instruction),
          eliminateStructAlloca nested 1 = Except.ok (G, subs)
          ∧ News.map (fun A => A.opcode) = [Opcode.alloca Ty.int, Opcode.alloca pairTy]
          ∧ getEntryBlock G = pre ++ News ++ post
          ∧ (∀ J ∈ pre, J.opcode = Opcode.phi)
          ∧ countAllocas G + 1 = countAllocas nested + 2 := by
  refine ⟨by decide, by decide, by decide, by decide, by decide, by decide, ?_⟩
  obtain ⟨G, subs, News, pre, post, h1, h2, _, _, _, h6, h7, _, h9⟩ :=
    eliminateStructAlloca_allocas.1 nested (mkInst 1 (Opcode.alloca nestedTy) [])
      [Ty.int, pairTy] (by decide) (by decide) rfl (by decide) nested_hidx
  exact ⟨G, subs, News, pre, post, h1, h2, h6, h7, h9⟩

/-- Scenario for C28: in `nested` the field address 4, with the indices (0, 1, 1),
addresses field 1; after the run the store 5 that used it uses a new field address
with the base 13, the allocation of field 1, and the indices (0, 1); the store 3
that used the field address 2, with the indices (0, 0), uses the allocation 12. -/
theorem replaceU1TypeGetElementPtr_redirects_nested :
    UniqueIds nested
      ∧ canBeEliminatedStructAlloca nested (mkInst 1 (Opcode.alloca nestedTy) []) = true
      ∧ eliminateStructAlloca nested 1 = Except.ok (nestedDecomposed, [13])
      ∧ getInst nestedDecomposed 5
          = some (mkInst 5 Opcode.store [Value.constantInt 9, Value.inst 14])
      ∧ getInst nestedDecomposed 14
          = some (mkInst 14 Opcode.getElementPtr
              [Value.inst 13, Value.constantInt 0, Value.constantInt 1])
      ∧ getInst nestedDecomposed 3
          = some (mkInst 3 Opcode.store [Value.constantInt 7, Value.inst 12])
      ∧ ∃ (G : Function) (subs : List Nat) (A : Instruction),
          eliminateStructAlloca nested 1 = Except.ok (G, subs)
          ∧ A.opcode = Opcode.alloca pairTy ∧ A ∈ allInsts G
          ∧ ∃ N ∈ allInsts G, N.opcode = Opcode.getElementPtr
              ∧ N.operands = [Value.inst A.id, Value.constantInt 0, Value.constantInt 1]
              ∧ ∀ W ∈ allInsts nested, ∀ i, W.getOperand i = some (Value.inst 4) →
                  ∃ W2 ∈ allInsts G, W2.id = W.id ∧ W2.opcode = W.opcode
                    ∧ W2.getOperand i = some (Value.inst N.id) := by
  refine ⟨by decide, by decide, by decide, by decide, by decide, by decide, ?_⟩
  obtain ⟨G, subs, News, A, ty, h1, _, _, h4, h5, h6, _, _, _, h10⟩ :=
    replaceU1TypeGetElementPtr_redirects.1 nested (mkInst 1 (Opcode.alloca nestedTy) [])
      [Ty.int, pairTy] (by decide) (by decide) rfl (by decide) nested_hidx
      (mkInst 4 Opcode.getElementPtr
        [Value.inst 1, Value.constantInt 0, Value.constantInt 1, Value.constantInt 1])
      (by decide) rfl 1 rfl
  obtain ⟨N, hN, hNo, hNops, _, hW⟩ := h10 (by decide)
  have hty : ty = pairTy := (Option.some.inj h4).symm
  subst hty
  exact ⟨G, subs, A, h1, h5, h6, N, hN, hNo, hNops, hW⟩

/-- Scenario for C29: in `nested` the comparison 8 of `a` with the null pointer for
equality is used by the instruction 9; after the run the instruction 9 has the
constant false, the integer 0, in its place, and the instruction 11 that used the
comparison 10 for inequality has the constant true, the integer 1. -/
theorem replaceU2TypeEqOrNe_resolves_nested :
    UniqueIds nested
      ∧ canBeEliminatedStructAlloca nested (mkInst 1 (Opcode.alloca nestedTy) []) = true
      ∧ eliminateStructAlloca nested 1 = Except.ok (nestedDecomposed, [13])
      ∧ getInst nestedDecomposed 9 = some (mkInst 9 Opcode.other [Value.constantInt 0])
      ∧ getInst nestedDecomposed 11
          = some (mkInst 11 Opcode.other [Value.constantInt 1, Value.inst 7])
      ∧ getInst nestedDecomposed 8 = none ∧ getInst nestedDecomposed 10 = none
      ∧ ∃ (G : Function) (subs : List Nat),
          eliminateStructAlloca nested 1 = Except.ok (G, subs)
          ∧ (∀ W ∈ allInsts nested, W.id ≠ 1 → ∀ i,
              W.getOperand i = some (Value.inst 8) →
              ∃ W2 ∈ allInsts G, W2.id = W.id ∧ W2.opcode = W.opcode
                ∧ W2.getOperand i = some (Value.constantInt 0))
          ∧ (∀ I ∈ allInsts G, I.id ≠ 8)
          ∧ (∀ I ∈ allInsts G, Value.inst 8 ∉ I.operands) := by
  refine ⟨by decide, by decide, by decide, by decide, by decide, by decide, by decide, ?_⟩
  obtain ⟨c, hc, _, _, G, subs, h1, h2, h3, h4⟩ :=
    replaceU2TypeEqOrNe_resolves.1 nested (mkInst 1 (Opcode.alloca nestedTy) [])
      [Ty.int, pairTy] (by decide) (by decide) rfl (by decide) nested_hidx
      (mkInst 8 (Opcode.cmp Predicate.ICMP_EQ) [Value.inst 1, Value.constantPointerNull])
      (by decide) Predicate.ICMP_EQ rfl
  have hc0 : c = Value.constantInt 0 := by
    rcases hc with ⟨_, h⟩ | ⟨h, _⟩
    · exact h
    · exact Predicate.noConfusion h
  subst hc0
  exact ⟨G, subs, h1, h2, h3, h4⟩

end SROA

namespace SROA

/-! ## SROA: the rewrite loop as one substitution -/

theorem lookup_none_of_not_mem (env : List (Nat × Value)) (x : Nat)
    (h : x ∉ env.map (fun e => e.1)) : env.lookup x = none := by
  induction env with
  | nil => rfl
  | cons e env ih =>
    obtain ⟨k, W⟩ := e
    simp only [List.map_cons, List.mem_cons, not_or] at h
    simp only [List.lookup]
    have : (x == k) = false := by simpa using h.1
    rw [this]
    exact ih h.2

theorem substOperands_eq_self (env : List (Nat × Value)) (W : Instruction)
    (h : ∀ x, Value.inst x ∈ W.operands → env.lookup x = none) : substOperands env W = W := by
  obtain ⟨i, op, l, v⟩ := W
  simp only [substOperands, Instruction.mk.injEq, true_and, and_true]
  simp only at h
  induction l with
  | nil => rfl
  | cons o l ih =>
    simp only [List.map_cons, List.cons.injEq]
    refine ⟨?_, ih (fun x hx => h x (List.mem_cons_of_mem _ hx))⟩
    cases o with
    | inst x =>
      simp only
      rw [h x (List.mem_cons_self _ _)]
    | _ => rfl

theorem freshId_le_of_usedIds (F G : Function) (h : ∀ x ∈ usedIds F, x ∈ usedIds G) :
    freshId F ≤ freshId G := by
  unfold freshId
  apply Nat.succ_le_succ
  apply foldr_max_le
  intro x hx
  exact le_foldr_max _ _ (h x hx)

theorem mem_replaceUsesOfWith_of_ne (I : Instruction) (u : Nat) (V o : Value)
    (ho : o ∈ I.operands) (hne : o ≠ Value.inst u) :
    o ∈ (I.replaceUsesOfWith u V).operands := by
  unfold Instruction.replaceUsesOfWith
  simp only [List.mem_map]
  exact ⟨o, ho, by simp [hne]⟩

theorem new_mem_insertBeforeIn (New : Instruction) (pos : Nat) (B : List Instruction)
    (h : ∃ J ∈ B, J.id = pos) : New ∈ insertBeforeIn New pos B := by
  induction B with
  | nil =>
    obtain ⟨J, hJ, _⟩ := h
    simp at hJ
  | cons I rest ih =>
    unfold insertBeforeIn
    by_cases hI : I.id = pos
    · rw [if_pos hI]
      exact List.mem_cons_self _ _
    · rw [if_neg hI]
      obtain ⟨J, hJ, hid⟩ := h
      rcases List.mem_cons.1 hJ with rfl | hJ
      · exact absurd hid hI
      · exact List.mem_cons_of_mem _ (ih ⟨J, hJ, hid⟩)

theorem new_mem_insertBefore (New : Instruction) (pos : Nat) (F : Function)
    (h : ∃ J ∈ allInsts F, J.id = pos) : New ∈ allInsts (insertBefore New pos F) := by
  obtain ⟨J, hJ, hid⟩ := h
  unfold allInsts at hJ
  obtain ⟨B, hB, hJB⟩ := List.mem_flatten.1 hJ
  unfold allInsts insertBefore
  exact List.mem_flatten.2 ⟨insertBeforeIn New pos B, List.mem_map.2 ⟨B, hB, rfl⟩,
    new_mem_insertBeforeIn New pos B ⟨J, hJB, hid⟩⟩

theorem mem_NewGEPIWithId_operands (n : Nat) (U : Instruction) (t : Nat) (o : Value)
    (h : o ∈ (NewGEPIWithId n U t).operands) : o = Value.inst t ∨ o ∈ U.operands.drop 1 :=
  mem_NewGEPI_operands [] U t o h

/-- A new field address of the rewrite loop has none of the users of the allocation
as an operand. -/
theorem rewriteNew_no_user (F0 : Function) (a : Nat) (NA US : List Nat)
    (hgood : ∀ u ∈ US, ∃ U, getInst F0 u = some U
      ∧ ∀ o ∈ U.operands, o = Value.inst a ∨ o.isConstant = true)
    (haUS : a ∉ US) (hNA : ∀ u ∈ US, u ∉ NA)
    (e : Nat × Value) (he : e.1 ∈ US) (I : Instruction) (hI : RewriteNew F0 NA e I)
    (u : Nat) (hu : u ∈ US) : Value.inst u ∉ I.operands := by
  obtain ⟨U, k, t, n, hg, _, _, _, ht, _, _, rfl⟩ := hI
  intro hm
  rcases mem_NewGEPIWithId_operands n U t _ hm with h | h
  · exact hNA u hu (Value.inst.inj h ▸ List.getElem?_mem ht)
  · obtain ⟨U2, hg2, hops⟩ := hgood e.1 he
    rw [hg] at hg2
    have hUU := Option.some.inj hg2
    subst hUU
    rcases hops _ (List.mem_of_mem_drop h) with h2 | h2
    · exact haUS (Value.inst.inj h2 ▸ hu)
    · simp [Value.isConstant] at h2

/-- The user whose round comes is the instruction the loop started with. -/
theorem rewriteInv_current (F0 : Function) (a : Nat) (NA US : List Nat)
    (hU0 : UniqueIds F0)
    (hgood : ∀ u ∈ US, ∃ U, getInst F0 u = some U
      ∧ ∀ o ∈ U.operands, o = Value.inst a ∨ o.isConstant = true)
    (haUS : a ∉ US) (env : List (Nat × Value)) (Fc : Function)
    (henv : ∀ e ∈ env, e.1 ∈ US) (hinv : RewriteInv F0 NA env Fc)
    (u : Nat) (hu : u ∈ US) (Uc : Instruction) (hUc : getInst Fc u = some Uc) :
    getInst F0 u = some Uc := by
  obtain ⟨U, hg, hops⟩ := hgood u hu
  obtain ⟨hUm, hUid⟩ := getInst_some F0 u U hg
  obtain ⟨hcm, hcid⟩ := getInst_some Fc u Uc hUc
  have ha : env.lookup a = none := by
    apply lookup_none_of_not_mem
    intro hm
    obtain ⟨e, he, hea⟩ := List.mem_map.1 hm
    exact haUS (hea ▸ henv e he)
  rcases (hinv.1 Uc).1 hcm with ⟨W, hW, rfl⟩ | ⟨e, he, hnew⟩
  · rw [substOperands_id] at hcid
    have hWU := eq_of_id_eq F0 hU0 W U hW hUm (hcid.trans hUid.symm)
    subst hWU
    rw [substOperands_eq_self env W, hg]
    intro x hx
    rcases hops _ hx with h | h
    · rw [Value.inst.inj h]
      exact ha
    · simp [Value.isConstant] at h
  · obtain ⟨U2, k, t, n, _, _, _, _, _, _, hn, rfl⟩ := hnew
    have h1 := id_lt_freshId F0 U hUm
    have h2 : (NewGEPIWithId n U2 t).id = n := rfl
    omega

/-- What one round does, by the kind of the user, as an equation for the function
after the round. -/
theorem rewriteStep_exact (NA : List Nat) (F : Function) (U : Instruction) (G : Function)
    (h : RewriteStep NA F U G) :
    (U.opcode = Opcode.cmp Predicate.ICMP_EQ
        ∧ G = replaceAllUsesWith F U.id (Value.constantInt 0))
      ∨ (U.opcode = Opcode.cmp Predicate.ICMP_NE
        ∧ G = replaceAllUsesWith F U.id (Value.constantInt 1))
      ∨ ∃ k t, U.opcode = Opcode.getElementPtr
          ∧ U.getOperand 2 = some (Value.constantInt (Int.ofNat k)) ∧ NA[k]? = some t
          ∧ ((U.operands.length = 3 ∧ G = replaceAllUsesWith F U.id (Value.inst t))
            ∨ (3 < U.operands.length
              ∧ G = replaceAllUsesWith (insertBefore (NewGEPI F U t) U.id F) U.id
                  (Value.inst (freshId F)))) := by
  rcases h with ⟨hg, h⟩ | ⟨_, h⟩
  · obtain ⟨k, t, _, hk, ht, h2⟩ := replaceU1_ok F G U NA h
    exact Or.inr (Or.inr ⟨k, t, hg, hk, ht, h2⟩)
  · rcases replaceU2_ok F G U h with h2 | h2
    · exact Or.inl h2
    · exact Or.inr (Or.inl h2)

/-- The description of the state after a round, from the description before it and
the replacement the round makes. -/
theorem rewriteInv_core (F0 : Function) (a : Nat) (NA US : List Nat)
    (hgood : ∀ u ∈ US, ∃ U, getInst F0 u = some U
      ∧ ∀ o ∈ U.operands, o = Value.inst a ∨ o.isConstant = true)
    (haUS : a ∉ US) (hNA : ∀ u ∈ US, u ∉ NA)
    (env : List (Nat × Value)) (Fc : Function)
    (henv : ∀ e ∈ env, e.1 ∈ US) (hinv : RewriteInv F0 NA env Fc)
    (u : Nat) (hu : u ∈ US) (V : Value) (Fi2 Gc : Function)
    (hGc : Gc = replaceAllUsesWith Fi2 u V)
    (hvals : ∀ e ∈ env, e.2 ≠ Value.inst u)
    (hFi2 : ∀ J, J ∈ allInsts Fi2 ↔ J ∈ allInsts Fc ∨ RewriteNew F0 NA (u, V) J)
    (hentry : RewriteEntry F0 NA (u, V))
    (hfreshV : ∀ n, V = Value.inst n → freshId F0 ≤ n →
      n = freshId Fc ∧ ∃ J ∈ allInsts Fi2, J.id = n)
    (huin : ∃ J ∈ allInsts Fc, J.id = u) :
    RewriteInv F0 NA (env ++ [(u, V)]) Gc := by
  obtain ⟨ha, hb, hc, hd, he⟩ := hinv
  have hGmem : ∀ J, J ∈ allInsts Fi2 → J.replaceUsesOfWith u V ∈ allInsts Gc := by
    intro J hJ
    rw [hGc, allInsts_replaceAllUsesWith]
    exact List.mem_map.2 ⟨J, hJ, rfl⟩
  have hnewself : ∀ e, e.1 ∈ US → ∀ J, RewriteNew F0 NA e J →
      J.replaceUsesOfWith u V = J := by
    intro e hee J hJ
    exact replaceUsesOfWith_eq_self J u V
      (rewriteNew_no_user F0 a NA US hgood haUS hNA e hee J hJ u hu)
  have hfresh : freshId Fc ≤ freshId Gc := by
    apply freshId_le_of_usedIds
    intro x hx
    rw [mem_usedIds] at hx ⊢
    obtain ⟨I, hI, hcase⟩ := hx
    have hI2 := hGmem I ((hFi2 I).2 (Or.inl hI))
    rcases hcase with h | h
    · exact ⟨_, hI2, Or.inl h⟩
    · by_cases hxu : x = u
      · obtain ⟨J, hJ, hid⟩ := huin
        exact ⟨_, hGmem J ((hFi2 J).2 (Or.inl hJ)), Or.inl (by rw [hxu, ← hid]; rfl)⟩
      · refine ⟨_, hI2, Or.inr ?_⟩
        apply mem_replaceUsesOfWith_of_ne I u V _ h
        intro hh
        exact hxu (Value.inst.inj hh)
  refine ⟨?_, ?_, ?_, ?_, le_trans he hfresh⟩
  · intro I
    constructor
    · intro hI
      rw [hGc, allInsts_replaceAllUsesWith, List.mem_map] at hI
      obtain ⟨J, hJ, rfl⟩ := hI
      rcases (hFi2 J).1 hJ with hJc | hJn
      · rcases (ha J).1 hJc with ⟨W, hW, rfl⟩ | ⟨e, hee, hnew⟩
        · exact Or.inl ⟨W, hW, substOperands_snoc env u V W hvals⟩
        · right
          refine ⟨e, List.mem_append_left _ hee, ?_⟩
          rw [hnewself e (henv e hee) J hnew]
          exact hnew
      · right
        refine ⟨(u, V), List.mem_append_right _ (List.mem_singleton_self _), ?_⟩
        rw [hnewself (u, V) hu J hJn]
        exact hJn
    · rintro (⟨W, hW, rfl⟩ | ⟨e, hee, hnew⟩)
      · rw [← substOperands_snoc env u V W hvals]
        exact hGmem _ ((hFi2 _).2 (Or.inl ((ha _).2 (Or.inl ⟨W, hW, rfl⟩))))
      · rcases List.mem_append.1 hee with hee | hee
        · rw [← hnewself e (henv e hee) I hnew]
          exact hGmem _ ((hFi2 _).2 (Or.inl ((ha _).2 (Or.inr ⟨e, hee, hnew⟩))))
        · rw [List.mem_singleton.1 hee] at hnew
          rw [← hnewself (u, V) hu I hnew]
          exact hGmem _ ((hFi2 _).2 (Or.inr hnew))
  · intro e hee
    rcases List.mem_append.1 hee with hee | hee
    · exact hb e hee
    · rw [List.mem_singleton.1 hee]
      exact hentry
  · intro e hee n hv hn
    rcases List.mem_append.1 hee with hee | hee
    · have := hc e hee n hv hn
      omega
    · rw [List.mem_singleton.1 hee] at hv
      obtain ⟨_, J, hJ, hid⟩ := hfreshV n hv hn
      have := id_lt_freshId Gc _ (hGmem J hJ)
      have hid2 : (J.replaceUsesOfWith u V).id = J.id := rfl
      omega
  · intro e1 h1 e2 h2 n hn hv1 hv2
    rcases List.mem_append.1 h1 with h1 | h1
    · rcases List.mem_append.1 h2 with h2 | h2
      · exact hd e1 h1 e2 h2 n hn hv1 hv2
      · rw [List.mem_singleton.1 h2] at hv2
        have := (hfreshV n hv2 hn).1
        have := hc e1 h1 n hv1 hn
        omega
    · rcases List.mem_append.1 h2 with h2 | h2
      · rw [List.mem_singleton.1 h1] at hv1
        have := (hfreshV n hv1 hn).1
        have := hc e2 h2 n hv2 hn
        omega
      · rw [List.mem_singleton.1 h1, List.mem_singleton.1 h2]

/-- One round of the rewrite loop keeps the description of the state. -/
theorem rewriteInv_step (F0 : Function) (a : Nat) (NA US : List Nat)
    (hgood : ∀ u ∈ US, ∃ U, getInst F0 u = some U
      ∧ ∀ o ∈ U.operands, o = Value.inst a ∨ o.isConstant = true)
    (haUS : a ∉ US) (hNA : ∀ u ∈ US, u ∉ NA) (hNAlt : ∀ t ∈ NA, t < freshId F0)
    (env : List (Nat × Value)) (Fc : Function)
    (henv : ∀ e ∈ env, e.1 ∈ US) (hinv : RewriteInv F0 NA env Fc)
    (U : Instruction) (hu : U.id ∈ US) (hg0 : getInst F0 U.id = some U)
    (hgc : getInst Fc U.id = some U) (Gc : Function) (hst : RewriteStep NA Fc U Gc) :
    ∃ V, RewriteInv F0 NA (env ++ [(U.id, V)]) Gc := by
  have hUc : U ∈ allInsts Fc := (getInst_some Fc U.id U hgc).1
  have hU0m : U ∈ allInsts F0 := (getInst_some F0 U.id U hg0).1
  have hult : U.id < freshId F0 := id_lt_freshId F0 U hU0m
  have hvals : ∀ e ∈ env, e.2 ≠ Value.inst U.id := by
    intro e hee hv
    obtain ⟨U2, _, hcase⟩ := hinv.2.1 e hee
    rcases hcase with ⟨_, h⟩ | ⟨_, h⟩ | ⟨_, k, t, _, ht, ⟨_, h⟩ | ⟨_, n, hn, h⟩⟩
    · rw [h] at hv
      exact Value.noConfusion hv
    · rw [h] at hv
      exact Value.noConfusion hv
    · rw [h] at hv
      exact hNA U.id hu (Value.inst.inj hv ▸ List.getElem?_mem ht)
    · rw [h] at hv
      have := Value.inst.inj hv
      omega
  have hnonew : ∀ V, (∀ n, V ≠ Value.inst n) ∨ U.operands.length = 3 →
      ∀ J, ¬ RewriteNew F0 NA (U.id, V) J := by
    intro V hV J hJ
    obtain ⟨U2, k2, t2, n2, hg2, _, hl2, _, _, hv2, _, _⟩ := hJ
    simp only at hg2 hv2
    rw [hg0] at hg2
    have hUU := Option.some.inj hg2
    subst hUU
    rcases hV with h | h
    · exact h n2 hv2
    · omega
  rcases rewriteStep_exact NA Fc U Gc hst with ⟨ho, hG⟩ | ⟨ho, hG⟩ | ⟨k, t, ho, hk, ht, ⟨h3, hG⟩ | ⟨h3, hG⟩⟩
  · refine ⟨Value.constantInt 0, rewriteInv_core F0 a NA US hgood haUS hNA env Fc henv hinv
      U.id hu _ Fc Gc hG hvals ?_ ⟨U, hg0, Or.inl ⟨ho, rfl⟩⟩ ?_ ⟨U, hUc, rfl⟩⟩
    · intro J
      exact ⟨Or.inl, fun h => h.elim id
        (fun hn => absurd hn (hnonew _ (Or.inl (fun n hh => Value.noConfusion hh)) J))⟩
    · intro n hh
      exact Value.noConfusion hh
  · refine ⟨Value.constantInt 1, rewriteInv_core F0 a NA US hgood haUS hNA env Fc henv hinv
      U.id hu _ Fc Gc hG hvals ?_ ⟨U, hg0, Or.inr (Or.inl ⟨ho, rfl⟩)⟩ ?_ ⟨U, hUc, rfl⟩⟩
    · intro J
      exact ⟨Or.inl, fun h => h.elim id
        (fun hn => absurd hn (hnonew _ (Or.inl (fun n hh => Value.noConfusion hh)) J))⟩
    · intro n hh
      exact Value.noConfusion hh
  · refine ⟨Value.inst t, rewriteInv_core F0 a NA US hgood haUS hNA env Fc henv hinv
      U.id hu _ Fc Gc hG hvals ?_
      ⟨U, hg0, Or.inr (Or.inr ⟨ho, k, t, hk, ht, Or.inl ⟨h3, rfl⟩⟩)⟩ ?_ ⟨U, hUc, rfl⟩⟩
    · intro J
      exact ⟨Or.inl, fun h => h.elim id (fun hn => absurd hn (hnonew _ (Or.inr h3) J))⟩
    · intro n hh hn
      have := hNAlt t (List.getElem?_mem ht)
      have := Value.inst.inj hh
      omega
  · have hN : RewriteNew F0 NA (U.id, Value.inst (freshId Fc)) (NewGEPI Fc U t) :=
      ⟨U, k, t, freshId Fc, hg0, ho, h3, hk, ht, rfl, hinv.2.2.2.2, rfl⟩
    refine ⟨Value.inst (freshId Fc), rewriteInv_core F0 a NA US hgood haUS hNA env Fc henv hinv
      U.id hu _ (insertBefore (NewGEPI Fc U t) U.id Fc) Gc hG hvals ?_
      ⟨U, hg0, Or.inr (Or.inr ⟨ho, k, t, hk, ht,
        Or.inr ⟨h3, freshId Fc, hinv.2.2.2.2, rfl⟩⟩)⟩ ?_ ⟨U, hUc, rfl⟩⟩
    · intro J
      constructor
      · intro hJ
        rcases mem_allInsts_insertBefore _ _ _ J hJ with h | h
        · rw [h]
          exact Or.inr hN
        · exact Or.inl h
      · rintro (h | h)
        · exact mem_allInsts_insertBefore_of_mem _ _ _ J h
        · obtain ⟨U2, k2, t2, n2, hg2, _, _, hk2, ht2, hv2, _, rfl⟩ := h
          simp only at hg2 hv2
          rw [hg0] at hg2
          have hUU := Option.some.inj hg2
          subst hUU
          rw [hk2] at hk
          have hkk : k2 = k := Int.ofNat.inj (Value.constantInt.inj (Option.some.inj hk))
          subst hkk
          rw [ht2] at ht
          have htt := Option.some.inj ht
          subst htt
          have hnn := Value.inst.inj hv2
          rw [← hnn]
          exact new_mem_insertBefore _ _ _ ⟨U, hUc, rfl⟩
    · intro n hh _
      have hnn := Value.inst.inj hh
      refine ⟨hnn.symm, NewGEPI Fc U t, new_mem_insertBefore _ _ _ ⟨U, hUc, rfl⟩, ?_⟩
      rw [← hnn]
      rfl

/-- The rewrite loop of `eliminateStructAlloca` as one substitution: after the loop
the instructions are those the loop started with, with each user replaced in the
operands by what its round put in its place, and the new field addresses. -/
theorem rewriteUsers_closed (F0 : Function) (a : Nat) (NA US : List Nat)
    (hU0 : UniqueIds F0)
    (hgood : ∀ u ∈ US, ∃ U, getInst F0 u = some U
      ∧ ∀ o ∈ U.operands, o = Value.inst a ∨ o.isConstant = true)
    (haUS : a ∉ US) (hNA : ∀ u ∈ US, u ∉ NA) (hNAlt : ∀ t ∈ NA, t < freshId F0) :
    ∀ (us : List Nat) (Fc : Function) (env : List (Nat × Value)) (r : Function × List Nat),
      rewriteUsers NA us Fc = Except.ok r →
      (∀ u ∈ us, u ∈ US) → (∀ e ∈ env, e.1 ∈ US) →
      RewriteInv F0 NA env Fc →
      ∃ env2, env2.map (fun e => e.1) = us ∧ RewriteInv F0 NA (env ++ env2) r.1 := by
  intro us
  induction us with
  | nil =>
    intro Fc env r h _ _ hinv
    simp only [rewriteUsers, Except.ok.injEq] at h
    refine ⟨[], rfl, ?_⟩
    rw [← h, List.append_nil]
    exact hinv
  | cons u us ih =>
    intro Fc env r h hus henv hinv
    obtain ⟨U, G, s, hg, hst, hrest, hr⟩ := rewriteUsers_cons_ok NA u us Fc r h
    have huUS := hus u (List.mem_cons_self _ _)
    have hid : U.id = u := (getInst_some Fc u U hg).2
    have hg0 := rewriteInv_current F0 a NA US hU0 hgood haUS env Fc henv hinv u huUS U hg
    subst hid
    obtain ⟨V, hinv2⟩ := rewriteInv_step F0 a NA US hgood haUS hNA hNAlt env Fc henv hinv
      U huUS hg0 hg G hst
    obtain ⟨env2, hkeys, hinv3⟩ := ih G (env ++ [(U.id, V)]) s hrest
      (fun x hx => hus x (List.mem_cons_of_mem _ hx))
      (by
        intro e he
        rcases List.mem_append.1 he with he | he
        · exact henv e he
        · rw [List.mem_singleton.1 he]
          exact huUS)
      hinv2
    refine ⟨(U.id, V) :: env2, by simp [hkeys], ?_⟩
    rw [hr]
    simpa using hinv3

/-! ## SROA: the function after a decomposition -/

theorem uniqueIds_eraseFromParent (F : Function) (x : Nat) (h : UniqueIds F) :
    UniqueIds (eraseFromParent F x) := by
  unfold UniqueIds at *
  rw [allInsts_eraseFromParent]
  exact List.Nodup.sublist (List.Sublist.map _ (List.filter_sublist _)) h

theorem uniqueIds_eraseUsers (us : List Nat) (F : Function) (h : UniqueIds F) :
    UniqueIds (eraseUsers us F) := by
  unfold UniqueIds at *
  rw [allInsts_eraseUsers]
  exact List.Nodup.sublist (List.Sublist.map _ (List.filter_sublist _)) h

/-- The closed form of a run of `eliminateStructAlloca` on an eligible allocation
that ends with a result. -/
theorem eliminate_closed (F : Function) (hU : UniqueIds F) (AI : Instruction)
    (hAI : AI ∈ allInsts F) (fs : List Ty) (ho : AI.opcode = Opcode.alloca (Ty.struct fs))
    (hel : canBeEliminatedStructAlloca F AI = true) (G : Function) (subs : List Nat)
    (hok : eliminateStructAlloca F AI.id = Except.ok (G, subs)) :
    ∃ News env, Decomposed F AI fs G subs News env
      ∧ (createFieldAllocas ((getFirstNonPHI (getEntryBlock F)).map (fun I => I.id))
          fs F).2 = News := by
  obtain ⟨pre, post, rest, News, Fr, hF, hpre, hC, hops, hnews, hnd, hrw, hG, hsubs⟩ :=
    eliminate_run F hU AI hAI fs ho G subs hok
  obtain ⟨haus, haNA, husNA, hold⟩ := eliminate_ids F hU AI hAI hel News
    (fun A hA => (hnews A hA).2.2)
  have hF1 : (createFieldAllocas ((getFirstNonPHI (getEntryBlock F)).map (fun I => I.id))
      fs F).1 = (pre ++ News ++ post) :: rest := by rw [hC]
  have hmemF1 : ∀ I, I ∈ allInsts ((pre ++ News ++ post) :: rest)
      ↔ I ∈ News ∨ I ∈ allInsts F := by
    intro I
    rw [hF]
    simp only [allInsts, List.flatten_cons, List.mem_append]
    tauto
  have hgetF1 : ∀ U ∈ allInsts F, getInst ((pre ++ News ++ post) :: rest) U.id = some U := by
    intro U hUm
    rw [← hF1]
    exact getInst_createFieldAllocas _ fs F hU U hUm
  have hgood : ∀ u ∈ (users F (Value.inst AI.id)).map (fun U => U.id),
      ∃ U, getInst ((pre ++ News ++ post) :: rest) u = some U
        ∧ ∀ o ∈ U.operands, o = Value.inst AI.id ∨ o.isConstant = true := by
    intro u hu
    obtain ⟨U2, hU2, rfl⟩ := List.mem_map.1 hu
    exact ⟨U2, hgetF1 U2 ((mem_users F _ U2).1 hU2).1,
      (user_shape_of_eligible F AI U2 hel hU2).2⟩
  have hUF1 : UniqueIds ((pre ++ News ++ post) :: rest) := by
    refine uniqueIds_of_shape pre post News rest (hF ▸ hU) hnd ?_
    intro I hI
    exact hold I (hF ▸ hI)
  have hNAlt : ∀ t ∈ News.map (fun A => A.id),
      t < freshId ((pre ++ News ++ post) :: rest) := by
    intro t ht
    obtain ⟨A, hA, rfl⟩ := List.mem_map.1 ht
    exact id_lt_freshId _ A ((hmemF1 A).2 (Or.inl hA))
  have hfr : freshId F ≤ freshId ((pre ++ News ++ post) :: rest) :=
    freshId_mono F _ (fun I hI => (hmemF1 I).2 (Or.inr hI))
  have hinit : RewriteInv ((pre ++ News ++ post) :: rest) (News.map (fun A => A.id)) []
      ((pre ++ News ++ post) :: rest) := by
    refine ⟨?_, by simp, by simp, by simp, le_refl _⟩
    intro I
    constructor
    · intro hI
      exact Or.inl ⟨I, hI, (substOperands_nil I).symm⟩
    · rintro (⟨W, hW, rfl⟩ | ⟨e, he, _⟩)
      · rw [substOperands_nil]
        exact hW
      · simp at he
  obtain ⟨env, hkeys, hinv⟩ := rewriteUsers_closed ((pre ++ News ++ post) :: rest) AI.id
    (News.map (fun A => A.id)) ((users F (Value.inst AI.id)).map (fun U => U.id))
    hUF1 hgood haus husNA hNAlt _ _ [] _ hrw (fun _ h => h) (by simp) hinit
  rw [List.nil_append] at hinv
  obtain ⟨ha, hb, hc, hd, he⟩ := hinv
  have henvUS : ∀ e ∈ env, e.1 ∈ (users F (Value.inst AI.id)).map (fun U => U.id) := by
    intro e hee
    rw [← hkeys]
    exact List.mem_map.2 ⟨e, hee, rfl⟩
  have hgetF : ∀ e ∈ env, ∀ U, getInst ((pre ++ News ++ post) :: rest) e.1 = some U →
      getInst F e.1 = some U := by
    intro e hee U hg
    obtain ⟨U2, hU2, hid⟩ := List.mem_map.1 (henvUS e hee)
    have hU2m := ((mem_users F _ U2).1 hU2).1
    have h1 := hgetF1 U2 hU2m
    rw [hid, hg] at h1
    rw [← hid, Option.some.inj h1]
    exact getInst_of_mem F hU U2 hU2m
  have hentry : ∀ e ∈ env, RewriteEntry F (News.map (fun A => A.id)) e := by
    intro e hee
    obtain ⟨U, hg, hcase⟩ := hb e hee
    refine ⟨U, hgetF e hee U hg, ?_⟩
    rcases hcase with h | h | ⟨hop, k, t, hk, ht, h | ⟨h3, n, hn, hv⟩⟩
    · exact Or.inl h
    · exact Or.inr (Or.inl h)
    · exact Or.inr (Or.inr ⟨hop, k, t, hk, ht, Or.inl h⟩)
    · exact Or.inr (Or.inr ⟨hop, k, t, hk, ht, Or.inr ⟨h3, n, by omega, hv⟩⟩)
  have hnewF1 : ∀ e ∈ env, ∀ J, RewriteNew F (News.map (fun A => A.id)) e J →
      RewriteNew ((pre ++ News ++ post) :: rest) (News.map (fun A => A.id)) e J := by
    intro e hee J hJ
    obtain ⟨U, k, t, n, hg, hop, h3, hk, ht, hv, hn, rfl⟩ := hJ
    obtain ⟨U2, hg2, hcase⟩ := hb e hee
    have hg3 := hgetF e hee U2 hg2
    rw [hg] at hg3
    have hUU := Option.some.inj hg3
    subst hUU
    refine ⟨U, k, t, n, hg2, hop, h3, hk, ht, hv, ?_, rfl⟩
    rcases hcase with ⟨h, _⟩ | ⟨h, _⟩ | ⟨_, k2, t2, _, _, ⟨h, _⟩ | ⟨_, n2, hn2, hv2⟩⟩
    · rw [hop] at h
      exact Opcode.noConfusion h
    · rw [hop] at h
      exact Opcode.noConfusion h
    · omega
    · rw [hv] at hv2
      have := Value.inst.inj hv2
      omega
  have hnewF : ∀ e ∈ env, ∀ J,
      RewriteNew ((pre ++ News ++ post) :: rest) (News.map (fun A => A.id)) e J →
      RewriteNew F (News.map (fun A => A.id)) e J := by
    intro e hee J hJ
    obtain ⟨U, k, t, n, hg, hop, h3, hk, ht, hv, hn, rfl⟩ := hJ
    exact ⟨U, k, t, n, hgetF e hee U hg, hop, h3, hk, ht, hv, by omega, rfl⟩
  refine ⟨News, env, ⟨hops, hnews, hnd, hkeys, hentry, ?_, ?_, ?_, ?_, ?_, hsubs⟩, by rw [hC]⟩
  · intro e hee x hv
    obtain ⟨U, _, hcase⟩ := hb e hee
    rcases hcase with ⟨_, h⟩ | ⟨_, h⟩ | ⟨_, k, t, _, ht, ⟨_, h⟩ | ⟨_, n, hn, h⟩⟩
    · rw [h] at hv
      exact Value.noConfusion hv
    · rw [h] at hv
      exact Value.noConfusion hv
    · rw [h] at hv
      obtain ⟨A, hA, hid⟩ := List.mem_map.1 (List.getElem?_mem ht)
      have := (hnews A hA).2.2
      have := Value.inst.inj hv
      omega
    · rw [h] at hv
      have := Value.inst.inj hv
      omega
  · intro e1 h1 e2 h2 J hJ hv
    obtain ⟨U, k, t, n, _, _, _, _, _, hv1, hn, _⟩ := hnewF1 e1 h1 J hJ
    exact (hd e1 h1 e2 h2 n hn hv1 (hv.trans hv1)).symm
  · intro e hee J hJ hmem
    obtain ⟨U, k, t, n, _, _, _, _, _, _, hn, rfl⟩ := hnewF1 e hee J hJ
    have := hNAlt _ hmem
    have hid : (NewGEPIWithId n U t).id = n := rfl
    omega
  · intro I
    rw [hG, allInsts_erased, ha]
    constructor
    · rintro ⟨(⟨W, hW, rfl⟩ | ⟨e, hee, hnew⟩), h2, h3⟩
      · rw [substOperands_id] at h2 h3
        rcases (hmemF1 W).1 hW with hWn | hWF
        · left
          rw [substOperands_eq_self env W]
          · exact hWn
          · intro x hx
            rw [(hnews W hWn).1] at hx
            simp at hx
        · exact Or.inr (Or.inl ⟨W, hWF, h2, h3, rfl⟩)
      · exact Or.inr (Or.inr ⟨e, hee, hnewF e hee I hnew⟩)
    · rintro (hI | ⟨W, hW, h2, h3, rfl⟩ | ⟨e, hee, hnew⟩)
      · have hAm : I.id ∈ News.map (fun A => A.id) := List.mem_map.2 ⟨I, hI, rfl⟩
        refine ⟨Or.inl ⟨I, (hmemF1 I).2 (Or.inl hI), ?_⟩, fun h => husNA _ h hAm,
          fun h => haNA (h ▸ hAm)⟩
        rw [substOperands_eq_self env I]
        intro x hx
        rw [(hnews I hI).1] at hx
        simp at hx
      · rw [substOperands_id]
        exact ⟨Or.inl ⟨W, (hmemF1 W).2 (Or.inr hW), rfl⟩, h2, h3⟩
      · have hnew1 := hnewF1 e hee I hnew
        refine ⟨Or.inr ⟨e, hee, hnew1⟩, ?_, ?_⟩
        · obtain ⟨U, k, t, n, _, _, _, _, _, _, hn, rfl⟩ := hnew1
          intro hm
          obtain ⟨U2, hU2, hid⟩ := List.mem_map.1 hm
          have := id_lt_freshId F U2 ((mem_users F _ U2).1 hU2).1
          have hid2 : (NewGEPIWithId n U t).id = n := rfl
          omega
        · obtain ⟨U, k, t, n, _, _, _, _, _, _, hn, rfl⟩ := hnew1
          have := id_lt_freshId F AI hAI
          have hid2 : (NewGEPIWithId n U t).id = n := rfl
          omega
  · rw [hG]
    exact uniqueIds_eraseFromParent _ _ (uniqueIds_eraseUsers _ _
      (uniqueIds_rewriteUsers _ _ _ _ hrw hUF1))

/-! ## SROA: the users of a value after a decomposition -/

theorem lookup_of_mem_nodup (env : List (Nat × Value)) (x : Nat) (V : Value)
    (hnd : (env.map (fun e => e.1)).Nodup) (h : (x, V) ∈ env) : env.lookup x = some V := by
  induction env with
  | nil => simp at h
  | cons e env ih =>
    obtain ⟨k, W⟩ := e
    simp only [List.map_cons, List.nodup_cons] at hnd
    simp only [List.lookup]
    rcases List.mem_cons.1 h with h | h
    · simp only [Prod.mk.injEq] at h
      rw [h.1, h.2]
      simp
    · have hne : x ≠ k := by
        intro hxk
        exact hnd.1 (List.mem_map.2 ⟨(x, V), h, hxk⟩)
      have : (x == k) = false := by simpa using hne
      rw [this]
      exact ih hnd.2 h

theorem substOperands_getOperand_keep (env : List (Nat × Value)) (I : Instruction) (i : Nat)
    (v : Value) (h : I.getOperand i = some v)
    (hv : ∀ x, v = Value.inst x → env.lookup x = none) :
    (substOperands env I).getOperand i = some v := by
  unfold Instruction.getOperand substOperands at *
  simp only [List.getElem?_map, h, Option.map_some', Option.some.injEq]
  cases v with
  | inst x =>
    simp only
    rw [hv x rfl]
  | _ => rfl

theorem substOperands_length (env : List (Nat × Value)) (I : Instruction) :
    (substOperands env I).operands.length = I.operands.length := by
  unfold substOperands
  simp

theorem substOperands_drop_const (env : List (Nat × Value)) (I : Instruction) (j : Nat)
    (h : ∀ o ∈ I.operands.drop j, o.isConstant = true) :
    (substOperands env I).operands.drop j = I.operands.drop j := by
  unfold substOperands
  simp only
  rw [← List.map_drop]
  have : ∀ l : List Value, (∀ o ∈ l, o.isConstant = true) →
      l.map (fun o => match o with
        | Value.inst x =>
          match env.lookup x with
          | some V => V
          | none => o
        | _ => o) = l := by
    intro l hl
    induction l with
    | nil => rfl
    | cons o l ih =>
      simp only [List.map_cons, List.cons.injEq]
      refine ⟨?_, ih (fun o2 ho2 => hl o2 (List.mem_cons_of_mem _ ho2))⟩
      have := hl o (List.mem_cons_self _ _)
      cases o with
      | inst x => simp [Value.isConstant] at this
      | _ => rfl
  exact this _ h

/-- The operands of an instruction of the form `(base, index, constants...)`. -/
theorem mem_operands_of_shape (I : Instruction) (v0 v1 o : Value)
    (h0 : I.getOperand 0 = some v0) (h1 : I.getOperand 1 = some v1) (ho : o ∈ I.operands) :
    o = v0 ∨ o = v1 ∨ o ∈ I.operands.drop 2 := by
  unfold Instruction.getOperand at h0 h1
  match hops : I.operands with
  | [] => rw [hops] at h0; simp at h0
  | [_] => rw [hops] at h1; simp at h1
  | a :: b :: r =>
    rw [hops] at h0 h1 ho
    simp only [List.getElem?_cons_zero, List.getElem?_cons_succ, Option.some.injEq] at h0 h1
    simp only [List.mem_cons] at ho
    simp only [List.drop_succ_cons, List.drop_zero]
    rcases ho with h | h | h
    · exact Or.inl (h.trans h0)
    · exact Or.inr (Or.inl (h.trans h1))
    · exact Or.inr (Or.inr h)

theorem getOperand_of_mem (I : Instruction) (o : Value) (h : o ∈ I.operands) :
    ∃ i, I.getOperand i = some o := by
  obtain ⟨i, hi, he⟩ := List.mem_iff_getElem.1 h
  exact ⟨i, by unfold Instruction.getOperand; rw [List.getElem?_eq_getElem hi, he]⟩

end SROA

namespace SROA

theorem user_of_key (F : Function) (hU : UniqueIds F) (V : Value) (u : Nat) (U : Instruction)
    (hu : u ∈ (users F V).map (fun U => U.id)) (hg : getInst F u = some U) :
    U ∈ users F V ∧ U.id = u := by
  obtain ⟨U2, hU2, hid⟩ := List.mem_map.1 hu
  have h1 := getInst_of_mem F hU U2 ((mem_users F _ U2).1 hU2).1
  rw [hid, hg] at h1
  rw [Option.some.inj h1]
  exact ⟨hU2, hid⟩

/-- The new field address of a user, spelled out. -/
theorem rewriteNew_shape (F : Function) (hU : UniqueIds F) (AI : Instruction)
    (hel : canBeEliminatedStructAlloca F AI = true) (NA : List Nat)
    (e : Nat × Value) (he : e.1 ∈ (users F (Value.inst AI.id)).map (fun U => U.id))
    (J : Instruction) (hJ : RewriteNew F NA e J) :
    ∃ U k t n, U ∈ users F (Value.inst AI.id) ∧ U.id = e.1
      ∧ U.opcode = Opcode.getElementPtr ∧ 3 < U.operands.length
      ∧ U.getOperand 2 = some (Value.constantInt (Int.ofNat k)) ∧ NA[k]? = some t
      ∧ e.2 = Value.inst n ∧ freshId F ≤ n ∧ J = NewGEPIWithId n U t
      ∧ J.operands = Value.inst t :: Value.constantInt 0 :: U.operands.drop 3
      ∧ (∀ o ∈ U.operands.drop 1, o.isConstant = true) := by
  obtain ⟨U, k, t, n, hg, hop, h3, hk, ht, hv, hn, rfl⟩ := hJ
  obtain ⟨hUm, hid⟩ := user_of_key F hU _ e.1 U he hg
  obtain ⟨_, _, h1, _, hc⟩ := gep_user_shape F AI U hel hUm hop
  exact ⟨U, k, t, n, hUm, hid, hop, h3, hk, ht, hv, hn, rfl,
    NewGEPI_operands [] U t h1, hc⟩

theorem decomposed_lookup_none (F : Function) (AI : Instruction) (fs : List Ty)
    (G : Function) (subs : List Nat) (News : List Instruction) (env : List (Nat × Value))
    (hD : Decomposed F AI fs G subs News env) (x : Nat)
    (hx : x ∉ (users F (Value.inst AI.id)).map (fun U => U.id)) : env.lookup x = none := by
  apply lookup_none_of_not_mem
  rw [hD.2.2.2.1]
  exact hx

theorem decomposed_key (F : Function) (AI : Instruction) (fs : List Ty)
    (G : Function) (subs : List Nat) (News : List Instruction) (env : List (Nat × Value))
    (hD : Decomposed F AI fs G subs News env) (e : Nat × Value) (he : e ∈ env) :
    e.1 ∈ (users F (Value.inst AI.id)).map (fun U => U.id) := by
  rw [← hD.2.2.2.1]
  exact List.mem_map.2 ⟨e, he, rfl⟩

/-- After a decomposition, an operand that refers to an instruction of the function
before stands in an instruction that was there before, at the same position. -/
theorem old_operand_origin (F : Function) (hU : UniqueIds F) (AI : Instruction)
    (hel : canBeEliminatedStructAlloca F AI = true) (fs : List Ty)
    (G : Function) (subs : List Nat) (News : List Instruction) (env : List (Nat × Value))
    (hD : Decomposed F AI fs G subs News env) (x : Nat) (hx : x < freshId F)
    (I : Instruction) (hI : I ∈ allInsts G) (i : Nat)
    (hget : I.getOperand i = some (Value.inst x)) :
    ∃ W ∈ allInsts F, W.id ∉ (users F (Value.inst AI.id)).map (fun U => U.id)
      ∧ W.id ≠ AI.id ∧ I = substOperands env W ∧ W.getOperand i = some (Value.inst x) := by
  obtain ⟨d1, d2, d3, d4, d5, d6, d7, d8, d9, d10, d11⟩ := hD
  rcases (d9 I).1 hI with hN | ⟨W, hW, h1, h2, rfl⟩ | ⟨e, he, hnew⟩
  · have := mem_operands_of_getOperand I i _ hget
    rw [(d2 I hN).1] at this
    simp at this
  · refine ⟨W, hW, h1, h2, rfl, ?_⟩
    obtain ⟨v, hv, hcase⟩ := substOperands_getOperand env W i _ hget
    rcases hcase with h | ⟨y, _, hl⟩
    · rw [hv, h]
    · have := d6 _ (mem_of_lookup env y _ hl) x rfl
      omega
  · have hkey : e.1 ∈ (users F (Value.inst AI.id)).map (fun U => U.id) := by
      rw [← d4]
      exact List.mem_map.2 ⟨e, he, rfl⟩
    obtain ⟨U, k, t, n, _, _, _, _, _, ht, _, _, rfl, hops, hc⟩ :=
      rewriteNew_shape F hU AI hel _ e hkey I hnew
    have hm := mem_operands_of_getOperand _ i _ hget
    rcases mem_NewGEPIWithId_operands n U t _ hm with h | h
    · obtain ⟨A, hA, hid⟩ := List.mem_map.1 (List.getElem?_mem ht)
      have := (d2 A hA).2.2
      have := Value.inst.inj h
      omega
    · have := hc _ h
      simp [Value.isConstant] at this

/-- After a decomposition, an operand that refers to a new field address stands where
the field address it replaces stood. -/
theorem new_operand_origin (F : Function) (hU : UniqueIds F) (AI : Instruction)
    (hel : canBeEliminatedStructAlloca F AI = true) (fs : List Ty)
    (G : Function) (subs : List Nat) (News : List Instruction) (env : List (Nat × Value))
    (hD : Decomposed F AI fs G subs News env) (e : Nat × Value) (he : e ∈ env)
    (N : Instruction) (hN : RewriteNew F (News.map (fun A => A.id)) e N)
    (I : Instruction) (hI : I ∈ allInsts G) (i : Nat)
    (hget : I.getOperand i = some (Value.inst N.id)) :
    ∃ W ∈ allInsts F, W.id ∉ (users F (Value.inst AI.id)).map (fun U => U.id)
      ∧ W.id ≠ AI.id ∧ I = substOperands env W
      ∧ W.getOperand i = some (Value.inst e.1) := by
  have hkeyN := decomposed_key F AI fs G subs News env hD e he
  obtain ⟨d1, d2, d3, d4, d5, d6, d7, d8, d9, d10, d11⟩ := hD
  have hNid := d8 e he N hN
  obtain ⟨U0, k0, t0, n0, _, _, _, _, _, _, hv0, hn0, hNeq, _, _⟩ :=
    rewriteNew_shape F hU AI hel _ e hkeyN N hN
  have hid0 : N.id = n0 := by rw [hNeq]; rfl
  rcases (d9 I).1 hI with hIN | ⟨W, hW, h1, h2, rfl⟩ | ⟨e2, he2, hnew⟩
  · have := mem_operands_of_getOperand I i _ hget
    rw [(d2 I hIN).1] at this
    simp at this
  · refine ⟨W, hW, h1, h2, rfl, ?_⟩
    obtain ⟨v, hv, hcase⟩ := substOperands_getOperand env W i _ hget
    rcases hcase with h | ⟨y, hvy, hl⟩
    · have := operand_lt_freshId F W hW N.id (h ▸ mem_operands_of_getOperand W i _ hv)
      omega
    · have hmem := mem_of_lookup env y _ hl
      have := d7 e he (y, Value.inst N.id) hmem N hN (by rw [hv0, hid0])
      simp only at this
      rw [hv, hvy, this]
  · have hkey : e2.1 ∈ (users F (Value.inst AI.id)).map (fun U => U.id) := by
      rw [← d4]
      exact List.mem_map.2 ⟨e2, he2, rfl⟩
    obtain ⟨U, k, t, n, _, _, _, _, _, ht, _, _, rfl, hops, hc⟩ :=
      rewriteNew_shape F hU AI hel _ e2 hkey I hnew
    have hm := mem_operands_of_getOperand _ i _ hget
    rcases mem_NewGEPIWithId_operands n U t _ hm with h | h
    · exact absurd (Value.inst.inj h ▸ List.getElem?_mem ht) hNid
    · have := hc _ h
      simp [Value.isConstant] at this

/-- A field address that passes `isU1TypeGetElementPtr` is unchanged by the
decomposition of an allocation it is not a user of. -/
theorem substOperands_gep_self (env : List (Nat × Value)) (W : Instruction) (g : Nat)
    (hl : env.lookup g = none) (h0 : W.getOperand 0 = some (Value.inst g))
    (h1 : W.getOperand 1 = some (Value.constantInt 0))
    (hc : ∀ o ∈ W.operands.drop 2, o.isConstant = true) : substOperands env W = W := by
  apply substOperands_eq_self
  intro x hx
  rcases mem_operands_of_shape W _ _ _ h0 h1 hx with h | h | h
  · rw [Value.inst.inj h]
    exact hl
  · exact Value.noConfusion h
  · have := hc _ h
    simp [Value.isConstant] at this

theorem substOperands_cmp_self (env : List (Nat × Value)) (W : Instruction) (g : Nat)
    (hl : env.lookup g = none) (h : isU2TypeEqOrNe W (Value.inst g) = true) :
    substOperands env W = W := by
  obtain ⟨p, a, b, _, _, hops, hcase⟩ := (isU2TypeEqOrNe_true_iff W _).1 h
  apply substOperands_eq_self
  intro x hx
  rw [hops] at hx
  simp only [List.mem_cons, List.mem_singleton, List.not_mem_nil, or_false] at hx
  rcases hcase with ⟨ha, hb⟩ | ⟨hb, ha⟩
  · rcases hx with h | h
    · rw [ha] at h
      rw [Value.inst.inj h]
      exact hl
    · rw [hb] at h
      exact Value.noConfusion h
  · rcases hx with h | h
    · rw [ha] at h
      exact Value.noConfusion h
    · rw [hb] at h
      rw [Value.inst.inj h]
      exact hl

/-- The test of `isU1TypeGetElementPtr` on the users of a field address that is not
a user of the decomposed allocation gives, after the decomposition, what it gave
before. -/
theorem isU1Fuel_transfer (F : Function) (hU : UniqueIds F) (AI : Instruction)
    (hel : canBeEliminatedStructAlloca F AI = true) (fs : List Ty)
    (G : Function) (subs : List Nat) (News : List Instruction) (env : List (Nat × Value))
    (hD : Decomposed F AI fs G subs News env) (n : Nat) :
    (∀ (g : Instruction) (Val : Value), g ∈ allInsts F →
      g.id ∉ (users F (Value.inst AI.id)).map (fun U => U.id) →
      isU1Fuel F n g Val = true → isU1Fuel G n g Val = true)
    ∧ ∀ (g : Nat), g < freshId F →
      g ∉ (users F (Value.inst AI.id)).map (fun U => U.id) →
      (∀ W ∈ users F (Value.inst g), U1User F n g W) →
      ∀ W ∈ users G (Value.inst g), U1User G n g W := by
  induction n with
  | zero =>
    refine ⟨fun g Val _ _ h => by simp [isU1Fuel] at h, ?_⟩
    intro g hg hgus hF W2 hW2
    obtain ⟨hW2m, hW2o⟩ := (mem_users G _ W2).1 hW2
    obtain ⟨i, hi⟩ := getOperand_of_mem W2 _ hW2o
    obtain ⟨W, hW, h1, h2, rfl, hget⟩ :=
      old_operand_origin F hU AI hel fs G subs News env hD g hg W2 hW2m i hi
    have hl := decomposed_lookup_none F AI fs G subs News env hD g hgus
    have hWu : W ∈ users F (Value.inst g) :=
      (mem_users F _ W).2 ⟨hW, mem_operands_of_getOperand W i _ hget⟩
    rcases hF W hWu with ⟨_, h⟩ | ⟨p, ho, h⟩ | ⟨ho, h⟩ | ⟨ho, h⟩
    · simp [isU1Fuel] at h
    · rw [substOperands_cmp_self env W g hl h]
      exact Or.inr (Or.inl ⟨p, ho, h⟩)
    · exact Or.inr (Or.inr (Or.inl ⟨by rw [substOperands_opcode, ho],
        substOperands_getOperand_keep env W 0 _ h (fun x hx => by
          rw [← Value.inst.inj hx]; exact hl)⟩))
    · exact Or.inr (Or.inr (Or.inr ⟨by rw [substOperands_opcode, ho],
        substOperands_getOperand_keep env W 1 _ h (fun x hx => by
          rw [← Value.inst.inj hx]; exact hl)⟩))
  | succ n ih =>
    have hgep : ∀ (g : Instruction) (Val : Value), g ∈ allInsts F →
        g.id ∉ (users F (Value.inst AI.id)).map (fun U => U.id) →
        isU1Fuel F (n + 1) g Val = true → isU1Fuel G (n + 1) g Val = true := by
      intro g Val hg hgus h
      rw [isU1Fuel_true_iff] at h ⊢
      obtain ⟨h1, h2, h3, h4, h5⟩ := h
      exact ⟨h1, h2, h3, h4, ih.2 g.id (id_lt_freshId F g hg) hgus h5⟩
    refine ⟨hgep, ?_⟩
    intro g hg hgus hF W2 hW2
    obtain ⟨hW2m, hW2o⟩ := (mem_users G _ W2).1 hW2
    obtain ⟨i, hi⟩ := getOperand_of_mem W2 _ hW2o
    obtain ⟨W, hW, h1, h2, rfl, hget⟩ :=
      old_operand_origin F hU AI hel fs G subs News env hD g hg W2 hW2m i hi
    have hl := decomposed_lookup_none F AI fs G subs News env hD g hgus
    have hWu : W ∈ users F (Value.inst g) :=
      (mem_users F _ W).2 ⟨hW, mem_operands_of_getOperand W i _ hget⟩
    rcases hF W hWu with ⟨ho, h⟩ | ⟨p, ho, h⟩ | ⟨ho, h⟩ | ⟨ho, h⟩
    · have hsh := (isU1Fuel_true_iff F n W _).1 h
      rw [substOperands_gep_self env W g hl hsh.2.1 hsh.2.2.1 hsh.2.2.2.1]
      exact Or.inl ⟨ho, hgep W _ hW h1 h⟩
    · rw [substOperands_cmp_self env W g hl h]
      exact Or.inr (Or.inl ⟨p, ho, h⟩)
    · exact Or.inr (Or.inr (Or.inl ⟨by rw [substOperands_opcode, ho],
        substOperands_getOperand_keep env W 0 _ h (fun x hx => by
          rw [← Value.inst.inj hx]; exact hl)⟩))
    · exact Or.inr (Or.inr (Or.inr ⟨by rw [substOperands_opcode, ho],
        substOperands_getOperand_keep env W 1 _ h (fun x hx => by
          rw [← Value.inst.inj hx]; exact hl)⟩))

/-! ## SROA: eligibility after a decomposition -/

theorem not_user_of_alloca (F : Function) (hU : UniqueIds F) (AI B : Instruction)
    (hel : canBeEliminatedStructAlloca F AI = true) (hB : B ∈ allInsts F)
    (hBa : B.isAlloca = true) :
    B.id ∉ (users F (Value.inst AI.id)).map (fun U => U.id) := by
  intro hm
  obtain ⟨U2, hU2, hid⟩ := List.mem_map.1 hm
  have := eq_of_id_eq F hU U2 B ((mem_users F _ U2).1 hU2).1 hB hid
  subst this
  have hs := (user_shape_of_eligible F AI U2 hel hU2).1
  unfold Instruction.isAlloca at hBa
  rcases hs with ⟨h, _⟩ | h | h <;> rw [h] at hBa <;> simp at hBa

/-- Decomposing one eligible allocation leaves every other eligible allocation in the
function, with its type, and eligible. -/
theorem eligible_preserved (F : Function) (hU : UniqueIds F) (AI : Instruction)
    (hel : canBeEliminatedStructAlloca F AI = true) (fs : List Ty)
    (G : Function) (subs : List Nat) (News : List Instruction) (env : List (Nat × Value))
    (hD : Decomposed F AI fs G subs News env) (B : Instruction) (hB : B ∈ allInsts F)
    (hBA : B.id ≠ AI.id) (hBel : canBeEliminatedStructAlloca F B = true) :
    substOperands env B ∈ allInsts G
      ∧ canBeEliminatedStructAlloca G (substOperands env B) = true := by
  have hBa := canBeEliminatedStructAlloca_isAlloca F B hBel
  have hBus := not_user_of_alloca F hU AI B hel hB hBa
  have hmem : substOperands env B ∈ allInsts G :=
    (hD.2.2.2.2.2.2.2.2.1 _).2 (Or.inr (Or.inl ⟨B, hB, hBus, hBA, rfl⟩))
  have hUG : UniqueIds G := hD.2.2.2.2.2.2.2.2.2.1
  refine ⟨hmem, ?_⟩
  cases hty : B.opcode with
  | alloca ty =>
    have hty2 : (substOperands env B).opcode = Opcode.alloca ty := by
      rw [substOperands_opcode, hty]
    rw [canBeEliminatedStructAlloca_eq F B ty hty, Bool.and_eq_true, List.all_eq_true] at hBel
    rw [canBeEliminatedStructAlloca_eq G _ ty hty2, Bool.and_eq_true, List.all_eq_true]
    refine ⟨hBel.1, ?_⟩
    rw [substOperands_id]
    intro W2 hW2
    obtain ⟨hW2m, hW2o⟩ := (mem_users G _ W2).1 hW2
    obtain ⟨i, hi⟩ := getOperand_of_mem W2 _ hW2o
    obtain ⟨W, hW, h1, h2, rfl, hget⟩ := old_operand_origin F hU AI hel fs G subs News env hD
      B.id (id_lt_freshId F B hB) W2 hW2m i hi
    have hl := decomposed_lookup_none F AI fs G subs News env hD B.id hBus
    have hWu : W ∈ users F (Value.inst B.id) :=
      (mem_users F _ W).2 ⟨hW, mem_operands_of_getOperand W i _ hget⟩
    have hF := hBel.2 W hWu
    have hBnotgep : ∀ I ∈ allInsts F, I.id = B.id → I.opcode ≠ Opcode.getElementPtr := by
      intro I hI hid
      rw [eq_of_id_eq F hU I B hI hB hid, hty]
      exact fun h => Opcode.noConfusion h
    have hBnotgepG : ∀ I ∈ allInsts G, I.id = B.id → I.opcode ≠ Opcode.getElementPtr := by
      intro I hI hid
      rw [eq_of_id_eq G hUG I _ hI hmem (by rw [substOperands_id]; exact hid), hty2]
      exact fun h => Opcode.noConfusion h
    cases hWo : W.opcode with
    | getElementPtr =>
      rw [hWo] at hF
      simp only at hF
      have hstF := isU1Fuel_stable F hU B.id hBnotgep W hW hWo
        ((allInsts F).length + (allInsts G).length + 1) (by omega)
      rw [← hstF] at hF
      have hsh := (isU1Fuel_true_iff F _ W _).1 hF
      have hself := substOperands_gep_self env W B.id hl hsh.2.1 hsh.2.2.1 hsh.2.2.2.1
      rw [hself] at hW2m ⊢
      rw [hWo]
      simp only
      have hG := (isU1Fuel_transfer F hU AI hel fs G subs News env hD _).1 W _ hW h1 hF
      rw [← isU1Fuel_stable G hUG B.id hBnotgepG W hW2m hWo
        ((allInsts F).length + (allInsts G).length + 1) (by omega)]
      exact hG
    | cmp p =>
      rw [hWo] at hF
      simp only at hF
      rw [substOperands_cmp_self env W B.id hl hF, hWo]
      exact hF
    | alloca t =>
      rw [hWo] at hF
      simp at hF
    | load =>
      rw [hWo] at hF
      simp at hF
    | store =>
      rw [hWo] at hF
      simp at hF
    | phi =>
      rw [hWo] at hF
      simp at hF
    | other =>
      rw [hWo] at hF
      simp at hF
  | _ =>
    unfold Instruction.isAlloca at hBa
    rw [hty] at hBa
    simp at hBa

/-! ## SROA: the new field addresses and the new allocations after a decomposition -/

theorem nodup_getElem?_inj {α : Type} (l : List α) (h : l.Nodup) (i j : Nat) (x : α)
    (hi : l[i]? = some x) (hj : l[j]? = some x) : i = j := by
  obtain ⟨hi1, hi2⟩ := List.getElem?_eq_some.1 hi
  obtain ⟨hj1, hj2⟩ := List.getElem?_eq_some.1 hj
  exact (h.getElem_inj_iff).1 (hi2.trans hj2.symm)

theorem substOperands_cmp (env : List (Nat × Value)) (W : Instruction) (u : Nat) (V : Value)
    (hl : env.lookup u = some V) (h : isU2TypeEqOrNe W (Value.inst u) = true) :
    isU2TypeEqOrNe (substOperands env W) V = true := by
  obtain ⟨p, a, b, hp, hpe, hops, hcase⟩ := (isU2TypeEqOrNe_true_iff W _).1 h
  rw [isU2TypeEqOrNe_true_iff]
  rcases hcase with ⟨ha, hb⟩ | ⟨hb, ha⟩
  · refine ⟨p, V, Value.constantPointerNull, by rw [substOperands_opcode, hp], hpe, ?_,
      Or.inl ⟨rfl, rfl⟩⟩
    unfold substOperands
    simp [hops, ha, hb, hl]
  · refine ⟨p, Value.constantPointerNull, V, by rw [substOperands_opcode, hp], hpe, ?_,
      Or.inr ⟨rfl, rfl⟩⟩
    unfold substOperands
    simp [hops, ha, hb, hl]

/-- Each new field address that a decomposition creates is in the function afterwards
and passes `isU1TypeGetElementPtr` with the new allocation of its field as base. -/
theorem newGEP_isU1 (F : Function) (hU : UniqueIds F) (AI : Instruction)
    (hAI : AI ∈ allInsts F) (hel : canBeEliminatedStructAlloca F AI = true) (fs : List Ty)
    (G : Function) (subs : List Nat) (News : List Instruction) (env : List (Nat × Value))
    (hD : Decomposed F AI fs G subs News env) (e : Nat × Value) (he : e ∈ env)
    (N : Instruction) (hN : RewriteNew F (News.map (fun A => A.id)) e N) :
    N ∈ allInsts G ∧ N.opcode = Opcode.getElementPtr
      ∧ ∃ t, N.getOperand 0 = some (Value.inst t)
        ∧ isU1TypeGetElementPtr G N (Value.inst t) = true := by
  have hkey := decomposed_key F AI fs G subs News env hD e he
  have hD2 := hD
  obtain ⟨d1, d2, d3, d4, d5, d6, d7, d8, d9, d10, d11⟩ := hD
  obtain ⟨U, k, t, n, hUm, hid, hop, h3, hk, ht, hv, hn, hNeq, hops, hc⟩ :=
    rewriteNew_shape F hU AI hel _ e hkey N hN
  have hNG : N ∈ allInsts G := (d9 N).2 (Or.inr (Or.inr ⟨e, he, hN⟩))
  have hNop : N.opcode = Opcode.getElementPtr := by rw [hNeq]; rfl
  have hNid : N.id = n := by rw [hNeq]; rfl
  have hN0 : N.getOperand 0 = some (Value.inst t) := by
    unfold Instruction.getOperand
    rw [hops]
    simp
  refine ⟨hNG, hNop, t, hN0, ?_⟩
  have hnd : (env.map (fun e => e.1)).Nodup := by
    rw [d4]
    exact nodup_user_ids F hU _
  have hl : env.lookup U.id = some (Value.inst N.id) := by
    rw [hid, hNid, ← hv]
    exact lookup_of_mem_nodup env e.1 e.2 hnd he
  have hAa := canBeEliminatedStructAlloca_isAlloca F AI hel
  have hAnotgep : ∀ I ∈ allInsts F, I.id = AI.id → I.opcode ≠ Opcode.getElementPtr := by
    intro I hI hid2
    rw [eq_of_id_eq F hU I AI hI hAI hid2]
    intro h
    unfold Instruction.isAlloca at hAa
    rw [h] at hAa
    simp at hAa
  -- the test on the old field address, with the depth bound raised
  have hF : isU1Fuel F ((allInsts F).length + (allInsts G).length + 1) U
      (Value.inst AI.id) = true := by
    rw [isU1Fuel_stable F hU AI.id hAnotgep U ((mem_users F _ U).1 hUm).1 hop _ (by omega)]
    cases hty : AI.opcode with
    | alloca ty =>
      rw [canBeEliminatedStructAlloca_eq F AI ty hty, Bool.and_eq_true, List.all_eq_true] at hel
      have := hel.2 U hUm
      rw [hop] at this
      exact this
    | _ =>
      unfold Instruction.isAlloca at hAa
      rw [hty] at hAa
      simp at hAa
  obtain ⟨_, _, _, _, husers⟩ := (isU1Fuel_true_iff F _ U _).1 hF
  -- the base of the new field address is an allocation
  obtain ⟨A, hA, hAid⟩ := List.mem_map.1 (List.getElem?_mem ht)
  have hAG : A ∈ allInsts G := (d9 A).2 (Or.inl hA)
  have hAop : ∃ ty, A.opcode = Opcode.alloca ty := by
    have := news_isAlloca News fs d1 A hA
    unfold Instruction.isAlloca at this
    cases hAo : A.opcode with
    | alloca ty => exact ⟨ty, rfl⟩
    | _ => rw [hAo] at this; simp at this
  have htnotgep : ∀ I ∈ allInsts G, I.id = t → I.opcode ≠ Opcode.getElementPtr := by
    intro I hI hid2
    rw [eq_of_id_eq G d10 I A hI hAG (hid2.trans hAid.symm)]
    obtain ⟨ty, hty⟩ := hAop
    rw [hty]
    exact fun h => Opcode.noConfusion h
  rw [← isU1Fuel_stable G d10 t htnotgep N hNG hNop
    ((allInsts F).length + (allInsts G).length + 1) (by omega), isU1Fuel_true_iff]
  refine ⟨?_, hN0, ?_, ?_, ?_⟩
  · rw [hops]
    simp only [List.length_cons, List.length_drop]
    omega
  · unfold Instruction.getOperand
    rw [hops]
    simp
  · rw [hops]
    intro o ho
    simp only [List.drop_succ_cons, List.drop_zero] at ho
    exact hc o (List.mem_of_mem_drop (show o ∈ (U.operands.drop 1).drop 2 by
      simpa [List.drop_drop] using ho))
  · intro W2 hW2
    obtain ⟨hW2m, hW2o⟩ := (mem_users G _ W2).1 hW2
    obtain ⟨i, hi⟩ := getOperand_of_mem W2 _ hW2o
    obtain ⟨W, hW, h1, h2, rfl, hget⟩ :=
      new_operand_origin F hU AI hel fs G subs News env hD2 e he N hN W2 hW2m i hi
    rw [← hid] at hget
    have hWu : W ∈ users F (Value.inst U.id) :=
      (mem_users F _ W).2 ⟨hW, mem_operands_of_getOperand W i _ hget⟩
    rcases husers W hWu with ⟨ho, h⟩ | ⟨p, ho, h⟩ | ⟨ho, h⟩ | ⟨ho, h⟩
    · left
      refine ⟨by rw [substOperands_opcode, ho], ?_⟩
      obtain ⟨m, hm⟩ : ∃ m, (allInsts F).length + (allInsts G).length = m + 1 :=
        ⟨(allInsts F).length + (allInsts G).length - 1, by
          have := List.length_pos_of_mem hW
          omega⟩
      rw [hm] at h ⊢
      rw [isU1Fuel_true_iff] at h ⊢
      obtain ⟨g1, g2, g3, g4, g5⟩ := h
      refine ⟨by rw [substOperands_length]; exact g1,
        substOperands_getOperand_inst env W 0 U.id _ g2 hl,
        substOperands_getOperand_keep env W 1 _ g3 (fun x hx => Value.noConfusion hx), ?_, ?_⟩
      · rw [substOperands_drop_const env W 2 g4]
        exact g4
      · rw [substOperands_id]
        exact (isU1Fuel_transfer F hU AI hel fs G subs News env hD2 m).2 W.id
          (id_lt_freshId F W hW) h1 g5
    · exact Or.inr (Or.inl ⟨p, by rw [substOperands_opcode, ho],
        substOperands_cmp env W U.id _ hl h⟩)
    · exact Or.inr (Or.inr (Or.inl ⟨by rw [substOperands_opcode, ho],
        substOperands_getOperand_inst env W 0 U.id _ h hl⟩))
    · exact Or.inr (Or.inr (Or.inr ⟨by rw [substOperands_opcode, ho],
        substOperands_getOperand_inst env W 1 U.id _ h hl⟩))

/-- A new allocation of a structure-typed field that was reached only through field
addresses with further indices is eligible after the decomposition, and is among the
sub-aggregate allocations that `eliminateStructAlloca` returns. -/
theorem newAlloca_eligible (F : Function) (hU : UniqueIds F) (AI : Instruction)
    (hAI : AI ∈ allInsts F) (hel : canBeEliminatedStructAlloca F AI = true) (fs : List Ty)
    (G : Function) (subs : List Nat) (News : List Instruction) (env : List (Nat × Value))
    (hD : Decomposed F AI fs G subs News env) (k : Nat) (A : Instruction)
    (hA : News[k]? = some A) (gs : List Ty) (hgs : fs[k]? = some (Ty.struct gs))
    (honly : ∀ U ∈ users F (Value.inst AI.id), U.opcode = Opcode.getElementPtr →
      U.getOperand 2 = some (Value.constantInt (Int.ofNat k)) → 3 < U.operands.length) :
    A ∈ allInsts G ∧ A.opcode = Opcode.alloca (Ty.struct gs)
      ∧ canBeEliminatedStructAlloca G A = true ∧ A.id ∈ subs := by
  have hD2 := hD
  obtain ⟨d1, d2, d3, d4, d5, d6, d7, d8, d9, d10, d11⟩ := hD
  have hAm : A ∈ News := List.getElem?_mem hA
  have hAG : A ∈ allInsts G := (d9 A).2 (Or.inl hAm)
  have hAop : A.opcode = Opcode.alloca (Ty.struct gs) := by
    have h1 : (News.map (fun A => A.opcode))[k]? = some A.opcode := by
      rw [List.getElem?_map, hA]
      rfl
    rw [d1, List.getElem?_map, hgs] at h1
    exact (Option.some.inj h1).symm
  have hNAk : (News.map (fun A => A.id))[k]? = some A.id := by
    rw [List.getElem?_map, hA]
    rfl
  refine ⟨hAG, hAop, ?_, ?_⟩
  · rw [canBeEliminatedStructAlloca_eq G A _ hAop, Bool.and_eq_true, List.all_eq_true]
    refine ⟨rfl, ?_⟩
    intro W2 hW2
    obtain ⟨hW2m, hW2o⟩ := (mem_users G _ W2).1 hW2
    obtain ⟨i, hi⟩ := getOperand_of_mem W2 _ hW2o
    rcases (d9 W2).1 hW2m with hN | ⟨W, hW, h1, h2, rfl⟩ | ⟨e, he, hnew⟩
    · rw [(d2 W2 hN).1] at hW2o
      simp at hW2o
    · exfalso
      obtain ⟨v, hv, hcase⟩ := substOperands_getOperand env W i _ hi
      rcases hcase with h | ⟨y, hvy, hl⟩
      · have := operand_lt_freshId F W hW A.id (h ▸ mem_operands_of_getOperand W i _ hv)
        have := (d2 A hAm).2.2
        omega
      · have hmem := mem_of_lookup env y _ hl
        have hkey := decomposed_key F AI fs G subs News env hD2 _ hmem
        obtain ⟨Uy, hg, hcase2⟩ := d5 _ hmem
        simp only at hg hcase2 hkey
        obtain ⟨hUm, hid⟩ := user_of_key F hU _ y Uy hkey hg
        rcases hcase2 with ⟨_, h⟩ | ⟨_, h⟩ | ⟨hop, k2, t2, hk2, ht2, ⟨h3, h⟩ | ⟨h3, n, hn, h⟩⟩
        · exact Value.noConfusion h
        · exact Value.noConfusion h
        · have htt : t2 = A.id := (Value.inst.inj h).symm
          rw [htt] at ht2
          have hkk := nodup_getElem?_inj _ d3 k2 k A.id ht2 hNAk
          rw [hkk] at hk2
          have := honly Uy hUm hop hk2
          omega
        · have hnew : RewriteNew F (News.map (fun A => A.id)) (y, Value.inst A.id)
              (NewGEPIWithId n Uy t2) :=
            ⟨Uy, k2, t2, n, hg, hop, h3, hk2, ht2, h, hn, rfl⟩
          have := d8 _ hmem _ hnew
          have hnn : n = A.id := (Value.inst.inj h).symm
          apply this
          rw [show (NewGEPIWithId n Uy t2).id = n from rfl, hnn]
          exact List.mem_map.2 ⟨A, hAm, rfl⟩
    · obtain ⟨_, hWop, t, h0, hU1⟩ :=
        newGEP_isU1 F hU AI hAI hel fs G subs News env hD2 e he W2 hnew
      have hkey := decomposed_key F AI fs G subs News env hD2 e he
      obtain ⟨U, k2, t2, n, _, _, _, _, _, _, _, _, hWeq, hops, hc⟩ :=
        rewriteNew_shape F hU AI hel _ e hkey W2 hnew
      have htA : t = A.id := by
        have h00 := h0
        unfold Instruction.getOperand at h00
        rw [hops] at h00 hW2o
        simp only [List.getElem?_cons_zero, Option.some.injEq, Value.inst.injEq] at h00
        simp only [List.mem_cons] at hW2o
        rcases hW2o with h | h | h
        · rw [← h00]
          exact (Value.inst.inj h).symm
        · exact Value.noConfusion h
        · have := hc _ (List.mem_of_mem_drop (show Value.inst A.id ∈ (U.operands.drop 1).drop 2
            by simpa [List.drop_drop] using h))
          simp [Value.isConstant] at this
      rw [hWop]
      simp only
      rw [← htA]
      exact hU1
  · rw [d11]
    refine List.mem_map.2 ⟨A, List.mem_filter.2 ⟨hAm, ?_⟩, rfl⟩
    rw [hAop]
    rfl

theorem mem_pushEligible (G : Function) (subs : List Nat) :
    ∀ (wl : List Nat) (x : Nat), x ∈ pushEligible G subs wl ↔
      x ∈ wl ∨ (x ∈ subs ∧ ∃ S, getInst G x = some S
        ∧ canBeEliminatedStructAlloca G S = true) := by
  induction subs with
  | nil =>
    intro wl x
    simp [pushEligible]
  | cons s subs ih =>
    intro wl x
    simp only [pushEligible]
    cases hg : getInst G s with
    | none =>
      simp only
      rw [ih]
      constructor
      · rintro (h | ⟨h1, h2⟩)
        · exact Or.inl h
        · exact Or.inr ⟨List.mem_cons_of_mem _ h1, h2⟩
      · rintro (h | ⟨h1, S, h2, h3⟩)
        · exact Or.inl h
        · rcases List.mem_cons.1 h1 with rfl | h1
          · rw [hg] at h2
            exact absurd h2 (by simp)
          · exact Or.inr ⟨h1, S, h2, h3⟩
    | some S0 =>
      simp only
      by_cases hc : canBeEliminatedStructAlloca G S0 = true
      · rw [if_pos hc, ih]
        constructor
        · rintro (h | ⟨h1, h2⟩)
          · rcases List.mem_cons.1 h with rfl | h
            · exact Or.inr ⟨List.mem_cons_self _ _, S0, hg, hc⟩
            · exact Or.inl h
          · exact Or.inr ⟨List.mem_cons_of_mem _ h1, h2⟩
        · rintro (h | ⟨h1, S, h2, h3⟩)
          · exact Or.inl (List.mem_cons_of_mem _ h)
          · rcases List.mem_cons.1 h1 with rfl | h1
            · exact Or.inl (List.mem_cons_self _ _)
            · exact Or.inr ⟨h1, S, h2, h3⟩
      · rw [if_neg hc, ih]
        constructor
        · rintro (h | ⟨h1, h2⟩)
          · exact Or.inl h
          · exact Or.inr ⟨List.mem_cons_of_mem _ h1, h2⟩
        · rintro (h | ⟨h1, S, h2, h3⟩)
          · exact Or.inl h
          · rcases List.mem_cons.1 h1 with rfl | h1
            · rw [hg] at h2
              rw [← Option.some.inj h2] at h3
              exact absurd h3 hc
            · exact Or.inr ⟨h1, S, h2, h3⟩

/-! ## SROA: the invariant of the work-list loop -/

theorem nodup_pushEligible (G : Function) (subs : List Nat) :
    ∀ (wl : List Nat), wl.Nodup → subs.Nodup → (∀ s ∈ subs, s ∉ wl) →
      (pushEligible G subs wl).Nodup := by
  induction subs with
  | nil =>
    intro wl h _ _
    exact h
  | cons s subs ih =>
    intro wl hwl hsubs hdis
    simp only [pushEligible]
    have hsub2 := (List.nodup_cons.1 hsubs)
    have hkeep : (pushEligible G subs wl).Nodup :=
      ih wl hwl hsub2.2 (fun x hx => hdis x (List.mem_cons_of_mem _ hx))
    cases hg : getInst G s with
    | none => exact hkeep
    | some S0 =>
      simp only
      by_cases hc : canBeEliminatedStructAlloca G S0 = true
      · rw [if_pos hc]
        apply ih (s :: wl) (List.nodup_cons.2 ⟨hdis s (List.mem_cons_self _ _), hwl⟩) hsub2.2
        intro x hx hm
        rcases List.mem_cons.1 hm with rfl | hm
        · exact hsub2.1 hx
        · exact hdis x (List.mem_cons_of_mem _ hx) hm
      · rw [if_neg hc]
        exact hkeep

theorem struct_of_eligible (F : Function) (A : Instruction)
    (hel : canBeEliminatedStructAlloca F A = true) :
    ∃ fs, A.opcode = Opcode.alloca (Ty.struct fs) := by
  have ha := canBeEliminatedStructAlloca_isAlloca F A hel
  cases hty : A.opcode with
  | alloca ty =>
    rw [canBeEliminatedStructAlloca_eq F A ty hty, Bool.and_eq_true] at hel
    cases ty with
    | struct fs => exact ⟨fs, rfl⟩
    | _ => simp [Ty.isStructTy] at hel
  | _ =>
    unfold Instruction.isAlloca at ha
    rw [hty] at ha
    simp at ha

/-- One round of the work-list loop keeps the invariant; the allocation that was
popped is afterwards neither in the function nor on the work list. -/
theorem workListOk_step (F : Function) (a : Nat) (wl : List Nat)
    (hinv : WorkListOk F (a :: wl)) (G : Function) (subs : List Nat)
    (hok : eliminateStructAlloca F a = Except.ok (G, subs)) :
    WorkListOk G (pushEligible G subs wl) ∧ (∀ I ∈ allInsts G, I.id ≠ a)
      ∧ a ∉ pushEligible G subs wl := by
  obtain ⟨hU, hnd, hall⟩ := hinv
  obtain ⟨A, hA, rfl, hel⟩ := hall a (List.mem_cons_self _ _)
  obtain ⟨fs, ho⟩ := struct_of_eligible F A hel
  obtain ⟨News, env, hD, _⟩ := eliminate_closed F hU A hA fs ho hel G subs hok
  have hD2 := hD
  obtain ⟨d1, d2, d3, d4, d5, d6, d7, d8, d9, d10, d11⟩ := hD
  have hnd2 := List.nodup_cons.1 hnd
  have hsubs : ∀ s ∈ subs, ∃ S ∈ News, S.id = s := by
    intro s hs
    rw [d11] at hs
    obtain ⟨S, hS, hid⟩ := List.mem_map.1 hs
    exact ⟨S, (List.mem_filter.1 hS).1, hid⟩
  have hsubfresh : ∀ s ∈ subs, freshId F ≤ s := by
    intro s hs
    obtain ⟨S, hS, hid⟩ := hsubs s hs
    rw [← hid]
    exact (d2 S hS).2.2
  have hwlold : ∀ b ∈ wl, b < freshId F := by
    intro b hb
    obtain ⟨B, hB, hid, _⟩ := hall b (List.mem_cons_of_mem _ hb)
    rw [← hid]
    exact id_lt_freshId F B hB
  have hAlt := id_lt_freshId F A hA
  refine ⟨⟨d10, ?_, ?_⟩, ?_, ?_⟩
  · apply nodup_pushEligible G subs wl hnd2.2
    · rw [d11]
      exact List.Nodup.sublist (List.Sublist.map _ (List.filter_sublist _)) d3
    · intro s hs hm
      have := hsubfresh s hs
      have := hwlold s hm
      omega
  · intro b hb
    rcases (mem_pushEligible G subs wl b).1 hb with h | ⟨_, S, hg, hc⟩
    · obtain ⟨B, hB, hid, hBel⟩ := hall b (List.mem_cons_of_mem _ h)
      have hBA : B.id ≠ A.id := by
        rw [hid]
        intro hh
        exact hnd2.1 (hh ▸ h)
      obtain ⟨g1, g2⟩ := eligible_preserved F hU A hel fs G subs News env hD2 B hB hBA hBel
      exact ⟨_, g1, by rw [substOperands_id, hid], g2⟩
    · obtain ⟨g1, g2⟩ := getInst_some G b S hg
      exact ⟨S, g1, g2, hc⟩
  · intro I hI
    rcases (d9 I).1 hI with hN | ⟨W, _, _, h2, rfl⟩ | ⟨e, he, hnew⟩
    · have := (d2 I hN).2.2
      omega
    · rw [substOperands_id]
      exact h2
    · obtain ⟨U, k, t, n, _, _, _, _, _, _, hn, rfl⟩ := hnew
      have hid : (NewGEPIWithId n U t).id = n := rfl
      omega
  · intro hm
    rcases (mem_pushEligible G subs wl A.id).1 hm with h | ⟨h, _⟩
    · exact hnd2.1 h
    · have := hsubfresh _ h
      omega

/-- In every round of the work-list loop the invariant holds. -/
theorem workListTrace_ok (bound : Nat) :
    ∀ (wl : List Nat) (F : Function), WorkListOk F wl →
      ∀ e ∈ workListTrace bound wl F, WorkListOk e.2.2 (e.1 :: e.2.1) := by
  induction bound with
  | zero =>
    intro wl F _ e he
    cases wl <;> simp [workListTrace] at he
  | succ bound ih =>
    intro wl F hinv e he
    cases wl with
    | nil => simp [workListTrace] at he
    | cons a wl =>
      simp only [workListTrace, List.mem_cons] at he
      rcases he with rfl | he
      · exact hinv
      · cases hok : eliminateStructAlloca F a with
        | error err =>
          rw [hok] at he
          simp at he
        | ok r =>
          rw [hok] at he
          exact ih _ _ (workListOk_step F a wl hinv r.1 r.2 hok).1 e he

theorem workListOk_initial (F : Function) (hU : UniqueIds F) :
    WorkListOk F (eliminatableAllocas F).reverse := by
  refine ⟨hU, ?_, ?_⟩
  · rw [List.nodup_reverse]
    unfold eliminatableAllocas
    exact List.Nodup.sublist (List.Sublist.map _ (List.filter_sublist _)) hU
  · intro b hb
    rw [List.mem_reverse] at hb
    unfold eliminatableAllocas at hb
    obtain ⟨B, hB, hid⟩ := List.mem_map.1 hb
    obtain ⟨hBm, hBc⟩ := List.mem_filter.1 hB
    rw [Bool.and_eq_true] at hBc
    exact ⟨B, hBm, hid, hBc.2⟩

/-- The number of decompositions that the loop returns is the number of its
rounds. -/
theorem eliminateWorkList_trace (bound : Nat) :
    ∀ (wl : List Nat) (F : Function) (n : Nat) (G : Function) (m : Nat),
      eliminateWorkList bound wl F n = Except.ok (G, m) →
      m = n + (workListTrace bound wl F).length := by
  induction bound with
  | zero =>
    intro wl F n G m h
    cases wl with
    | nil =>
      rw [eliminateWorkList_nil] at h
      simp only [Except.ok.injEq, Prod.mk.injEq] at h
      simp [workListTrace, h.2]
    | cons a wl => simp [eliminateWorkList] at h
  | succ bound ih =>
    intro wl F n G m h
    cases wl with
    | nil =>
      rw [eliminateWorkList_nil] at h
      simp only [Except.ok.injEq, Prod.mk.injEq] at h
      simp [workListTrace, h.2]
    | cons a wl =>
      simp only [eliminateWorkList] at h
      simp only [workListTrace]
      cases hok : eliminateStructAlloca F a with
      | error err =>
        rw [hok] at h
        simp at h
      | ok r =>
        rw [hok] at h
        simp only at h ⊢
        have := ih _ _ _ _ _ h
        simp only [List.length_cons]
        omega

/-! ## SROA: the number of decompositions -/

theorem lookup_of_mem_keys {β : Type} (l : List (Nat × β)) (x : Nat) (v : β)
    (hnd : (l.map (fun e => e.1)).Nodup) (h : (x, v) ∈ l) : l.lookup x = some v := by
  induction l with
  | nil => simp at h
  | cons e l ih =>
    obtain ⟨k, w⟩ := e
    simp only [List.map_cons, List.nodup_cons] at hnd
    simp only [List.lookup]
    rcases List.mem_cons.1 h with h | h
    · simp only [Prod.mk.injEq] at h
      rw [h.1, h.2]
      simp
    · have hne : x ≠ k := by
        intro hxk
        exact hnd.1 (List.mem_map.2 ⟨(x, v), h, hxk⟩)
      have : (x == k) = false := by simpa using hne
      rw [this]
      exact ih hnd.2 h

theorem lookup_allocaTypes (F : Function) (hU : UniqueIds F) (B : Instruction)
    (hB : B ∈ allInsts F) (ty : Ty) (ho : B.opcode = Opcode.alloca ty) :
    (allocaTypes F).lookup B.id = some ty :=
  lookup_of_mem_keys _ _ _
    (List.Nodup.sublist (allocaTypes_keys_sublist (allInsts F)) hU)
    ((mem_allocaTypes_iff F _).2 ⟨B, hB, rfl, ho⟩)

theorem structNodesAt_of (F : Function) (hU : UniqueIds F) (B : Instruction)
    (hB : B ∈ allInsts F) (ty : Ty) (ho : B.opcode = Opcode.alloca ty) :
    structNodesAt F B.id = ty.structNodes := by
  unfold structNodesAt
  rw [lookup_allocaTypes F hU B hB ty ho]

theorem workListNodes_cons (F : Function) (a : Nat) (wl : List Nat) :
    workListNodes F (a :: wl) = structNodesAt F a + workListNodes F wl := by
  simp [workListNodes]

theorem workListNodes_pushEligible_le (G : Function) (subs : List Nat) :
    ∀ (wl : List Nat), workListNodes G (pushEligible G subs wl)
      ≤ workListNodes G wl + workListNodes G subs := by
  induction subs with
  | nil =>
    intro wl
    simp [pushEligible, workListNodes]
  | cons s subs ih =>
    intro wl
    simp only [pushEligible]
    rw [workListNodes_cons G s subs]
    cases hg : getInst G s with
    | none =>
      simp only
      have := ih wl
      omega
    | some S0 =>
      simp only
      by_cases hc : canBeEliminatedStructAlloca G S0 = true
      · rw [if_pos hc]
        have := ih (s :: wl)
        rw [workListNodes_cons] at this
        omega
      · rw [if_neg hc]
        have := ih wl
        omega

theorem sum_news_nodes (G : Function) (News : List Instruction) :
    ∀ (fs : List Ty), News.map (fun A => A.opcode) = fs.map Opcode.alloca →
      (∀ A ∈ News, ∀ ty, A.opcode = Opcode.alloca ty →
        structNodesAt G A.id = ty.structNodes) →
      (News.map (fun A => structNodesAt G A.id)).sum = Ty.structNodesList fs := by
  induction News with
  | nil =>
    intro fs h _
    cases fs with
    | nil => rfl
    | cons f fs => simp at h
  | cons A News ih =>
    intro fs h hn
    cases fs with
    | nil => simp at h
    | cons f fs =>
      simp only [List.map_cons, List.cons.injEq] at h
      simp only [List.map_cons, List.sum_cons, Ty.structNodesList]
      rw [hn A (List.mem_cons_self _ _) f h.1,
        ih fs h.2 (fun B hB ty hty => hn B (List.mem_cons_of_mem _ hB) ty hty)]

/-- One round of the work-list loop lowers the number of structure-typed nodes in the
types of the allocations on the work list. -/
theorem workListNodes_step (F : Function) (a : Nat) (wl : List Nat)
    (hinv : WorkListOk F (a :: wl)) (G : Function) (subs : List Nat)
    (hok : eliminateStructAlloca F a = Except.ok (G, subs)) :
    workListNodes G (pushEligible G subs wl) + 1 ≤ workListNodes F (a :: wl) := by
  obtain ⟨hU, hnd, hall⟩ := hinv
  obtain ⟨A, hA, rfl, hel⟩ := hall a (List.mem_cons_self _ _)
  obtain ⟨fs, ho⟩ := struct_of_eligible F A hel
  obtain ⟨News, env, hD, _⟩ := eliminate_closed F hU A hA fs ho hel G subs hok
  have hD2 := hD
  obtain ⟨d1, d2, d3, d4, d5, d6, d7, d8, d9, d10, d11⟩ := hD
  have hnd2 := List.nodup_cons.1 hnd
  -- the allocations that stay on the work list keep their types
  have hkeep : workListNodes G wl = workListNodes F wl := by
    unfold workListNodes
    congr 1
    apply List.map_congr_left
    intro b hb
    obtain ⟨B, hB, hid, hBel⟩ := hall b (List.mem_cons_of_mem _ hb)
    obtain ⟨gs, hgs⟩ := struct_of_eligible F B hBel
    have hBA : B.id ≠ A.id := by
      rw [hid]
      intro hh
      exact hnd2.1 (hh ▸ hb)
    obtain ⟨g1, _⟩ := eligible_preserved F hU A hel fs G subs News env hD2 B hB hBA hBel
    rw [← hid, structNodesAt_of F hU B hB _ hgs]
    have := structNodesAt_of G d10 _ g1 (Ty.struct gs) (by rw [substOperands_opcode, hgs])
    rw [substOperands_id] at this
    exact this
  -- the sub-aggregate allocations have the types of fields
  have hsubs : workListNodes G subs ≤ Ty.structNodesList fs := by
    have h1 : workListNodes G subs
        = ((News.filter (fun N => match N.opcode with
            | Opcode.alloca ty => ty.isAggregateType
            | _ => false)).map (fun A => structNodesAt G A.id)).sum := by
      unfold workListNodes
      rw [d11, List.map_map]
      rfl
    rw [h1]
    refine le_trans (sum_filter_le _ _ News) (le_of_eq ?_)
    apply sum_news_nodes G News fs d1
    intro N hN ty hty
    exact structNodesAt_of G d10 N ((d9 N).2 (Or.inl hN)) ty hty
  have hpush := workListNodes_pushEligible_le G subs wl
  rw [workListNodes_cons, structNodesAt_of F hU A hA _ ho]
  simp only [Ty.structNodes]
  omega

/-- The loop makes at most as many rounds as there are structure-typed nodes in the
types of the allocations on the work list. -/
theorem workListTrace_length (bound : Nat) :
    ∀ (wl : List Nat) (F : Function), WorkListOk F wl →
      (workListTrace bound wl F).length ≤ workListNodes F wl := by
  induction bound with
  | zero =>
    intro wl F _
    cases wl <;> simp [workListTrace]
  | succ bound ih =>
    intro wl F hinv
    cases wl with
    | nil => simp [workListTrace]
    | cons a wl =>
      simp only [workListTrace, List.length_cons]
      cases hok : eliminateStructAlloca F a with
      | error err =>
        simp only [List.length_nil]
        have hpos : 1 ≤ workListNodes F (a :: wl) := by
          obtain ⟨hU, _, hall⟩ := hinv
          obtain ⟨A, hA, hid, hel⟩ := hall a (List.mem_cons_self _ _)
          obtain ⟨fs, ho⟩ := struct_of_eligible F A hel
          rw [workListNodes_cons, ← hid, structNodesAt_of F hU A hA _ ho]
          simp only [Ty.structNodes]
          omega
        omega
      | ok r =>
        simp only
        have h1 := workListNodes_step F a wl hinv r.1 r.2 hok
        have h2 := ih _ _ (workListOk_step F a wl hinv r.1 r.2 hok).1
        omega

theorem workListNodes_reverse (F : Function) (wl : List Nat) :
    workListNodes F wl.reverse = workListNodes F wl := by
  unfold workListNodes
  rw [List.map_reverse, List.sum_reverse]

/-- Above the weight of the allocations the bound on the rounds makes no difference
to what the loop returns or to its rounds. -/
theorem eliminateWorkList_bound (b : Nat) :
    ∀ (wl : List Nat) (F : Function) (n : Nat), allocaWeight F < b →
      ∀ b2, b ≤ b2 →
        eliminateWorkList b2 wl F n = eliminateWorkList b wl F n
          ∧ workListTrace b2 wl F = workListTrace b wl F := by
  induction b with
  | zero =>
    intro wl F n h
    omega
  | succ b ih =>
    intro wl F n h b2 hb2
    obtain ⟨c, rfl⟩ : ∃ c, b2 = c + 1 := ⟨b2 - 1, by omega⟩
    cases wl with
    | nil => simp [eliminateWorkList, workListTrace]
    | cons a wl =>
      simp only [eliminateWorkList, workListTrace]
      cases hok : eliminateStructAlloca F a with
      | error err => simp
      | ok r =>
        simp only
        have hw := allocaWeight_eliminate F a r hok
        obtain ⟨g1, g2⟩ := ih (pushEligible r.1 r.2 wl) r.1 (n + 1) (by omega) c (by omega)
        rw [g1, g2]
        simp

/-! ## SROA: well-typed field addresses through a decomposition -/

theorem wellTypedChain_succ (F : Function) (n v : Nat) (ty : Ty) :
    wellTypedChain F (n + 1) v ty = true ↔
      ∀ g ∈ allInsts F, g.opcode = Opcode.getElementPtr →
        g.getOperand 0 = some (Value.inst v) →
        ∃ ty2, ty.walk (g.operands.drop 2) = some ty2 ∧ wellTypedChain F n g.id ty2 = true := by
  simp only [wellTypedChain, List.all_eq_true]
  constructor
  · intro h g hg ho h0
    have := h g hg
    rw [if_pos ⟨ho, h0⟩] at this
    cases hw : ty.walk (g.operands.drop 2) with
    | none => rw [hw] at this; simp at this
    | some ty2 =>
      rw [hw] at this
      exact ⟨ty2, rfl, this⟩
  · intro h g hg
    by_cases hc : g.opcode = Opcode.getElementPtr ∧ g.getOperand 0 = some (Value.inst v)
    · rw [if_pos hc]
      obtain ⟨ty2, hw, ht⟩ := h g hg hc.1 hc.2
      rw [hw]
      exact ht
    · rw [if_neg hc]

theorem wellTypedChain_mono (F : Function) (n : Nat) :
    ∀ (v : Nat) (ty : Ty), wellTypedChain F n v ty = true →
      wellTypedChain F (n + 1) v ty = true := by
  induction n with
  | zero =>
    intro v ty h
    simp [wellTypedChain] at h
  | succ n ih =>
    intro v ty h
    rw [wellTypedChain_succ] at h ⊢
    intro g hg ho h0
    obtain ⟨ty2, hw, ht⟩ := h g hg ho h0
    exact ⟨ty2, hw, ih _ _ ht⟩

theorem walk_constants (path : List Value) :
    ∀ (ty ty2 : Ty), ty.walk path = some ty2 → ∀ o ∈ path, o.isConstant = true := by
  induction path with
  | nil =>
    intro _ _ _ o ho
    simp at ho
  | cons c rest ih =>
    intro ty ty2 h o ho
    cases ty with
    | struct fs =>
      cases c with
      | constantInt k =>
        simp only [Ty.walk] at h
        split at h
        · exact absurd h (by simp)
        · split at h
          · rename_i f _
            rcases List.mem_cons.1 ho with rfl | ho
            · rfl
            · exact ih f ty2 h o ho
          · exact absurd h (by simp)
      | _ => simp [Ty.walk] at h
    | array n e =>
      simp only [Ty.walk] at h
      split at h
      · rename_i hc
        rcases List.mem_cons.1 ho with rfl | ho
        · exact hc
        · exact ih e ty2 h o ho
      · exact absurd h (by simp)
    | vector e =>
      simp only [Ty.walk] at h
      split at h
      · rename_i hc
        rcases List.mem_cons.1 ho with rfl | ho
        · exact hc
        · exact ih e ty2 h o ho
      · exact absurd h (by simp)
    | int => simp [Ty.walk] at h
    | fp => simp [Ty.walk] at h
    | ptr => simp [Ty.walk] at h

/-- The first index of a well-typed path into a structure is an integer constant
that names a field. -/
theorem walk_struct (fs : List Ty) (c : Value) (rest : List Value) (ty2 : Ty)
    (h : (Ty.struct fs).walk (c :: rest) = some ty2) :
    ∃ k f, c = Value.constantInt (Int.ofNat k) ∧ fs[k]? = some f ∧ f.walk rest = some ty2 := by
  cases c with
  | constantInt z =>
    simp only [Ty.walk] at h
    split at h
    · exact absurd h (by simp)
    · rename_i hz
      split at h
      · rename_i f hf
        refine ⟨z.toNat, f, ?_, hf, h⟩
        have : Int.ofNat z.toNat = z := Int.toNat_of_nonneg (by omega)
        rw [this]
      · exact absurd h (by simp)
  | _ => simp [Ty.walk] at h

theorem drop_two_of_getOperand (I : Instruction) (c : Value)
    (h : I.getOperand 2 = some c) : I.operands.drop 2 = c :: I.operands.drop 3 := by
  unfold Instruction.getOperand at h
  match hops : I.operands with
  | [] => rw [hops] at h; simp at h
  | [_] => rw [hops] at h; simp at h
  | [_, _] => rw [hops] at h; simp at h
  | a :: b :: d :: r =>
    rw [hops] at h
    simp only [List.getElem?_cons_succ, List.getElem?_cons_zero, Option.some.injEq] at h
    simp [h]

theorem getOperand_two_of_drop (I : Instruction) (c : Value) (rest : List Value)
    (h : I.operands.drop 2 = c :: rest) : I.getOperand 2 = some c := by
  unfold Instruction.getOperand
  match hops : I.operands with
  | [] => rw [hops] at h; simp at h
  | [_] => rw [hops] at h; simp at h
  | a :: b :: r =>
    rw [hops] at h
    simp only [List.drop_succ_cons, List.drop_zero] at h
    rw [h]
    simp

/-- On a well-typed eligible allocation every field address selects a field by an
integer constant below the number of fields. -/
theorem hidx_of_typed (F : Function) (AI : Instruction) (fs : List Ty)
    (hel : canBeEliminatedStructAlloca F AI = true) (n : Nat)
    (ht : wellTypedChain F n AI.id (Ty.struct fs) = true) :
    ∀ U ∈ users F (Value.inst AI.id), U.opcode = Opcode.getElementPtr →
      ∃ k, k < fs.length ∧ U.getOperand 2 = some (Value.constantInt (Int.ofNat k)) := by
  intro U hUm hop
  cases n with
  | zero => simp [wellTypedChain] at ht
  | succ n =>
    rw [wellTypedChain_succ] at ht
    obtain ⟨h3, h0, _, _, _⟩ := gep_user_shape F AI U hel hUm hop
    obtain ⟨ty2, hw, _⟩ := ht U ((mem_users F _ U).1 hUm).1 hop h0
    have hne : U.operands.drop 2 ≠ [] := by
      intro h
      have := congrArg List.length h
      simp only [List.length_drop, List.length_nil] at this
      omega
    obtain ⟨c, rest, hcr⟩ := List.exists_cons_of_ne_nil hne
    rw [hcr] at hw
    obtain ⟨k, f, hc, hf, _⟩ := walk_struct fs c rest ty2 hw
    refine ⟨k, ?_, ?_⟩
    · exact (List.getElem?_eq_some.1 hf).1
    · rw [getOperand_two_of_drop U c rest hcr, hc]

/-- The field addresses based on a value that the decomposition does not touch are
well typed afterwards when they were before. -/
theorem wellTypedChain_transfer (F : Function) (hU : UniqueIds F) (AI : Instruction)
    (hel : canBeEliminatedStructAlloca F AI = true) (fs : List Ty)
    (G : Function) (subs : List Nat) (News : List Instruction) (env : List (Nat × Value))
    (hD : Decomposed F AI fs G subs News env) (n : Nat) :
    ∀ (v : Nat) (ty : Ty), v < freshId F →
      wellTypedChain F n v ty = true → wellTypedChain G n v ty = true := by
  induction n with
  | zero =>
    intro v ty _ h
    simp [wellTypedChain] at h
  | succ n ih =>
    intro v ty hv h
    rw [wellTypedChain_succ] at h ⊢
    intro g2 hg2 ho2 h02
    obtain ⟨W, hW, h1, h2, rfl, hget⟩ :=
      old_operand_origin F hU AI hel fs G subs News env hD v hv g2 hg2 0 h02
    rw [substOperands_opcode] at ho2
    obtain ⟨ty2, hw, ht⟩ := h W hW ho2 hget
    refine ⟨ty2, ?_, ?_⟩
    · rw [substOperands_drop_const env W 2 (walk_constants _ ty ty2 hw)]
      exact hw
    · rw [substOperands_id]
      exact ih W.id ty2 (id_lt_freshId F W hW) ht

/-- The field addresses based on a new allocation are well typed after the
decomposition when those based on the decomposed allocation were before. -/
theorem wellTypedChain_new (F : Function) (hU : UniqueIds F) (AI : Instruction)
    (hel : canBeEliminatedStructAlloca F AI = true) (fs : List Ty)
    (G : Function) (subs : List Nat) (News : List Instruction) (env : List (Nat × Value))
    (hD : Decomposed F AI fs G subs News env) (n : Nat)
    (ht : wellTypedChain F (n + 1) AI.id (Ty.struct fs) = true)
    (k : Nat) (A : Instruction) (hA : News[k]? = some A) (f : Ty) (hf : fs[k]? = some f) :
    wellTypedChain G (n + 1) A.id f = true := by
  have hD2 := hD
  obtain ⟨d1, d2, d3, d4, d5, d6, d7, d8, d9, d10, d11⟩ := hD
  have hAm : A ∈ News := List.getElem?_mem hA
  have hNAk : (News.map (fun A => A.id))[k]? = some A.id := by
    rw [List.getElem?_map, hA]
    rfl
  rw [wellTypedChain_succ] at ht ⊢
  -- a field address of the decomposed allocation that selects field k
  have hfield : ∀ U ∈ users F (Value.inst AI.id), U.opcode = Opcode.getElementPtr →
      U.getOperand 2 = some (Value.constantInt (Int.ofNat k)) →
      ∃ ty2, f.walk (U.operands.drop 3) = some ty2 ∧ wellTypedChain F n U.id ty2 = true := by
    intro U hUm hop hk
    obtain ⟨_, h0, _, _, _⟩ := gep_user_shape F AI U hel hUm hop
    obtain ⟨ty2, hw, hty2⟩ := ht U ((mem_users F _ U).1 hUm).1 hop h0
    rw [drop_two_of_getOperand U _ hk] at hw
    obtain ⟨k2, f2, hc, hf2, hw2⟩ := walk_struct fs _ _ ty2 hw
    have hkk : k2 = k := (Int.ofNat.inj (Value.constantInt.inj hc)).symm
    rw [hkk, hf] at hf2
    rw [Option.some.inj hf2]
    exact ⟨ty2, hw2, hty2⟩
  intro g2 hg2 ho2 h02
  rcases (d9 g2).1 hg2 with hN | ⟨W, hW, h1, h2, rfl⟩ | ⟨e, he, hnew⟩
  · have := mem_operands_of_getOperand g2 0 _ h02
    rw [(d2 g2 hN).1] at this
    simp at this
  · -- a user of a field address with the indices (0, k)
    obtain ⟨v, hv, hcase⟩ := substOperands_getOperand env W 0 _ h02
    rw [substOperands_opcode] at ho2
    rcases hcase with h | ⟨y, hvy, hl⟩
    · have := operand_lt_freshId F W hW A.id (h ▸ mem_operands_of_getOperand W 0 _ hv)
      have := (d2 A hAm).2.2
      omega
    · have hmem := mem_of_lookup env y _ hl
      have hkey := decomposed_key F AI fs G subs News env hD2 _ hmem
      obtain ⟨Uy, hg, hcase2⟩ := d5 _ hmem
      simp only at hg hcase2 hkey
      obtain ⟨hUm, hid⟩ := user_of_key F hU _ y Uy hkey hg
      rcases hcase2 with ⟨_, h⟩ | ⟨_, h⟩ | ⟨hop, k2, t2, hk2, ht2, ⟨h3, h⟩ | ⟨h3, n2, hn, h⟩⟩
      · exact Value.noConfusion h
      · exact Value.noConfusion h
      · have htt : t2 = A.id := (Value.inst.inj h).symm
        rw [htt] at ht2
        have hkk := nodup_getElem?_inj _ d3 k2 k A.id ht2 hNAk
        rw [hkk] at hk2
        obtain ⟨ty2, hw, hty2⟩ := hfield Uy hUm hop hk2
        have hd3 : Uy.operands.drop 3 = [] := by
          apply List.drop_eq_nil_of_le
          omega
        rw [hd3] at hw
        simp only [Ty.walk, Option.some.injEq] at hw
        subst hw
        cases n with
        | zero => simp [wellTypedChain] at hty2
        | succ m =>
          rw [wellTypedChain_succ] at hty2
          rw [hvy, ← hid] at hv
          obtain ⟨ty3, hw3, hty3⟩ := hty2 W hW ho2 hv
          refine ⟨ty3, ?_, ?_⟩
          · rw [substOperands_drop_const env W 2 (walk_constants _ _ ty3 hw3)]
            exact hw3
          · rw [substOperands_id]
            exact wellTypedChain_mono G m _ _
              (wellTypedChain_transfer F hU AI hel fs G subs News env hD2 m W.id ty3
                (id_lt_freshId F W hW) hty3)
      · have hnew : RewriteNew F (News.map (fun A => A.id)) (y, Value.inst A.id)
            (NewGEPIWithId n2 Uy t2) :=
          ⟨Uy, k2, t2, n2, hg, hop, h3, hk2, ht2, h, hn, rfl⟩
        have := d8 _ hmem _ hnew
        have hnn : n2 = A.id := (Value.inst.inj h).symm
        exfalso
        apply this
        rw [show (NewGEPIWithId n2 Uy t2).id = n2 from rfl, hnn]
        exact List.mem_map.2 ⟨A, hAm, rfl⟩
  · -- a new field address
    have hkey := decomposed_key F AI fs G subs News env hD2 e he
    obtain ⟨U, k2, t2, n2, hUm, hid, hop, h3, hk2, ht2, hv, hn, hNeq, hops, hc⟩ :=
      rewriteNew_shape F hU AI hel _ e hkey g2 hnew
    have htA : t2 = A.id := by
      unfold Instruction.getOperand at h02
      rw [hops] at h02
      simp only [List.getElem?_cons_zero, Option.some.injEq, Value.inst.injEq] at h02
      exact h02
    rw [htA] at ht2
    have hkk := nodup_getElem?_inj _ d3 k2 k A.id ht2 hNAk
    rw [hkk] at hk2
    obtain ⟨ty2, hw, hty2⟩ := hfield U hUm hop hk2
    refine ⟨ty2, ?_, ?_⟩
    · rw [hops]
      simp only [List.drop_succ_cons, List.drop_zero]
      exact hw
    · cases n with
      | zero => simp [wellTypedChain] at hty2
      | succ m =>
        rw [wellTypedChain_succ] at hty2 ⊢
        intro g3 hg3 ho3 h03
        obtain ⟨W, hW, h1, h2, rfl, hget⟩ :=
          new_operand_origin F hU AI hel fs G subs News env hD2 e he g2 hnew g3 hg3 0 h03
        rw [substOperands_opcode] at ho3
        rw [← hid] at hget
        obtain ⟨ty3, hw3, hty3⟩ := hty2 W hW ho3 hget
        refine ⟨ty3, ?_, ?_⟩
        · rw [substOperands_drop_const env W 2 (walk_constants _ _ ty3 hw3)]
          exact hw3
        · rw [substOperands_id]
          exact wellTypedChain_transfer F hU AI hel fs G subs News env hD2 m W.id ty3
            (id_lt_freshId F W hW) hty3

/-! ## SROA: the work-list loop on well-typed field addresses -/

/-- One round of the work-list loop keeps the field addresses of the allocations on
the work list well typed. -/
theorem workListTyped_step (F : Function) (a : Nat) (wl : List Nat)
    (hinv : WorkListOk F (a :: wl)) (hty : WorkListTyped F (a :: wl))
    (G : Function) (subs : List Nat)
    (hok : eliminateStructAlloca F a = Except.ok (G, subs)) :
    WorkListTyped G (pushEligible G subs wl) := by
  obtain ⟨hU, hnd, hall⟩ := hinv
  obtain ⟨A, hA, rfl, hel⟩ := hall a (List.mem_cons_self _ _)
  obtain ⟨fs, ho⟩ := struct_of_eligible F A hel
  obtain ⟨News, env, hD, _⟩ := eliminate_closed F hU A hA fs ho hel G subs hok
  have hD2 := hD
  obtain ⟨d1, d2, d3, d4, d5, d6, d7, d8, d9, d10, d11⟩ := hD
  have hnd2 := List.nodup_cons.1 hnd
  intro b hb B hB hid ty hBo
  rcases (mem_pushEligible G subs wl b).1 hb with h | ⟨h, _⟩
  · obtain ⟨B0, hB0, hid0, hBel⟩ := hall b (List.mem_cons_of_mem _ h)
    have hBA : B0.id ≠ A.id := by
      rw [hid0]
      intro hh
      exact hnd2.1 (hh ▸ h)
    obtain ⟨g1, _⟩ := eligible_preserved F hU A hel fs G subs News env hD2 B0 hB0 hBA hBel
    have hBB := eq_of_id_eq G d10 B _ hB g1 (by rw [substOperands_id, hid, hid0])
    rw [hBB, substOperands_opcode] at hBo
    obtain ⟨n, hn⟩ := hty b (List.mem_cons_of_mem _ h) B0 hB0 hid0 ty hBo
    exact ⟨n, wellTypedChain_transfer F hU A hel fs G subs News env hD2 n b ty
      (by rw [← hid0]; exact id_lt_freshId F B0 hB0) hn⟩
  · rw [d11] at h
    obtain ⟨S, hS, hSid⟩ := List.mem_map.1 h
    have hSm : S ∈ News := (List.mem_filter.1 hS).1
    have hBS := eq_of_id_eq G d10 B S hB ((d9 S).2 (Or.inl hSm)) (hid.trans hSid.symm)
    subst hBS
    obtain ⟨k, hk⟩ := List.getElem?_of_mem hSm
    have h1 : (News.map (fun A => A.opcode))[k]? = some (Opcode.alloca ty) := by
      rw [List.getElem?_map, hk]
      simp [hBo]
    rw [d1, List.getElem?_map] at h1
    obtain ⟨f, hf, hfe⟩ := Option.map_eq_some'.1 h1
    have hft : f = ty := by
      simp only [Opcode.alloca.injEq] at hfe
      exact hfe
    subst hft
    obtain ⟨n, hn⟩ := hty A.id (List.mem_cons_self _ _) A hA rfl _ ho
    cases n with
    | zero => simp [wellTypedChain] at hn
    | succ m =>
      rw [← hid]
      exact ⟨m + 1, wellTypedChain_new F hU A hel fs G subs News env hD2 m hn k B hk f hf⟩

/-- On well-typed field addresses a round of the work-list loop reaches no defensive
branch. -/
theorem eliminate_ok_of_typed (F : Function) (a : Nat) (wl : List Nat)
    (hinv : WorkListOk F (a :: wl)) (hty : WorkListTyped F (a :: wl)) :
    ∃ r, eliminateStructAlloca F a = Except.ok r := by
  obtain ⟨hU, hnd, hall⟩ := hinv
  obtain ⟨A, hA, rfl, hel⟩ := hall a (List.mem_cons_self _ _)
  obtain ⟨fs, ho⟩ := struct_of_eligible F A hel
  obtain ⟨n, hn⟩ := hty A.id (List.mem_cons_self _ _) A hA rfl _ ho
  obtain ⟨G, subs, hok⟩ := eliminate_ok F hU A hA fs ho hel (hidx_of_typed F A fs hel n hn)
  exact ⟨(G, subs), hok⟩

/-- On well-typed field addresses the work-list loop ends with a result. -/
theorem eliminateWorkList_ok (bound : Nat) :
    ∀ (wl : List Nat) (F : Function) (n : Nat), allocaWeight F < bound →
      WorkListOk F wl → WorkListTyped F wl →
      ∃ G m, eliminateWorkList bound wl F n = Except.ok (G, m) := by
  induction bound with
  | zero =>
    intro wl F n h
    omega
  | succ bound ih =>
    intro wl F n hb hinv hty
    cases wl with
    | nil => exact ⟨F, n, eliminateWorkList_nil _ _ _⟩
    | cons a wl =>
      obtain ⟨r, hok⟩ := eliminate_ok_of_typed F a wl hinv hty
      simp only [eliminateWorkList, hok]
      have hw := allocaWeight_eliminate F a r hok
      exact ih _ _ _ (by omega) (workListOk_step F a wl hinv r.1 r.2 hok).1
        (workListTyped_step F a wl hinv hty r.1 r.2 hok)

/-- In every round of the work-list loop on well-typed field addresses the field
addresses are well typed. -/
theorem workListTrace_typed (bound : Nat) :
    ∀ (wl : List Nat) (F : Function), WorkListOk F wl → WorkListTyped F wl →
      ∀ e ∈ workListTrace bound wl F, WorkListTyped e.2.2 (e.1 :: e.2.1) := by
  induction bound with
  | zero =>
    intro wl F _ _ e he
    cases wl <;> simp [workListTrace] at he
  | succ bound ih =>
    intro wl F hinv hty e he
    cases wl with
    | nil => simp [workListTrace] at he
    | cons a wl =>
      simp only [workListTrace, List.mem_cons] at he
      rcases he with rfl | he
      · exact hty
      · cases hok : eliminateStructAlloca F a with
        | error err =>
          rw [hok] at he
          simp at he
        | ok r =>
          rw [hok] at he
          exact ih _ _ (workListOk_step F a wl hinv r.1 r.2 hok).1
            (workListTyped_step F a wl hinv hty r.1 r.2 hok) e he

/-- When the work-list loop ends with a result every allocation on the work list has
had its round. -/
theorem workListTrace_all (bound : Nat) :
    ∀ (wl : List Nat) (F : Function) (n : Nat) (r : Function × Nat),
      eliminateWorkList bound wl F n = Except.ok r →
      ∀ x ∈ wl, ∃ e ∈ workListTrace bound wl F, e.1 = x := by
  induction bound with
  | zero =>
    intro wl F n r h x hx
    cases wl with
    | nil => simp at hx
    | cons a wl => simp [eliminateWorkList] at h
  | succ bound ih =>
    intro wl F n r h x hx
    cases wl with
    | nil => simp at hx
    | cons a wl =>
      simp only [eliminateWorkList] at h
      simp only [workListTrace]
      rcases List.mem_cons.1 hx with rfl | hx
      · exact ⟨_, List.mem_cons_self _ _, rfl⟩
      · cases hok : eliminateStructAlloca F a with
        | error err =>
          rw [hok] at h
          simp at h
        | ok s =>
          rw [hok] at h
          simp only at h ⊢
          obtain ⟨e, he, hid⟩ := ih _ _ _ _ h x
            ((mem_pushEligible s.1 s.2 wl x).2 (Or.inl hx))
          exact ⟨e, List.mem_cons_of_mem _ he, hid⟩

/-- A round of the work-list loop removes a structure allocation and pushes only new
allocations whose types are fields of the removed one. -/
theorem pushed_field (F : Function) (a : Nat) (wl : List Nat)
    (hinv : WorkListOk F (a :: wl)) (G : Function) (subs : List Nat)
    (hok : eliminateStructAlloca F a = Except.ok (G, subs)) :
    ∃ fs, (a, Ty.struct fs) ∈ allocaTypes F ∧ (∀ ty, (a, ty) ∉ allocaTypes G)
      ∧ ∀ s ∈ pushEligible G subs wl,
          s ∈ wl ∨ ∃ f ∈ fs, (s, f) ∈ allocaTypes G ∧ ∀ I ∈ allInsts F, I.id ≠ s := by
  have hstep := workListOk_step F a wl hinv G subs hok
  obtain ⟨hU, hnd, hall⟩ := hinv
  obtain ⟨A, hA, rfl, hel⟩ := hall a (List.mem_cons_self _ _)
  obtain ⟨fs, ho⟩ := struct_of_eligible F A hel
  obtain ⟨News, env, hD, _⟩ := eliminate_closed F hU A hA fs ho hel G subs hok
  obtain ⟨d1, d2, d3, d4, d5, d6, d7, d8, d9, d10, d11⟩ := hD
  refine ⟨fs, (mem_allocaTypes_iff F _).2 ⟨A, hA, rfl, ho⟩, ?_, ?_⟩
  · intro ty hm
    obtain ⟨I, hI, hid, _⟩ := (mem_allocaTypes_iff G _).1 hm
    exact hstep.2.1 I hI hid
  · intro s hs
    rcases (mem_pushEligible G subs wl s).1 hs with h | ⟨h, _⟩
    · exact Or.inl h
    · right
      rw [d11] at h
      obtain ⟨S, hS, hSid⟩ := List.mem_map.1 h
      have hSm : S ∈ News := (List.mem_filter.1 hS).1
      obtain ⟨k, hk⟩ := List.getElem?_of_mem hSm
      have h1 : (News.map (fun A => A.opcode))[k]? = some S.opcode := by
        rw [List.getElem?_map, hk]
        rfl
      rw [d1, List.getElem?_map] at h1
      obtain ⟨f, hf, hfe⟩ := Option.map_eq_some'.1 h1
      refine ⟨f, List.getElem?_mem hf, ?_, ?_⟩
      · exact (mem_allocaTypes_iff G _).2 ⟨S, (d9 S).2 (Or.inl hSm), hSid, hfe.symm⟩
      · intro I hI hid
        have := id_lt_freshId F I hI
        have := (d2 S hSm).2.2
        omega

theorem nested_typed : WorkListTyped nested [1] := by
  intro b hb B hB hid ty hBo
  rw [List.mem_singleton.1 hb] at hid ⊢
  have hBB : B = mkInst 1 (Opcode.alloca nestedTy) [] :=
    eq_of_id_eq nested (by decide) B _ hB (by decide) hid
  rw [hBB] at hBo
  have hty : nestedTy = ty := by
    simpa [mkInst] using hBo
  rw [← hty]
  exact ⟨2, by decide⟩

/-! ### SROA: the rounds of a run of the work-list loop that ends with a result -/

/-- In a run of the work-list loop that ends with a result, the decomposition of every
round has a result, and the rounds after it are the run of the loop on that result. -/
theorem workListTrace_split (bound : Nat) :
    ∀ (wl : List Nat) (F : Function) (n : Nat) (r : Function × Nat),
      eliminateWorkList bound wl F n = Except.ok r →
      ∀ pre e post, workListTrace bound wl F = pre ++ e :: post →
        ∃ b2 n2 G subs, eliminateStructAlloca e.2.2 e.1 = Except.ok (G, subs)
          ∧ eliminateWorkList b2 (pushEligible G subs e.2.1) G n2 = Except.ok r
          ∧ post = workListTrace b2 (pushEligible G subs e.2.1) G := by
  induction bound with
  | zero =>
    intro wl F n r _ pre e post ht
    cases wl <;> simp [workListTrace] at ht
  | succ bound ih =>
    intro wl F n r h pre e post ht
    cases wl with
    | nil => simp [workListTrace] at ht
    | cons a wl =>
      simp only [eliminateWorkList] at h
      simp only [workListTrace] at ht
      cases heq : eliminateStructAlloca F a with
      | error x =>
        rw [heq] at h
        simp at h
      | ok r1 =>
        rw [heq] at h ht
        simp only at h ht
        cases pre with
        | nil =>
          simp only [List.nil_append, List.cons.injEq] at ht
          obtain ⟨rfl, rfl⟩ := ht
          exact ⟨bound, n + 1, r1.1, r1.2, heq, h, rfl⟩
        | cons p pre =>
          simp only [List.cons_append, List.cons.injEq] at ht
          exact ih _ _ _ r h pre e post ht.2

/-- In a run of the work-list loop that ends with a result, every queued allocation
has its round, and at its round it is an instruction of the function. -/
theorem workListTrace_pops (bound : Nat) :
    ∀ (wl : List Nat) (F : Function) (n : Nat) (r : Function × Nat),
      eliminateWorkList bound wl F n = Except.ok r → WorkListOk F wl →
      ∀ A ∈ allInsts F, A.id ∈ wl →
        ∃ e ∈ workListTrace bound wl F, e.1 = A.id
          ∧ ∃ B ∈ allInsts e.2.2, B.id = A.id ∧ B.opcode = A.opcode := by
  induction bound with
  | zero =>
    intro wl F n r h _ A _ hA
    cases wl with
    | nil => simp at hA
    | cons a wl => simp [eliminateWorkList] at h
  | succ bound ih =>
    intro wl F n r h hinv A hAF hA
    cases wl with
    | nil => simp at hA
    | cons a wl =>
      simp only [eliminateWorkList] at h
      simp only [workListTrace]
      by_cases haA : a = A.id
      · exact ⟨(a, wl, F), List.mem_cons_self _ _, haA, A, hAF, rfl, rfl⟩
      · cases heq : eliminateStructAlloca F a with
        | error x =>
          rw [heq] at h
          simp at h
        | ok r1 =>
          rw [heq] at h
          simp only at h ⊢
          have hstep := workListOk_step F a wl hinv r1.1 r1.2 heq
          obtain ⟨hU, hnd, hall⟩ := hinv
          obtain ⟨AI, hAI, hAIid, hel⟩ := hall a (List.mem_cons_self _ _)
          obtain ⟨fs, ho⟩ := struct_of_eligible F AI hel
          have hAwl : A.id ∈ wl := by
            rcases List.mem_cons.1 hA with h1 | h1
            · exact absurd h1.symm haA
            · exact h1
          obtain ⟨B0, hB0, hB0id, hB0el⟩ := hall A.id hA
          have hBA : B0 = A := eq_of_id_eq F hU B0 A hB0 hAF hB0id
          rw [hBA] at hB0el
          have heq2 : eliminateStructAlloca F AI.id = Except.ok (r1.1, r1.2) := by
            rw [hAIid]
            exact heq
          obtain ⟨News, env, hD, _⟩ := eliminate_closed F hU AI hAI fs ho hel r1.1 r1.2 heq2
          have hne : A.id ≠ AI.id := by
            rw [hAIid]
            exact fun hx => haA hx.symm
          obtain ⟨h4, _⟩ :=
            eligible_preserved F hU AI hel fs r1.1 r1.2 News env hD A hAF hne hB0el
          have hpush : (substOperands env A).id ∈ pushEligible r1.1 r1.2 wl :=
            (mem_pushEligible r1.1 r1.2 wl _).2 (Or.inl hAwl)
          obtain ⟨e, he, he1, B, hB, hBid, hBop⟩ :=
            ih _ _ _ r h hstep.1 (substOperands env A) h4 hpush
          exact ⟨e, List.mem_cons_of_mem _ he, he1, B, hB, hBid, hBop⟩

/-- The new field address of a field address with further indices, as an entry of the
substitution of a decomposition. -/
theorem rewriteNew_of_user (F : Function) (hU : UniqueIds F) (AI : Instruction)
    (fs : List Ty) (G : Function) (subs : List Nat) (News : List Instruction)
    (env : List (Nat × Value)) (hD : Decomposed F AI fs G subs News env)
    (GEPI : Instruction) (hG : GEPI ∈ users F (Value.inst AI.id))
    (hop : GEPI.opcode = Opcode.getElementPtr) (h3 : 3 < GEPI.operands.length) :
    ∃ e ∈ env, ∃ k A n, GEPI.getOperand 2 = some (Value.constantInt (Int.ofNat k))
      ∧ News[k]? = some A ∧ freshId F ≤ n
      ∧ RewriteNew F (News.map (fun A => A.id)) e (NewGEPIWithId n GEPI A.id) := by
  obtain ⟨d1, d2, d3, d4, d5, d6, d7, d8, d9, d10, d11⟩ := hD
  have hGF : GEPI ∈ allInsts F := ((mem_users F _ GEPI).1 hG).1
  have hget := getInst_of_mem F hU GEPI hGF
  have hmem : GEPI.id ∈ env.map (fun e => e.1) := by
    rw [d4]
    exact List.mem_map.2 ⟨GEPI, hG, rfl⟩
  obtain ⟨e, he, he1⟩ := List.mem_map.1 hmem
  obtain ⟨U, hU1, hcase⟩ := d5 e he
  have he1b : e.1 = GEPI.id := he1
  rw [he1b, hget] at hU1
  have hUG : GEPI = U := Option.some.inj hU1
  rw [← hUG] at hcase
  rcases hcase with ⟨hc, _⟩ | ⟨hc, _⟩ | ⟨_, k, t, hk, ht, hlen⟩
  · rw [hop] at hc
    exact Opcode.noConfusion hc
  · rw [hop] at hc
    exact Opcode.noConfusion hc
  · rcases hlen with ⟨hl, _⟩ | ⟨_, n, hn, hv⟩
    · omega
    · rw [List.getElem?_map] at ht
      obtain ⟨A, hA, hAt⟩ := Option.map_eq_some'.1 ht
      refine ⟨e, he, k, A, n, hk, hA, hn, GEPI, k, t, n, ?_, hop, h3, hk, ?_, hv, hn, ?_⟩
      · rw [he1b]
        exact hget
      · rw [List.getElem?_map, hA]
        simp [hAt]
      · rw [hAt]

/-- The function a run of the work-list loop returns is the function it started on
when there was no round, and otherwise the result of the decomposition of the last
round, which leaves the work list empty. -/
theorem eliminateWorkList_final (bound : Nat) :
    ∀ (wl : List Nat) (F : Function) (n : Nat) (Gf : Function) (m : Nat),
      eliminateWorkList bound wl F n = Except.ok (Gf, m) →
      (workListTrace bound wl F = [] ∧ Gf = F)
        ∨ ∃ pre e subs, workListTrace bound wl F = pre ++ [e]
            ∧ eliminateStructAlloca e.2.2 e.1 = Except.ok (Gf, subs)
            ∧ pushEligible Gf subs e.2.1 = [] := by
  induction bound with
  | zero =>
    intro wl F n Gf m h
    cases wl with
    | nil =>
      simp only [eliminateWorkList, Except.ok.injEq, Prod.mk.injEq] at h
      exact Or.inl ⟨rfl, h.1.symm⟩
    | cons a wl => simp [eliminateWorkList] at h
  | succ bound ih =>
    intro wl F n Gf m h
    cases wl with
    | nil =>
      simp only [eliminateWorkList, Except.ok.injEq, Prod.mk.injEq] at h
      exact Or.inl ⟨rfl, h.1.symm⟩
    | cons a wl =>
      right
      simp only [eliminateWorkList] at h
      simp only [workListTrace]
      cases heq : eliminateStructAlloca F a with
      | error x =>
        rw [heq] at h
        simp at h
      | ok r1 =>
        rw [heq] at h
        simp only at h ⊢
        rcases ih _ _ _ Gf m h with ⟨ht, hG⟩ | ⟨pre, e, subs, ht, hok, hpush⟩
        · refine ⟨[], (a, wl, F), r1.2, by rw [ht]; rfl, ?_, ?_⟩
          · rw [hG]
            exact heq
          · rw [hG]
            cases hwl : pushEligible r1.1 r1.2 wl with
            | nil => rfl
            | cons x rest =>
              rw [hwl] at ht h
              cases bound with
              | zero => simp [eliminateWorkList] at h
              | succ b => simp [workListTrace] at ht
        · exact ⟨(a, wl, F) :: pre, e, subs, by rw [ht]; rfl, hok, hpush⟩

/-! ### SROA: allocations that a decomposition of another allocation leaves alone -/

/-- After a decomposition, a user of a value that was in the function before is an
instruction that was there before and used the value at the same position. -/
theorem users_origin (F : Function) (hU : UniqueIds F) (B : Instruction)
    (hel : canBeEliminatedStructAlloca F B = true) (fs : List Ty)
    (G : Function) (subs : List Nat) (News : List Instruction) (env : List (Nat × Value))
    (hD : Decomposed F B fs G subs News env) (x : Nat) (hx : x < freshId F)
    (I : Instruction) (hI : I ∈ users G (Value.inst x)) :
    ∃ i W, W ∈ allInsts F ∧ W.id ∉ (users F (Value.inst B.id)).map (fun U => U.id)
      ∧ W.id ≠ B.id ∧ I = substOperands env W ∧ W.getOperand i = some (Value.inst x)
      ∧ W ∈ users F (Value.inst x) := by
  obtain ⟨hIG, hmem⟩ := (mem_users G _ I).1 hI
  obtain ⟨i, hi⟩ := getOperand_of_mem I _ hmem
  obtain ⟨W, hW, h1, h2, h3, h4⟩ :=
    old_operand_origin F hU B hel fs G subs News env hD x hx I hIG i hi
  exact ⟨i, W, hW, h1, h2, h3, h4,
    (mem_users F _ W).2 ⟨hW, mem_operands_of_getOperand W i _ h4⟩⟩

/-- The decomposition of one allocation leaves the form of Scenario C of every other
allocation as it is. -/
theorem form_preserved (F : Function) (hU : UniqueIds F) (B : Instruction)
    (hel : canBeEliminatedStructAlloca F B = true) (fs : List Ty)
    (G : Function) (subs : List Nat) (News : List Instruction) (env : List (Nat × Value))
    (hD : Decomposed F B fs G subs News env) (AI : Instruction) (hAI : AI ∈ allInsts F)
    (haA : AI.isAlloca = true) (gs : List Ty) (hform : ScalarFieldForm F AI.id gs) :
    ScalarFieldForm G AI.id gs := by
  have ha : AI.id < freshId F := id_lt_freshId F AI hAI
  have hla : env.lookup AI.id = none :=
    decomposed_lookup_none F B fs G subs News env hD AI.id
      (not_user_of_alloca F hU B AI hel hAI haA)
  have hself : ∀ W ∈ users F (Value.inst AI.id), substOperands env W = W := by
    intro W hW
    obtain ⟨_, k, _, hops⟩ := hform.1 W hW
    apply substOperands_eq_self
    intro x hx
    rw [hops] at hx
    simp only [List.mem_cons, Value.inst.injEq, List.mem_singleton, List.not_mem_nil,
      or_false] at hx
    rcases hx with h | h | h
    · rw [h]
      exact hla
    · exact Value.noConfusion h
    · exact Value.noConfusion h
  have huser : ∀ I ∈ users G (Value.inst AI.id),
      I ∈ users F (Value.inst AI.id)
        ∧ I.id ∉ (users F (Value.inst B.id)).map (fun U => U.id) := by
    intro I hI
    obtain ⟨i, W, hW, h1, h2, h3, h4, h5⟩ :=
      users_origin F hU B hel fs G subs News env hD AI.id ha I hI
    rw [h3, hself W h5]
    exact ⟨h5, h1⟩
  refine ⟨fun I hI => hform.1 I (huser I hI).1, ?_⟩
  intro I hI J hJ
  obtain ⟨hIF, hIkey⟩ := huser I hI
  have hlI : env.lookup I.id = none :=
    decomposed_lookup_none F B fs G subs News env hD I.id hIkey
  have hIlt : I.id < freshId F := id_lt_freshId F I ((mem_users F _ I).1 hIF).1
  obtain ⟨j, X, hX, _, _, hJX, _, hXu⟩ :=
    users_origin F hU B hel fs G subs News env hD I.id hIlt J hJ
  rcases hform.2 I hIF X hXu with ⟨ho, hv, h0⟩ | ⟨ho, hv, h1, h0⟩
  · left
    rw [hJX]
    exact ⟨ho, hv, substOperands_getOperand_keep env X 0 _ h0
      (fun x hx => by rw [← Value.inst.inj hx]; exact hlI)⟩
  · right
    rw [hJX]
    refine ⟨ho, hv, substOperands_getOperand_keep env X 1 _ h1
      (fun x hx => by rw [← Value.inst.inj hx]; exact hlI), ?_⟩
    intro hJ0
    have hJG : substOperands env X ∈ allInsts G := by
      rw [← hJX]
      exact ((mem_users G _ J).1 hJ).1
    obtain ⟨X2, hX2, _, _, hJX2, hget⟩ :=
      old_operand_origin F hU B hel fs G subs News env hD I.id hIlt _ hJG 0 hJ0
    have hid : X2.id = X.id := by
      have := congrArg (fun K => K.id) hJX2
      simpa [substOperands_id] using this.symm
    rw [eq_of_id_eq F hU X2 X hX2 hX hid] at hget
    exact h0 hget

/-- An allocation that is promotable for the pass is not decomposition-eligible. -/
theorem not_eligible_of_promotable (F : Function) (A : Instruction)
    (hp : isAllocaPromotable F A = true) : canBeEliminatedStructAlloca F A = false := by
  cases hty : A.opcode with
  | alloca ty =>
    rw [isAllocaPromotable_eq F A ty hty, Bool.and_eq_true] at hp
    rw [canBeEliminatedStructAlloca_eq F A ty hty, Bool.and_eq_false_iff]
    left
    cases ty with
    | struct fs =>
      have := hp.1
      simp [Ty.isFPOrFPVectorTy, Ty.isIntOrIntVectorTy, Ty.isPtrOrPtrVectorTy,
        Ty.getScalarType] at this
    | _ => rfl
  | _ =>
    unfold isAllocaPromotable at hp
    rw [hty] at hp
    simp at hp

/-- The decomposition of an allocation leaves a promotable allocation without
operands in the function and promotable. -/
theorem promotable_preserved (F : Function) (hU : UniqueIds F) (B : Instruction)
    (hB : B ∈ allInsts F)
    (hel : canBeEliminatedStructAlloca F B = true) (fs : List Ty)
    (G : Function) (subs : List Nat) (News : List Instruction) (env : List (Nat × Value))
    (hD : Decomposed F B fs G subs News env) (A : Instruction) (hA : A ∈ allInsts F)
    (hno : A.operands = []) (hp : isAllocaPromotable F A = true)
    (hl : llvmIsAllocaPromotable F A = true) :
    A ∈ allInsts G ∧ isAllocaPromotable G A = true ∧ llvmIsAllocaPromotable G A = true := by
  have hA2 : A.id < freshId F := id_lt_freshId F A hA
  obtain ⟨ty, hty⟩ : ∃ ty, A.opcode = Opcode.alloca ty := by
    cases hty : A.opcode with
    | alloca ty => exact ⟨ty, rfl⟩
    | _ =>
      unfold isAllocaPromotable at hp
      rw [hty] at hp
      simp at hp
  have haA : A.isAlloca = true := by
    unfold Instruction.isAlloca
    rw [hty]
  have hkey : A.id ∉ (users F (Value.inst B.id)).map (fun U => U.id) :=
    not_user_of_alloca F hU B A hel hA haA
  have hla : env.lookup A.id = none :=
    decomposed_lookup_none F B fs G subs News env hD A.id hkey
  have hne : A.id ≠ B.id := by
    intro h
    have hAB := eq_of_id_eq F hU A B hA hB h
    rw [← hAB, not_eligible_of_promotable F A hp] at hel
    exact absurd hel (by decide)
  have hAG : A ∈ allInsts G :=
    (hD.2.2.2.2.2.2.2.2.1 A).2
      (Or.inr (Or.inl ⟨A, hA, hkey, hne, (substOperands_of_no_operands env A hno).symm⟩))
  rw [isAllocaPromotable_eq F A ty hty, Bool.and_eq_true, List.all_eq_true] at hp
  unfold llvmIsAllocaPromotable at hl
  rw [List.all_eq_true] at hl
  have hkeep : ∀ (X : Instruction) (i : Nat), X.getOperand i = some (Value.inst A.id) →
      (substOperands env X).getOperand i = some (Value.inst A.id) := by
    intro X i h
    exact substOperands_getOperand_keep env X i _ h
      (fun x hx => by rw [← Value.inst.inj hx]; exact hla)
  have hback : ∀ (X : Instruction), X ∈ allInsts F → substOperands env X ∈ allInsts G →
      ∀ i, (substOperands env X).getOperand i = some (Value.inst A.id) →
      X.getOperand i = some (Value.inst A.id) := by
    intro X hX hXG i h
    obtain ⟨X2, hX2, _, _, hJX2, hget⟩ :=
      old_operand_origin F hU B hel fs G subs News env hD A.id hA2 _ hXG i h
    have hid : X2.id = X.id := by
      have := congrArg (fun K => K.id) hJX2
      simpa [substOperands_id] using this.symm
    rw [eq_of_id_eq F hU X2 X hX2 hX hid] at hget
    exact hget
  refine ⟨hAG, ?_, ?_⟩
  · rw [isAllocaPromotable_eq G A ty hty, Bool.and_eq_true, List.all_eq_true]
    refine ⟨hp.1, ?_⟩
    intro I hI
    obtain ⟨i, W, hW, _, _, hIW, _, hWu⟩ :=
      users_origin F hU B hel fs G subs News env hD A.id hA2 I hI
    have h2 := hp.2 W hWu
    rw [hIW]
    show (match W.opcode with
      | Opcode.load => !((substOperands env W).isVolatile
          || decide ((substOperands env W).getOperand 0 ≠ some (Value.inst A.id)))
      | Opcode.store => !((substOperands env W).isVolatile
          || decide ((substOperands env W).getOperand 1 ≠ some (Value.inst A.id)))
      | _ => false) = true
    cases ho : W.opcode with
    | load =>
      rw [ho] at h2
      simp only [Bool.not_eq_true', Bool.or_eq_false_iff, decide_eq_false_iff_not, ne_eq,
        Decidable.not_not] at h2 ⊢
      exact ⟨h2.1, hkeep W 0 h2.2⟩
    | store =>
      rw [ho] at h2
      simp only [Bool.not_eq_true', Bool.or_eq_false_iff, decide_eq_false_iff_not, ne_eq,
        Decidable.not_not] at h2 ⊢
      exact ⟨h2.1, hkeep W 1 h2.2⟩
    | _ =>
      rw [ho] at h2
      simp at h2
  · unfold llvmIsAllocaPromotable
    rw [List.all_eq_true]
    intro I hI
    obtain ⟨i, W, hW, _, _, hIW, _, hWu⟩ :=
      users_origin F hU B hel fs G subs News env hD A.id hA2 I hI
    have hIG : substOperands env W ∈ allInsts G := by
      rw [← hIW]
      exact ((mem_users G _ I).1 hI).1
    have h2 := hl W hWu
    rw [hIW]
    show (match W.opcode with
      | Opcode.load => !(substOperands env W).isVolatile
          && decide ((substOperands env W).getOperand 0 = some (Value.inst A.id))
      | Opcode.store => !(substOperands env W).isVolatile
          && decide ((substOperands env W).getOperand 1 = some (Value.inst A.id))
          && decide ((substOperands env W).getOperand 0 ≠ some (Value.inst A.id))
      | _ => false) = true
    cases ho : W.opcode with
    | load =>
      rw [ho] at h2
      simp only [Bool.and_eq_true, Bool.not_eq_true', decide_eq_true_eq] at h2 ⊢
      exact ⟨h2.1, hkeep W 0 h2.2⟩
    | store =>
      rw [ho] at h2
      simp only [Bool.and_eq_true, Bool.not_eq_true', decide_eq_true_eq, ne_eq] at h2 ⊢
      exact ⟨⟨h2.1.1, hkeep W 1 h2.1.2⟩, fun h0 => h2.2 (hback W hW hIG 0 h0)⟩
    | _ =>
      rw [ho] at h2
      simp at h2

end SROA

namespace SROA

/-- The work-list loop leaves a promotable allocation without operands in the
function and promotable. -/
theorem eliminateWorkList_promotable (bound : Nat) :
    ∀ (wl : List Nat) (F : Function) (n : Nat) (Gf : Function) (m : Nat),
      WorkListOk F wl → eliminateWorkList bound wl F n = Except.ok (Gf, m) →
      ∀ A ∈ allInsts F, A.operands = [] → isAllocaPromotable F A = true →
        llvmIsAllocaPromotable F A = true →
        A ∈ allInsts Gf ∧ isAllocaPromotable Gf A = true
          ∧ llvmIsAllocaPromotable Gf A = true := by
  induction bound with
  | zero =>
    intro wl F n Gf m _ h A hA _ hp hl
    cases wl with
    | nil =>
      rw [eliminateWorkList_nil] at h
      simp only [Except.ok.injEq, Prod.mk.injEq] at h
      rw [← h.1]
      exact ⟨hA, hp, hl⟩
    | cons a wl => simp [eliminateWorkList] at h
  | succ bound ih =>
    intro wl F n Gf m hinv h A hA hno hp hl
    cases wl with
    | nil =>
      rw [eliminateWorkList_nil] at h
      simp only [Except.ok.injEq, Prod.mk.injEq] at h
      rw [← h.1]
      exact ⟨hA, hp, hl⟩
    | cons a wl =>
      simp only [eliminateWorkList] at h
      cases hok : eliminateStructAlloca F a with
      | error err =>
        rw [hok] at h
        simp at h
      | ok r =>
        rw [hok] at h
        simp only at h
        obtain ⟨G, subs⟩ := r
        obtain ⟨B, hB, rfl, hel⟩ := hinv.2.2 _ (List.mem_cons_self _ _)
        obtain ⟨fs, ho⟩ := struct_of_eligible F B hel
        obtain ⟨News, env, hD, _⟩ := eliminate_closed F hinv.1 B hB fs ho hel G subs hok
        obtain ⟨g1, g2, g3⟩ :=
          promotable_preserved F hinv.1 B hB hel fs G subs News env hD A hA hno hp hl
        exact ih _ _ _ _ _ (workListOk_step F B.id wl hinv G subs hok).1 h A g1 hno g2 g3

/-- An allocation of the form of Scenario C that is on the work list gets its round:
in the function of that round it still has the form, the decomposition removes it
and creates the allocations of its fields, and these are in the function the loop
returns and promotable there. -/
theorem eliminateWorkList_scalar (bound : Nat) :
    ∀ (wl : List Nat) (F : Function) (n : Nat) (Gf : Function) (m : Nat),
      WorkListOk F wl → eliminateWorkList bound wl F n = Except.ok (Gf, m) →
      ∀ (a : Nat) (fs : List Ty),
        (∃ AI ∈ allInsts F, AI.id = a ∧ AI.opcode = Opcode.alloca (Ty.struct fs)) →
        (∀ ty ∈ fs,
          (ty.isFPOrFPVectorTy || ty.isIntOrIntVectorTy || ty.isPtrOrPtrVectorTy) = true) →
        ScalarFieldForm F a fs → a ∈ wl →
        ∃ (pre post : List (Nat × List Nat × Function)) (wl2 : List Nat) (Fk G : Function)
            (News : List Instruction),
          workListTrace bound wl F = pre ++ (a, wl2, Fk) :: post
            ∧ ScalarFieldForm Fk a fs
            ∧ eliminateStructAlloca Fk a = Except.ok (G, [])
            ∧ (∀ I ∈ allInsts G, I.id ≠ a)
            ∧ News.map (fun A => A.opcode) = fs.map Opcode.alloca
            ∧ (News.map (fun A => A.id)).Nodup
            ∧ ∀ A ∈ News, (∀ I ∈ allInsts Fk, I.id ≠ A.id) ∧ A ∈ allInsts G
                ∧ A ∈ allInsts Gf ∧ isAllocaPromotable Gf A = true
                ∧ llvmIsAllocaPromotable Gf A = true := by
  induction bound with
  | zero =>
    intro wl F n Gf m _ h a fs _ _ _ ha
    cases wl with
    | nil => simp at ha
    | cons b wl => simp [eliminateWorkList] at h
  | succ bound ih =>
    intro wl F n Gf m hinv h a fs hAI hfs hform ha
    cases wl with
    | nil => simp at ha
    | cons b wl =>
      obtain ⟨AI, hAIm, hid, hop⟩ := hAI
      have hform2 := hform
      rw [← hid] at hform2
      have helA : canBeEliminatedStructAlloca F AI = true :=
        canBeEliminated_of_fields F AI fs hAIm hop hform2.1 hform2.2
      simp only [eliminateWorkList] at h
      simp only [workListTrace]
      by_cases hba : b = a
      · subst hba
        obtain ⟨G, News, h1, h2, h3, h4, h5⟩ :=
          eliminate_scalar_struct F AI fs hinv.1 hAIm hop hfs hform2.1 hform2.2
        rw [hid] at h1 h2
        rw [h1] at h
        simp only at h
        refine ⟨[], workListTrace bound (pushEligible G [] wl) G, wl, F, G, News, ?_, hform, h1,
          h2, h3, h4, ?_⟩
        · rw [h1]
          rfl
        · intro A hA
          obtain ⟨q1, q2, q3, q4, q5⟩ := h5 A hA
          obtain ⟨g1, g2, g3⟩ := eliminateWorkList_promotable bound _ _ _ _ _
            (workListOk_step F b wl hinv G [] h1).1 h A q3 q1 q4 q5
          exact ⟨q2, q3, g1, g2, g3⟩
      · cases hok : eliminateStructAlloca F b with
        | error err =>
          rw [hok] at h
          simp at h
        | ok r =>
          rw [hok] at h
          simp only at h ⊢
          obtain ⟨G1, subs⟩ := r
          obtain ⟨B, hB, hBid, hel⟩ := hinv.2.2 _ (List.mem_cons_self _ _)
          subst hBid
          obtain ⟨gs, ho⟩ := struct_of_eligible F B hel
          obtain ⟨News1, env, hD, _⟩ := eliminate_closed F hinv.1 B hB gs ho hel G1 subs hok
          have hne : AI.id ≠ B.id := by
            rw [hid]
            exact fun hh => hba hh.symm
          have hAI2 := (eligible_preserved F hinv.1 B hel gs G1 subs News1 env hD AI hAIm hne
            helA).1
          have haA : AI.isAlloca = true := canBeEliminatedStructAlloca_isAlloca F AI helA
          have hform3 := form_preserved F hinv.1 B hel gs G1 subs News1 env hD AI hAIm haA fs
            hform2
          rw [hid] at hform3
          have hmem : a ∈ pushEligible G1 subs wl := by
            rw [mem_pushEligible]
            left
            rcases List.mem_cons.1 ha with h0 | h0
            · exact absurd h0.symm hba
            · exact h0
          obtain ⟨pre, post, wl2, Fk, G, News, t1, t2⟩ :=
            ih _ _ _ _ _ (workListOk_step F B.id wl hinv G1 subs hok).1 h a fs
              ⟨substOperands env AI, hAI2, hid, hop⟩ hfs hform3 hmem
          exact ⟨(B.id, wl, F) :: pre, post, wl2, Fk, G, News, by rw [t1]; rfl, t2⟩

/-- The failures of the work-list loop are those of the field index of a field
address. -/
theorem eliminateWorkList_failures (bound : Nat) :
    ∀ (wl : List Nat) (F : Function) (n : Nat) (e : Failure),
      allocaWeight F < bound → WorkListOk F wl →
      eliminateWorkList bound wl F n = Except.error e →
      e = Failure.fieldNotConstantInt ∨ e = Failure.fieldOutOfRange := by
  induction bound with
  | zero =>
    intro wl F n e hb
    omega
  | succ bound ih =>
    intro wl F n e hb hinv h
    cases wl with
    | nil =>
      rw [eliminateWorkList_nil] at h
      simp at h
    | cons a wl =>
      simp only [eliminateWorkList] at h
      obtain ⟨B, hB, rfl, hel⟩ := hinv.2.2 _ (List.mem_cons_self _ _)
      cases hok : eliminateStructAlloca F B.id with
      | error err =>
        rw [hok] at h
        simp only [Except.error.injEq] at h
        rw [← h]
        exact eliminate_failures F hinv.1 B hB hel err hok
      | ok r =>
        rw [hok] at h
        simp only at h
        have hw := allocaWeight_eliminate F B.id r hok
        exact ih _ _ _ _ (by omega) (workListOk_step F B.id wl hinv r.1 r.2 hok).1 h

/-- The scan of the promotion phase returns when the primitive's own test accepts
what `isAllocaPromotable` accepts. -/
theorem promotableAllocas_ok (H : Host) (F : Function) (l : List Instruction)
    (h : ∀ I ∈ l, I.isAlloca = true → isAllocaPromotable F I = true →
      H.isAllocaPromotable F I = true) :
    ∃ V, promotableAllocas H F l = Except.ok V := by
  induction l with
  | nil => exact ⟨[], rfl⟩
  | cons J rest ih =>
    obtain ⟨V, hV⟩ := ih (fun I hI => h I (List.mem_cons_of_mem _ hI))
    simp only [promotableAllocas]
    by_cases hc : (J.isAlloca && isAllocaPromotable F J) = true
    · rw [if_pos hc]
      rw [Bool.and_eq_true] at hc
      rw [if_pos (h J (List.mem_cons_self _ _) hc.1 hc.2), hV]
      exact ⟨_, rfl⟩
    · rw [if_neg hc]
      exact ⟨V, hV⟩

/-- One iteration, from the results of its two phases. -/
theorem iteration_of_phases (H : Host) (F Gf : Function) (m : Nat) (V : List Nat)
    (h1 : replaceStructAllocsWithIndividualFields F = Except.ok (Gf, m))
    (h2 : promotableAllocas H Gf (allInsts Gf) = Except.ok V) :
    iteration H F
      = Except.ok (if V.length > 0 then H.PromoteMemToReg V Gf else Gf, m, V.length) := by
  unfold iteration promoteScalarAllocasToVirtualReg
  rw [h1]
  simp only [h2]
  by_cases hc : V.length > 0
  · simp [hc]
  · simp [hc]

end SROA

/-! ## SROA: the work-list loop (claims) -/

namespace SROA

/-- C31: the work-list loop of `replaceStructAllocsWithIndividualFields` terminates.
The model never uses up its bound on the rounds, and any larger bound gives the same
run; the rounds of the run (`replaceTrace`) are at most the structure-typed nodes in
the types of the allocations eligible at the start, and a returned count is the
number of rounds. In every round with a result the popped value is a structure
allocation that the result no longer has, every value on the new work list was queued
before or is a new allocation of the type of one of the fields, and the
structure-typed nodes on the work list go down by at least one. When the field
addresses of the queued allocations follow their types, the call returns a result. -/
theorem replaceStructAllocs_terminates (F : Function) (hU : UniqueIds F) :
    replaceStructAllocsWithIndividualFields F ≠ Except.error Failure.fuel
      ∧ (∀ bound, allocaWeight F + 1 ≤ bound →
          eliminateWorkList bound (eliminatableAllocas F).reverse F 0
              = replaceStructAllocsWithIndividualFields F
            ∧ workListTrace bound (eliminatableAllocas F).reverse F = replaceTrace F)
      ∧ (replaceTrace F).length ≤ workListNodes F (eliminatableAllocas F)
      ∧ (∀ G m, replaceStructAllocsWithIndividualFields F = Except.ok (G, m) →
          m = (replaceTrace F).length ∧ m ≤ workListNodes F (eliminatableAllocas F))
      ∧ (∀ e ∈ replaceTrace F, ∀ G subs,
          eliminateStructAlloca e.2.2 e.1 = Except.ok (G, subs) →
          ∃ fs, (e.1, Ty.struct fs) ∈ allocaTypes e.2.2
            ∧ (∀ ty, (e.1, ty) ∉ allocaTypes G)
            ∧ (∀ s ∈ pushEligible G subs e.2.1,
                s ∈ e.2.1 ∨ ∃ f ∈ fs, (s, f) ∈ allocaTypes G
                  ∧ ∀ I ∈ allInsts e.2.2, I.id ≠ s)
            ∧ workListNodes G (pushEligible G subs e.2.1) + 1
                ≤ workListNodes e.2.2 (e.1 :: e.2.1))
      ∧ (WorkListTyped F (eliminatableAllocas F).reverse →
          ∃ G m, replaceStructAllocsWithIndividualFields F = Except.ok (G, m)) := by
  have h0 := workListOk_initial F hU
  have hlen : (replaceTrace F).length ≤ workListNodes F (eliminatableAllocas F) := by
    have h := workListTrace_length (allocaWeight F + 1) _ F h0
    rw [workListNodes_reverse] at h
    exact h
  refine ⟨(replace_weight F).1, ?_, hlen, ?_, ?_, ?_⟩
  · intro bound hb
    exact eliminateWorkList_bound (allocaWeight F + 1) _ F 0 (by omega) bound hb
  · intro G m h
    have hm := eliminateWorkList_trace (allocaWeight F + 1) _ F 0 G m h
    have hm2 : m = (replaceTrace F).length := by
      unfold replaceTrace
      omega
    exact ⟨hm2, by omega⟩
  · intro e he G subs hok
    have hinv := workListTrace_ok (allocaWeight F + 1) _ F h0 e he
    obtain ⟨fs, h1, h2, h3⟩ := pushed_field e.2.2 e.1 e.2.1 hinv G subs hok
    exact ⟨fs, h1, h2, h3, workListNodes_step e.2.2 e.1 e.2.1 hinv G subs hok⟩
  · intro hty
    exact eliminateWorkList_ok (allocaWeight F + 1) _ F 0 (by omega) h0 hty

/-- C32: throughout one call of `replaceStructAllocsWithIndividualFields` on a
function with unique identities, at every round (`replaceTrace`) the instruction
identities are unique, the popped value and every queued value is an instruction of
the function that satisfies `canBeEliminatedStructAlloca`, and the work list has no
value twice. After the decomposition of the popped allocation no instruction of the
function has its identity and it is not on the work list, every other eligible
allocation is an instruction of the result with its identity and opcode and is still
eligible, and the same holds of the next work list. The returned count is the number
of rounds. -/
theorem replaceStructAllocs_worklist_eligible (F : Function) (hU : UniqueIds F) :
    (∀ e ∈ replaceTrace F,
        UniqueIds e.2.2 ∧ (e.1 :: e.2.1).Nodup
          ∧ ∀ b ∈ e.1 :: e.2.1, ∃ B ∈ allInsts e.2.2,
              B.id = b ∧ canBeEliminatedStructAlloca e.2.2 B = true)
      ∧ (∀ e ∈ replaceTrace F, ∀ G subs,
          eliminateStructAlloca e.2.2 e.1 = Except.ok (G, subs) →
          (∀ I ∈ allInsts G, I.id ≠ e.1)
            ∧ e.1 ∉ pushEligible G subs e.2.1
            ∧ (∀ B ∈ allInsts e.2.2, B.id ≠ e.1 →
                canBeEliminatedStructAlloca e.2.2 B = true →
                ∃ B2 ∈ allInsts G, B2.id = B.id ∧ B2.opcode = B.opcode
                  ∧ canBeEliminatedStructAlloca G B2 = true)
            ∧ UniqueIds G ∧ (pushEligible G subs e.2.1).Nodup
            ∧ ∀ b ∈ pushEligible G subs e.2.1, ∃ B ∈ allInsts G,
                B.id = b ∧ canBeEliminatedStructAlloca G B = true)
      ∧ (∀ G m, replaceStructAllocsWithIndividualFields F = Except.ok (G, m) →
          m = (replaceTrace F).length) := by
  have h0 := workListOk_initial F hU
  refine ⟨?_, ?_, ?_⟩
  · intro e he
    exact workListTrace_ok (allocaWeight F + 1) _ F h0 e he
  · intro e he G subs hok
    have hinv := workListTrace_ok (allocaWeight F + 1) _ F h0 e he
    obtain ⟨h1, h2, h3⟩ := workListOk_step e.2.2 e.1 e.2.1 hinv G subs hok
    refine ⟨h2, h3, ?_, h1⟩
    intro B hB hBA hBel
    obtain ⟨hUe, _, hall⟩ := hinv
    obtain ⟨A, hA, hAid, hel⟩ := hall e.1 (List.mem_cons_self _ _)
    obtain ⟨fs, ho⟩ := struct_of_eligible e.2.2 A hel
    rw [← hAid] at hok hBA
    obtain ⟨News, env, hD, _⟩ := eliminate_closed e.2.2 hUe A hA fs ho hel G subs hok
    obtain ⟨h4, h5⟩ := eligible_preserved e.2.2 hUe A hel fs G subs News env hD B hB hBA hBel
    exact ⟨substOperands env B, h4, rfl, rfl, h5⟩
  · intro G m h
    have hm := eliminateWorkList_trace (allocaWeight F + 1) _ F 0 G m h
    unfold replaceTrace
    omega

/-- C33, the part the code has and the input on which it fails: in a call of
`replaceStructAllocsWithIndividualFields` on a function with unique identities, at
every round (`replaceTrace`) whose decomposition of the popped structure allocation
`AI` has a result `G`: for every field address `GEPI` of `AI` with further indices,
selecting field `k`, the instruction that `replaceU1TypeGetElementPtr` creates
(`NewGEPIWithId` on the `k`-th new allocation, with an identity no instruction had)
is an instruction of `G` and `isU1TypeGetElementPtr` holds for it with the `k`-th
new allocation as base; a new allocation of a structure-typed field `k` that is
selected only by field addresses with further indices satisfies
`canBeEliminatedStructAlloca` in `G` and is pushed on the work list; and when the
call returns, it has its own round later in the same run, where it is an instruction
of the function and its decomposition has a result. The returned count is the number
of rounds and the returned function is the result of the last round. The call
returns when the field addresses follow the types of the queued allocations.
Eligibility does not give that: in `nestedUndef` the only user of the allocation is
a field address into the nested structure whose trailing index is a constant but
not an integer constant; the first round creates the allocation 4 of the
nested structure and the field address 5, which passes `isU1TypeGetElementPtr`;
the allocation 4 is eligible and is popped in the second round, where
`eliminateStructAlloca` stops at the assertion "the third argument of U1 Type must
be a ConstantInt": the call ends without the new allocation being decomposed. -/
theorem replaceStructAllocs_new_field_address_U1 :
    (∀ (F : Function), UniqueIds F →
      (∀ pre e post, replaceTrace F = pre ++ e :: post →
        ∀ AI ∈ allInsts e.2.2, AI.id = e.1 →
        ∀ fs, AI.opcode = Opcode.alloca (Ty.struct fs) →
        ∀ G subs, eliminateStructAlloca e.2.2 e.1 = Except.ok (G, subs) →
        ∃ News, (createFieldAllocas
              ((getFirstNonPHI (getEntryBlock e.2.2)).map (fun I => I.id)) fs e.2.2).2 = News
          ∧ (∀ GEPI ∈ users e.2.2 (Value.inst e.1),
              GEPI.opcode = Opcode.getElementPtr → 3 < GEPI.operands.length →
              ∃ k A N, GEPI.getOperand 2 = some (Value.constantInt (Int.ofNat k))
                ∧ News[k]? = some A ∧ N = NewGEPIWithId N.id GEPI A.id
                ∧ (∀ I ∈ allInsts e.2.2, I.id ≠ N.id) ∧ N ∈ allInsts G
                ∧ isU1TypeGetElementPtr G N (Value.inst A.id) = true)
          ∧ (∀ k gs, fs[k]? = some (Ty.struct gs) →
              (∀ U ∈ users e.2.2 (Value.inst e.1), U.opcode = Opcode.getElementPtr →
                U.getOperand 2 = some (Value.constantInt (Int.ofNat k)) →
                3 < U.operands.length) →
              ∃ A, News[k]? = some A ∧ A ∈ allInsts G
                ∧ A.opcode = Opcode.alloca (Ty.struct gs)
                ∧ canBeEliminatedStructAlloca G A = true
                ∧ A.id ∈ pushEligible G subs e.2.1
                ∧ ∀ Gf m, replaceStructAllocsWithIndividualFields F = Except.ok (Gf, m) →
                    ∃ e2 ∈ post, e2.1 = A.id
                      ∧ (∃ B ∈ allInsts e2.2.2, B.id = A.id ∧ B.opcode = A.opcode)
                      ∧ ∃ r, eliminateStructAlloca e2.2.2 e2.1 = Except.ok r))
      ∧ (∀ Gf m, replaceStructAllocsWithIndividualFields F = Except.ok (Gf, m) →
          m = (replaceTrace F).length
          ∧ ((replaceTrace F = [] ∧ Gf = F)
            ∨ ∃ pre e subs, replaceTrace F = pre ++ [e]
                ∧ eliminateStructAlloca e.2.2 e.1 = Except.ok (Gf, subs)
                ∧ pushEligible Gf subs e.2.1 = []))
      ∧ (WorkListTyped F (eliminatableAllocas F).reverse →
          ∃ Gf m, replaceStructAllocsWithIndividualFields F = Except.ok (Gf, m)))
    ∧ UniqueIds nestedUndef
    ∧ canBeEliminatedStructAlloca nestedUndef (mkInst 1 (Opcode.alloca nestedTy) []) = true
    ∧ (users nestedUndef (Value.inst 1)).map (fun U => U.operands.length) = [4]
    ∧ eliminateStructAlloca nestedUndef 1 = Except.ok (nestedUndefFirst, [4])
    ∧ isU1TypeGetElementPtr nestedUndefFirst
        (mkInst 5 Opcode.getElementPtr [Value.inst 4, Value.constantInt 0, Value.undef])
        (Value.inst 4) = true
    ∧ canBeEliminatedStructAlloca nestedUndefFirst (mkInst 4 (Opcode.alloca pairTy) []) = true
    ∧ replaceTrace nestedUndef = [(1, [], nestedUndef), (4, [], nestedUndefFirst)]
    ∧ eliminateStructAlloca nestedUndefFirst 4 = Except.error Failure.fieldNotConstantInt
    ∧ replaceStructAllocsWithIndividualFields nestedUndef
        = Except.error Failure.fieldNotConstantInt := by
  refine ⟨?_, by decide, by decide, by decide, by decide, by decide, by decide, by decide,
    by decide, by decide⟩
  intro F hU
  have h0 := workListOk_initial F hU
  refine ⟨?_, ?_, ?_⟩
  · intro pre e post hsplit AI hAI hid fs ho G subs hok0
    have he : e ∈ replaceTrace F := by
      rw [hsplit]
      exact List.mem_append_right _ (List.mem_cons_self _ _)
    have hinv := workListTrace_ok (allocaWeight F + 1) _ F h0 e he
    have hstep := workListOk_step e.2.2 e.1 e.2.1 hinv G subs hok0
    obtain ⟨hUe, _, hall⟩ := hinv
    obtain ⟨A0, hA0, hA0id, hel0⟩ := hall e.1 (List.mem_cons_self _ _)
    have hAA : A0 = AI := eq_of_id_eq e.2.2 hUe A0 AI hA0 hAI (by rw [hA0id, hid])
    rw [hAA] at hel0
    have hok := hok0
    rw [← hid] at hok ⊢
    obtain ⟨News, env, hD, hnews⟩ := eliminate_closed e.2.2 hUe AI hAI fs ho hel0 G subs hok
    refine ⟨News, hnews, ?_, ?_⟩
    · intro GEPI hG hop h3
      obtain ⟨x, hx, k, A, n, hk, hA, hn, hnew⟩ :=
        rewriteNew_of_user e.2.2 hUe AI fs G subs News env hD GEPI hG hop h3
      obtain ⟨hNG, _, t, ht0, hu1⟩ :=
        newGEP_isU1 e.2.2 hUe AI hAI hel0 fs G subs News env hD x hx _ hnew
      have ht : t = A.id := by
        have h1 : (NewGEPIWithId n GEPI A.id).getOperand 0 = some (Value.inst A.id) := by
          simp [NewGEPIWithId, Instruction.getOperand]
        rw [h1] at ht0
        simpa using ht0.symm
      rw [ht] at hu1
      refine ⟨k, A, NewGEPIWithId n GEPI A.id, hk, hA, rfl, ?_, hNG, hu1⟩
      intro I hI hIn
      have h1 := id_lt_freshId e.2.2 I hI
      have h2 : (NewGEPIWithId n GEPI A.id).id = n := rfl
      omega
    · intro k gs hgs honly
      obtain ⟨A, hA⟩ : ∃ A, News[k]? = some A := by
        have hlen : k < News.length := by
          have h1 : (News.map (fun A => A.opcode)).length = (fs.map Opcode.alloca).length := by
            rw [hD.1]
          simp only [List.length_map] at h1
          have h2 : k < fs.length := by
            by_contra hcon
            rw [List.getElem?_eq_none (by omega)] at hgs
            exact Option.noConfusion hgs
          omega
        exact ⟨News[k], List.getElem?_eq_getElem hlen⟩
      obtain ⟨hAG, hAop, hAel, hAsub⟩ :=
        newAlloca_eligible e.2.2 hUe AI hAI hel0 fs G subs News env hD k A hA gs hgs honly
      have hUG : UniqueIds G := hstep.1.1
      have hpush : A.id ∈ pushEligible G subs e.2.1 :=
        (mem_pushEligible G subs e.2.1 A.id).2
          (Or.inr ⟨hAsub, A, getInst_of_mem G hUG A hAG, hAel⟩)
      refine ⟨A, hA, hAG, hAop, hAel, hpush, ?_⟩
      intro Gf m hrun
      obtain ⟨b2, n2, G2, subs2, hok2, hrest, hpost⟩ :=
        workListTrace_split (allocaWeight F + 1) _ F 0 (Gf, m) hrun pre e post hsplit
      rw [hok0] at hok2
      have hGG : G = G2 := congrArg Prod.fst (Except.ok.inj hok2)
      have hss : subs = subs2 := congrArg Prod.snd (Except.ok.inj hok2)
      rw [← hGG, ← hss] at hrest hpost
      obtain ⟨e2, he2, he2id, hB⟩ :=
        workListTrace_pops b2 _ G n2 (Gf, m) hrest hstep.1 A hAG hpush
      rw [← hpost] at he2
      obtain ⟨pre2, post2, hsplit2⟩ := List.append_of_mem he2
      rw [hpost] at hsplit2
      obtain ⟨_, _, G3, subs3, hok3, _⟩ :=
        workListTrace_split b2 _ G n2 (Gf, m) hrest pre2 e2 post2 hsplit2
      exact ⟨e2, he2, he2id, hB, (G3, subs3), hok3⟩
  · intro Gf m hrun
    have hm := eliminateWorkList_trace (allocaWeight F + 1) _ F 0 Gf m hrun
    refine ⟨?_, eliminateWorkList_final (allocaWeight F + 1) _ F 0 Gf m hrun⟩
    unfold replaceTrace
    omega
  · intro hty
    exact eliminateWorkList_ok (allocaWeight F + 1) _ F 0 (by omega) h0 hty

end SROA

namespace SROA

theorem replaceStructAllocs_terminates_nested :
    UniqueIds nested
      ∧ (replaceTrace nested).map (fun e => (e.1, e.2.1)) = [(1, []), (13, [])]
      ∧ workListNodes nested (eliminatableAllocas nested) = 2
      ∧ replaceStructAllocsWithIndividualFields nested ≠ Except.error Failure.fuel
      ∧ (replaceTrace nested).length ≤ workListNodes nested (eliminatableAllocas nested)
      ∧ ∃ G m, replaceStructAllocsWithIndividualFields nested = Except.ok (G, m) := by
  obtain ⟨h1, _, h3, _, _, h6⟩ := replaceStructAllocs_terminates nested (by decide)
  refine ⟨by decide, by decide, by decide, h1, h3, h6 ?_⟩
  have h : (eliminatableAllocas nested).reverse = [1] := by decide
  rw [h]
  exact nested_typed

theorem replaceStructAllocs_worklist_eligible_nested :
    UniqueIds nested
      ∧ (replaceTrace nested).map (fun e => (e.1, e.2.1)) = [(1, []), (13, [])]
      ∧ (∀ e ∈ replaceTrace nested, ∃ B ∈ allInsts e.2.2,
          B.id = e.1 ∧ canBeEliminatedStructAlloca e.2.2 B = true)
      ∧ (∀ G m, replaceStructAllocsWithIndividualFields nested = Except.ok (G, m) →
          m = 2) := by
  obtain ⟨h1, _, h3⟩ := replaceStructAllocs_worklist_eligible nested (by decide)
  refine ⟨by decide, by decide, ?_, ?_⟩
  · intro e he
    exact (h1 e he).2.2 e.1 (List.mem_cons_self _ _)
  · intro G m h
    have hlen : (replaceTrace nested).length = 2 := by decide
    rw [← hlen]
    exact h3 G m h

/-- Scenario for C33: in `nested` the field addresses of the nested structure have
further indices; the allocation 13 of the nested structure is eligible after the
first round and is decomposed in the second round of the same call. -/
theorem replaceStructAllocs_new_field_address_U1_nested :
    UniqueIds nested
      ∧ WorkListTyped nested (eliminatableAllocas nested).reverse
      ∧ replaceTrace nested = [] ++ (1, [], nested) :: [(13, [], nestedDecomposed)]
      ∧ eliminateStructAlloca nested 1 = Except.ok (nestedDecomposed, [13])
      ∧ (∃ Gf m, replaceStructAllocsWithIndividualFields nested = Except.ok (Gf, m))
      ∧ ∃ (News : List Instruction) (A : Instruction),
          News[1]? = some A ∧ A.opcode = Opcode.alloca pairTy
          ∧ canBeEliminatedStructAlloca nestedDecomposed A = true
          ∧ ∃ e2 ∈ [(13, ([] : List Nat), nestedDecomposed)], e2.1 = A.id
            ∧ ∃ r, eliminateStructAlloca e2.2.2 e2.1 = Except.ok r := by
  have h : (eliminatableAllocas nested).reverse = [1] := by decide
  have hty : WorkListTyped nested (eliminatableAllocas nested).reverse := by
    rw [h]
    exact nested_typed
  have htr : replaceTrace nested = [] ++ (1, [], nested) :: [(13, [], nestedDecomposed)] := by
    decide
  have hok : eliminateStructAlloca nested 1 = Except.ok (nestedDecomposed, [13]) := by
    decide
  obtain ⟨hround, _, htyped⟩ := replaceStructAllocs_new_field_address_U1.1 nested (by decide)
  obtain ⟨Gf, m, hrun⟩ := htyped hty
  refine ⟨by decide, hty, htr, hok, ⟨Gf, m, hrun⟩, ?_⟩
  obtain ⟨News, _, _, hnew⟩ :=
    hround [] (1, [], nested) [(13, [], nestedDecomposed)] htr
      (mkInst 1 (Opcode.alloca nestedTy) []) (by decide) rfl [Ty.int, pairTy] rfl
      nestedDecomposed [13] hok
  obtain ⟨A, hA, _, hAop, hAel, _, hlater⟩ :=
    hnew 1 [Ty.int, Ty.int] rfl (by decide)
  obtain ⟨e2, he2, he2id, _, hr⟩ := hlater Gf m hrun
  exact ⟨News, A, hA, hAop, hAel, e2, he2, he2id, hr⟩

end SROA

namespace SROA

/-- C19, the part the code has and the input on which it fails: for every function
with distinct instruction identities and every structure allocation of it whose
fields are scalar-typed and whose only users are field addresses `(base, 0, k)`
that are used only as the address operand of non-volatile loads and stores, the
allocation satisfies `canBeEliminatedStructAlloca`. Whenever the decomposition phase
returns, the allocation had its round in that call, whatever other allocations had
theirs before and after it: the one decomposition ended with a result and no
sub-aggregate, removed the allocation and created one allocation per field, of the
field types in field order, with identities that were new; each of them is in the
function the phase returns and satisfies `isAllocaPromotable` and the primitive's
own test there, so the scan of the promotion phase of the same iteration collects
all of them, and the iteration hands the primitive what the scan collected; the
scan returns when the primitive's own test accepts what `isAllocaPromotable`
accepts. The decomposition phase fails only at the field index of a field address,
and it returns when the field addresses of the eligible allocations are well typed.
On `oneLevelUndef`, where the allocation of Scenario C stands next to an eligible
allocation with a field address whose field index is a constant but not an integer
constant, the decomposition phase stops at the assertion "the third argument of U1
Type must be a ConstantInt" in the round of the other allocation: the allocation of
the claim, eligible and of the claim's form, is not decomposed and the promotion
phase is not reached. -/
theorem decompose_then_promote :
    (∀ (F : Function) (AI : Instruction) (fs : List Ty),
      UniqueIds F → AI ∈ allInsts F → AI.opcode = Opcode.alloca (Ty.struct fs) →
      (∀ ty ∈ fs,
        (ty.isFPOrFPVectorTy || ty.isIntOrIntVectorTy || ty.isPtrOrPtrVectorTy) = true) →
      (∀ U ∈ users F (Value.inst AI.id), U.opcode = Opcode.getElementPtr
        ∧ ∃ k, k < fs.length ∧ U.operands
            = [Value.inst AI.id, Value.constantInt 0, Value.constantInt (Int.ofNat k)]) →
      (∀ U ∈ users F (Value.inst AI.id), ∀ W ∈ users F (Value.inst U.id),
        (W.opcode = Opcode.load ∧ W.isVolatile = false
          ∧ W.getOperand 0 = some (Value.inst U.id))
        ∨ (W.opcode = Opcode.store ∧ W.isVolatile = false
          ∧ W.getOperand 1 = some (Value.inst U.id)
          ∧ W.getOperand 0 ≠ some (Value.inst U.id))) →
      canBeEliminatedStructAlloca F AI = true
        ∧ (∀ Gf m, replaceStructAllocsWithIndividualFields F = Except.ok (Gf, m) →
          ∃ (pre post : List (Nat × List Nat × Function)) (wl : List Nat)
              (Fk G : Function) (News : List Instruction),
            replaceTrace F = pre ++ (AI.id, wl, Fk) :: post
              ∧ eliminateStructAlloca Fk AI.id = Except.ok (G, [])
              ∧ (∀ I ∈ allInsts G, I.id ≠ AI.id)
              ∧ News.map (fun A => A.opcode) = fs.map Opcode.alloca
              ∧ (News.map (fun A => A.id)).Nodup
              ∧ (∀ A ∈ News, (∀ I ∈ allInsts Fk, I.id ≠ A.id) ∧ A ∈ allInsts G
                  ∧ A ∈ allInsts Gf ∧ isAllocaPromotable Gf A = true
                  ∧ llvmIsAllocaPromotable Gf A = true)
              ∧ (∀ H V, promotableAllocas H Gf (allInsts Gf) = Except.ok V →
                  (∀ A ∈ News, A.id ∈ V)
                  ∧ iteration H F = Except.ok
                      (if V.length > 0 then H.PromoteMemToReg V Gf else Gf, m, V.length))
              ∧ (∀ H : Host, (∀ I ∈ allInsts Gf, I.isAlloca = true →
                    isAllocaPromotable Gf I = true → H.isAllocaPromotable Gf I = true) →
                  ∃ V, promotableAllocas H Gf (allInsts Gf) = Except.ok V))
        ∧ (∀ e, replaceStructAllocsWithIndividualFields F = Except.error e →
            e = Failure.fieldNotConstantInt ∨ e = Failure.fieldOutOfRange)
        ∧ (WorkListTyped F (eliminatableAllocas F).reverse →
            ∃ Gf m, replaceStructAllocsWithIndividualFields F = Except.ok (Gf, m)))
      ∧ UniqueIds oneLevelUndef
      ∧ mkInst 1 (Opcode.alloca pairTy) [] ∈ allInsts oneLevelUndef
      ∧ (∀ U ∈ users oneLevelUndef (Value.inst 1), U.opcode = Opcode.getElementPtr
        ∧ ∃ k, k < 2 ∧ U.operands
            = [Value.inst 1, Value.constantInt 0, Value.constantInt (Int.ofNat k)])
      ∧ (∀ U ∈ users oneLevelUndef (Value.inst 1),
          ∀ W ∈ users oneLevelUndef (Value.inst U.id),
        (W.opcode = Opcode.load ∧ W.isVolatile = false
          ∧ W.getOperand 0 = some (Value.inst U.id))
        ∨ (W.opcode = Opcode.store ∧ W.isVolatile = false
          ∧ W.getOperand 1 = some (Value.inst U.id)
          ∧ W.getOperand 0 ≠ some (Value.inst U.id)))
      ∧ canBeEliminatedStructAlloca oneLevelUndef (mkInst 1 (Opcode.alloca pairTy) []) = true
      ∧ eliminatableAllocas oneLevelUndef = [1, 9]
      ∧ replaceTrace oneLevelUndef = [(9, [1], oneLevelUndef)]
      ∧ eliminateStructAlloca oneLevelUndef 9 = Except.error Failure.fieldNotConstantInt
      ∧ replaceStructAllocsWithIndividualFields oneLevelUndef
          = Except.error Failure.fieldNotConstantInt
      ∧ (∀ H, iteration H oneLevelUndef = Except.error Failure.fieldNotConstantInt) := by
  refine ⟨?_, by decide, by decide, by decide, by decide, by decide, by decide, by decide,
    by decide, by decide, fun H => rfl⟩
  intro F AI fs hU hAI ho hfs husers hgu
  have hel := canBeEliminated_of_fields F AI fs hAI ho husers hgu
  have hinv := workListOk_initial F hU
  refine ⟨hel, ?_, ?_, ?_⟩
  · intro Gf m hr
    have hmem : AI.id ∈ (eliminatableAllocas F).reverse := by
      rw [List.mem_reverse]
      unfold eliminatableAllocas
      refine List.mem_map.2 ⟨AI, List.mem_filter.2 ⟨hAI, ?_⟩, rfl⟩
      rw [Bool.and_eq_true]
      exact ⟨canBeEliminatedStructAlloca_isAlloca F AI hel, hel⟩
    obtain ⟨pre, post, wl2, Fk, G, News, t1, _, t3, t4, t5, t6, t7⟩ :=
      eliminateWorkList_scalar _ _ _ _ _ _ hinv hr AI.id fs ⟨AI, hAI, rfl, ho⟩ hfs
        ⟨husers, hgu⟩ hmem
    refine ⟨pre, post, wl2, Fk, G, News, t1, t3, t4, t5, t6, t7, ?_, ?_⟩
    · intro H V hV
      refine ⟨?_, iteration_of_phases H F Gf m V hr hV⟩
      intro A hA
      have hop : A.opcode ∈ News.map (fun A => A.opcode) := List.mem_map.2 ⟨A, hA, rfl⟩
      rw [t5] at hop
      obtain ⟨ty, _, he⟩ := List.mem_map.1 hop
      exact promotableAllocas_complete H Gf _ V hV A (t7 A hA).2.2.1
        (by unfold Instruction.isAlloca; rw [← he]) (t7 A hA).2.2.2.1
    · intro H hH
      exact promotableAllocas_ok H Gf _ hH
  · intro e he
    exact eliminateWorkList_failures _ _ _ _ _ (by omega) hinv he
  · intro hty
    exact eliminateWorkList_ok _ _ _ _ (by omega) hinv hty

/-- The general part of C19 on `twoStructs`, a function with two eligible
structures of the claim's form: the decomposition phase decomposes `b` first and
then `s`, the four new allocations are promotable in the function it returns, and
the promotion phase of the same iteration is handed all four. -/
theorem decompose_then_promote_twoStructs :
    UniqueIds twoStructs ∧ eliminatableAllocas twoStructs = [1, 9]
      ∧ replaceTrace twoStructs = [(9, [1], twoStructs), (1, [], twoStructsFirst)]
      ∧ replaceStructAllocsWithIndividualFields twoStructs
          = Except.ok (twoStructsDecomposed, 2)
      ∧ promotableAllocas straightLineHost twoStructsDecomposed
          (allInsts twoStructsDecomposed) = Except.ok [15, 16, 13, 14]
      ∧ iteration straightLineHost twoStructs = Except.ok (twoStructsPromoted, 2, 4)
      ∧ canBeEliminatedStructAlloca twoStructs (mkInst 1 (Opcode.alloca pairTy) []) = true
      ∧ (∀ Gf m, replaceStructAllocsWithIndividualFields twoStructs = Except.ok (Gf, m) →
          ∃ (pre post : List (Nat × List Nat × Function)) (wl : List Nat)
              (Fk G : Function) (News : List Instruction),
            replaceTrace twoStructs
                = pre ++ ((mkInst 1 (Opcode.alloca pairTy) []).id, wl, Fk) :: post
              ∧ eliminateStructAlloca Fk (mkInst 1 (Opcode.alloca pairTy) []).id
                  = Except.ok (G, [])
              ∧ (∀ I ∈ allInsts G, I.id ≠ (mkInst 1 (Opcode.alloca pairTy) []).id)
              ∧ News.map (fun A => A.opcode) = [Ty.int, Ty.int].map Opcode.alloca
              ∧ (News.map (fun A => A.id)).Nodup
              ∧ (∀ A ∈ News, (∀ I ∈ allInsts Fk, I.id ≠ A.id) ∧ A ∈ allInsts G
                  ∧ A ∈ allInsts Gf ∧ isAllocaPromotable Gf A = true
                  ∧ llvmIsAllocaPromotable Gf A = true)
              ∧ (∀ H V, promotableAllocas H Gf (allInsts Gf) = Except.ok V →
                  (∀ A ∈ News, A.id ∈ V)
                  ∧ iteration H twoStructs = Except.ok
                      (if V.length > 0 then H.PromoteMemToReg V Gf else Gf, m, V.length))
              ∧ (∀ H : Host, (∀ I ∈ allInsts Gf, I.isAlloca = true →
                    isAllocaPromotable Gf I = true → H.isAllocaPromotable Gf I = true) →
                  ∃ V, promotableAllocas H Gf (allInsts Gf) = Except.ok V))
      ∧ (∀ e, replaceStructAllocsWithIndividualFields twoStructs = Except.error e →
          e = Failure.fieldNotConstantInt ∨ e = Failure.fieldOutOfRange)
      ∧ (WorkListTyped twoStructs (eliminatableAllocas twoStructs).reverse →
          ∃ Gf m, replaceStructAllocsWithIndividualFields twoStructs = Except.ok (Gf, m)) :=
  ⟨by decide, by decide, by decide, by decide, by decide, by decide,
    decompose_then_promote.1 twoStructs (mkInst 1 (Opcode.alloca pairTy) []) [Ty.int, Ty.int]
      (by decide) (by decide) rfl (by decide) (by decide) (by decide)⟩

end SROA

end LLVMAdditions
